import Mathlib

/-!
# tg2md: sanitizer and converter

A shallow embedding of `internal/sanitizer/sanitizer.go` and
`internal/converter/converter.go`, followed by the properties proved about
them.

Go strings are modelled as Lean `String`s, that is as sequences of Unicode
scalar values: this is exactly the set of valid UTF-8 strings, which is what
`encoding/json` hands to the converter.  A Go `rune` obtained by ranging over
such a string is a Lean `Char`.
-/

namespace Tg2md

/-! ## Package `sanitizer` -/

/-- The entries of the Go map literal `invisibleChars`, in source order. -/
def invisibleCharsEntries : List (Char × Bool) :=
  [ (Char.ofNat 0x200B, true),  -- Zero Width Space
    (Char.ofNat 0x200C, true),  -- Zero Width Non-Joiner
    (Char.ofNat 0x200D, true),  -- Zero Width Joiner
    (Char.ofNat 0xFEFF, true),  -- Zero Width No-Break Space (BOM)
    (Char.ofNat 0x2060, true),  -- Word Joiner
    (Char.ofNat 0x2061, true),  -- Function Application
    (Char.ofNat 0x2062, true),  -- Invisible Times
    (Char.ofNat 0x2063, true),  -- Invisible Separator
    (Char.ofNat 0x2064, true) , -- Invisible Plus
    (Char.ofNat 0x180E, true) ] -- Mongolian Vowel Separator

/-- The map lookup `invisibleChars[r]`: a key that is absent yields the zero
value `false`. -/
def invisibleChars (r : Char) : Bool :=
  match invisibleCharsEntries.lookup r with
  | some b => b
  | none => false

/-- The character class of `specialCharsPattern`, the regular expression
`[/\\:*?"<>|]`. -/
def specialCharsClass : List Char :=
  [ Char.ofNat 47,   -- /
    Char.ofNat 92,   -- backslash
    Char.ofNat 58,   -- :
    Char.ofNat 42,   -- *
    Char.ofNat 63,   -- ?
    Char.ofNat 34,   -- double quote
    Char.ofNat 60,   -- <
    Char.ofNat 62,   -- >
    Char.ofNat 124 ] -- |

/-- Whether `specialCharsPattern` matches the one-rune string `r`. -/
def specialCharsPattern (r : Char) : Bool :=
  specialCharsClass.contains r

/-- Go `strings.ReplaceAll(s, old, new)` for a pattern `old` that is a single
rune: every occurrence of the rune is replaced by `new`. -/
def stringsReplaceAll (s : List Char) (old : Char) (new : List Char) : List Char :=
  s.flatMap fun r => if r = old then new else [r]

/-- Go `Regexp.ReplaceAllString(s, repl)` for a pattern that is a single
character class and a replacement without `$`: every matching rune is
replaced by `repl`. -/
def classReplaceAllString (cls : Char → Bool) (s : List Char) (repl : List Char) : List Char :=
  s.flatMap fun r => if cls r then repl else [r]

/-- Go `multipleUnderscoresPattern.ReplaceAllString(s, repl)` for the pattern
`_+`: the scan goes left to right, a match starts at an underscore and, `+`
being greedy, takes the whole run; `inMatch` tells that the rune before was
part of the match being consumed. -/
def multipleUnderscoresReplaceAll (repl : List Char) : Bool → List Char → List Char
  | _, [] => []
  | inMatch, r :: rest =>
    if r = Char.ofNat 95 then
      if inMatch then multipleUnderscoresReplaceAll repl true rest
      else repl ++ multipleUnderscoresReplaceAll repl true rest
    else r :: multipleUnderscoresReplaceAll repl false rest

/-- Go `strings.Trim(s, cutset)` for a cutset of one ASCII rune: the runes
equal to it are dropped from the right end, then from the left end
(`trimLeftByte(trimRightByte(s, c), c)`). -/
def stringsTrim (s : List Char) (cut : Char) : List Char :=
  (s.rdropWhile fun r => r = cut).dropWhile fun r => r = cut

/-- Go `SanitizeText`: ranges over the runes of `text` and writes to the
builder those that are not in `invisibleChars`. -/
def SanitizeText (text : String) : String :=
  text.data.foldl
    (fun builder r => if !invisibleChars r then builder.push r else builder) ""

/-- Go `SanitizeName`: spaces to underscore, special characters to
underscore, runs of underscores collapsed, underscores trimmed at both
ends. -/
def SanitizeName (name : String) : String :=
  let result := stringsReplaceAll name.data (Char.ofNat 32) [Char.ofNat 95]
  let result := classReplaceAllString specialCharsPattern result [Char.ofNat 95]
  let result := multipleUnderscoresReplaceAll [Char.ofNat 95] false result
  let result := stringsTrim result (Char.ofNat 95)
  ⟨result⟩

/-- One entry of a Go `unicode.RangeTable`: the code points `lo`,
`lo + stride`, ... up to `hi`. -/
structure Range16 where
  lo : Nat
  hi : Nat
  stride : Nat

/-- Go `unicode.White_Space`, field `R16`. -/
def whiteSpaceR16 : List Range16 :=
  [ ⟨0x0009, 0x000d, 1⟩,
    ⟨0x0020, 0x0085, 101⟩,
    ⟨0x00a0, 0x1680, 5600⟩,
    ⟨0x2000, 0x200a, 1⟩,
    ⟨0x2028, 0x2029, 1⟩,
    ⟨0x202f, 0x205f, 48⟩,
    ⟨0x3000, 0x3000, 1⟩ ]

/-- Go `unicode.White_Space`, field `LatinOffset`. -/
def whiteSpaceLatinOffset : Nat := 2

/-- Go `unicode.is16` on a short table (the linear search): the ranges are
visited in order, a rune below the range is not in the table, a rune inside
the bounds is in the table when it falls on the stride. -/
def is16 : List Range16 → Nat → Bool
  | [], _ => false
  | range :: ranges, r =>
    if r < range.lo then false
    else if r ≤ range.hi then range.stride == 1 || (r - range.lo) % range.stride == 0
    else is16 ranges r

/-- Go `unicode.IsSpace`: the Latin-1 runes are special-cased, the others are
looked up in `White_Space` past its Latin-1 entries (the table has no 32-bit
ranges). -/
def unicodeIsSpace (r : Char) : Bool :=
  if r.toNat ≤ 0xFF then
    [0x09, 0x0A, 0x0B, 0x0C, 0x0D, 0x20, 0x85, 0xA0].contains r.toNat
  else
    match whiteSpaceR16.getLast? with
    | some last =>
      if whiteSpaceLatinOffset < whiteSpaceR16.length && r.toNat ≤ last.hi then
        is16 (whiteSpaceR16.drop whiteSpaceLatinOffset) r.toNat
      else false
    | none => false

/-- The loop of Go `ContainsOnlyWhitespace` over the runes still to visit:
it returns `false` at the first rune that is neither a space nor
invisible. -/
def containsOnlyWhitespaceLoop : List Char → Bool
  | [] => true
  | r :: rest =>
    if !unicodeIsSpace r && !invisibleChars r then false
    else containsOnlyWhitespaceLoop rest

/-- Go `ContainsOnlyWhitespace`. -/
def ContainsOnlyWhitespace (text : String) : Bool :=
  containsOnlyWhitespaceLoop text.data

/-! ## Package `parser`: the decoded records -/

/-- Go `parser.TextEntity`; the field `Type` is named `Kind` here, `Type`
being reserved in Lean. -/
structure TextEntity where
  Kind : String
  Text : String
  Href : String
  deriving DecidableEq

/-- Go `parser.TextContent`. -/
structure TextContent where
  Plain : String
  Entities : List TextEntity
  deriving DecidableEq

/-- Go `parser.Message`; the field `Type` is named `Kind`.  `ID` is an
`int64`, on which the converter does no arithmetic; `ReplyToMsgID` is a
pointer, `none` standing for `nil`. -/
structure Message where
  ID : Int
  Kind : String
  Date : String
  DateUnixtime : String
  From : String
  FromID : String
  ReplyToMsgID : Option Int
  ForwardedFrom : String
  Text : TextContent
  TextEntities : List TextEntity
  Action : String
  Actor : String
  deriving DecidableEq

/-- The errors `StreamMessages` sends: `read token`, the error of
`skipArray`, and `decode message`. -/
inductive StreamError where
  | readToken
  | skipArray
  | decodeMessage
  deriving DecidableEq

/-- Go `parser.ParseResult`: a message or an error. -/
inductive ParseResult where
  | message (msg : Message)
  | error (err : StreamError)
  deriving DecidableEq

/-! ## Go `encoding/json`: values and `Unmarshal`

`encoding/json` belongs to the Go standard library.  The bytes handed to
`json.Unmarshal` and to the `UnmarshalJSON` methods are modelled by the JSON
value they spell; a number keeps its literal. -/

/-- A JSON value. -/
inductive JSON where
  | null
  | bool (b : Bool)
  | num (literal : String)
  | str (s : String)
  | arr (elems : List JSON)
  | obj (members : List (String × JSON))

/-- Go `json.Unmarshal(data, &x)` for `x` a `string` holding `old`: a JSON
string is stored, `null` leaves the value as it is and is no error, anything
else is an error (`none`). -/
def unmarshalString (data : JSON) (old : String) : Option String :=
  match data with
  | JSON.str s => some s
  | JSON.null => some old
  | _ => none

/-- Go `json.foldName` on one rune: ASCII letters go to upper case, the two
runes that fold to an ASCII letter (U+017F and U+212A) go to `S` and `K`; the
other runes fold to runes that are not ASCII. -/
def foldRune (c : Char) : Char :=
  if 97 ≤ c.toNat ∧ c.toNat ≤ 122 then Char.ofNat (c.toNat - 32)
  else if c.toNat = 0x17F then 'S'
  else if c.toNat = 0x212A then 'K'
  else c

/-- Go `json.foldName`: the key under which a field name is looked up when no
field has exactly that name. -/
def foldName (key : String) : List Char :=
  key.data.map foldRune

/-- One member of a JSON object decoded into a `textEntityAlias`: the field
whose name matches the key, exactly or by `foldName`, receives a string, is
left alone by `null`, and anything else is a type error, which is recorded
(`failed`) while decoding goes on; a key that matches no field is skipped. -/
def unmarshalEntityMember (acc : TextEntity × Bool) (member : String × JSON) :
    TextEntity × Bool :=
  let store (set : String → TextEntity) : TextEntity × Bool :=
    match member.2 with
    | JSON.str s => (set s, acc.2)
    | JSON.null => acc
    | _ => (acc.1, true)
  if foldName member.1 = foldName "type" then store fun s => { acc.1 with Kind := s }
  else if foldName member.1 = foldName "text" then store fun s => { acc.1 with Text := s }
  else if foldName member.1 = foldName "href" then store fun s => { acc.1 with Href := s }
  else acc

/-- Go `json.Unmarshal(data, &obj)` for `obj` a `textEntityAlias` holding
`old`: an object is decoded member by member and fails when a type error was
recorded, `null` is no error, anything else is an error. -/
def unmarshalEntityAlias (data : JSON) (old : TextEntity) : Option TextEntity :=
  match data with
  | JSON.obj members =>
    let r := members.foldl unmarshalEntityMember (old, false)
    if r.2 then none else some r.1
  | JSON.null => some old
  | _ => none

/-- Go `(*TextEntity).UnmarshalJSON`: a plain string first, then an object;
the result is the new value of the receiver. -/
def TextEntity.UnmarshalJSON (data : JSON) : Option TextEntity :=
  -- Try plain string first (Telegram puts plain strings directly in array)
  match unmarshalString data "" with
  | some plain => some { Kind := "plain", Text := plain, Href := "" }
  | none =>
    -- Try object
    match unmarshalEntityAlias data { Kind := "", Text := "", Href := "" } with
    | some obj => some obj
    | none => none

/-- The elements of an array decoded one after the other by
`TextEntity.UnmarshalJSON`; the first error ends the decoding. -/
def unmarshalEntityElems : List JSON → Option (List TextEntity)
  | [] => some []
  | elem :: rest =>
    match TextEntity.UnmarshalJSON elem with
    | some te =>
      match unmarshalEntityElems rest with
      | some tes => some (te :: tes)
      | none => none
    | none => none

/-- Go `json.Unmarshal(data, &entities)` for `entities` a `[]TextEntity`
holding `old`: an array is decoded element by element, `null` is no error,
anything else is an error. -/
def unmarshalEntities (data : JSON) (old : List TextEntity) : Option (List TextEntity) :=
  match data with
  | JSON.arr elems => unmarshalEntityElems elems
  | JSON.null => some old
  | _ => none

/-- Go `(*TextContent).UnmarshalJSON`: a string first, then an array of
entities; `none` is the error `text field is neither string nor array`. -/
def TextContent.UnmarshalJSON (data : JSON) : Option TextContent :=
  -- Try string first
  match unmarshalString data "" with
  | some plain => some { Plain := plain, Entities := [] }
  | none =>
    -- Try array of entities
    match unmarshalEntities data [] with
    | some entities => some { Plain := "", Entities := entities }
    | none => none

/-- In the words of the specification, a span object: an object with unique
keys in which the members named `type`, `text` and `href` (no key matches
these names by case folding only) hold strings. -/
def isSpanObject (members : List (String × JSON)) : Prop :=
  (members.map Prod.fst).Nodup ∧
  ∀ m ∈ members, ∀ name ∈ ["type", "text", "href"],
    foldName m.1 = foldName name → m.1 = name ∧ ∃ s, m.2 = JSON.str s

/-- The string a span object holds under `name`, the empty string when it
has no such member. -/
def spanField (members : List (String × JSON)) (name : String) : String :=
  match members.lookup name with
  | some (JSON.str s) => s
  | _ => ""

/-- In the words of the specification, the span an array element stands
for: a bare string `s` stands for the plain span with text `s`, a span object
for the span made of its `type`, `text` and `href` fields. -/
def standsFor (elem : JSON) (span : TextEntity) : Prop :=
  (∃ s, elem = JSON.str s ∧ span = { Kind := "plain", Text := s, Href := "" }) ∨
  (∃ members, elem = JSON.obj members ∧ isSpanObject members ∧
    span = { Kind := spanField members "type", Text := spanField members "text",
             Href := spanField members "href" })

/-! ### `Marshal` of the text field -/

/-- Go `json.Marshal(s)` for a string `s`: the JSON string that spells it
(the escapes the encoder writes are those the decoder undoes).  The call
returns no error. -/
def marshalString (s : String) : JSON :=
  JSON.str s

/-- Go `json.Marshal` of a `TextEntity`, which has no `MarshalJSON` of its
own: an object with the members `type` and `text`, and `href` unless it is
empty (`omitempty`). -/
def marshalEntity (e : TextEntity) : JSON :=
  JSON.obj ([("type", marshalString e.Kind), ("text", marshalString e.Text)] ++
    if e.Href = "" then [] else [("href", marshalString e.Href)])

/-- Go `json.Marshal(entities)` for a slice `entities` that is not empty: the
array of its elements. -/
def marshalEntities (entities : List TextEntity) : JSON :=
  JSON.arr (entities.map marshalEntity)

/-- Go `TextContent.MarshalJSON`; neither call of `json.Marshal` returns an
error. -/
def TextContent.MarshalJSON (tc : TextContent) : JSON :=
  if tc.Entities.length > 0 then marshalEntities tc.Entities
  else marshalString tc.Plain

/-! ## Go `encoding/json`: the `Decoder`

The input of a `json.Decoder` is modelled by its lexical elements: the
punctuation, the literals (a string literal by the string it denotes) and
`invalid` for bytes that start no JSON element. -/

/-- A lexical element of a JSON text. -/
inductive Lexeme where
  | beginArray
  | endArray
  | beginObject
  | endObject
  | colon
  | comma
  | string (s : String)
  | number (literal : String)
  | litTrue
  | litFalse
  | litNull
  | invalid
  deriving DecidableEq

mutual
/-- The lexical elements of the text of a JSON value. -/
def JSON.lexemes : JSON → List Lexeme
  | JSON.null => [Lexeme.litNull]
  | JSON.bool true => [Lexeme.litTrue]
  | JSON.bool false => [Lexeme.litFalse]
  | JSON.num literal => [Lexeme.number literal]
  | JSON.str s => [Lexeme.string s]
  | JSON.arr elems => Lexeme.beginArray :: (elemsLexemes true elems ++ [Lexeme.endArray])
  | JSON.obj members => Lexeme.beginObject :: (membersLexemes true members ++ [Lexeme.endObject])
/-- The elements of an array, a comma in front of each but the first. -/
def elemsLexemes (first : Bool) : List JSON → List Lexeme
  | [] => []
  | v :: rest =>
    (if first then [] else [Lexeme.comma]) ++ (JSON.lexemes v ++ elemsLexemes false rest)
/-- The members of an object, a comma in front of each but the first. -/
def membersLexemes (first : Bool) : List (String × JSON) → List Lexeme
  | [] => []
  | (k, v) :: rest =>
    (if first then [] else [Lexeme.comma]) ++
      (Lexeme.string k :: Lexeme.colon :: (JSON.lexemes v ++ membersLexemes false rest))
end

mutual
/-- The scanner of `Decoder.readValue`: one complete JSON value is read from
the front of the input; `none` is a syntax error or the end of the input.
`fuel` bounds the nesting and the number of elements. -/
def scanValue : Nat → List Lexeme → Option (JSON × List Lexeme)
  | 0, _ => none
  | _ + 1, [] => none
  | fuel + 1, lx :: rest =>
    match lx with
    | Lexeme.litNull => some (JSON.null, rest)
    | Lexeme.litTrue => some (JSON.bool true, rest)
    | Lexeme.litFalse => some (JSON.bool false, rest)
    | Lexeme.number literal => some (JSON.num literal, rest)
    | Lexeme.string s => some (JSON.str s, rest)
    | Lexeme.beginArray =>
      match rest with
      | Lexeme.endArray :: rest => some (JSON.arr [], rest)
      | _ =>
        match scanElems fuel rest with
        | some (elems, rest) => some (JSON.arr elems, rest)
        | none => none
    | Lexeme.beginObject =>
      match rest with
      | Lexeme.endObject :: rest => some (JSON.obj [], rest)
      | _ =>
        match scanMembers fuel rest with
        | some (members, rest) => some (JSON.obj members, rest)
        | none => none
    | _ => none
/-- The elements of an array up to its closing bracket. -/
def scanElems : Nat → List Lexeme → Option (List JSON × List Lexeme)
  | 0, _ => none
  | fuel + 1, input =>
    match scanValue fuel input with
    | some (v, Lexeme.comma :: rest) =>
      match scanElems fuel rest with
      | some (elems, rest) => some (v :: elems, rest)
      | none => none
    | some (v, Lexeme.endArray :: rest) => some ([v], rest)
    | _ => none
/-- The members of an object up to its closing brace. -/
def scanMembers : Nat → List Lexeme → Option (List (String × JSON) × List Lexeme)
  | 0, _ => none
  | fuel + 1, input =>
    match input with
    | Lexeme.string k :: Lexeme.colon :: input =>
      match scanValue fuel input with
      | some (v, Lexeme.comma :: rest) =>
        match scanMembers fuel rest with
        | some (members, rest) => some ((k, v) :: members, rest)
        | none => none
      | some (v, Lexeme.endObject :: rest) => some ([(k, v)], rest)
      | _ => none
    | _ => none
end

/-- Go `json.Token`: a delimiter, a string, a number, a boolean or `nil`. -/
inductive Token where
  | delim (c : Char)
  | string (s : String)
  | number (literal : String)
  | bool (b : Bool)
  | null
  deriving DecidableEq

/-- The states of the token API of the decoder (`tokenTopValue` ...). -/
inductive TokenState where
  | tokenTopValue
  | tokenArrayStart
  | tokenArrayValue
  | tokenArrayComma
  | tokenObjectStart
  | tokenObjectKey
  | tokenObjectColon
  | tokenObjectValue
  | tokenObjectComma
  deriving DecidableEq

/-- Go `json.Decoder`: the input not yet read, the state of the token API
with its stack, and whether a sticky error `dec.err` is set. -/
structure Decoder where
  input : List Lexeme
  tokenState : TokenState
  tokenStack : List TokenState
  err : Bool
  deriving DecidableEq

/-- Go `json.NewDecoder`. -/
def NewDecoder (input : List Lexeme) : Decoder :=
  { input := input, tokenState := TokenState.tokenTopValue, tokenStack := [], err := false }

/-- Go `(*Decoder).tokenValueAllowed`. -/
def tokenValueAllowed (s : TokenState) : Bool :=
  match s with
  | TokenState.tokenTopValue => true
  | TokenState.tokenArrayStart => true
  | TokenState.tokenArrayValue => true
  | TokenState.tokenObjectValue => true
  | _ => false

/-- Go `(*Decoder).tokenValueEnd`: the state after a value has been read. -/
def tokenValueEnd (s : TokenState) : TokenState :=
  match s with
  | TokenState.tokenArrayStart => TokenState.tokenArrayComma
  | TokenState.tokenArrayValue => TokenState.tokenArrayComma
  | TokenState.tokenObjectValue => TokenState.tokenObjectComma
  | s => s

/-- The number written by a sequence of decimal digits. -/
def digitsValue (digits : List Char) : Nat :=
  digits.foldl (fun acc c => acc * 10 + (c.toNat - 48)) 0

/-- The least magnitude that `strconv.ParseFloat(s, 64)` rounds to an
infinity, `2 ^ 1024 - 2 ^ 970`: half a unit in the last place above the
largest `float64`. -/
def float64Limit : Nat :=
  179769313486231580793728971405303415079934132710037826936173778980444968292764750946649017977587207096330286416692887910946555547851940402630657488671505820681908902000708383676273854845817711531764475730270069855571366959622842914819860834936475292719074168444365510704342711559699508093042880177904174497792

/-- Go `strconv.ParseFloat(literal, 64)` on the literal of a JSON number
(sign, integer part, fraction, exponent) returns no range error: the
magnitude of the number is below `float64Limit`.  With it `convertNumber`
succeeds when `Decode` stores a number in an `any`. -/
def float64InRange (literal : String) : Bool :=
  let s := literal.toList
  let s := match s with
    | '-' :: rest => rest
    | _ => s
  let intPart := s.takeWhile Char.isDigit
  let s := s.dropWhile Char.isDigit
  let fracPart := match s with
    | '.' :: rest => rest.takeWhile Char.isDigit
    | _ => []
  let s := match s with
    | '.' :: rest => rest.dropWhile Char.isDigit
    | _ => s
  let exponent : Int := match s with
    | _ :: '-' :: digits => - (digitsValue digits : Int)
    | _ :: '+' :: digits => (digitsValue digits : Int)
    | _ :: digits => (digitsValue digits : Int)
    | [] => 0
  let mantissa := digitsValue (intPart ++ fracPart)
  let e : Int := exponent - (fracPart.length : Int)
  if 0 ≤ e then decide (mantissa * 10 ^ e.toNat < float64Limit)
  else decide (mantissa < float64Limit * 10 ^ (-e).toNat)

/-- What `Token` returns: a token, `io.EOF`, or another error. -/
inductive TokenResult where
  | token (t : Token)
  | eof
  | error
  deriving DecidableEq

/-- Go `(*Decoder).Token` on the input `input` of a decoder whose other
fields are `s`, `stack` and `err`: the loop over the next element, in which
a colon or a comma in its place is passed over. -/
def tokenLoop : List Lexeme → TokenState → List TokenState → Bool → TokenResult × Decoder
  | [], s, stack, err => (TokenResult.eof, ⟨[], s, stack, err⟩)
  | lx :: rest, s, stack, err =>
    let here : Decoder := ⟨lx :: rest, s, stack, err⟩
    match lx with
    | Lexeme.beginArray =>
      if !tokenValueAllowed s then (TokenResult.error, here)
      else (TokenResult.token (Token.delim '['),
        ⟨rest, TokenState.tokenArrayStart, s :: stack, err⟩)
    | Lexeme.endArray =>
      if s ≠ TokenState.tokenArrayStart ∧ s ≠ TokenState.tokenArrayComma then
        (TokenResult.error, here)
      else
        match stack with
        | top :: stack => (TokenResult.token (Token.delim ']'), ⟨rest, tokenValueEnd top, stack, err⟩)
        | [] => (TokenResult.error, here)
    | Lexeme.beginObject =>
      if !tokenValueAllowed s then (TokenResult.error, here)
      else (TokenResult.token (Token.delim '{'),
        ⟨rest, TokenState.tokenObjectStart, s :: stack, err⟩)
    | Lexeme.endObject =>
      if s ≠ TokenState.tokenObjectStart ∧ s ≠ TokenState.tokenObjectComma then
        (TokenResult.error, here)
      else
        match stack with
        | top :: stack => (TokenResult.token (Token.delim '}'), ⟨rest, tokenValueEnd top, stack, err⟩)
        | [] => (TokenResult.error, here)
    | Lexeme.colon =>
      if s ≠ TokenState.tokenObjectColon then (TokenResult.error, here)
      else tokenLoop rest TokenState.tokenObjectValue stack err
    | Lexeme.comma =>
      if s = TokenState.tokenArrayComma then tokenLoop rest TokenState.tokenArrayValue stack err
      else if s = TokenState.tokenObjectComma then
        tokenLoop rest TokenState.tokenObjectKey stack err
      else (TokenResult.error, here)
    | Lexeme.string str =>
      if s = TokenState.tokenObjectStart ∨ s = TokenState.tokenObjectKey then
        -- an object key, read by `Decode` into a string
        if err then (TokenResult.error, here)
        else (TokenResult.token (Token.string str), ⟨rest, TokenState.tokenObjectColon, stack, err⟩)
      else if !tokenValueAllowed s then (TokenResult.error, here)
      else if err then (TokenResult.error, here)
      else (TokenResult.token (Token.string str), ⟨rest, tokenValueEnd s, stack, err⟩)
    | Lexeme.number literal =>
      if !tokenValueAllowed s then (TokenResult.error, here)
      else if err then (TokenResult.error, here)
      else if float64InRange literal then
        (TokenResult.token (Token.number literal), ⟨rest, tokenValueEnd s, stack, err⟩)
      else
        -- `Decode(&x)` reads the number and returns the error of `convertNumber`
        (TokenResult.error, ⟨rest, tokenValueEnd s, stack, err⟩)
    | Lexeme.litTrue =>
      if !tokenValueAllowed s then (TokenResult.error, here)
      else if err then (TokenResult.error, here)
      else (TokenResult.token (Token.bool true), ⟨rest, tokenValueEnd s, stack, err⟩)
    | Lexeme.litFalse =>
      if !tokenValueAllowed s then (TokenResult.error, here)
      else if err then (TokenResult.error, here)
      else (TokenResult.token (Token.bool false), ⟨rest, tokenValueEnd s, stack, err⟩)
    | Lexeme.litNull =>
      if !tokenValueAllowed s then (TokenResult.error, here)
      else if err then (TokenResult.error, here)
      else (TokenResult.token Token.null, ⟨rest, tokenValueEnd s, stack, err⟩)
    | Lexeme.invalid =>
      if !tokenValueAllowed s then (TokenResult.error, here)
      else (TokenResult.error, ⟨lx :: rest, s, stack, true⟩)

/-- Go `(*Decoder).Token`. -/
def Decoder.Token (dec : Decoder) : TokenResult × Decoder :=
  tokenLoop dec.input dec.tokenState dec.tokenStack dec.err

/-- Go `(*Decoder).Decode(&v)` up to the point where the value read is
stored in `v`: the sticky error, the comma or the colon in front of the
value, the value itself, and the state of the token API afterwards.  `none`
is an error.

After the value of an object member has been read as a token, what comes
next in the text is the name of the next member.  `Decode` then reads the
comma and that name as a string value: `jsontext.Decoder.ReadValue`, on which
`Decode` rests, takes an object name like any other value, and the decoder
is afterwards where `Token` leaves it after a key.  (The implementation of
`encoding/json` before it returned the error `not at beginning of value` in
that state.)  At the closing brace, or at anything but a comma and a string,
`Decode` returns a syntax error, which it keeps. -/
def Decoder.readValue (dec : Decoder) : Option JSON × Decoder :=
  if dec.err then (none, dec)
  else if dec.tokenState = TokenState.tokenObjectComma then
    match dec.input with
    | Lexeme.comma :: Lexeme.string k :: rest =>
      (some (JSON.str k), { dec with input := rest, tokenState := TokenState.tokenObjectColon })
    | _ => (none, { dec with err := true })
  else
    let prepared : Option Decoder :=
      match dec.tokenState with
      | TokenState.tokenArrayComma =>
        match dec.input with
        | Lexeme.comma :: rest =>
          some { dec with input := rest, tokenState := TokenState.tokenArrayValue }
        | _ => none
      | TokenState.tokenObjectColon =>
        match dec.input with
        | Lexeme.colon :: rest =>
          some { dec with input := rest, tokenState := TokenState.tokenObjectValue }
        | _ => none
      | _ => some dec
    match prepared with
    | none => (none, dec)
    | some dec =>
      if !tokenValueAllowed dec.tokenState then (none, dec)
      else
        match scanValue (dec.input.length + 1) dec.input with
        | none => (none, { dec with err := true })
        | some (v, rest) =>
          (some v, { dec with input := rest, tokenState := tokenValueEnd dec.tokenState })

/-- Go `(*Decoder).More`. -/
def Decoder.More (dec : Decoder) : Bool :=
  match dec.input with
  | [] => false
  | Lexeme.endArray :: _ => false
  | Lexeme.endObject :: _ => false
  | _ => true

/-! ## Package `parser` -/

/-- Go `parser.Parser`; `file` is the content of the open file. -/
structure Parser where
  file : List Lexeme
  decoder : Decoder
  chatName : String
  chatType : String
  deriving DecidableEq

/-- Go `parser.New` on a file that opens and has the content `file`. -/
def Parser.New (file : List Lexeme) : Parser :=
  { file := file, decoder := NewDecoder file, chatName := "", chatType := "" }

/-- The errors of `GetChatInfo`: `read token`, `skip array`, `decode name`,
`decode type` and `chat name not found in JSON`. -/
inductive ParserError where
  | readToken
  | skipArray
  | decodeName
  | decodeType
  | chatNameNotFound
  deriving DecidableEq

/-- The loop of Go `skipArray`, `fuel` bounding its turns; the result is
whether the array was skipped without error.  `none` is the end of the
fuel. -/
def skipArrayLoop : Nat → Int → Decoder → Option (Bool × Decoder)
  | 0, _, _ => none
  | fuel + 1, depth, decoder =>
    if depth > 0 then
      match decoder.Token with
      | (TokenResult.token t, decoder) =>
        if t = Token.delim '[' then skipArrayLoop fuel (depth + 1) decoder
        else if t = Token.delim ']' then skipArrayLoop fuel (depth - 1) decoder
        else skipArrayLoop fuel depth decoder
      | (_, decoder) => some (false, decoder)
    else some (true, decoder)

/-- Go `skipArray`: every turn of the loop but the last reads a token, so
the length of the input bounds the turns. -/
def skipArray (decoder : Decoder) : Option (Bool × Decoder) :=
  skipArrayLoop (decoder.input.length + 2) 1 decoder

/-- The loop of Go `GetChatInfo`, `fuel` bounding its turns: `some err` when
the function returns with an error from inside the loop, `none` when the
loop ends.  The outer `none` is the end of the fuel. -/
def getChatInfoLoop : Nat → Int → Parser → Option (Option ParserError × Parser)
  | 0, _, _ => none
  | fuel + 1, depth, p =>
    match p.decoder.Token with
    | (TokenResult.eof, decoder) => some (none, { p with decoder := decoder })
    | (TokenResult.error, decoder) => some (some ParserError.readToken, { p with decoder := decoder })
    | (TokenResult.token t, decoder) =>
      let p := { p with decoder := decoder }
      let turn : Option (Except ParserError (Int × Parser)) :=
        match t with
        | Token.delim c =>
          if c = '{' then some (Except.ok (depth + 1, p))
          else if c = '}' then some (Except.ok (depth - 1, p))
          else if c = '[' then
            -- Skip arrays (like messages)
            match skipArray p.decoder with
            | some (true, decoder) => some (Except.ok (depth, { p with decoder := decoder }))
            | some (false, _) => some (Except.error ParserError.skipArray)
            | none => none
          else some (Except.ok (depth, p))
        | Token.string s =>
          if depth = 1 then
            if s = "name" then
              match p.decoder.readValue with
              | (some raw, decoder) =>
                match unmarshalString raw "" with
                | some val => some (Except.ok (depth, { p with decoder := decoder, chatName := val }))
                | none => some (Except.error ParserError.decodeName)
              | (none, _) => some (Except.error ParserError.decodeName)
            else if s = "type" then
              match p.decoder.readValue with
              | (some raw, decoder) =>
                match unmarshalString raw "" with
                | some val => some (Except.ok (depth, { p with decoder := decoder, chatType := val }))
                | none => some (Except.error ParserError.decodeType)
              | (none, _) => some (Except.error ParserError.decodeType)
            else some (Except.ok (depth, p))
          else some (Except.ok (depth, p))
        | _ => some (Except.ok (depth, p))
      match turn with
      | none => none
      | some (Except.error e) => some (some e, p)
      | some (Except.ok (depth, p)) =>
        -- Stop once we have both
        if p.chatName ≠ "" ∧ p.chatType ≠ "" then some (none, p)
        else getChatInfoLoop fuel depth p

/-- Go `(*Parser).GetChatInfo`: the file is read again from its start by a
new decoder.  Every turn of the loop but the last reads a token, so the
length of the file bounds the turns. -/
def Parser.GetChatInfo (p : Parser) : Option (Except ParserError (String × String) × Parser) :=
  let p := { p with decoder := NewDecoder p.file }
  match getChatInfoLoop (p.file.length + 2) 0 p with
  | none => none
  | some (some e, p) => some (Except.error e, p)
  | some (none, p) =>
    if p.chatName = "" then some (Except.error ParserError.chatNameNotFound, p)
    else some (Except.ok (p.chatName, p.chatType), p)

/-! ### Measures and the member-level description of `GetChatInfo` -/

mutual
/-- The number of tokens `Token` returns for a JSON value. -/
def JSON.tokenCount : JSON → Nat
  | JSON.null => 1
  | JSON.bool _ => 1
  | JSON.num _ => 1
  | JSON.str _ => 1
  | JSON.arr elems => elemsTokenCount elems + 2
  | JSON.obj members => membersTokenCount members + 2
/-- The number of tokens of the elements of an array. -/
def elemsTokenCount : List JSON → Nat
  | [] => 0
  | v :: rest => JSON.tokenCount v + elemsTokenCount rest
/-- The number of tokens of the members of an object, keys included. -/
def membersTokenCount : List (String × JSON) → Nat
  | [] => 0
  | (_, v) :: rest => 1 + JSON.tokenCount v + membersTokenCount rest
end

/-- The token of a JSON value that is not an array or an object. -/
def scalarToken : JSON → Token
  | JSON.bool b => Token.bool b
  | JSON.num literal => Token.number literal
  | JSON.str s => Token.string s
  | _ => Token.null

mutual
/-- Every number in the JSON value is in the range of `float64`, so that
`Token` returns each of them. -/
def JSON.numbersFit : JSON → Bool
  | JSON.num literal => float64InRange literal
  | JSON.arr elems => elemsFit elems
  | JSON.obj members => membersFit members
  | _ => true
/-- Every number in the elements of an array is in the range of `float64`. -/
def elemsFit : List JSON → Bool
  | [] => true
  | v :: rest => JSON.numbersFit v && elemsFit rest
/-- Every number in the members of an object is in the range of `float64`. -/
def membersFit : List (String × JSON) → Bool
  | [] => true
  | (_, v) :: rest => JSON.numbersFit v && membersFit rest
end

mutual
/-- The error with which the loop of `GetChatInfo` returns from a JSON value
it walks over, if any: `read token` at a number out of the range of
`float64`, `skip array` for an array that holds one. -/
def JSON.walkError : JSON → Option ParserError
  | JSON.num literal => if float64InRange literal then none else some ParserError.readToken
  | JSON.arr elems => if elemsFit elems then none else some ParserError.skipArray
  | JSON.obj members => membersWalkError members
  | _ => none
/-- The error of the first member of an object that has one. -/
def membersWalkError : List (String × JSON) → Option ParserError
  | [] => none
  | (_, v) :: rest =>
    match JSON.walkError v with
    | some e => some e
    | none => membersWalkError rest
end

mutual
/-- The number of turns the loop of `GetChatInfo` takes over a JSON value: an
array is skipped within one turn. -/
def JSON.loopCount : JSON → Nat
  | JSON.obj members => membersLoopCount members + 2
  | _ => 1
/-- The number of turns of the loop of `GetChatInfo` over the members of an
object, keys included. -/
def membersLoopCount : List (String × JSON) → Nat
  | [] => 0
  | (_, v) :: rest => 1 + JSON.loopCount v + membersLoopCount rest
end

/-- The effect of the loop of `GetChatInfo` on the members of the top-level
object, member by member, from the chat name and type found so far: the
error the function returns from inside the loop, or the name and type when
the loop ends.  The loop does not tell a key from a value: at a member whose
value is the string `name` or `type` it calls `Decode`, which reads the key
of the next member; `keyRead` tells that the key of the first member has
been read in this way, so that the loop goes on with its value.  This is
what `getChatInfoLoop` is proved to compute on the text of a JSON object. -/
def walkMembers : Bool → List (String × JSON) → String → String →
    Except ParserError (String × String)
  | _, [], name, type => Except.ok (name, type)
  | keyRead, (k, v) :: rest, name, type =>
    if keyRead = false ∧ k = "name" then
      match unmarshalString v "" with
      | some val =>
        if val ≠ "" ∧ type ≠ "" then Except.ok (val, type) else walkMembers false rest val type
      | none => Except.error ParserError.decodeName
    else if keyRead = false ∧ k = "type" then
      match unmarshalString v "" with
      | some val =>
        if name ≠ "" ∧ val ≠ "" then Except.ok (name, val) else walkMembers false rest name val
      | none => Except.error ParserError.decodeType
    else
      match v with
      | JSON.str s =>
        if s = "name" then
          match rest.head? with
          | some (next, _) =>
            if next ≠ "" ∧ type ≠ "" then Except.ok (next, type)
            else walkMembers true rest next type
          | none => Except.error ParserError.decodeName
        else if s = "type" then
          match rest.head? with
          | some (next, _) =>
            if name ≠ "" ∧ next ≠ "" then Except.ok (name, next)
            else walkMembers true rest name next
          | none => Except.error ParserError.decodeType
        else walkMembers false rest name type
      | _ =>
        match JSON.walkError v with
        | some e => Except.error e
        | none => walkMembers false rest name type

/-- The result of the loop of `GetChatInfo` agrees with the member-level
description: the same error, or the loop ends with the same name and type
in the parser. -/
def loopAgrees (r : Option (Option ParserError × Parser))
    (w : Except ParserError (String × String)) : Prop :=
  match w with
  | Except.error e => ∃ p, r = some (some e, p)
  | Except.ok (n, t) => ∃ p, r = some (none, p) ∧ p.chatName = n ∧ p.chatType = t

/-! ### `Decode(&msg)` and `StreamMessages` -/

/-- Go `strconv.ParseInt(literal, 10, 64)`: an optional sign and decimal
digits, at least one, whose value fits an `int64`; `none` is an error. -/
def parseInt64 (literal : String) : Option Int :=
  let negative : Bool := literal.data.head? = some '-'
  let digits : List Char :=
    match literal.data with
    | '-' :: rest => rest
    | '+' :: rest => rest
    | s => s
  if digits = [] ∨ digits.all Char.isDigit = false then none
  else
    let n : Int := if negative then -(digitsValue digits : Int) else (digitsValue digits : Int)
    if -(2 ^ 63 : Int) ≤ n ∧ n < (2 ^ 63 : Int) then some n else none

/-- One member of a JSON object decoded into a `Message`: the field whose
name matches the key, exactly or by `foldName`, receives the value; a key
that matches no field is skipped.  A string field takes a string, `ID` a
number that `strconv.ParseInt` reads, `ReplyToMsgID` such a number or `null`
(which makes it `nil`), `Text` what `TextContent.UnmarshalJSON` returns,
`TextEntities` an array decoded by `TextEntity.UnmarshalJSON` or `null`;
`null` leaves the other fields alone.  Anything else is an error, recorded
in `failed`: `Decode` returns an error then, at once or at the end. -/
def unmarshalMessageMember (acc : Message × Bool) (member : String × JSON) :
    Message × Bool :=
  let storeString (set : String → Message) : Message × Bool :=
    match member.2 with
    | JSON.str s => (set s, acc.2)
    | JSON.null => acc
    | _ => (acc.1, true)
  if foldName member.1 = foldName "id" then
    match member.2 with
    | JSON.num literal =>
      match parseInt64 literal with
      | some n => ({ acc.1 with ID := n }, acc.2)
      | none => (acc.1, true)
    | JSON.null => acc
    | _ => (acc.1, true)
  else if foldName member.1 = foldName "type" then storeString fun s => { acc.1 with Kind := s }
  else if foldName member.1 = foldName "date" then storeString fun s => { acc.1 with Date := s }
  else if foldName member.1 = foldName "date_unixtime" then
    storeString fun s => { acc.1 with DateUnixtime := s }
  else if foldName member.1 = foldName "from" then storeString fun s => { acc.1 with From := s }
  else if foldName member.1 = foldName "from_id" then
    storeString fun s => { acc.1 with FromID := s }
  else if foldName member.1 = foldName "reply_to_message_id" then
    match member.2 with
    | JSON.num literal =>
      match parseInt64 literal with
      | some n => ({ acc.1 with ReplyToMsgID := some n }, acc.2)
      | none => (acc.1, true)
    | JSON.null => ({ acc.1 with ReplyToMsgID := none }, acc.2)
    | _ => (acc.1, true)
  else if foldName member.1 = foldName "forwarded_from" then
    storeString fun s => { acc.1 with ForwardedFrom := s }
  else if foldName member.1 = foldName "text" then
    match TextContent.UnmarshalJSON member.2 with
    | some tc => ({ acc.1 with Text := tc }, acc.2)
    | none => (acc.1, true)
  else if foldName member.1 = foldName "text_entities" then
    match unmarshalEntities member.2 [] with
    | some entities => ({ acc.1 with TextEntities := entities }, acc.2)
    | none => (acc.1, true)
  else if foldName member.1 = foldName "action" then
    storeString fun s => { acc.1 with Action := s }
  else if foldName member.1 = foldName "actor" then storeString fun s => { acc.1 with Actor := s }
  else acc

/-- The zero value of `Message`: `var msg Message`. -/
def Message.zero : Message :=
  { ID := 0, Kind := "", Date := "", DateUnixtime := "", From := "", FromID := "",
    ReplyToMsgID := none, ForwardedFrom := "", Text := { Plain := "", Entities := [] },
    TextEntities := [], Action := "", Actor := "" }

/-- The value read by `Decode(&msg)` stored in `msg`, a `Message` holding
`old`: an object is decoded member by member and fails when an error was
recorded, `null` is no error and leaves `msg` as it is, anything else is an
error (`none`). -/
def unmarshalMessage (data : JSON) (old : Message) : Option Message :=
  match data with
  | JSON.obj members =>
    let r := members.foldl unmarshalMessageMember (old, false)
    if r.2 then none else some r.1
  | JSON.null => some old
  | _ => none

/-- How the first loop of `StreamMessages` ends: the function returns after
it has sent `items`, or the loop is left for the label `streamMessages`. -/
inductive Navigation where
  | returned (items : List ParseResult)
  | streamMessages (decoder : Decoder)
  deriving DecidableEq

/-- The first loop of Go `StreamMessages`, which navigates to the
`messages` array, `fuel` bounding its turns.  `none` is the end of the
fuel. -/
def navigateLoop : Nat → Bool → Int → Decoder → Option Navigation
  | 0, _, _, _ => none
  | fuel + 1, foundMessages, depth, decoder =>
    match decoder.Token with
    | (TokenResult.eof, _) => some (Navigation.returned [])
    | (TokenResult.error, _) =>
      some (Navigation.returned [ParseResult.error StreamError.readToken])
    | (TokenResult.token t, decoder) =>
      match t with
      | Token.delim c =>
        if c = '{' then navigateLoop fuel foundMessages (depth + 1) decoder
        else if c = '}' then navigateLoop fuel foundMessages (depth - 1) decoder
        else if c = '[' then
          if foundMessages then
            -- This is the messages array start
            some (Navigation.streamMessages decoder)
          else
            -- Skip other arrays
            match skipArray decoder with
            | some (true, decoder) => navigateLoop fuel foundMessages depth decoder
            | some (false, _) =>
              some (Navigation.returned [ParseResult.error StreamError.skipArray])
            | none => none
        else navigateLoop fuel foundMessages depth decoder
      | Token.string s =>
        if depth = 1 ∧ s = "messages" then navigateLoop fuel true depth decoder
        else navigateLoop fuel foundMessages depth decoder
      | _ => navigateLoop fuel foundMessages depth decoder

/-- One turn of the second loop of `StreamMessages` when `More()` holds:
`Decode(&msg)` on a new `msg`, and the item sent. -/
def streamTurn (decoder : Decoder) : ParseResult × Decoder :=
  match decoder.readValue with
  | (some raw, decoder) =>
    match unmarshalMessage raw Message.zero with
    | some msg => (ParseResult.message msg, decoder)
    | none => (ParseResult.error StreamError.decodeMessage, decoder)
  | (none, decoder) => (ParseResult.error StreamError.decodeMessage, decoder)

/-- The second loop of Go `StreamMessages`, `for p.decoder.More()`, run for
at most `turns` turns: the items sent in these turns, in order, and whether
the loop has ended, after which the channel is closed. -/
def streamLoop : Nat → Decoder → List ParseResult × Bool
  | 0, _ => ([], false)
  | turns + 1, decoder =>
    if decoder.More then
      let r := streamTurn decoder
      let later := streamLoop turns r.2
      (r.1 :: later.1, later.2)
    else ([], true)

/-- Go `(*Parser).StreamMessages`, observed until the second loop has made
`turns` turns: the items sent on the channel so far, in order, and whether
the channel has been closed.  The file is read again from its start by a new
decoder; every turn of the first loop but the last reads a token, so the
length of the file bounds its turns.  `none` is the end of that fuel. -/
def Parser.StreamMessages (p : Parser) (turns : Nat) : Option (List ParseResult × Bool) :=
  match navigateLoop (p.file.length + 2) false 0 (NewDecoder p.file) with
  | none => none
  | some (Navigation.returned items) => some (items, true)
  | some (Navigation.streamMessages decoder) => some (streamLoop turns decoder)

/-- The item `StreamMessages` sends for an element of the array that
`Decode` has read: the message, or an error when the element cannot be
stored in a `Message`. -/
def messageItem (raw : JSON) : ParseResult :=
  match unmarshalMessage raw Message.zero with
  | some msg => ParseResult.message msg
  | none => ParseResult.error StreamError.decodeMessage

mutual
/-- The depth to which arrays and objects are nested in a JSON value. -/
def JSON.depth : JSON → Nat
  | JSON.arr elems => elemsDepth elems + 1
  | JSON.obj members => membersDepth members + 1
  | _ => 0
/-- The greatest depth among the elements of an array. -/
def elemsDepth : List JSON → Nat
  | [] => 0
  | v :: rest => max (JSON.depth v) (elemsDepth rest)
/-- The greatest depth among the values of the members of an object. -/
def membersDepth : List (String × JSON) → Nat
  | [] => 0
  | (_, v) :: rest => max (JSON.depth v) (membersDepth rest)
end

/-- Go `maxNestingDepth` of the scanner of `encoding/json`. -/
def maxNestingDepth : Nat := 10000

/-! ## Go `time`: parsing and formatting with the two layouts in use

`time.Parse` and `Time.Format` belong to the Go standard library.  They are
modelled here for the layouts `"2006-01-02T15:04:05"` and `time.RFC3339`
(parsing) and `"2006-01-02 15:04"` (formatting), following the element by
element loop of `time.parse`. -/

/-- A Go `time.Time` as the converter and the writer see it: the wall clock
reading in the time's own location, and that location's offset east of UTC in
seconds. -/
structure Time where
  year : Int
  month : Int
  day : Int
  hour : Int
  min : Int
  sec : Int
  nsec : Int
  offset : Int
  deriving DecidableEq

/-- Go `time.isDigit(s, i)`. -/
def isDigit (s : List Char) (i : Nat) : Bool :=
  match s.get? i with
  | some c => decide (48 ≤ c.toNat) && decide (c.toNat ≤ 57)
  | none => false

/-- The value of the decimal digit `c` (`c - '0'`). -/
def digitVal (c : Char) : Int := (c.toNat : Int) - 48

/-- Go `time.getnum(s, fixed)`: one or two leading digits, exactly two when
`fixed`; returns the number and the rest of the input. -/
def getnum (s : List Char) (fixed : Bool) : Option (Int × List Char) :=
  if !isDigit s 0 then none
  else if !isDigit s 1 then
    if fixed then none
    else
      match s with
      | c0 :: rest => some (digitVal c0, rest)
      | [] => none
  else
    match s with
    | c0 :: c1 :: rest => some (digitVal c0 * 10 + digitVal c1, rest)
    | _ => none

/-- Go `time.atoi` on a string already known to start with a digit: every
rune must be a digit; the value is accumulated from the left. -/
def atoiDigits : List Char → Int → Option Int
  | [], acc => some acc
  | c :: rest, acc =>
    if decide (48 ≤ c.toNat) && decide (c.toNat ≤ 57) then atoiDigits rest (acc * 10 + digitVal c)
    else none

/-- The standard elements of the two parsing layouts. -/
inductive Std where
  | stdLongYear
  | stdZeroMonth
  | stdZeroDay
  | stdHour
  | stdZeroMinute
  | stdZeroSecond
  | stdISO8601ColonTZ
  deriving DecidableEq

/-- The layout `"2006-01-02T15:04:05"` as `nextStdChunk` cuts it: each
standard element with the literal text in front of it. -/
def layoutISO : List (List Char × Std) :=
  [ ([], Std.stdLongYear),
    (['-'], Std.stdZeroMonth),
    (['-'], Std.stdZeroDay),
    (['T'], Std.stdHour),
    ([':'], Std.stdZeroMinute),
    ([':'], Std.stdZeroSecond) ]

/-- The layout `time.RFC3339`, `"2006-01-02T15:04:05Z07:00"`, likewise. -/
def layoutRFC3339 : List (List Char × Std) :=
  layoutISO ++ [([], Std.stdISO8601ColonTZ)]

/-- The local variables of Go `time.parse` that these layouts set; `zUTC`
stands for `z == UTC`, and `zoneOffset` is `-1` while unset. -/
structure ParseVars where
  year : Int
  month : Int
  day : Int
  hour : Int
  min : Int
  sec : Int
  nsec : Int
  zUTC : Bool
  zoneOffset : Int

/-- The initial values of the variables of `time.parse`. -/
def ParseVars.init : ParseVars :=
  { year := 0, month := -1, day := -1, hour := 0, min := 0, sec := 0, nsec := 0,
    zUTC := false, zoneOffset := -1 }

/-- Go `time.skip(value, prefix)` for a prefix without spaces: the prefix
must be matched rune for rune. -/
def skip : List Char → List Char → Option (List Char)
  | value, [] => some value
  | [], _ :: _ => none
  | v :: value, p :: pref => if v = p then skip value pref else none

/-- Go `time.parseNanoseconds(value, nbytes)` on a separator followed by
`digits`: at most nine digits count, scaled to nanoseconds. -/
def parseNanoseconds (digits : List Char) : Option Int :=
  let used := digits.take 9
  match atoiDigits used 0 with
  | some ns => some (ns * 10 ^ (9 - used.length))
  | none => none

/-- One turn of the loop of Go `time.parse`, for the standard element `std`,
after the literal prefix has been skipped.  `none` is a parse error. -/
def parseStd (std : Std) (value : List Char) (v : ParseVars) :
    Option (List Char × ParseVars) :=
  match std with
  | Std.stdLongYear =>
    if value.length < 4 || !isDigit value 0 then none
    else
      match atoiDigits (value.take 4) 0 with
      | some year => some (value.drop 4, { v with year := year })
      | none => none
  | Std.stdZeroMonth =>
    match getnum value true with
    | some (month, value) =>
      if month ≤ 0 ∨ 12 < month then none else some (value, { v with month := month })
    | none => none
  | Std.stdZeroDay =>
    match getnum value true with
    | some (day, value) => some (value, { v with day := day })
    | none => none
  | Std.stdHour =>
    match getnum value false with
    | some (hour, value) =>
      if hour < 0 ∨ 24 ≤ hour then none else some (value, { v with hour := hour })
    | none => none
  | Std.stdZeroMinute =>
    match getnum value true with
    | some (min, value) =>
      if min < 0 ∨ 60 ≤ min then none else some (value, { v with min := min })
    | none => none
  | Std.stdZeroSecond =>
    match getnum value true with
    | some (sec, value) =>
      if sec < 0 ∨ 60 ≤ sec then none
      else
        -- a fractional second in the input that the layout does not have
        match value with
        | sep :: rest =>
          if (sep = '.' ∨ sep = ',') ∧ isDigit rest 0 = true then
            let digits := rest.takeWhile fun c => decide (48 ≤ c.toNat) && decide (c.toNat ≤ 57)
            match parseNanoseconds digits with
            | some nsec =>
              some (rest.drop digits.length, { v with sec := sec, nsec := nsec })
            | none => none
          else some (value, { v with sec := sec })
        | [] => some (value, { v with sec := sec })
    | none => none
  | Std.stdISO8601ColonTZ =>
    match value with
    | 'Z' :: rest => some (rest, { v with zUTC := true })
    | sign :: h0 :: h1 :: colon :: m0 :: m1 :: rest =>
      if colon ≠ ':' then none
      else
        match getnum [h0, h1] true, getnum [m0, m1] true with
        | some (hr, _), some (mm, _) =>
          if 24 < hr ∨ 60 < mm then none
          else
            let zoneOffset := (hr * 60 + mm) * 60
            if sign = '+' then some (rest, { v with zoneOffset := zoneOffset })
            else if sign = '-' then some (rest, { v with zoneOffset := -zoneOffset })
            else none
        | _, _ => none
    | _ => none

/-- The loop of Go `time.parse` over the chunks of the layout: skip the
literal prefix, parse the element; once the layout is used up no input may
remain. -/
def parseLoop : List (List Char × Std) → List Char → ParseVars → Option ParseVars
  | [], value, v => if value.isEmpty then some v else none
  | (pref, std) :: layout, value, v =>
    match skip value pref with
    | some value =>
      match parseStd std value v with
      | some (value, v) => parseLoop layout value v
      | none => none
    | none => none

/-- Go `time.isLeap`. -/
def isLeap (year : Int) : Bool :=
  year % 4 == 0 && (year % 100 != 0 || year % 400 == 0)

/-- Go `time.daysIn(m, year)`. -/
def daysIn (month : Int) (year : Int) : Int :=
  if month = 2 then (if isLeap year then 29 else 28)
  else if month = 4 ∨ month = 6 ∨ month = 9 ∨ month = 11 then 30
  else 31

/-- Go `time.Parse(layout, value)`: the loop, then the validation of the day
of the month, then the time in UTC or in the zone of the parsed offset.  The
wall clock of the result is the one parsed. -/
def timeParse (layout : List (List Char × Std)) (value : String) : Option Time :=
  match parseLoop layout value.data ParseVars.init with
  | some v =>
    let month := if v.month < 0 then 1 else v.month
    let day := if v.day < 0 then 1 else v.day
    if day < 1 ∨ daysIn month v.year < day then none
    else
      some { year := v.year, month := month, day := day, hour := v.hour, min := v.min,
             sec := v.sec, nsec := v.nsec,
             offset := if v.zUTC then 0 else if v.zoneOffset ≠ -1 then v.zoneOffset else 0 }
  | none => none

/-- The decimal digits of `n`, the most significant first; `fuel` bounds the
number of digits. -/
def decimalDigits : Nat → Nat → List Char → List Char
  | 0, _, acc => acc
  | fuel + 1, n, acc =>
    let acc := Char.ofNat (48 + n % 10) :: acc
    if n / 10 = 0 then acc else decimalDigits fuel (n / 10) acc

/-- Go `time.appendInt(b, x, width)` for `x >= 0`: the decimal digits of `x`,
padded with zeros on the left up to `width`. -/
def appendInt (x : Int) (width : Nat) : List Char :=
  let ds := decimalDigits 20 x.toNat []
  List.replicate (width - ds.length) '0' ++ ds

/-- Go `t.Format("2006-01-02 15:04")`. -/
def timeFormat (t : Time) : String :=
  ⟨appendInt t.year 4 ++ ['-'] ++ appendInt t.month 2 ++ ['-'] ++ appendInt t.day 2 ++ [' ']
    ++ appendInt t.hour 2 ++ [':'] ++ appendInt t.min 2⟩

/-! ## Package `converter` -/

/-- Go `converter.Converter`: the reply cache, a map from message id to
text. -/
structure Converter where
  messageCache : Int → Option String

/-- Go `converter.New`: the cache starts empty. -/
def New : Converter :=
  { messageCache := fun _ => none }

/-- The two errors `ConvertMessage` returns: `"invalid date format: ..."` and
`"empty message"`. -/
inductive ConvertError where
  | invalidDateFormat
  | emptyMessage
  deriving DecidableEq

/-- The body of the loop of Go `Converter.ConvertTextEntities`: what one
entity writes to the builder, by the `switch` on its type. -/
def writeEntity (builder : String) (entity : TextEntity) : String :=
  let text := SanitizeText entity.Text
  match entity.Kind with
  | "bold" => builder ++ "**" ++ text ++ "**"
  | "italic" => builder ++ "_" ++ text ++ "_"
  | "code" => builder ++ "`" ++ text ++ "`"
  | "pre" => builder ++ "`" ++ text ++ "`"
  | "text_link" =>
    -- Use only URL, discard link text
    if entity.Href ≠ "" then builder ++ entity.Href else builder ++ text
  | "link" => builder ++ text
  | "mention" => builder ++ text
  | "hashtag" => builder ++ text
  | "email" => builder ++ text
  | "phone" => builder ++ text
  | "plain" => builder ++ text
  | "" => builder ++ text
  | _ => builder ++ text

/-- Go `Converter.ConvertTextEntities`: the loop over the entities, starting
from an empty builder. -/
def Converter.ConvertTextEntities (_c : Converter) (entities : List TextEntity) : String :=
  entities.foldl writeEntity ""

/-- Go `Converter.CacheMessage`. -/
def Converter.CacheMessage (c : Converter) (id : Int) (text : String) : Converter :=
  { messageCache := fun k => if k = id then some text else c.messageCache k }

/-- Go `Converter.GetCachedMessage`: the text and whether the id is in the
cache (the zero value `""` when it is not). -/
def Converter.GetCachedMessage (c : Converter) (id : Int) : String × Bool :=
  match c.messageCache id with
  | some text => (text, true)
  | none => ("", false)

/-- Go `formatTimestamp`: the bare ISO layout is tried first, then RFC 3339;
returns the display string and the parsed time. -/
def formatTimestamp (isoTime : String) : Option (String × Time) :=
  match timeParse layoutISO isoTime with
  | some t => some (timeFormat t, t)
  | none =>
    match timeParse layoutRFC3339 isoTime with
    | some t => some (timeFormat t, t)
    | none => none

/-- Go `len(s)` of a string: its length in bytes of UTF-8. -/
def byteLen (s : List Char) : Nat :=
  (s.map Char.utf8Size).sum

/-- Go `truncateForReply`.  `none` is the run-time panic of the slice
expression `runes[:maxLen-3]` when its bound is out of range. -/
def truncateForReply (text : String) (maxLen : Int) : Option String :=
  -- Remove newlines for cleaner preview
  let text := stringsReplaceAll text.data '\n' [' ']
  if (byteLen text : Int) ≤ maxLen then some ⟨text⟩
  else
    -- Truncate at rune boundary
    let runes := text
    if (runes.length : Int) ≤ maxLen then some ⟨text⟩
    else if 0 ≤ maxLen - 3 ∧ maxLen - 3 ≤ (runes.length : Int) then
      some (⟨runes.take (maxLen - 3).toNat⟩ ++ "...")
    else none

/-- Go `Converter.ConvertMessage`: the result (the line and the parsed time,
or an error) together with the converter afterwards.  The outer `none` is a
run-time panic. -/
def Converter.ConvertMessage (c : Converter) (msg : Message) :
    Option (Except ConvertError (String × Time) × Converter) :=
  -- Parse timestamp
  match formatTimestamp msg.Date with
  | none => some (Except.error ConvertError.invalidDateFormat, c)
  | some (timestamp, parsedTime) =>
    -- Handle service messages
    if msg.Kind = "service" ∨ msg.Action ≠ "" then
      let actor := msg.Actor
      let actor := if actor = "" then msg.From else actor
      let actor := if actor = "" then "Unknown" else actor
      some (Except.ok ("[" ++ timestamp ++ "] [Служебное: " ++ actor ++ " " ++ msg.Action ++ "]",
        parsedTime), c)
    else
      -- Convert text content
      let text :=
        if msg.Text.Plain ≠ "" then SanitizeText msg.Text.Plain
        else if msg.Text.Entities.length > 0 then c.ConvertTextEntities msg.Text.Entities
        else if msg.TextEntities.length > 0 then c.ConvertTextEntities msg.TextEntities
        else ""
      -- Check for empty message
      if ContainsOnlyWhitespace text then some (Except.error ConvertError.emptyMessage, c)
      else
        -- Cache for reply lookups
        let c := c.CacheMessage msg.ID text
        -- Build message prefix
        let author := if msg.From = "" then "Unknown" else msg.From
        -- Handle forwarded messages
        let forwarded :=
          if msg.ForwardedFrom ≠ "" then "[Переслано от: " ++ msg.ForwardedFrom ++ "] " else ""
        -- Handle replies (takes precedence over forwarded prefix)
        let pfx : Option String :=
          match msg.ReplyToMsgID with
          | some replyTo =>
            let found := c.GetCachedMessage replyTo
            let replyText := if found.2 then truncateForReply found.1 50 else some "..."
            replyText.map fun replyText => "[В ответ на: \"" ++ replyText ++ "\"] "
          | none => some forwarded
        pfx.map fun pfx =>
          (Except.ok ("[" ++ timestamp ++ "] " ++ author ++ ": " ++ pfx ++ text, parsedTime), c)

/-- The body text of a message in the words of the specification: the first
non-empty source wins, in the order plain string, span list of the text
field, legacy `text_entities` list; the empty string when all are empty. -/
def resolvedBody (c : Converter) (msg : Message) : String :=
  if msg.Text.Plain ≠ "" then SanitizeText msg.Text.Plain
  else if msg.Text.Entities ≠ [] then c.ConvertTextEntities msg.Text.Entities
  else if msg.TextEntities ≠ [] then c.ConvertTextEntities msg.TextEntities
  else ""

/-- The calls the loop of `run` (`cmd/tg2md/main.go`) makes to
`ConvertMessage`, one per message in stream order: the converter after the
messages have gone through it. -/
def convertStream (c : Converter) : List Message → Converter
  | [] => c
  | msg :: rest =>
    match c.ConvertMessage msg with
    | some (_, c') => convertStream c' rest
    | none => c

/-- In the words of the specification: the id `k` is the id of a message
that appeared in the stream `before` and was successfully converted as a
message that is not a service message. -/
def convertedEarlier (before : List Message) (k : Int) : Prop :=
  ∃ (b1 : List Message) (target : Message) (b2 : List Message) (line : String) (t : Time)
    (c' : Converter),
    before = b1 ++ target :: b2 ∧ target.ID = k ∧
    (target.Kind ≠ "service" ∧ target.Action = "") ∧
    (convertStream New b1).ConvertMessage target = some (Except.ok (line, t), c')

/-! ## Go `strings`, `fmt`, `path/filepath`, `os` and `bufio` as the writer uses them

These belong to the Go standard library and to the operating system.
`path/filepath` is modelled for Unix, where the separator is `/` and there is
no volume name. -/

/-- Go `strings.ToLower` on an ASCII string: the upper case letters go to
lower case. -/
def stringsToLower (s : String) : String :=
  ⟨s.data.map fun c => if 65 ≤ c.toNat ∧ c.toNat ≤ 90 then Char.ofNat (c.toNat + 32) else c⟩

/-- Go `fmt.Sprintf("%d", x)`: a minus sign for a negative number, then the
decimal digits of the magnitude (more fuel than it has digits). -/
def sprintfInt (x : Int) : List Char :=
  (if x < 0 then ['-'] else []) ++ decimalDigits (x.natAbs + 1) x.natAbs []

/-- The elements of a path, between its separators. -/
def splitSlash : List Char → List (List Char)
  | [] => [[]]
  | c :: rest =>
    if c = '/' then [] :: splitSlash rest
    else
      match splitSlash rest with
      | elem :: elems => (c :: elem) :: elems
      | [] => [[c]]

/-- The elements of a path put together again, a separator between two of
them. -/
def joinSlash : List (List Char) → List Char
  | [] => []
  | [elem] => elem
  | elem :: elems => elem ++ '/' :: joinSlash elems

/-- One turn of the loop of Go `filepath.Clean`, on the path element `elem`;
`out` holds the elements written so far.  An empty element and `.` are
dropped; `..` removes the element before it, if there is one that is not
`..` itself, is dropped at the root, and is written otherwise. -/
def cleanStep (rooted : Bool) (out : List (List Char)) (elem : List Char) : List (List Char) :=
  if elem = [] ∨ elem = ['.'] then out
  else if elem = ['.', '.'] then
    match out.getLast? with
    | some last => if last = ['.', '.'] then out ++ [elem] else out.dropLast
    | none => if rooted then out else out ++ [elem]
  else out ++ [elem]

/-- Go `filepath.Clean`. -/
def filepathClean (path : List Char) : List Char :=
  let rooted : Bool := path.head? = some '/'
  let out := (splitSlash path).foldl (cleanStep rooted) []
  let cleaned := (if rooted then ['/'] else []) ++ joinSlash out
  -- Turn empty string into "."
  if cleaned = [] then ['.'] else cleaned

/-- Go `filepath.Join`: the empty elements in front are ignored, the others
are joined by the separator, and the result is cleaned. -/
def filepathJoin (elems : List String) : String :=
  match elems.dropWhile fun e => e = "" with
  | [] => ""
  | first :: rest => ⟨filepathClean (joinSlash ((first :: rest).map String.data))⟩

/-- The files as the program leaves them: `content` is the content of each
file that exists, as it is once the file has been flushed and closed (what a
`bufio.Writer` still holds, or has handed over since the last `Flush`, is
kept in the writer); `denied` tells the paths at which `os.MkdirAll` and
`os.Create` fail.  Other failures of the operating system are not
modelled. -/
structure FileSystem where
  content : String → Option String
  denied : String → Bool

/-- The file at `path` with the content `text`. -/
def FileSystem.store (fs : FileSystem) (path : String) (text : String) : FileSystem :=
  { fs with content := fun p => if p = path then some text else fs.content p }

/-- Go `*os.File`, opened by `os.Create`: its path and whether it has been
closed. -/
structure OsFile where
  path : String
  closed : Bool
  deriving DecidableEq

/-- Go `os.Create(path)`: the file is created or truncated; `none` is an
error. -/
def osCreate (fs : FileSystem) (path : String) : Option (OsFile × FileSystem) :=
  if fs.denied path then none
  else some ({ path := path, closed := false }, fs.store path "")

/-- Go `(*os.File).Close`: an error on a file that is closed already. -/
def OsFile.Close (file : OsFile) : Bool × OsFile :=
  if file.closed then (false, file) else (true, { file with closed := true })

/-- Go `*bufio.Writer` on a file just created: `written` is all that has
been written to it since, of which the last `n` bytes are in the buffer and
the rest is in the file; `err` is the sticky error. -/
structure BufioWriter where
  written : String
  n : Nat
  err : Bool
  deriving DecidableEq

/-- Go `bufio.NewWriter`. -/
def NewWriter : BufioWriter :=
  { written := "", n := 0, err := false }

/-- The size of the buffer of `bufio.NewWriter`. -/
def bufioSize : Nat := 4096

/-- Go `(*bufio.Writer).Flush` for the writer `b` on `file`: on an open file
all of `written` is in the file afterwards.  The result tells whether there
was no error. -/
def BufioWriter.Flush (b : BufioWriter) (file : OsFile) (fs : FileSystem) :
    Bool × BufioWriter × FileSystem :=
  if b.err then (false, b, fs)
  else if b.n = 0 ∧ file.closed then (true, b, fs)
  else if file.closed then (false, { b with err := true }, fs)
  else (true, { b with n := 0 }, fs.store file.path b.written)

/-- Go `(*bufio.Writer).WriteString` for the writer `b` on `file`: a string
that fits in the buffer is kept there; otherwise the buffer is filled and
flushed, or, when it is empty, the string goes to the file directly, which
fails on a closed file.  The result tells whether there was no error. -/
def BufioWriter.WriteString (b : BufioWriter) (file : OsFile) (s : String) :
    Bool × BufioWriter :=
  let len := byteLen s.data
  if b.err then (false, b)
  else if len ≤ bufioSize - b.n then (true, { b with written := b.written ++ s, n := b.n + len })
  else if file.closed then (false, { b with err := true })
  else if b.n = 0 then (true, { b with written := b.written ++ s })
  else
    let remaining := len - (bufioSize - b.n)
    (true, { b with written := b.written ++ s,
                    n := if remaining > bufioSize then 0 else remaining })

/-! ## Package `writer` -/

/-- Go `writer.monthNames`. -/
def monthNames : List String :=
  [ "",         -- 0 - not used
    "january",
    "february",
    "march",
    "april",
    "may",
    "june",
    "july",
    "august",
    "september",
    "october",
    "november",
    "december" ]

/-- Go `writer.Writer`.  `currentWriter` writes to `currentFile`: the two
fields are assigned together.  `stats` is a map; the counts are Go `int`s,
which the number of messages of a run never overflows. -/
structure Writer where
  outputDir : String
  groupName : String
  sanitizedName : String
  currentFile : Option OsFile
  currentWriter : Option BufioWriter
  currentMonth : String
  stats : String → Option Int
  fileCount : Int

/-- The errors of the writer: `create directory`, `flush writer`,
`close file`, `create file` and `write message`. -/
inductive WriterError where
  | createDirectory
  | flushWriter
  | closeFile
  | createFile
  | writeMessage
  deriving DecidableEq

/-- Go `writer.New`; `none` is the error `create directory`. -/
def Writer.New (fs : FileSystem) (basePath groupName : String) : Option Writer :=
  let sanitizedName := SanitizeName groupName
  let outputDir := filepathJoin [basePath, sanitizedName]
  -- Create output directory
  if fs.denied outputDir then none
  else
    some { outputDir := outputDir, groupName := groupName, sanitizedName := sanitizedName,
           currentFile := none, currentWriter := none, currentMonth := "",
           stats := fun _ => none, fileCount := 0 }

/-- Go `Writer.GetOutputDir`. -/
def Writer.GetOutputDir (w : Writer) : String :=
  w.outputDir

/-- Go `getMonthKey`.  `none` is the run-time panic of the index expression
`monthNames[t.Month()]`, which no `time.Time` of Go reaches, its month being
between 1 and 12. -/
def getMonthKey (t : Time) : Option String :=
  if 0 ≤ t.month ∧ t.month < monthNames.length then
    let month := stringsToLower (monthNames.getD t.month.toNat "")
    let year := t.year
    some (month ++ "_" ++ ⟨sprintfInt year⟩)
  else none

/-- The path of the file of a month: `filepath.Join(w.outputDir, filename)`
with the `filename` of `switchToMonth`. -/
def Writer.monthPath (w : Writer) (monthKey : String) : String :=
  filepathJoin [w.outputDir, w.sanitizedName ++ "_" ++ monthKey ++ ".md"]

/-- Go `Writer.switchToMonth`: the error returned, if any, with the writer
and the files afterwards.  The outer `none` stands for a writer without its
file, which `New` and the methods never produce. -/
def Writer.switchToMonth (w : Writer) (fs : FileSystem) (monthKey : String) :
    Option (Option WriterError × Writer × FileSystem) :=
  -- Close current file if open
  let flushed : Option (Bool × Writer × FileSystem) :=
    match w.currentWriter, w.currentFile with
    | some b, some file =>
      match b.Flush file fs with
      | (ok, b, fs) => some (ok, { w with currentWriter := some b }, fs)
    | some _, none => none
    | none, _ => some (true, w, fs)
  match flushed with
  | none => none
  | some (false, w, fs) => some (some WriterError.flushWriter, w, fs)
  | some (true, w, fs) =>
    let closedFile : Bool × Writer :=
      match w.currentFile with
      | some file =>
        match file.Close with
        | (ok, file) => (ok, { w with currentFile := some file })
      | none => (true, w)
    match closedFile with
    | (false, w) => some (some WriterError.closeFile, w, fs)
    | (true, w) =>
      -- Create new file
      let filename := w.sanitizedName ++ "_" ++ monthKey ++ ".md"
      let filePath := filepathJoin [w.outputDir, filename]
      match osCreate fs filePath with
      | none => some (some WriterError.createFile, w, fs)
      | some (file, fs) =>
        some (none,
          { w with currentFile := some file, currentWriter := some NewWriter,
                   currentMonth := monthKey,
                   stats := fun k => if k = monthKey then some 0 else w.stats k,
                   fileCount := w.fileCount + 1 }, fs)

/-- Go `Writer.WriteMessage`: the error returned, if any, with the writer and
the files afterwards.  The outer `none` is a run-time panic: the index
expression of `getMonthKey`, or a call on a writer without its file. -/
def Writer.WriteMessage (w : Writer) (fs : FileSystem) (formattedLine : String)
    (timestamp : Time) : Option (Option WriterError × Writer × FileSystem) :=
  match getMonthKey timestamp with
  | none => none
  | some monthKey =>
    -- Switch file if month changed
    let switched : Option (Option WriterError × Writer × FileSystem) :=
      if monthKey ≠ w.currentMonth then w.switchToMonth fs monthKey else some (none, w, fs)
    match switched with
    | none => none
    | some (some err, w, fs) => some (some err, w, fs)
    | some (none, w, fs) =>
      -- Write message with blank line separator
      match w.currentWriter, w.currentFile with
      | some b, some file =>
        match b.WriteString file (formattedLine ++ "\n\n") with
        | (false, b) => some (some WriterError.writeMessage, { w with currentWriter := some b }, fs)
        | (true, b) =>
          some (none,
            { w with currentWriter := some b,
                     stats := fun k =>
                       if k = monthKey then some ((w.stats monthKey).getD 0 + 1)
                       else w.stats k }, fs)
      | _, _ => none

/-- Go `Writer.GetStats()[k]`: the count under the key `k`, 0 for a key that
is not in the map. -/
def Writer.GetStats (w : Writer) (k : String) : Int :=
  (w.stats k).getD 0

/-- Go `Writer.GetFileCount`. -/
def Writer.GetFileCount (w : Writer) : Int :=
  w.fileCount

/-- Go `Writer.Close`: the error returned, if any, with the writer and the
files afterwards. -/
def Writer.Close (w : Writer) (fs : FileSystem) :
    Option (Option WriterError × Writer × FileSystem) :=
  let flushed : Option (Bool × Writer × FileSystem) :=
    match w.currentWriter, w.currentFile with
    | some b, some file =>
      match b.Flush file fs with
      | (ok, b, fs) => some (ok, { w with currentWriter := some b }, fs)
    | some _, none => none
    | none, _ => some (true, w, fs)
  match flushed with
  | none => none
  | some (false, w, fs) => some (some WriterError.flushWriter, w, fs)
  | some (true, w, fs) =>
    match w.currentFile with
    | some file =>
      match file.Close with
      | (false, file) => some (some WriterError.closeFile, { w with currentFile := some file }, fs)
      | (true, file) => some (none, { w with currentFile := some file }, fs)
    | none => some (none, w, fs)

/-- A sequence of calls of `WriteMessage` on one writer, as long as they
return no error: the first error ends it. -/
def Writer.writeAll (w : Writer) (fs : FileSystem) :
    List (String × Time) → Option (Option WriterError × Writer × FileSystem)
  | [] => some (none, w, fs)
  | (line, t) :: rest =>
    match w.WriteMessage fs line t with
    | some (none, w, fs) => Writer.writeAll w fs rest
    | other => other

/-- In the words of the specification: the lowercase English name of the
calendar month with the number `m`. -/
def englishMonthName (m : Int) : String :=
  match m with
  | 1 => "january"
  | 2 => "february"
  | 3 => "march"
  | 4 => "april"
  | 5 => "may"
  | 6 => "june"
  | 7 => "july"
  | 8 => "august"
  | 9 => "september"
  | 10 => "october"
  | 11 => "november"
  | 12 => "december"
  | _ => ""

/-- A writer in the state `New` and the successful calls of `WriteMessage`
leave it in: the name is the sanitized group name, and either no file has
been opened yet, or the file of the current month is open and its
`bufio.Writer` has no error. -/
def Writer.ready (w : Writer) : Prop :=
  w.sanitizedName = SanitizeName w.groupName ∧
  ((w.currentMonth = "" ∧ w.currentWriter = none ∧ w.currentFile = none) ∨
    ∃ b : BufioWriter, w.currentWriter = some b ∧ b.err = false ∧
      w.currentFile = some { path := w.monthPath w.currentMonth, closed := false })

/-- The month keys of a sequence of pairs of a line and a timestamp. -/
def monthKeys (ws : List (String × Time)) : List String :=
  ws.filterMap fun p => getMonthKey p.2

/-- In the words of the specification: the concatenation, in stream order,
of `line + "\n\n"` for every pair whose timestamp has the month key `k`. -/
def linesOf (k : String) (ws : List (String × Time)) : String :=
  ws.foldl (fun text p => if getMonthKey p.2 = some k then text ++ p.1 ++ "\n\n" else text) ""

/-- The month keys of a stream come month by month: once the stream has left
a month it does not come back to it (as in a chronological export). -/
def consecutiveMonths : List String → Bool
  | [] => true
  | k :: rest => decide (k ∉ rest.dropWhile fun k' => k' = k) && consecutiveMonths rest

/-- The state of a writer and of the files after the pairs `ws` have been
written with success, one after the other, from the writer `w0` of `New` and
the files `fs0`, when the month keys come month by month: what the theorems
on `WriteMessage` and `writeAll` establish. -/
structure StateAfter (w0 : Writer) (fs0 : FileSystem) (ws : List (String × Time))
    (w : Writer) (fs : FileSystem) : Prop where
  outputDir_eq : w.outputDir = w0.outputDir
  groupName_eq : w.groupName = w0.groupName
  sanitizedName_eq : w.sanitizedName = w0.sanitizedName
  ready : w.ready
  denied_eq : fs.denied = fs0.denied
  keys_length : (monthKeys ws).length = ws.length
  no_writer : ws = [] → w.currentWriter = none
  currentMonth_eq : w.currentMonth = (monthKeys ws).getLast?.getD ""
  stats_eq : ∀ k, w.stats k =
    if k ∈ monthKeys ws then some (((monthKeys ws).count k : Nat) : Int) else none
  fileCount_eq : w.fileCount = (((monthKeys ws).toFinset.card : Nat) : Int)
  written_eq : ∀ b, w.currentWriter = some b → b.written = linesOf w.currentMonth ws
  closed_content : ∀ k ∈ monthKeys ws, k ≠ w.currentMonth →
    fs.content (w0.monthPath k) = some (linesOf k ws)
  other_content : ∀ p, (∀ k ∈ monthKeys ws, p ≠ w0.monthPath k) → fs.content p = fs0.content p

/-- In the words of the code: the number of calls of `WriteMessage` that
switch the file, those whose month key differs from the current month
`prev`, which is then the month key of the call. -/
def monthChanges : String → List String → Nat
  | _, [] => 0
  | prev, k :: rest => (if k = prev then 0 else 1) + monthChanges k rest

/-- The calls of `WriteMessage` on one writer, one after the other, whatever
each of them returns: an error does not end the sequence, as in the loop of
`run`.  `none` is a run-time panic. -/
def Writer.writeEach (w : Writer) (fs : FileSystem) :
    List (String × Time) → Option (Writer × FileSystem)
  | [] => some (w, fs)
  | (line, t) :: rest =>
    match w.WriteMessage fs line t with
    | some (_, w, fs) => Writer.writeEach w fs rest
    | none => none

/-- What holds of a writer between the calls of its methods, whatever they
returned: the buffered writer and the file are set together, and a writer
without them has the initial current month `""`. -/
def Writer.consistent (w : Writer) : Prop :=
  (w.currentWriter = none ↔ w.currentFile = none) ∧
  (w.currentWriter = none → w.currentMonth = "")

/-! ## Package `main`: the loop of `run`

The calls of the logger, which writes to the terminal and to `errors.log`,
are left out. -/

/-- The variables of the loop of `run`: the converter, the writer with the
files, and the three counters. -/
structure RunState where
  conv : Converter
  w : Writer
  fs : FileSystem
  totalCount : Int
  processedCount : Int
  skippedCount : Int

/-- One turn of the loop of `run` over the results of `StreamMessages`.
`none` is a run-time panic. -/
def runStep (s : RunState) (result : ParseResult) : Option RunState :=
  let s := { s with totalCount := s.totalCount + 1 }
  match result with
  | ParseResult.error _ => some { s with skippedCount := s.skippedCount + 1 }
  | ParseResult.message msg =>
    -- Convert message
    match s.conv.ConvertMessage msg with
    | none => none
    | some (Except.error _, conv) =>
      some { s with conv := conv, skippedCount := s.skippedCount + 1 }
    | some (Except.ok (formatted, timestamp), conv) =>
      -- Write to file
      match s.w.WriteMessage s.fs formatted timestamp with
      | none => none
      | some (some _, w, fs) =>
        some { s with conv := conv, w := w, fs := fs, skippedCount := s.skippedCount + 1 }
      | some (none, w, fs) =>
        some { s with conv := conv, w := w, fs := fs, processedCount := s.processedCount + 1 }

/-- The loop of `run` over the results of `StreamMessages`. -/
def runLoop : RunState → List ParseResult → Option RunState
  | s, [] => some s
  | s, result :: rest =>
    match runStep s result with
    | some s => runLoop s rest
    | none => none

/-- The part of `run` from `converter.New()` to its return, on the results
that `StreamMessages` sends: the converter and the writer are made, the
results are processed, and the deferred `w.Close()` is run, whose error is
dropped.  The error is that of `writer.New`. -/
def runMessages (fs : FileSystem) (outputPath chatName : String) (results : List ParseResult) :
    Option (Except WriterError RunState) :=
  -- Initialize converter and writer
  let conv := New
  match Writer.New fs outputPath chatName with
  | none => some (Except.error WriterError.createDirectory)
  | some w =>
    -- Process messages
    match runLoop { conv := conv, w := w, fs := fs, totalCount := 0, processedCount := 0,
                    skippedCount := 0 } results with
    | none => none
    | some s =>
      match s.w.Close s.fs with
      | none => none
      | some (_, w, fs) => some (Except.ok { s with w := w, fs := fs })

/-- The lines and timestamps that `ConvertMessage` returns for the messages
of a stream, in stream order, from the converter `c` on: those of the
messages that convert successfully. -/
def convertLines (c : Converter) : List Message → List (String × Time)
  | [] => []
  | msg :: rest =>
    match c.ConvertMessage msg with
    | some (Except.ok lineAndTime, c') => lineAndTime :: convertLines c' rest
    | some (Except.error _, c') => convertLines c' rest
    | none => []

/-! ### Inputs of the test suite -/

/-- The message of `TestConvertMessage_Service`. -/
def testServiceMessage : Message :=
  { ID := 5, Kind := "service", Date := "2024-01-15T14:34:00", DateUnixtime := "",
    From := "", FromID := "", ReplyToMsgID := none, ForwardedFrom := "",
    Text := { Plain := "", Entities := [] }, TextEntities := [],
    Action := "invite_members", Actor := "Иван" }

/-- The message of `TestConvertMessage_Forwarded`. -/
def testForwardedMessage : Message :=
  { ID := 3, Kind := "message", Date := "2024-01-15T14:32:00", DateUnixtime := "",
    From := "Пётр", FromID := "", ReplyToMsgID := none, ForwardedFrom := "Алексей",
    Text := { Plain := "Важная информация", Entities := [] }, TextEntities := [],
    Action := "", Actor := "" }

/-- The message of `TestConvertMessage_WithTextEntities`. -/
def testEntitiesMessage : Message :=
  { ID := 1, Kind := "message", Date := "2024-01-15T14:30:00", DateUnixtime := "",
    From := "Анна", FromID := "", ReplyToMsgID := none, ForwardedFrom := "",
    Text := { Plain := "", Entities := [⟨"plain", "Это ", ""⟩, ⟨"bold", "важный", ""⟩,
      ⟨"plain", " текст", ""⟩] },
    TextEntities := [], Action := "", Actor := "" }

/-- The message of `TestConvertMessage_InvalidDate_ReturnsError`. -/
def testInvalidDateMessage : Message :=
  { ID := 1, Kind := "message", Date := "invalid-date", DateUnixtime := "",
    From := "Иван", FromID := "", ReplyToMsgID := none, ForwardedFrom := "",
    Text := { Plain := "Привет", Entities := [] }, TextEntities := [],
    Action := "", Actor := "" }

/-- The first message of the reply scenario of the specification: id 1,
body `hello`. -/
def testHelloMessage : Message :=
  { ID := 1, Kind := "message", Date := "2024-01-15T14:30:00", DateUnixtime := "",
    From := "Иван", FromID := "", ReplyToMsgID := none, ForwardedFrom := "",
    Text := { Plain := "hello", Entities := [] }, TextEntities := [],
    Action := "", Actor := "" }

/-- The message of `TestConvertMessage_Reply`: id 2, a reply to id 1. -/
def testReplyMessage : Message :=
  { ID := 2, Kind := "message", Date := "2024-01-15T14:31:00", DateUnixtime := "",
    From := "Мария", FromID := "", ReplyToMsgID := some 1, ForwardedFrom := "",
    Text := { Plain := "Отлично!", Entities := [] }, TextEntities := [],
    Action := "", Actor := "" }

/-- A forwarded message that is also a reply, to an id that was never
seen. -/
def testForwardedReplyMessage : Message :=
  { ID := 4, Kind := "message", Date := "2024-01-15T14:33:00", DateUnixtime := "",
    From := "Пётр", FromID := "", ReplyToMsgID := some 999, ForwardedFrom := "Алексей",
    Text := { Plain := "Важная информация", Entities := [] }, TextEntities := [],
    Action := "", Actor := "" }

/-- A message that replies to its own id. -/
def testSelfReplyMessage : Message :=
  { ID := 1, Kind := "message", Date := "2024-01-15T14:30:00", DateUnixtime := "",
    From := "Иван", FromID := "", ReplyToMsgID := some 1, ForwardedFrom := "",
    Text := { Plain := "hello", Entities := [] }, TextEntities := [],
    Action := "", Actor := "" }

/-- The document of `TestParser_GetChatInfo`. -/
def testChatDocument : JSON :=
  JSON.obj [("name", JSON.str "Рабочий чат"), ("type", JSON.str "private_supergroup"),
    ("id", JSON.num "1234567890"), ("messages", JSON.arr [])]

/-- An export whose chat name is the empty string. -/
def emptyNameDocument : JSON :=
  JSON.obj [("name", JSON.str ""), ("type", JSON.str "personal_chat")]

/-- An export with a top-level member whose value is the string `name`. -/
def nameValueDocument : JSON :=
  JSON.obj [("about", JSON.str "name"), ("name", JSON.str "Чат"),
    ("type", JSON.str "personal_chat")]

/-- An export without a top-level `name`, with a member whose value is the
string `name`. -/
def keyAsNameDocument : JSON :=
  JSON.obj [("about", JSON.str "name"), ("title", JSON.str "x"), ("type", JSON.str "t")]

/-- An export without a top-level `name`, the key `name` being in a nested
object and in an element of the messages. -/
def nestedNameDocument : JSON :=
  JSON.obj [("type", JSON.str "personal_chat"),
    ("messages", JSON.arr [JSON.obj [("name", JSON.str "X")]]),
    ("owner", JSON.obj [("name", JSON.str "Y")])]

/-- Files among which there is none yet, and where every file can be
created: the temporary directory of the tests of the writer. -/
def testFiles : FileSystem :=
  { content := fun _ => none, denied := fun _ => false }

/-- The time `jan` of the tests of the writer. -/
def testJanuary : Time :=
  { year := 2024, month := 1, day := 15, hour := 14, min := 30, sec := 0, nsec := 0, offset := 0 }

/-- The time `feb` of the tests of the writer. -/
def testFebruary : Time :=
  { year := 2024, month := 2, day := 10, hour := 10, min := 0, sec := 0, nsec := 0, offset := 0 }

/-- The time `mar` of `TestWriter_GetFileCount`. -/
def testMarch : Time :=
  { year := 2024, month := 3, day := 15, hour := 0, min := 0, sec := 0, nsec := 0, offset := 0 }

/-- The calls of `TestWriter_GetStats_ReturnsCorrectCounts`: three messages
in January, two in February. -/
def testStatsStream : List (String × Time) :=
  [("Message", testJanuary), ("Message", testJanuary), ("Message", testJanuary),
   ("Message", testFebruary), ("Message", testFebruary)]

/-- The calls of `TestWriter_SwitchesFilesOnMonthChange`. -/
def testSwitchStream : List (String × Time) :=
  [("[2024-01-15 14:30] Иван: Сообщение в январе", testJanuary),
   ("[2024-02-10 10:00] Мария: Сообщение в феврале", testFebruary)]

/-- The calls of `TestWriter_GetFileCount`. -/
def testFileCountStream : List (String × Time) :=
  [("Jan message", testJanuary), ("Feb message", testFebruary), ("Mar message", testMarch)]

/-- A stream that comes back to January after February. -/
def testReturnStream : List (String × Time) :=
  [("a", testJanuary), ("b", testFebruary), ("c", testJanuary)]

/-- The document of `TestParser_StreamMessages_Basic`. -/
def testStreamDocument : JSON :=
  JSON.obj [("name", JSON.str "Test Chat"), ("type", JSON.str "private_group"),
    ("id", JSON.num "123"),
    ("messages", JSON.arr [
      JSON.obj [("id", JSON.num "1"), ("type", JSON.str "message"),
        ("date", JSON.str "2024-01-15T14:30:00"), ("from", JSON.str "Иван"),
        ("text", JSON.str "Привет!")],
      JSON.obj [("id", JSON.num "2"), ("type", JSON.str "message"),
        ("date", JSON.str "2024-01-15T14:31:00"), ("from", JSON.str "Мария"),
        ("text", JSON.str "Привет! Как дела?")]])]

/-- An export of a chat whose name is `messages`, with an array `tags`
before the array `messages`:
`{"name":"messages","type":"private_group","tags":[1,2],"messages":[{"id":1,…}]}`. -/
def chatNamedMessagesDocument : JSON :=
  JSON.obj [("name", JSON.str "messages"), ("type", JSON.str "private_group"),
    ("tags", JSON.arr [JSON.num "1", JSON.num "2"]),
    ("messages", JSON.arr [
      JSON.obj [("id", JSON.num "1"), ("type", JSON.str "message"),
        ("date", JSON.str "2024-01-15T14:30:00"), ("from", JSON.str "Иван"),
        ("text", JSON.str "Привет!")]])]

/-- An export that breaks off inside its first message:
`{"name":"Test Chat","messages":[{"id":1,"type":"message"`. -/
def truncatedDocument : List Lexeme :=
  [Lexeme.beginObject, Lexeme.string "name", Lexeme.colon, Lexeme.string "Test Chat",
    Lexeme.comma, Lexeme.string "messages", Lexeme.colon, Lexeme.beginArray,
    Lexeme.beginObject, Lexeme.string "id", Lexeme.colon, Lexeme.number "1", Lexeme.comma,
    Lexeme.string "type", Lexeme.colon, Lexeme.string "message"]

/-- The first message of `TestParser_StreamMessages_Basic`, decoded. -/
def testStreamFirst : Message :=
  { ID := 1, Kind := "message", Date := "2024-01-15T14:30:00", DateUnixtime := "",
    From := "Иван", FromID := "", ReplyToMsgID := none, ForwardedFrom := "",
    Text := { Plain := "Привет!", Entities := [] }, TextEntities := [], Action := "",
    Actor := "" }

/-- The second message of `TestParser_StreamMessages_Basic`, decoded. -/
def testStreamSecond : Message :=
  { ID := 2, Kind := "message", Date := "2024-01-15T14:31:00", DateUnixtime := "",
    From := "Мария", FromID := "", ReplyToMsgID := none, ForwardedFrom := "",
    Text := { Plain := "Привет! Как дела?", Entities := [] }, TextEntities := [], Action := "",
    Actor := "" }

/-- An export whose first message has a string for its `id` and whose second
message is the first one of `TestParser_StreamMessages_Basic`. -/
def typeErrorDocument : JSON :=
  JSON.obj [("name", JSON.str "Test Chat"),
    ("messages", JSON.arr [
      JSON.obj [("id", JSON.str "one"), ("type", JSON.str "message")],
      JSON.obj [("id", JSON.num "1"), ("type", JSON.str "message"),
        ("date", JSON.str "2024-01-15T14:30:00"), ("from", JSON.str "Иван"),
        ("text", JSON.str "Привет!")]])]

/-- The message of `TestConvertMessage_WhitespaceOnlyText_ReturnsError`. -/
def testWhitespaceOnlyMessage : Message :=
  { ID := 1, Kind := "message", Date := "2024-01-15T14:30:00", DateUnixtime := "",
    From := "Иван", FromID := "", ReplyToMsgID := none, ForwardedFrom := "",
    Text := { Plain := "   \t\n  ", Entities := [] }, TextEntities := [],
    Action := "", Actor := "" }

/-- The spans of `TestConvertMessage_WithTextEntities` and a link with its
address, as the text of a message. -/
def testSpansContent : TextContent :=
  { Plain := "",
    Entities := [⟨"plain", "Это ", ""⟩, ⟨"bold", "важный", ""⟩, ⟨"plain", " текст", ""⟩,
      ⟨"text_link", "ссылка", "https://example.com"⟩] }

/-- A reply to the message with the id 1 that has the id 1 itself: the
message of `TestConvertMessage_Reply` with the id of the message it replies
to. -/
def testSameIdReplyMessage : Message :=
  { ID := 1, Kind := "message", Date := "2024-01-15T14:31:00", DateUnixtime := "",
    From := "Мария", FromID := "", ReplyToMsgID := some 1, ForwardedFrom := "",
    Text := { Plain := "Отлично!", Entities := [] }, TextEntities := [],
    Action := "", Actor := "" }

/-- Files among which there is none yet, and where the file of January 2024
of the chat `Test Chat` cannot be created. -/
def testDeniedFiles : FileSystem :=
  { content := fun _ => none,
    denied := fun p => decide (p = "/tmp/Test_Chat/Test_Chat_january_2024.md") }

/-! ## Properties of the sanitizer -/

theorem char_eq_ofNat_iff (r : Char) (n : Nat) (h : n.isValidChar) :
    r = Char.ofNat n ↔ r.toNat = n := by
  constructor
  · rintro rfl
    simp only [Char.ofNat, h, Char.ofNatAux, dite_true]
    rfl
  · intro e
    rw [← e, Char.ofNat_toNat]

theorem lookup_ofNat_true (r : Char) (ns : List Nat) (hv : ∀ n ∈ ns, n.isValidChar) :
    List.lookup r (ns.map fun n => (Char.ofNat n, true)) =
      if r.toNat ∈ ns then some true else none := by
  induction ns with
  | nil => simp [List.lookup]
  | cons n ns ih =>
    have hn : n.isValidChar := hv n (List.mem_cons_self _ _)
    have ih2 := ih fun m hm => hv m (List.mem_cons_of_mem _ hm)
    simp only [List.map_cons, List.lookup, List.mem_cons]
    by_cases h : r.toNat = n
    · have hr : (r == Char.ofNat n) = true := by
        rw [beq_iff_eq]; exact (char_eq_ofNat_iff r n hn).2 h
      simp [hr, h]
    · have hr : (r == Char.ofNat n) = false := by
        rw [beq_eq_false_iff_ne]
        exact fun c => h ((char_eq_ofNat_iff r n hn).1 c)
      simp only [hr, h, false_or]
      exact ih2

theorem invisibleChars_iff (r : Char) :
    invisibleChars r = true ↔
      r.toNat ∈ [0x200B, 0x200C, 0x200D, 0xFEFF, 0x2060, 0x2061, 0x2062, 0x2063,
        0x2064, 0x180E] := by
  have e : invisibleCharsEntries =
      [0x200B, 0x200C, 0x200D, 0xFEFF, 0x2060, 0x2061, 0x2062, 0x2063,
        0x2064, 0x180E].map fun n => (Char.ofNat n, true) := rfl
  unfold invisibleChars
  rw [e, lookup_ofNat_true r _ (by decide)]
  split_ifs with h
  · simp only [true_iff]; exact h
  · simp only [Bool.false_eq_true, false_iff]; exact h

theorem foldl_push_filter (p : Char → Bool) (l : List Char) (acc : String) :
    (l.foldl (fun builder r => if p r then builder.push r else builder) acc).data =
      acc.data ++ l.filter p := by
  induction l generalizing acc with
  | nil => simp
  | cons r rest ih =>
    simp only [List.foldl_cons, List.filter_cons]
    rw [ih]
    by_cases h : p r <;> simp [h, String.push]

/-- C1: `SanitizeText s` is `s` with every occurrence of the ten invisible
code points deleted; every other code point is kept, unchanged and in its
original order. -/
theorem SanitizeText_deletes_exactly_invisible (s : String) :
    (SanitizeText s).data =
      s.data.filter fun r => decide (r.toNat ∉
        [0x200B, 0x200C, 0x200D, 0xFEFF, 0x2060, 0x2061, 0x2062, 0x2063, 0x2064, 0x180E]) := by
  unfold SanitizeText
  rw [foldl_push_filter (fun r => !invisibleChars r) s.data ""]
  show [] ++ _ = _
  rw [List.nil_append]
  apply List.filter_congr
  intro r _
  have h := invisibleChars_iff r
  by_cases hi : invisibleChars r = true
  · have := h.1 hi
    simp only [hi, Bool.not_true]
    exact (decide_eq_false (not_not.2 this)).symm
  · have hn := mt h.2 hi
    simp only [Bool.not_eq_true] at hi
    simp only [hi, Bool.not_false]
    exact (decide_eq_true hn).symm

/-! ### The stages of `SanitizeName` -/

theorem mem_stringsReplaceAll {s : List Char} {old : Char} {new : List Char} {c : Char}
    (h : c ∈ stringsReplaceAll s old new) : (c ∈ s ∧ c ≠ old) ∨ (c ∈ new ∧ old ∈ s) := by
  unfold stringsReplaceAll at h
  rw [List.mem_flatMap] at h
  obtain ⟨r, hr, hc⟩ := h
  by_cases e : r = old
  · rw [if_pos e] at hc
    exact Or.inr ⟨hc, e ▸ hr⟩
  · rw [if_neg e, List.mem_singleton] at hc
    exact Or.inl ⟨hc ▸ hr, hc ▸ e⟩

theorem mem_classReplaceAllString {cls : Char → Bool} {s repl : List Char} {c : Char}
    (h : c ∈ classReplaceAllString cls s repl) :
    (c ∈ s ∧ cls c = false) ∨ (c ∈ repl ∧ ∃ r ∈ s, cls r = true) := by
  unfold classReplaceAllString at h
  rw [List.mem_flatMap] at h
  obtain ⟨r, hr, hc⟩ := h
  by_cases e : cls r = true
  · rw [if_pos e] at hc
    exact Or.inr ⟨hc, r, hr, e⟩
  · rw [if_neg e, List.mem_singleton] at hc
    subst hc
    exact Or.inl ⟨hr, by simpa using e⟩

theorem mem_multipleUnderscoresReplaceAll {c : Char} :
    ∀ (l : List Char) (b : Bool),
      c ∈ multipleUnderscoresReplaceAll [Char.ofNat 95] b l → c ∈ l
  | [], b, h => by simp [multipleUnderscoresReplaceAll] at h
  | r :: rest, b, h => by
    unfold multipleUnderscoresReplaceAll at h
    by_cases e : r = Char.ofNat 95
    · rw [if_pos e] at h
      cases b with
      | true =>
        rw [if_pos rfl] at h
        exact List.mem_cons_of_mem _ (mem_multipleUnderscoresReplaceAll rest true h)
      | false =>
        simp only [Bool.false_eq_true, if_false, List.singleton_append, List.mem_cons] at h
        rcases h with h | h
        · rw [h, e]; exact List.mem_cons_self _ _
        · exact List.mem_cons_of_mem _ (mem_multipleUnderscoresReplaceAll rest true h)
    · rw [if_neg e, List.mem_cons] at h
      rcases h with h | h
      · rw [h]; exact List.mem_cons_self _ _
      · exact List.mem_cons_of_mem _ (mem_multipleUnderscoresReplaceAll rest false h)

theorem stringsTrim_contiguous (l : List Char) (cut : Char) : stringsTrim l cut <:+: l := by
  unfold stringsTrim
  exact ((List.dropWhile_suffix _).isInfix).trans (List.rdropWhile_prefix _ _).isInfix

theorem mem_stringsTrim {l : List Char} {cut c : Char} (h : c ∈ stringsTrim l cut) : c ∈ l :=
  (stringsTrim_contiguous l cut).subset h

/-- After the collapse no underscore follows an underscore, and the output
of a scan resumed inside a match does not start with an underscore. -/
theorem multipleUnderscoresReplaceAll_chain :
    ∀ (l : List Char) (b : Bool),
      List.Chain' (fun a c => ¬(a = Char.ofNat 95 ∧ c = Char.ofNat 95))
          (multipleUnderscoresReplaceAll [Char.ofNat 95] b l) ∧
        (b = true → ∀ c ∈ (multipleUnderscoresReplaceAll [Char.ofNat 95] b l).head?,
          c ≠ Char.ofNat 95)
  | [], b => by simp [multipleUnderscoresReplaceAll]
  | r :: rest, b => by
    unfold multipleUnderscoresReplaceAll
    by_cases e : r = Char.ofNat 95
    · rw [if_pos e]
      have iht := multipleUnderscoresReplaceAll_chain rest true
      cases b with
      | true =>
        rw [if_pos rfl]
        exact iht
      | false =>
        simp only [Bool.false_eq_true, if_false, List.singleton_append, false_implies,
          and_true]
        refine iht.1.cons' ?_
        intro y hy
        exact fun hh => iht.2 rfl y hy hh.2
    · rw [if_neg e]
      have ihf := multipleUnderscoresReplaceAll_chain rest false
      refine ⟨ihf.1.cons' ?_, ?_⟩
      · intro y _ hh
        exact e hh.1
      · intro _ c hc
        simp only [List.head?_cons, Option.mem_def, Option.some.injEq] at hc
        exact hc ▸ e

theorem stringsTrim_head (l : List Char) (cut : Char) :
    ∀ c ∈ (stringsTrim l cut).head?, c ≠ cut := by
  intro c hc
  unfold stringsTrim at hc
  have h := List.head?_dropWhile_not (fun r => decide (r = cut))
    (l.rdropWhile fun r => decide (r = cut))
  rw [Option.mem_def] at hc
  rw [hc] at h
  simpa using h

theorem stringsTrim_getLast (l : List Char) (cut : Char) :
    ∀ c ∈ (stringsTrim l cut).getLast?, c ≠ cut := by
  intro c hc
  unfold stringsTrim at hc
  set m := l.rdropWhile fun r => decide (r = cut) with hm
  have hne : List.dropWhile (fun r => decide (r = cut)) m ≠ [] := by
    intro e
    rw [e] at hc
    simp at hc
  obtain ⟨t, ht⟩ := List.dropWhile_suffix (l := m) fun r => decide (r = cut)
  have hmne : m ≠ [] := by
    intro e
    rw [e] at hne
    simp at hne
  have hlast : m.getLast? = some c := by
    rw [Option.mem_def] at hc
    rw [← ht, List.getLast?_append_of_ne_nil _ hne]
    exact hc
  have hnot := List.rdropWhile_last_not (fun r => decide (r = cut)) l hmne
  rw [List.getLast?_eq_getLast _ hmne, Option.some.injEq] at hlast
  have hnot2 : ¬ decide (m.getLast hmne = cut) = true := hnot
  rw [hlast] at hnot2
  simpa using hnot2

theorem contains_ofNat_iff (r : Char) (ns : List Nat) (hv : ∀ n ∈ ns, n.isValidChar) :
    (ns.map Char.ofNat).contains r = true ↔ r.toNat ∈ ns := by
  induction ns with
  | nil => simp
  | cons n ns ih =>
    have hn : n.isValidChar := hv n (List.mem_cons_self _ _)
    have ih2 := ih fun m hm => hv m (List.mem_cons_of_mem _ hm)
    rw [List.map_cons, List.contains_cons, Bool.or_eq_true, ih2, List.mem_cons, beq_iff_eq,
      char_eq_ofNat_iff r n hn]

theorem specialCharsPattern_iff (r : Char) :
    specialCharsPattern r = true ↔ r.toNat ∈ [47, 92, 58, 42, 63, 34, 60, 62, 124] :=
  contains_ofNat_iff r [47, 92, 58, 42, 63, 34, 60, 62, 124] (by decide)

theorem underscore_iff (r : Char) : r = Char.ofNat 95 ↔ r.toNat = 95 :=
  char_eq_ofNat_iff r 95 (by decide)

theorem space_iff (r : Char) : r = Char.ofNat 32 ↔ r.toNat = 32 :=
  char_eq_ofNat_iff r 32 (by decide)

/-- Every rune of `SanitizeName s` is an underscore or a rune of `s` that is
neither a space nor a special character. -/
theorem mem_SanitizeName {s : String} {c : Char} (h : c ∈ (SanitizeName s).data) :
    (c = Char.ofNat 95 ∨ c ∈ s.data) ∧ c ≠ Char.ofNat 32 ∧ specialCharsPattern c = false := by
  unfold SanitizeName at h
  have h1 := mem_multipleUnderscoresReplaceAll _ _ (mem_stringsTrim h)
  rcases mem_classReplaceAllString h1 with ⟨h2, hcls⟩ | ⟨h2, _⟩
  · rcases mem_stringsReplaceAll h2 with ⟨h3, hsp⟩ | ⟨h3, _⟩
    · exact ⟨Or.inr h3, hsp, hcls⟩
    · rw [List.mem_singleton] at h3
      subst h3
      exact ⟨Or.inl rfl, by decide, hcls⟩
  · rw [List.mem_singleton] at h2
    subst h2
    exact ⟨Or.inl rfl, by decide, by decide⟩

/-- C2: `SanitizeName s` contains no space and none of the characters
`/ \ : * ? " < > |`, does not begin or end with an underscore, and contains
no two consecutive underscores. -/
theorem SanitizeName_is_filename_safe (s : String) :
    (∀ c ∈ (SanitizeName s).data, c.toNat ∉ [32, 47, 92, 58, 42, 63, 34, 60, 62, 124]) ∧
    (SanitizeName s).data.head? ≠ some '_' ∧
    (SanitizeName s).data.getLast? ≠ some '_' ∧
    ¬ ['_', '_'] <:+: (SanitizeName s).data := by
  refine ⟨?_, ?_, ?_, ?_⟩
  · intro c hc hmem
    obtain ⟨_, hsp, hcls⟩ := mem_SanitizeName hc
    rw [List.mem_cons] at hmem
    rcases hmem with h | h
    · exact hsp ((space_iff c).2 h)
    · rw [(specialCharsPattern_iff c).2 h] at hcls
      exact Bool.noConfusion hcls
  · intro h
    exact stringsTrim_head _ (Char.ofNat 95) _ (Option.mem_def.2 h) rfl
  · intro h
    exact stringsTrim_getLast _ (Char.ofNat 95) _ (Option.mem_def.2 h) rfl
  · intro h
    have hcollapsed := (multipleUnderscoresReplaceAll_chain
      (classReplaceAllString specialCharsPattern
        (stringsReplaceAll s.data (Char.ofNat 32) [Char.ofNat 95]) [Char.ofNat 95]) false).1
    have htrimmed := List.Chain'.infix hcollapsed (stringsTrim_contiguous _ (Char.ofNat 95))
    have hchain := List.Chain'.infix htrimmed h
    rw [List.chain'_cons] at hchain
    exact hchain.1 ⟨rfl, rfl⟩

theorem filter_stringsReplaceAll (keep : Char → Bool) (s : List Char) (old : Char)
    (new : List Char) (hold : keep old = false) (hnew : ∀ c ∈ new, keep c = false) :
    (stringsReplaceAll s old new).filter keep = s.filter keep := by
  unfold stringsReplaceAll
  induction s with
  | nil => rfl
  | cons r rest ih =>
    rw [List.flatMap_cons, List.filter_append, ih]
    by_cases e : r = old
    · rw [if_pos e, List.filter_eq_nil_iff.2 (fun c hc => by simp [hnew c hc]), e,
        List.filter_cons_of_neg (by simp [hold]), List.nil_append]
    · rw [if_neg e]
      cases hk : keep r <;> simp [List.filter_cons, hk]

theorem filter_classReplaceAllString (keep cls : Char → Bool) (s repl : List Char)
    (hcls : ∀ c, cls c = true → keep c = false) (hrepl : ∀ c ∈ repl, keep c = false) :
    (classReplaceAllString cls s repl).filter keep = s.filter keep := by
  unfold classReplaceAllString
  induction s with
  | nil => rfl
  | cons r rest ih =>
    rw [List.flatMap_cons, List.filter_append, ih]
    by_cases e : cls r = true
    · rw [if_pos e, List.filter_eq_nil_iff.2 (fun c hc => by simp [hrepl c hc]),
        List.filter_cons_of_neg (by simp [hcls r e]), List.nil_append]
    · rw [if_neg e]
      cases hk : keep r <;> simp [List.filter_cons, hk]

theorem filter_multipleUnderscoresReplaceAll (keep : Char → Bool)
    (hus : keep (Char.ofNat 95) = false) :
    ∀ (l : List Char) (b : Bool),
      (multipleUnderscoresReplaceAll [Char.ofNat 95] b l).filter keep = l.filter keep
  | [], b => by simp [multipleUnderscoresReplaceAll]
  | r :: rest, b => by
    unfold multipleUnderscoresReplaceAll
    by_cases e : r = Char.ofNat 95
    · rw [if_pos e, e, List.filter_cons_of_neg (by simp [hus])]
      cases b with
      | true =>
        rw [if_pos rfl]
        exact filter_multipleUnderscoresReplaceAll keep hus rest true
      | false =>
        rw [if_neg (by simp), List.singleton_append, List.filter_cons_of_neg (by simp [hus])]
        exact filter_multipleUnderscoresReplaceAll keep hus rest true
    · rw [if_neg e, List.filter_cons, List.filter_cons,
        filter_multipleUnderscoresReplaceAll keep hus rest false]

theorem filter_stringsTrim (keep : Char → Bool) (l : List Char) (cut : Char)
    (hcut : keep cut = false) : (stringsTrim l cut).filter keep = l.filter keep := by
  have hdrop : ∀ m : List Char,
      (m.dropWhile fun r => decide (r = cut)).filter keep = m.filter keep := by
    intro m
    induction m with
    | nil => rfl
    | cons r rest ih =>
      by_cases e : r = cut
      · rw [List.dropWhile_cons_of_pos (by simpa using e), ih, e,
          List.filter_cons_of_neg (by simp [hcut])]
      · rw [List.dropWhile_cons_of_neg (by simpa using e)]
  unfold stringsTrim
  rw [hdrop, List.rdropWhile, List.filter_reverse, hdrop, List.filter_reverse,
    List.reverse_reverse]

theorem stringsReplaceAll_id (s : List Char) (old : Char) (new : List Char)
    (h : ∀ c ∈ s, c ≠ old) : stringsReplaceAll s old new = s := by
  unfold stringsReplaceAll
  induction s with
  | nil => rfl
  | cons r rest ih =>
    rw [List.flatMap_cons, if_neg (h r (List.mem_cons_self _ _)),
      ih fun c hc => h c (List.mem_cons_of_mem _ hc)]
    rfl

theorem classReplaceAllString_id (cls : Char → Bool) (s repl : List Char)
    (h : ∀ c ∈ s, cls c = false) : classReplaceAllString cls s repl = s := by
  unfold classReplaceAllString
  induction s with
  | nil => rfl
  | cons r rest ih =>
    rw [List.flatMap_cons, if_neg (by simp [h r (List.mem_cons_self _ _)]),
      ih fun c hc => h c (List.mem_cons_of_mem _ hc)]
    rfl

theorem multipleUnderscoresReplaceAll_id (repl : List Char) :
    ∀ (l : List Char) (b : Bool), (∀ c ∈ l, c ≠ Char.ofNat 95) →
      multipleUnderscoresReplaceAll repl b l = l
  | [], b, _ => by simp [multipleUnderscoresReplaceAll]
  | r :: rest, b, h => by
    unfold multipleUnderscoresReplaceAll
    rw [if_neg (h r (List.mem_cons_self _ _)),
      multipleUnderscoresReplaceAll_id repl rest false
        fun c hc => h c (List.mem_cons_of_mem _ hc)]

theorem stringsTrim_id (l : List Char) (cut : Char) (h : ∀ c ∈ l, c ≠ cut) :
    stringsTrim l cut = l := by
  unfold stringsTrim
  have h1 : (l.rdropWhile fun r => decide (r = cut)) = l := by
    rw [List.rdropWhile_eq_self_iff]
    intro hl
    simpa using h _ (List.getLast_mem hl)
  rw [h1, List.dropWhile_eq_self_iff]
  intro hl
  simpa using h _ (List.get_mem l 0 hl)

/-- C3: the code points of `s` that are not a space, an underscore or one of
`/ \ : * ? " < > |` appear in `SanitizeName s` unchanged and in the same
order, every other code point of `SanitizeName s` is an underscore, and a
name made only of such code points is returned unchanged. -/
theorem SanitizeName_preserves_other_code_points (s : String) :
    ((SanitizeName s).data.filter fun c =>
        decide (c.toNat ∉ [32, 95, 47, 92, 58, 42, 63, 34, 60, 62, 124])) =
      (s.data.filter fun c =>
        decide (c.toNat ∉ [32, 95, 47, 92, 58, 42, 63, 34, 60, 62, 124])) ∧
    (∀ c ∈ (SanitizeName s).data,
      c.toNat ∈ [32, 95, 47, 92, 58, 42, 63, 34, 60, 62, 124] → c = '_') ∧
    ((∀ c ∈ s.data, c.toNat ∉ [32, 95, 47, 92, 58, 42, 63, 34, 60, 62, 124]) →
      SanitizeName s = s) := by
  refine ⟨?_, ?_, ?_⟩
  · unfold SanitizeName
    have hus : (fun c : Char =>
        decide (c.toNat ∉ [32, 95, 47, 92, 58, 42, 63, 34, 60, 62, 124])) (Char.ofNat 95)
          = false := by decide
    have hsp : (fun c : Char =>
        decide (c.toNat ∉ [32, 95, 47, 92, 58, 42, 63, 34, 60, 62, 124])) (Char.ofNat 32)
          = false := by decide
    have hrepl : ∀ c ∈ [Char.ofNat 95], (fun c : Char =>
        decide (c.toNat ∉ [32, 95, 47, 92, 58, 42, 63, 34, 60, 62, 124])) c = false := by
      intro c hc
      rw [List.mem_singleton] at hc
      rw [hc]
      exact hus
    show List.filter _ (stringsTrim _ _) = _
    rw [filter_stringsTrim _ _ _ hus, filter_multipleUnderscoresReplaceAll _ hus,
      filter_classReplaceAllString _ _ _ _ ?_ hrepl, filter_stringsReplaceAll _ _ _ _ hsp hrepl]
    intro c hc
    have := (specialCharsPattern_iff c).1 hc
    simp only [decide_eq_false_iff_not, not_not]
    exact List.mem_cons_of_mem _ (List.mem_cons_of_mem _ this)
  · intro c hc hmem
    obtain ⟨_, hsp, hcls⟩ := mem_SanitizeName hc
    rw [List.mem_cons] at hmem
    rcases hmem with h | h
    · exact absurd ((space_iff c).2 h) hsp
    · rw [List.mem_cons] at h
      rcases h with h | h
      · exact (underscore_iff c).2 h
      · rw [(specialCharsPattern_iff c).2 h] at hcls
        exact Bool.noConfusion hcls
  · intro h
    have hsp : ∀ c ∈ s.data, c ≠ Char.ofNat 32 := fun c hc e =>
      h c hc (by rw [(space_iff c).1 e]; decide)
    have hus : ∀ c ∈ s.data, c ≠ Char.ofNat 95 := fun c hc e =>
      h c hc (by rw [(underscore_iff c).1 e]; decide)
    have hcls : ∀ c ∈ s.data, specialCharsPattern c = false := by
      intro c hc
      cases hp : specialCharsPattern c
      · rfl
      · exact absurd (List.mem_cons_of_mem _ (List.mem_cons_of_mem _
          ((specialCharsPattern_iff c).1 hp))) (h c hc)
    unfold SanitizeName
    simp only
    rw [stringsReplaceAll_id _ _ _ hsp, classReplaceAllString_id _ _ _ hcls,
      multipleUnderscoresReplaceAll_id _ _ _ hus, stringsTrim_id _ _ hus]

/-- C3, at a Cyrillic name: it is returned unchanged. -/
theorem SanitizeName_preserves_other_code_points_witness :
    SanitizeName "Привет" = "Привет" :=
  (SanitizeName_preserves_other_code_points "Привет").2.2 (by decide)

/-- Go `unicode.IsSpace` holds exactly at the code points that have the
Unicode property White_Space. -/
theorem unicodeIsSpace_iff (r : Char) :
    unicodeIsSpace r = true ↔
      r.toNat ∈ [0x09, 0x0A, 0x0B, 0x0C, 0x0D, 0x20, 0x85, 0xA0, 0x1680, 0x2000, 0x2001,
        0x2002, 0x2003, 0x2004, 0x2005, 0x2006, 0x2007, 0x2008, 0x2009, 0x200A, 0x2028,
        0x2029, 0x202F, 0x205F, 0x3000] := by
  unfold unicodeIsSpace
  generalize r.toNat = n
  by_cases h : n ≤ 0xFF
  · rw [if_pos h]
    simp only [List.contains_eq_any_beq, List.any_cons, List.any_nil, Bool.or_false,
      Bool.or_eq_true, beq_iff_eq, List.mem_cons, List.mem_singleton, List.not_mem_nil,
      or_false]
    omega
  · rw [if_neg h]
    simp only [whiteSpaceR16, whiteSpaceLatinOffset, List.getLast?, List.getLast, List.length,
      List.drop, is16, List.mem_cons, List.mem_singleton, List.not_mem_nil, or_false]
    have h0 : (decide (2 < 0 + 1 + 1 + 1 + 1 + 1 + 1 + 1) && decide (n ≤ 12288)) = true ↔
        n ≤ 12288 := by simp
    have h1 : (5600 == 1 || (n - 160) % 5600 == 0) = true ↔ (n - 160) % 5600 = 0 := by simp
    have h2 : (48 == 1 || (n - 8239) % 48 == 0) = true ↔ (n - 8239) % 48 = 0 := by simp
    have h3 : ∀ k : Nat, (1 == 1 || k % 1 == 0) = true := by simp
    have d1 : ¬ n < 160 := by omega
    rw [if_congr h0 rfl rfl]
    by_cases c0 : n ≤ 12288
    swap
    · rw [if_neg c0]; simp only [Bool.false_eq_true, false_iff]; omega
    rw [if_pos c0, if_neg d1]
    by_cases c1 : n ≤ 5760
    · rw [if_pos c1, h1]; omega
    rw [if_neg c1]
    by_cases c2 : n < 8192
    · rw [if_pos c2]; simp only [Bool.false_eq_true, false_iff]; omega
    rw [if_neg c2]
    by_cases c3 : n ≤ 8202
    · rw [if_pos c3]; simp only [h3, true_iff]; omega
    rw [if_neg c3]
    by_cases c4 : n < 8232
    · rw [if_pos c4]; simp only [Bool.false_eq_true, false_iff]; omega
    rw [if_neg c4]
    by_cases c5 : n ≤ 8233
    · rw [if_pos c5]; simp only [h3, true_iff]; omega
    rw [if_neg c5]
    by_cases c6 : n < 8239
    · rw [if_pos c6]; simp only [Bool.false_eq_true, false_iff]; omega
    rw [if_neg c6]
    by_cases c7 : n ≤ 8287
    · rw [if_pos c7, h2]; omega
    rw [if_neg c7]
    by_cases c8 : n < 12288
    · rw [if_pos c8]; simp only [Bool.false_eq_true, false_iff]; omega
    rw [if_neg c8, if_pos c0]
    simp only [h3, true_iff]; omega

theorem containsOnlyWhitespaceLoop_iff (l : List Char) :
    containsOnlyWhitespaceLoop l = true ↔
      ∀ r ∈ l, unicodeIsSpace r = true ∨ invisibleChars r = true := by
  induction l with
  | nil => simp [containsOnlyWhitespaceLoop]
  | cons r rest ih =>
    unfold containsOnlyWhitespaceLoop
    rw [List.forall_mem_cons, ← ih]
    cases unicodeIsSpace r <;> cases invisibleChars r <;> simp

/-- C4: `ContainsOnlyWhitespace s` is true if and only if every code point of
`s` is a Unicode whitespace code point or one of the ten invisible code
points; so it is true for the empty string and false for a string that has a
code point of neither kind. -/
theorem ContainsOnlyWhitespace_iff (s : String) :
    (ContainsOnlyWhitespace s = true ↔
      ∀ c ∈ s.data,
        c.toNat ∈ [0x09, 0x0A, 0x0B, 0x0C, 0x0D, 0x20, 0x85, 0xA0, 0x1680, 0x2000, 0x2001,
          0x2002, 0x2003, 0x2004, 0x2005, 0x2006, 0x2007, 0x2008, 0x2009, 0x200A, 0x2028,
          0x2029, 0x202F, 0x205F, 0x3000] ∨
        c.toNat ∈ [0x200B, 0x200C, 0x200D, 0xFEFF, 0x2060, 0x2061, 0x2062, 0x2063, 0x2064,
          0x180E]) ∧
    ContainsOnlyWhitespace "" = true ∧
    ((∃ c ∈ s.data,
        c.toNat ∉ [0x09, 0x0A, 0x0B, 0x0C, 0x0D, 0x20, 0x85, 0xA0, 0x1680, 0x2000, 0x2001,
          0x2002, 0x2003, 0x2004, 0x2005, 0x2006, 0x2007, 0x2008, 0x2009, 0x200A, 0x2028,
          0x2029, 0x202F, 0x205F, 0x3000] ∧
        c.toNat ∉ [0x200B, 0x200C, 0x200D, 0xFEFF, 0x2060, 0x2061, 0x2062, 0x2063, 0x2064,
          0x180E]) →
      ContainsOnlyWhitespace s = false) := by
  have key : ContainsOnlyWhitespace s = true ↔
      ∀ c ∈ s.data,
        c.toNat ∈ [0x09, 0x0A, 0x0B, 0x0C, 0x0D, 0x20, 0x85, 0xA0, 0x1680, 0x2000, 0x2001,
          0x2002, 0x2003, 0x2004, 0x2005, 0x2006, 0x2007, 0x2008, 0x2009, 0x200A, 0x2028,
          0x2029, 0x202F, 0x205F, 0x3000] ∨
        c.toNat ∈ [0x200B, 0x200C, 0x200D, 0xFEFF, 0x2060, 0x2061, 0x2062, 0x2063, 0x2064,
          0x180E] := by
    unfold ContainsOnlyWhitespace
    rw [containsOnlyWhitespaceLoop_iff]
    constructor
    · intro h c hc
      exact (h c hc).imp (unicodeIsSpace_iff c).1 (invisibleChars_iff c).1
    · intro h c hc
      exact (h c hc).imp (unicodeIsSpace_iff c).2 (invisibleChars_iff c).2
  refine ⟨key, rfl, ?_⟩
  rintro ⟨c, hc, hws, hinv⟩
  cases hres : ContainsOnlyWhitespace s
  · rfl
  · exact ((key.1 hres c hc).elim hws hinv).elim

/-- C4, at a string with a visible letter between spaces. -/
theorem ContainsOnlyWhitespace_iff_witness : ContainsOnlyWhitespace "  Hello  " = false :=
  (ContainsOnlyWhitespace_iff "  Hello  ").2.2 ⟨'H', by decide, by decide, by decide⟩

/-! ## The time model on sample inputs -/

theorem timeParse_layoutISO_sample :
    timeParse layoutISO "2024-01-15T14:34:00" = some ⟨2024, 1, 15, 14, 34, 0, 0, 0⟩ := by
  decide

theorem timeParse_layoutISO_rejects :
    timeParse layoutISO "2024-02-30T14:34:00" = none ∧
    timeParse layoutISO "2024-01-15T14:34:00Z" = none ∧
    timeParse layoutISO "invalid-date" = none := by
  decide

theorem timeParse_layoutRFC3339_sample :
    timeParse layoutRFC3339 "2024-01-15T14:34:00+03:00" =
      some ⟨2024, 1, 15, 14, 34, 0, 0, 10800⟩ ∧
    timeParse layoutRFC3339 "2024-01-15T4:34:00.25Z" =
      some ⟨2024, 1, 15, 4, 34, 0, 250000000, 0⟩ := by
  decide

theorem timeFormat_sample :
    timeFormat ⟨2024, 1, 15, 4, 34, 0, 250000000, 0⟩ = "2024-01-15 04:34" := by
  decide

/-! ## Properties of the converter -/

theorem writeEntity_append (builder : String) (e : TextEntity) :
    writeEntity builder e = builder ++ writeEntity "" e := by
  unfold writeEntity
  split <;> simp only [String.append_assoc, String.empty_append]
  split <;> rfl

theorem foldl_writeEntity (es : List TextEntity) (builder : String) :
    es.foldl writeEntity builder = builder ++ es.foldl writeEntity "" := by
  induction es generalizing builder with
  | nil => simp
  | cons e es ih =>
    rw [List.foldl_cons, List.foldl_cons, ih, ih (writeEntity "" e), writeEntity_append,
      String.append_assoc]

theorem ConvertTextEntities_cons (c : Converter) (e : TextEntity) (es : List TextEntity) :
    c.ConvertTextEntities (e :: es) = writeEntity "" e ++ c.ConvertTextEntities es := by
  unfold Converter.ConvertTextEntities
  rw [List.foldl_cons, foldl_writeEntity]

theorem ConvertTextEntities_singleton (c : Converter) (e : TextEntity) :
    c.ConvertTextEntities [e] = writeEntity "" e := rfl

theorem ConvertTextEntities_append (c : Converter) (xs ys : List TextEntity) :
    c.ConvertTextEntities (xs ++ ys) = c.ConvertTextEntities xs ++ c.ConvertTextEntities ys := by
  unfold Converter.ConvertTextEntities
  rw [List.foldl_append, foldl_writeEntity]

theorem join_cons (x : String) (xs : List String) : String.join (x :: xs) = x ++ String.join xs := by
  rw [String.join_eq, String.join_eq]
  rfl

theorem ConvertTextEntities_eq_join (c : Converter) (entities : List TextEntity) :
    c.ConvertTextEntities entities =
      String.join (entities.map fun e => c.ConvertTextEntities [e]) := by
  induction entities with
  | nil => rfl
  | cons e es ih =>
    rw [ConvertTextEntities_cons, List.map_cons, join_cons, ← ih, ConvertTextEntities_singleton]

theorem writeEntity_other (e : TextEntity)
    (h : e.Kind ∉ ["bold", "italic", "code", "pre", "text_link"]) :
    writeEntity "" e = SanitizeText e.Text := by
  simp only [List.mem_cons, List.mem_singleton, List.not_mem_nil, or_false, not_or] at h
  obtain ⟨h1, h2, h3, h4, h5⟩ := h
  unfold writeEntity
  split <;> first
    | rfl
    | (rename_i heq; first
        | exact absurd heq h1
        | exact absurd heq h2
        | exact absurd heq h3
        | exact absurd heq h4
        | exact absurd heq h5)

/-- C5: `ConvertTextEntities` returns the concatenation, in list order, of
the rendering of each span; a bold span renders as its sanitized text between
`**`, an italic one between `_`, a code or pre one between backticks, and a
span of any kind other than bold, italic, code, pre and text_link as its
sanitized text alone. -/
theorem ConvertTextEntities_rendering (c : Converter) (entities : List TextEntity) :
    c.ConvertTextEntities entities =
      String.join (entities.map fun e => c.ConvertTextEntities [e]) ∧
    ∀ e : TextEntity,
      (e.Kind = "bold" →
        c.ConvertTextEntities [e] = "**" ++ SanitizeText e.Text ++ "**") ∧
      (e.Kind = "italic" →
        c.ConvertTextEntities [e] = "_" ++ SanitizeText e.Text ++ "_") ∧
      (e.Kind = "code" ∨ e.Kind = "pre" →
        c.ConvertTextEntities [e] = "`" ++ SanitizeText e.Text ++ "`") ∧
      (e.Kind ∉ ["bold", "italic", "code", "pre", "text_link"] →
        c.ConvertTextEntities [e] = SanitizeText e.Text) := by
  refine ⟨ConvertTextEntities_eq_join c entities, fun e => ⟨?_, ?_, ?_, ?_⟩⟩
  · intro h
    rw [ConvertTextEntities_singleton]
    unfold writeEntity
    rw [h]
    rfl
  · intro h
    rw [ConvertTextEntities_singleton]
    unfold writeEntity
    rw [h]
    rfl
  · intro h
    rw [ConvertTextEntities_singleton]
    unfold writeEntity
    rcases h with h | h <;> rw [h] <;> rfl
  · intro h
    rw [ConvertTextEntities_singleton]
    exact writeEntity_other e h

/-- C5, at a bold span. -/
theorem ConvertTextEntities_rendering_witness :
    New.ConvertTextEntities [⟨"bold", "важный", ""⟩] = "**" ++ SanitizeText "важный" ++ "**" :=
  ((ConvertTextEntities_rendering New []).2 ⟨"bold", "важный", ""⟩).1 rfl

/-- C6: a span of kind text_link renders as its href, verbatim, when the href
is not empty, whatever its display text, and as its sanitized text when the
href is empty. -/
theorem ConvertTextEntities_text_link (c : Converter) (before after : List TextEntity)
    (e : TextEntity) (h : e.Kind = "text_link") :
    c.ConvertTextEntities (before ++ e :: after) =
      c.ConvertTextEntities before ++
        (if e.Href ≠ "" then e.Href else SanitizeText e.Text) ++
        c.ConvertTextEntities after ∧
    (e.Href ≠ "" → ∀ text : String,
      c.ConvertTextEntities (before ++ { e with Text := text } :: after) =
        c.ConvertTextEntities (before ++ e :: after)) := by
  have hw : ∀ e : TextEntity, e.Kind = "text_link" →
      writeEntity "" e = if e.Href ≠ "" then e.Href else SanitizeText e.Text := by
    intro e h
    unfold writeEntity
    rw [h]
    show (if e.Href ≠ "" then "" ++ e.Href else "" ++ SanitizeText e.Text) = _
    simp only [String.empty_append]
  have hone : ∀ e : TextEntity, e.Kind = "text_link" →
      c.ConvertTextEntities (before ++ e :: after) =
        c.ConvertTextEntities before ++
          (if e.Href ≠ "" then e.Href else SanitizeText e.Text) ++
          c.ConvertTextEntities after := by
    intro e h
    rw [ConvertTextEntities_append, ConvertTextEntities_cons, hw e h, String.append_assoc]
  refine ⟨hone e h, ?_⟩
  intro hne text
  rw [hone e h, hone { e with Text := text } h]
  simp only [hne, ne_eq, not_false_eq_true, if_true]

/-- C6, at the link of the test suite: the href is written, the display text
is not. -/
theorem ConvertTextEntities_text_link_witness :
    New.ConvertTextEntities [⟨"text_link", "ссылка", "https://example.com"⟩] =
      "https://example.com" :=
  (ConvertTextEntities_text_link New [] [] ⟨"text_link", "ссылка", "https://example.com"⟩ rfl).1

/-! ### `ConvertMessage`, case by case -/

theorem formatTimestamp_eq_none_iff (d : String) :
    formatTimestamp d = none ↔
      timeParse layoutISO d = none ∧ timeParse layoutRFC3339 d = none := by
  unfold formatTimestamp
  cases timeParse layoutISO d <;> cases timeParse layoutRFC3339 d <;> simp

theorem truncateForReply_total (text : String) (maxLen : Int) (h : 3 ≤ maxLen) :
    ∃ preview, truncateForReply text maxLen = some preview := by
  unfold truncateForReply
  simp only
  split_ifs with h1 h2 h3
  · exact ⟨_, rfl⟩
  · exact ⟨_, rfl⟩
  · exact ⟨_, rfl⟩
  · exact absurd ⟨by omega, by omega⟩ h3

theorem ConvertMessage_bad_date (c : Converter) (msg : Message)
    (hd : formatTimestamp msg.Date = none) :
    c.ConvertMessage msg = some (Except.error ConvertError.invalidDateFormat, c) := by
  unfold Converter.ConvertMessage
  rw [hd]

theorem ConvertMessage_service (c : Converter) (msg : Message) (ts : String) (t : Time)
    (hd : formatTimestamp msg.Date = some (ts, t))
    (hs : msg.Kind = "service" ∨ msg.Action ≠ "") :
    c.ConvertMessage msg =
      some (Except.ok ("[" ++ ts ++ "] [Служебное: " ++
        (if msg.Actor ≠ "" then msg.Actor else if msg.From ≠ "" then msg.From else "Unknown")
        ++ " " ++ msg.Action ++ "]", t), c) := by
  unfold Converter.ConvertMessage
  rw [hd]
  simp only [if_pos hs]
  by_cases ha : msg.Actor = "" <;> by_cases hf : msg.From = "" <;> simp [ha, hf]

theorem source_text_eq_resolvedBody (c : Converter) (msg : Message) :
    (if msg.Text.Plain ≠ "" then SanitizeText msg.Text.Plain
      else if msg.Text.Entities.length > 0 then c.ConvertTextEntities msg.Text.Entities
      else if msg.TextEntities.length > 0 then c.ConvertTextEntities msg.TextEntities
      else "") = resolvedBody c msg := by
  unfold resolvedBody
  simp only [gt_iff_lt, List.length_pos]

theorem ConvertMessage_empty (c : Converter) (msg : Message) (ts : String) (t : Time)
    (hd : formatTimestamp msg.Date = some (ts, t))
    (hs : ¬(msg.Kind = "service" ∨ msg.Action ≠ ""))
    (he : ContainsOnlyWhitespace (resolvedBody c msg) = true) :
    c.ConvertMessage msg = some (Except.error ConvertError.emptyMessage, c) := by
  unfold Converter.ConvertMessage
  rw [hd]
  simp only [if_neg hs, source_text_eq_resolvedBody, he, if_true]

theorem ConvertMessage_no_reply (c : Converter) (msg : Message) (ts : String) (t : Time)
    (hd : formatTimestamp msg.Date = some (ts, t))
    (hs : ¬(msg.Kind = "service" ∨ msg.Action ≠ ""))
    (he : ContainsOnlyWhitespace (resolvedBody c msg) = false)
    (hr : msg.ReplyToMsgID = none) :
    c.ConvertMessage msg =
      some (Except.ok ("[" ++ ts ++ "] " ++ (if msg.From = "" then "Unknown" else msg.From)
        ++ ": " ++
        (if msg.ForwardedFrom ≠ "" then "[Переслано от: " ++ msg.ForwardedFrom ++ "] " else "")
        ++ resolvedBody c msg, t), c.CacheMessage msg.ID (resolvedBody c msg)) := by
  unfold Converter.ConvertMessage
  rw [hd]
  simp only [if_neg hs, source_text_eq_resolvedBody, he, hr, Bool.false_eq_true, if_false,
    Option.map_some']

theorem ConvertMessage_reply (c : Converter) (msg : Message) (ts : String) (t : Time)
    (replyTo : Int)
    (hd : formatTimestamp msg.Date = some (ts, t))
    (hs : ¬(msg.Kind = "service" ∨ msg.Action ≠ ""))
    (he : ContainsOnlyWhitespace (resolvedBody c msg) = false)
    (hr : msg.ReplyToMsgID = some replyTo) :
    ∃ preview : String,
      (match (c.CacheMessage msg.ID (resolvedBody c msg)).messageCache replyTo with
        | some cached => truncateForReply cached 50 = some preview
        | none => preview = "...") ∧
      c.ConvertMessage msg =
        some (Except.ok ("[" ++ ts ++ "] " ++ (if msg.From = "" then "Unknown" else msg.From)
          ++ ": " ++ ("[В ответ на: \"" ++ preview ++ "\"] ") ++ resolvedBody c msg, t),
          c.CacheMessage msg.ID (resolvedBody c msg)) := by
  unfold Converter.ConvertMessage
  rw [hd]
  simp only [if_neg hs, source_text_eq_resolvedBody, he, hr, Bool.false_eq_true, if_false]
  unfold Converter.GetCachedMessage
  cases hc : (c.CacheMessage msg.ID (resolvedBody c msg)).messageCache replyTo with
  | none => exact ⟨"...", rfl, rfl⟩
  | some cached =>
    obtain ⟨preview, hp⟩ := truncateForReply_total cached 50 (by decide)
    refine ⟨preview, hp, ?_⟩
    simp only [if_true, hp, Option.map_some']

/-- C7: `ConvertMessage` returns (it does not panic), and it returns an
error if and only if the date is accepted by neither layout, or the message
is not a service message and its resolved body is empty or whitespace-only; a
service message with a parsable date never fails. -/
theorem ConvertMessage_error_iff (c : Converter) (msg : Message) :
    ∃ r c', c.ConvertMessage msg = some (r, c') ∧
      ((∃ e, r = Except.error e) ↔
        (timeParse layoutISO msg.Date = none ∧ timeParse layoutRFC3339 msg.Date = none) ∨
        ((msg.Kind ≠ "service" ∧ msg.Action = "") ∧
          ContainsOnlyWhitespace (resolvedBody c msg) = true)) ∧
      ((msg.Kind = "service" ∨ msg.Action ≠ "") →
        ¬(timeParse layoutISO msg.Date = none ∧ timeParse layoutRFC3339 msg.Date = none) →
        ∃ v, r = Except.ok v) := by
  cases hd : formatTimestamp msg.Date with
  | none =>
    have hnone := (formatTimestamp_eq_none_iff msg.Date).1 hd
    exact ⟨_, _, ConvertMessage_bad_date c msg hd,
      ⟨fun _ => Or.inl hnone, fun _ => ⟨_, rfl⟩⟩, fun _ h => absurd hnone h⟩
  | some p =>
    obtain ⟨ts, t⟩ := p
    have hsome : ¬(timeParse layoutISO msg.Date = none ∧
        timeParse layoutRFC3339 msg.Date = none) := by
      intro h
      rw [(formatTimestamp_eq_none_iff msg.Date).2 h] at hd
      exact Option.noConfusion hd
    by_cases hs : msg.Kind = "service" ∨ msg.Action ≠ ""
    · refine ⟨_, _, ConvertMessage_service c msg ts t hd hs, ⟨?_, ?_⟩, fun _ _ => ⟨_, rfl⟩⟩
      · rintro ⟨e, he⟩
        exact Except.noConfusion he
      · rintro (h | ⟨⟨h1, h2⟩, _⟩)
        · exact absurd h hsome
        · rcases hs with hs | hs
          · exact absurd hs h1
          · exact absurd h2 hs
    · have hns : msg.Kind ≠ "service" ∧ msg.Action = "" := by
        rw [not_or, not_not] at hs
        exact hs
      cases he : ContainsOnlyWhitespace (resolvedBody c msg) with
      | true =>
        exact ⟨_, _, ConvertMessage_empty c msg ts t hd hs he,
          ⟨fun _ => Or.inr ⟨hns, rfl⟩, fun _ => ⟨_, rfl⟩⟩, fun h _ => absurd h hs⟩
      | false =>
        have hok : ∀ v : String × Time, ¬((∃ e : ConvertError,
            (Except.ok v : Except ConvertError (String × Time)) = Except.error e)) := by
          rintro v ⟨e, h⟩
          exact Except.noConfusion h
        have hrhs : ¬((timeParse layoutISO msg.Date = none ∧
            timeParse layoutRFC3339 msg.Date = none) ∨
            ((msg.Kind ≠ "service" ∧ msg.Action = "") ∧ false = true)) := by
          rintro (h | ⟨_, h⟩)
          · exact hsome h
          · exact Bool.noConfusion h
        cases hr : msg.ReplyToMsgID with
        | none =>
          exact ⟨_, _, ConvertMessage_no_reply c msg ts t hd hs he hr,
            ⟨fun h => absurd h (hok _), fun h => absurd h hrhs⟩, fun h _ => absurd h hs⟩
        | some replyTo =>
          obtain ⟨preview, _, hres⟩ := ConvertMessage_reply c msg ts t replyTo hd hs he hr
          exact ⟨_, _, hres,
            ⟨fun h => absurd h (hok _), fun h => absurd h hrhs⟩, fun h _ => absurd h hs⟩

/-- C7, at the service message of the test suite, whose text is empty: its
date parses and the conversion succeeds. -/
theorem ConvertMessage_error_iff_witness :
    ∃ r c', New.ConvertMessage testServiceMessage = some (r, c') ∧ ∃ v, r = Except.ok v :=
  match ConvertMessage_error_iff New testServiceMessage with
  | ⟨r, c', h, _, hok⟩ => ⟨r, c', h, hok (Or.inl rfl) (by decide)⟩

/-- C8: a service event (kind `service` or a non-empty action) with a
parsable date is rendered as the timestamp followed by the actor, or else the
sender, or else `Unknown`, and the action; no prefix is added, the text is
not looked at and the converter is left as it was. -/
theorem ConvertMessage_service_line (c : Converter) (msg : Message) (ts : String) (t : Time)
    (hd : formatTimestamp msg.Date = some (ts, t))
    (hs : msg.Kind = "service" ∨ msg.Action ≠ "") :
    c.ConvertMessage msg =
      some (Except.ok ("[" ++ ts ++ "] [Служебное: " ++
        (if msg.Actor ≠ "" then msg.Actor else if msg.From ≠ "" then msg.From else "Unknown")
        ++ " " ++ msg.Action ++ "]", t), c) :=
  ConvertMessage_service c msg ts t hd hs

/-- C8, at the example of the specification. -/
theorem ConvertMessage_service_line_witness :
    New.ConvertMessage testServiceMessage =
      some (Except.ok ("[2024-01-15 14:34] [Служебное: Иван invite_members]",
        ⟨2024, 1, 15, 14, 34, 0, 0, 0⟩), New) :=
  ConvertMessage_service_line New testServiceMessage "2024-01-15 14:34"
    ⟨2024, 1, 15, 14, 34, 0, 0, 0⟩ rfl (Or.inl rfl)

/-- C9: for a message that is not a service message and has a parsable date,
the body text `ConvertMessage` uses is the first non-empty source among the
plain string, the span list of the text field and the legacy span list: the
conversion fails exactly when that body is whitespace-only, and otherwise the
returned line ends with it and it is what the cache receives. -/
theorem ConvertMessage_resolved_body (c : Converter) (msg : Message) (ts : String) (t : Time)
    (hd : formatTimestamp msg.Date = some (ts, t))
    (hs : msg.Kind ≠ "service" ∧ msg.Action = "") :
    (ContainsOnlyWhitespace (resolvedBody c msg) = true →
      c.ConvertMessage msg = some (Except.error ConvertError.emptyMessage, c)) ∧
    (ContainsOnlyWhitespace (resolvedBody c msg) = false →
      ∃ pre : String,
        c.ConvertMessage msg = some (Except.ok (pre ++ resolvedBody c msg, t),
          c.CacheMessage msg.ID (resolvedBody c msg))) := by
  have hns : ¬(msg.Kind = "service" ∨ msg.Action ≠ "") := by
    rw [not_or, not_not]
    exact hs
  refine ⟨fun he => ConvertMessage_empty c msg ts t hd hns he, fun he => ?_⟩
  cases hr : msg.ReplyToMsgID with
  | none => exact ⟨_, ConvertMessage_no_reply c msg ts t hd hns he hr⟩
  | some replyTo =>
    obtain ⟨preview, _, hres⟩ := ConvertMessage_reply c msg ts t replyTo hd hns he hr
    exact ⟨_, hres⟩

/-- C9, at the message of the test suite whose text is a span list: the body
is the rendering of the spans. -/
theorem ConvertMessage_resolved_body_witness :
    resolvedBody New testEntitiesMessage = "Это **важный** текст" ∧
    ∃ pre : String,
      New.ConvertMessage testEntitiesMessage =
        some (Except.ok (pre ++ "Это **важный** текст", ⟨2024, 1, 15, 14, 30, 0, 0, 0⟩),
          New.CacheMessage 1 "Это **важный** текст") :=
  ⟨by decide, (ConvertMessage_resolved_body New testEntitiesMessage "2024-01-15 14:30"
    ⟨2024, 1, 15, 14, 30, 0, 0, 0⟩ rfl ⟨by decide, rfl⟩).2 (by decide)⟩

/-- C10: a message that is not a service message, with a parsable date, a
body that is not whitespace-only and no `replyToId`, is rendered as the
timestamp, the author (`Unknown` when `from` is empty), the forwarded
annotation when `forwardedFrom` is not empty, and the body. -/
theorem ConvertMessage_plain_line (c : Converter) (msg : Message) (ts : String) (t : Time)
    (hd : formatTimestamp msg.Date = some (ts, t))
    (hs : msg.Kind ≠ "service" ∧ msg.Action = "")
    (he : ContainsOnlyWhitespace (resolvedBody c msg) = false)
    (hr : msg.ReplyToMsgID = none) :
    (c.ConvertMessage msg).map Prod.fst =
      some (Except.ok ("[" ++ ts ++ "] " ++ (if msg.From = "" then "Unknown" else msg.From)
        ++ ": " ++
        (if msg.ForwardedFrom ≠ "" then "[Переслано от: " ++ msg.ForwardedFrom ++ "] " else "")
        ++ resolvedBody c msg, t)) := by
  have hns : ¬(msg.Kind = "service" ∨ msg.Action ≠ "") := by
    rw [not_or, not_not]
    exact hs
  rw [ConvertMessage_no_reply c msg ts t hd hns he hr]
  rfl

/-- C10, at the forwarded message of the test suite. -/
theorem ConvertMessage_plain_line_witness :
    (New.ConvertMessage testForwardedMessage).map Prod.fst =
      some (Except.ok ("[2024-01-15 14:32] Пётр: [Переслано от: Алексей] Важная информация",
        ⟨2024, 1, 15, 14, 32, 0, 0, 0⟩)) :=
  ConvertMessage_plain_line New testForwardedMessage "2024-01-15 14:32"
    ⟨2024, 1, 15, 14, 32, 0, 0, 0⟩ rfl ⟨by decide, rfl⟩ (by decide) rfl

/-! ### The reply cache -/

theorem GetCachedMessage_CacheMessage (c : Converter) (id : Int) (text : String) :
    (c.CacheMessage id text).GetCachedMessage id = (text, true) := by
  simp [Converter.GetCachedMessage, Converter.CacheMessage]

theorem messageCache_CacheMessage_ne (c : Converter) (id k : Int) (text : String)
    (h : k ≠ id) : (c.CacheMessage id text).messageCache k = c.messageCache k := by
  simp [Converter.CacheMessage, h]

theorem resolvedBody_congr (c c2 : Converter) (msg m2 : Message)
    (h1 : m2.Text = msg.Text) (h2 : m2.TextEntities = msg.TextEntities) :
    resolvedBody c2 m2 = resolvedBody c msg := by
  unfold resolvedBody Converter.ConvertTextEntities
  rw [h1, h2]

/-- What a successful conversion of a message that is not a service message
tells: the date parsed, the body is not whitespace-only, the line ends with
the body and the converter afterwards is the one before with the body cached
under the id of the message. -/
theorem ConvertMessage_ok_inv (c c' : Converter) (msg : Message) (line : String) (t : Time)
    (h : c.ConvertMessage msg = some (Except.ok (line, t), c'))
    (hs : ¬(msg.Kind = "service" ∨ msg.Action ≠ "")) :
    (∃ ts, formatTimestamp msg.Date = some (ts, t)) ∧
    ContainsOnlyWhitespace (resolvedBody c msg) = false ∧
    c' = c.CacheMessage msg.ID (resolvedBody c msg) ∧
    ∃ pre : String, line = pre ++ resolvedBody c msg := by
  cases hd : formatTimestamp msg.Date with
  | none =>
    rw [ConvertMessage_bad_date c msg hd] at h
    simp at h
  | some p =>
    obtain ⟨ts, t0⟩ := p
    cases he : ContainsOnlyWhitespace (resolvedBody c msg) with
    | true =>
      rw [ConvertMessage_empty c msg ts t0 hd hs he] at h
      simp at h
    | false =>
      cases hr : msg.ReplyToMsgID with
      | none =>
        rw [ConvertMessage_no_reply c msg ts t0 hd hs he hr] at h
        simp only [Option.some.injEq, Prod.mk.injEq, Except.ok.injEq] at h
        obtain ⟨⟨hl, ht⟩, hc⟩ := h
        exact ⟨⟨ts, by rw [ht]⟩, rfl, hc.symm, _, hl.symm⟩
      | some replyTo =>
        obtain ⟨preview, _, hres⟩ := ConvertMessage_reply c msg ts t0 replyTo hd hs he hr
        rw [hres] at h
        simp only [Option.some.injEq, Prod.mk.injEq, Except.ok.injEq] at h
        obtain ⟨⟨hl, ht⟩, hc⟩ := h
        exact ⟨⟨ts, by rw [ht]⟩, rfl, hc.symm, _, hl.symm⟩

/-- C11: after `ConvertMessage` succeeds on a message that is not a service
message, `GetCachedMessage msg.ID` returns the resolved body of the message
and `true`; the body is determined by the text fields of the message alone,
and the returned line ends with exactly the cached string. -/
theorem ConvertMessage_caches_bare_body (c c' : Converter) (msg : Message) (line : String)
    (t : Time)
    (h : c.ConvertMessage msg = some (Except.ok (line, t), c'))
    (hs : msg.Kind ≠ "service" ∧ msg.Action = "") :
    c'.GetCachedMessage msg.ID = (resolvedBody c msg, true) ∧
    (∃ pre : String, line = pre ++ (c'.GetCachedMessage msg.ID).1) ∧
    (∀ (c2 : Converter) (m2 : Message), m2.Text = msg.Text →
      m2.TextEntities = msg.TextEntities → resolvedBody c2 m2 = resolvedBody c msg) := by
  have hns : ¬(msg.Kind = "service" ∨ msg.Action ≠ "") := by
    rw [not_or, not_not]
    exact hs
  obtain ⟨_, _, hc, pre, hl⟩ := ConvertMessage_ok_inv c c' msg line t h hns
  have hget : c'.GetCachedMessage msg.ID = (resolvedBody c msg, true) := by
    rw [hc]
    exact GetCachedMessage_CacheMessage c msg.ID _
  refine ⟨hget, ⟨pre, ?_⟩, fun c2 m2 h1 h2 => resolvedBody_congr c c2 msg m2 h1 h2⟩
  rw [hget]
  exact hl

/-- C11, at the forwarded message of the test suite: the cache receives the
body without the forwarded annotation. -/
theorem ConvertMessage_caches_bare_body_witness :
    (New.CacheMessage 3 "Важная информация").GetCachedMessage 3 =
      ("Важная информация", true) :=
  (ConvertMessage_caches_bare_body New (New.CacheMessage 3 "Важная информация")
    testForwardedMessage
    "[2024-01-15 14:32] Пётр: [Переслано от: Алексей] Важная информация"
    ⟨2024, 1, 15, 14, 32, 0, 0, 0⟩ rfl ⟨by decide, rfl⟩).1

/-- C12: when a message A that is not a service message converts
successfully, and a message B with another id, not a service message either,
with a parsable date and a body that is not whitespace-only, replies to A,
the line of B is its timestamp, its author, the reply annotation quoting
`truncateForReply` of the body of A at 50, and its own body. -/
theorem ConvertMessage_reply_to_earlier (c cA : Converter) (A B : Message) (lineA : String)
    (tA : Time) (ts : String) (t : Time)
    (hA : c.ConvertMessage A = some (Except.ok (lineA, tA), cA))
    (hAs : A.Kind ≠ "service" ∧ A.Action = "")
    (hBs : B.Kind ≠ "service" ∧ B.Action = "")
    (hid : A.ID ≠ B.ID)
    (hr : B.ReplyToMsgID = some A.ID)
    (hd : formatTimestamp B.Date = some (ts, t))
    (hb : ContainsOnlyWhitespace (resolvedBody cA B) = false) :
    ∃ preview : String,
      truncateForReply (resolvedBody c A) 50 = some preview ∧
      (cA.ConvertMessage B).map Prod.fst =
        some (Except.ok ("[" ++ ts ++ "] " ++ (if B.From = "" then "Unknown" else B.From)
          ++ ": " ++ ("[В ответ на: \"" ++ preview ++ "\"] ") ++ resolvedBody cA B, t)) := by
  have hAns : ¬(A.Kind = "service" ∨ A.Action ≠ "") := by
    rw [not_or, not_not]
    exact hAs
  have hBns : ¬(B.Kind = "service" ∨ B.Action ≠ "") := by
    rw [not_or, not_not]
    exact hBs
  obtain ⟨_, _, hcA, _⟩ := ConvertMessage_ok_inv c cA A lineA tA hA hAns
  obtain ⟨preview, hp, hres⟩ := ConvertMessage_reply cA B ts t A.ID hd hBns hb hr
  have hcache : (cA.CacheMessage B.ID (resolvedBody cA B)).messageCache A.ID =
      some (resolvedBody c A) := by
    rw [messageCache_CacheMessage_ne _ _ _ _ hid, hcA]
    simp [Converter.CacheMessage]
  rw [hcache] at hp
  exact ⟨preview, hp, by rw [hres]; rfl⟩

/-- C12, at the scenario of the specification: A has body `hello`, B replies
to it. -/
theorem ConvertMessage_reply_to_earlier_witness :
    ((New.CacheMessage 1 "hello").ConvertMessage testReplyMessage).map Prod.fst =
      some (Except.ok ("[2024-01-15 14:31] Мария: [В ответ на: \"hello\"] Отлично!",
        ⟨2024, 1, 15, 14, 31, 0, 0, 0⟩)) := by
  obtain ⟨preview, hp, hline⟩ := ConvertMessage_reply_to_earlier New
    (New.CacheMessage 1 "hello") testHelloMessage testReplyMessage
    "[2024-01-15 14:30] Иван: hello" ⟨2024, 1, 15, 14, 30, 0, 0, 0⟩
    "2024-01-15 14:31" ⟨2024, 1, 15, 14, 31, 0, 0, 0⟩
    rfl ⟨by decide, rfl⟩ ⟨by decide, rfl⟩ (by decide) rfl rfl (by decide)
  have hh : truncateForReply (resolvedBody New testHelloMessage) 50 = some "hello" := by
    decide
  rw [hh] at hp
  rw [← Option.some.inj hp] at hline
  exact hline

/-- C14: a message that is not a service message and has both a non-empty
`forwardedFrom` and a `replyToId` gets the reply annotation only: the line is
the timestamp, the author, the reply annotation and the body, the preview
being `truncateForReply` of the cached text at 50 or `...` when the id is not
in the cache, and the conversion goes as if `forwardedFrom` were empty. -/
theorem ConvertMessage_reply_over_forward (c : Converter) (msg : Message) (ts : String)
    (t : Time) (replyTo : Int)
    (hd : formatTimestamp msg.Date = some (ts, t))
    (hs : msg.Kind ≠ "service" ∧ msg.Action = "")
    (he : ContainsOnlyWhitespace (resolvedBody c msg) = false)
    (_hf : msg.ForwardedFrom ≠ "")
    (hr : msg.ReplyToMsgID = some replyTo) :
    (∃ preview : String,
      (match (c.CacheMessage msg.ID (resolvedBody c msg)).messageCache replyTo with
        | some cached => truncateForReply cached 50 = some preview
        | none => preview = "...") ∧
      (c.ConvertMessage msg).map Prod.fst =
        some (Except.ok ("[" ++ ts ++ "] " ++ (if msg.From = "" then "Unknown" else msg.From)
          ++ ": " ++ ("[В ответ на: \"" ++ preview ++ "\"] ") ++ resolvedBody c msg, t))) ∧
    c.ConvertMessage msg = c.ConvertMessage { msg with ForwardedFrom := "" } := by
  have hns : ¬(msg.Kind = "service" ∨ msg.Action ≠ "") := by
    rw [not_or, not_not]
    exact hs
  constructor
  · obtain ⟨preview, hp, hres⟩ := ConvertMessage_reply c msg ts t replyTo hd hns he hr
    exact ⟨preview, hp, by rw [hres]; rfl⟩
  · unfold Converter.ConvertMessage
    simp only [hr]

/-- C14, at a forwarded message that replies to an id never seen: the line
carries the reply annotation and no forwarded annotation. -/
theorem ConvertMessage_reply_over_forward_witness :
    (New.ConvertMessage testForwardedReplyMessage).map Prod.fst =
      some (Except.ok ("[2024-01-15 14:33] Пётр: [В ответ на: \"...\"] Важная информация",
        ⟨2024, 1, 15, 14, 33, 0, 0, 0⟩)) := by
  obtain ⟨preview, hp, hline⟩ := (ConvertMessage_reply_over_forward New
    testForwardedReplyMessage "2024-01-15 14:33" ⟨2024, 1, 15, 14, 33, 0, 0, 0⟩ 999 rfl
    ⟨by decide, rfl⟩ (by decide) (by decide) rfl).1
  have hpre : preview = "..." := hp
  rw [hpre] at hline
  exact hline

theorem one_le_utf8Size (c : Char) : 1 ≤ c.utf8Size :=
  Char.utf8Size_pos c

theorem length_le_byteLen (l : List Char) : l.length ≤ byteLen l := by
  unfold byteLen
  induction l with
  | nil => simp
  | cons c rest ih =>
    simp only [List.length_cons, List.map_cons, List.sum_cons]
    have := one_le_utf8Size c
    omega

theorem stringsReplaceAll_eq_map (s : List Char) (old new : Char) :
    stringsReplaceAll s old [new] = s.map fun c => if c = old then new else c := by
  unfold stringsReplaceAll
  induction s with
  | nil => rfl
  | cons c rest ih =>
    rw [List.flatMap_cons, List.map_cons, ih]
    by_cases h : c = old <;> simp [h]

/-- C15: for `maxLen >= 3`, `truncateForReply text maxLen` returns, with `t`
the text in which each newline is replaced by a space, `t` itself when it has
at most `maxLen` code points, and otherwise the first `maxLen - 3` code
points of `t` followed by `...`. -/
theorem truncateForReply_spec (text : String) (maxLen : Int) (h : 3 ≤ maxLen) :
    truncateForReply text maxLen =
      some (if ((text.data.map fun c => if c = '\n' then ' ' else c).length : Int) ≤ maxLen
        then ⟨text.data.map fun c => if c = '\n' then ' ' else c⟩
        else ⟨(text.data.map fun c => if c = '\n' then ' ' else c).take (maxLen - 3).toNat⟩
          ++ "...") := by
  unfold truncateForReply
  simp only [stringsReplaceAll_eq_map]
  have hlen := length_le_byteLen (text.data.map fun c => if c = '\n' then ' ' else c)
  have hlen2 : ((text.data.map fun c => if c = '\n' then ' ' else c).length : Int) ≤
      (byteLen (text.data.map fun c => if c = '\n' then ' ' else c) : Int) :=
    Int.ofNat_le.2 hlen
  split_ifs <;> first
    | rfl
    | (exfalso; omega)

/-- C15, at a body of 60 ASCII characters with `maxLen = 50`: the first 47
characters and `...`. -/
theorem truncateForReply_spec_witness :
    truncateForReply "123456789a123456789b123456789c123456789d123456789e123456789f" 50 =
      some "123456789a123456789b123456789c123456789d1234567..." :=
  (truncateForReply_spec "123456789a123456789b123456789c123456789d123456789e123456789f" 50
    (by decide)).trans (by decide)

/-! ### The cache along a stream -/

/-- `ConvertMessage` always returns, and the converter it leaves is either
the one it found, or, after a success on a message that is not a service
message, that one with the body cached under the id of the message. -/
theorem ConvertMessage_cases (c : Converter) (msg : Message) :
    ∃ r c1, c.ConvertMessage msg = some (r, c1) ∧
      (((msg.Kind ≠ "service" ∧ msg.Action = "") ∧ (∃ line t, r = Except.ok (line, t)) ∧
          c1 = c.CacheMessage msg.ID (resolvedBody c msg)) ∨
        (c1 = c ∧ ((msg.Kind = "service" ∨ msg.Action ≠ "") ∨ ∃ e, r = Except.error e))) := by
  cases hd : formatTimestamp msg.Date with
  | none => exact ⟨_, _, ConvertMessage_bad_date c msg hd, Or.inr ⟨rfl, Or.inr ⟨_, rfl⟩⟩⟩
  | some p =>
    obtain ⟨ts, t⟩ := p
    by_cases hs : msg.Kind = "service" ∨ msg.Action ≠ ""
    · exact ⟨_, _, ConvertMessage_service c msg ts t hd hs, Or.inr ⟨rfl, Or.inl hs⟩⟩
    · have hns : msg.Kind ≠ "service" ∧ msg.Action = "" := by
        rw [not_or, not_not] at hs
        exact hs
      cases he : ContainsOnlyWhitespace (resolvedBody c msg) with
      | true =>
        exact ⟨_, _, ConvertMessage_empty c msg ts t hd hs he, Or.inr ⟨rfl, Or.inr ⟨_, rfl⟩⟩⟩
      | false =>
        cases hr : msg.ReplyToMsgID with
        | none =>
          exact ⟨_, _, ConvertMessage_no_reply c msg ts t hd hs he hr,
            Or.inl ⟨hns, ⟨_, _, rfl⟩, rfl⟩⟩
        | some replyTo =>
          obtain ⟨preview, _, hres⟩ := ConvertMessage_reply c msg ts t replyTo hd hs he hr
          exact ⟨_, _, hres, Or.inl ⟨hns, ⟨_, _, rfl⟩, rfl⟩⟩

theorem convertStream_cons (c c1 : Converter) (msg : Message) (rest : List Message)
    (r : Except ConvertError (String × Time)) (h : c.ConvertMessage msg = some (r, c1)) :
    convertStream c (msg :: rest) = convertStream c1 rest := by
  simp only [convertStream, h]

/-- An id is in the cache after a stream exactly when it was there before or
a message of the stream with that id, not a service message, converted
successfully. -/
theorem convertStream_cache_iff (msgs : List Message) (c0 : Converter) (k : Int) :
    (convertStream c0 msgs).messageCache k ≠ none ↔
      c0.messageCache k ≠ none ∨
      ∃ (b1 : List Message) (target : Message) (b2 : List Message) (line : String) (t : Time)
        (c' : Converter),
        msgs = b1 ++ target :: b2 ∧ target.ID = k ∧
        (target.Kind ≠ "service" ∧ target.Action = "") ∧
        (convertStream c0 b1).ConvertMessage target = some (Except.ok (line, t), c') := by
  induction msgs generalizing c0 with
  | nil =>
    constructor
    · intro h
      exact Or.inl h
    · rintro (h | ⟨b1, target, b2, _, _, _, hnil, _⟩)
      · exact h
      · cases b1 <;> simp at hnil
  | cons m ms ih =>
    obtain ⟨r, c1, hm, hcase⟩ := ConvertMessage_cases c0 m
    rw [convertStream_cons c0 c1 m ms r hm, ih c1]
    constructor
    · rintro (h | ⟨b1, target, b2, line, t, c', hms, hid, hns, hconv⟩)
      · rcases hcase with ⟨hns, ⟨line, t, hr⟩, hc1⟩ | ⟨hc1, _⟩
        · by_cases hk : k = m.ID
          · refine Or.inr ⟨[], m, ms, line, t, c1, rfl, hk.symm, hns, ?_⟩
            rw [← hr]
            exact hm
          · rw [hc1, messageCache_CacheMessage_ne _ _ _ _ hk] at h
            exact Or.inl h
        · rw [hc1] at h
          exact Or.inl h
      · refine Or.inr ⟨m :: b1, target, b2, line, t, c', by rw [hms]; rfl, hid, hns, ?_⟩
        rw [convertStream_cons c0 c1 m b1 r hm]
        exact hconv
    · rintro (h | ⟨b1, target, b2, line, t, c', hms, hid, hns, hconv⟩)
      · left
        rcases hcase with ⟨_, _, hc1⟩ | ⟨hc1, _⟩
        · rw [hc1]
          by_cases hk : k = m.ID
          · simp [Converter.CacheMessage, hk]
          · rw [messageCache_CacheMessage_ne _ _ _ _ hk]
            exact h
        · rw [hc1]
          exact h
      · cases b1 with
        | nil =>
          simp only [List.nil_append, List.cons.injEq] at hms
          obtain ⟨hmt, _⟩ := hms
          subst hmt
          simp only [convertStream] at hconv
          rw [hm] at hconv
          simp only [Option.some.injEq, Prod.mk.injEq] at hconv
          left
          have hns2 : ¬(m.Kind = "service" ∨ m.Action ≠ "") := by
            rw [not_or, not_not]
            exact hns
          obtain ⟨_, _, hc1, _⟩ := ConvertMessage_ok_inv c0 c1 m line t
            (by rw [hm, hconv.1]) hns2
          rw [hc1, ← hid]
          simp [Converter.CacheMessage]
        | cons b bs =>
          simp only [List.cons_append, List.cons.injEq] at hms
          obtain ⟨hb, hms⟩ := hms
          subst hb
          rw [convertStream_cons c0 c1 m bs r hm] at hconv
          exact Or.inr ⟨bs, target, b2, line, t, c', hms, hid, hns, hconv⟩

/-- C13, as amended: along a stream converted by a fresh converter, the
reply preview of a message (not a service message, with a parsable date and a
body that is not whitespace-only) is taken from a cached body when its
`replyToId` is its own id or the id of a message that appeared earlier in the
stream and converted successfully as a message that is not a service
message; in every other case the line carries the placeholder `...`, and the
conversion succeeds in both cases. -/
theorem reply_preview_along_stream (before : List Message) (msg : Message) (ts : String)
    (t : Time) (k : Int)
    (hd : formatTimestamp msg.Date = some (ts, t))
    (hs : msg.Kind ≠ "service" ∧ msg.Action = "")
    (he : ContainsOnlyWhitespace (resolvedBody New msg) = false)
    (hr : msg.ReplyToMsgID = some k) :
    ((k = msg.ID ∨ convertedEarlier before k) →
      ∃ cached preview : String,
        (((convertStream New before).CacheMessage msg.ID (resolvedBody New msg)).messageCache k
          = some cached) ∧
        truncateForReply cached 50 = some preview ∧
        ((convertStream New before).ConvertMessage msg).map Prod.fst =
          some (Except.ok ("[" ++ ts ++ "] " ++ (if msg.From = "" then "Unknown" else msg.From)
            ++ ": " ++ ("[В ответ на: \"" ++ preview ++ "\"] ") ++ resolvedBody New msg, t))) ∧
    (¬(k = msg.ID ∨ convertedEarlier before k) →
      ((convertStream New before).ConvertMessage msg).map Prod.fst =
        some (Except.ok ("[" ++ ts ++ "] " ++ (if msg.From = "" then "Unknown" else msg.From)
          ++ ": " ++ ("[В ответ на: \"" ++ "..." ++ "\"] ") ++ resolvedBody New msg, t))) := by
  have hns : ¬(msg.Kind = "service" ∨ msg.Action ≠ "") := by
    rw [not_or, not_not]
    exact hs
  have hbody : resolvedBody (convertStream New before) msg = resolvedBody New msg :=
    resolvedBody_congr New (convertStream New before) msg msg rfl rfl
  obtain ⟨preview, hp, hres⟩ := ConvertMessage_reply (convertStream New before) msg ts t k hd
    hns (by rw [hbody]; exact he) hr
  rw [hbody] at hp hres
  have hiff := convertStream_cache_iff before New k
  have hNew : New.messageCache k = none := rfl
  constructor
  · intro hsrc
    have hsome : ((convertStream New before).CacheMessage msg.ID
        (resolvedBody New msg)).messageCache k ≠ none := by
      by_cases hk : k = msg.ID
      · simp [Converter.CacheMessage, hk]
      · rw [messageCache_CacheMessage_ne _ _ _ _ hk]
        rcases hsrc with h | h
        · exact absurd h hk
        · exact hiff.2 (Or.inr h)
    cases hc : ((convertStream New before).CacheMessage msg.ID
        (resolvedBody New msg)).messageCache k with
    | none => exact absurd hc hsome
    | some cached =>
      rw [hc] at hp
      exact ⟨cached, preview, rfl, hp, by rw [hres]; rfl⟩
  · intro hsrc
    rw [not_or] at hsrc
    have hnone : ((convertStream New before).CacheMessage msg.ID
        (resolvedBody New msg)).messageCache k = none := by
      rw [messageCache_CacheMessage_ne _ _ _ _ hsrc.1]
      by_contra hne
      rcases hiff.1 hne with h | h
      · exact h hNew
      · exact hsrc.2 h
    rw [hnone] at hp
    rw [hres, hp]
    rfl

/-- C13, at a reply to an id never seen, after the message `hello` has gone
through the converter: the line carries the placeholder. -/
theorem reply_preview_along_stream_witness :
    ((convertStream New [testHelloMessage]).ConvertMessage testForwardedReplyMessage).map
        Prod.fst =
      some (Except.ok ("[2024-01-15 14:33] Пётр: [В ответ на: \"...\"] Важная информация",
        ⟨2024, 1, 15, 14, 33, 0, 0, 0⟩)) := by
  refine (reply_preview_along_stream [testHelloMessage] testForwardedReplyMessage
    "2024-01-15 14:33" ⟨2024, 1, 15, 14, 33, 0, 0, 0⟩ 999 rfl ⟨by decide, rfl⟩ (by decide)
    rfl).2 ?_
  rintro (h | ⟨b1, target, b2, _, _, _, hbefore, hid, _, _⟩)
  · exact absurd h (by decide)
  · cases b1 with
    | nil =>
      simp only [List.nil_append, List.cons.injEq] at hbefore
      rw [← hbefore.1] at hid
      exact absurd hid (by decide)
    | cons b bs =>
      simp only [List.cons_append, List.cons.injEq] at hbefore
      cases bs <;> simp at hbefore

/-- C13 as stated fails: a message that replies to its own id, first in the
stream of a fresh converter, gets a preview taken from the cache (its own
body), not the placeholder, although no message appeared before it. -/
theorem reply_preview_self_counterexample :
    ¬ convertedEarlier [] testSelfReplyMessage.ID ∧
    ((convertStream New []).ConvertMessage testSelfReplyMessage).map Prod.fst =
      some (Except.ok ("[2024-01-15 14:30] Иван: [В ответ на: \"hello\"] hello",
        ⟨2024, 1, 15, 14, 30, 0, 0, 0⟩)) ∧
    ("[2024-01-15 14:30] Иван: [В ответ на: \"hello\"] hello" : String) ≠
      "[2024-01-15 14:30] Иван: [В ответ на: \"...\"] hello" := by
  refine ⟨?_, rfl, by decide⟩
  rintro ⟨b1, target, b2, _, _, _, hnil, _⟩
  cases b1 <;> simp at hnil

/-! ## The display timestamp -/

theorem digit_char_eq (c : Char) (h : 48 ≤ c.toNat ∧ c.toNat ≤ 57) :
    Char.ofNat (48 + (c.toNat - 48)) = c := by
  have e : 48 + (c.toNat - 48) = c.toNat := by omega
  rw [e, Char.ofNat_toNat]

theorem digitVal_eq (c : Char) (h : 48 ≤ c.toNat ∧ c.toNat ≤ 57) :
    digitVal c = ((c.toNat - 48 : Nat) : Int) := by
  unfold digitVal
  omega

theorem decimalDigits_succ (fuel n : Nat) (acc : List Char) :
    decimalDigits (fuel + 1) n acc =
      if n / 10 = 0 then Char.ofNat (48 + n % 10) :: acc
      else decimalDigits fuel (n / 10) (Char.ofNat (48 + n % 10) :: acc) := rfl

theorem appendInt_two (a b : Nat) (ha : a < 10) (hb : b < 10) :
    appendInt ((a : Int) * 10 + (b : Int)) 2 = [Char.ofNat (48 + a), Char.ofNat (48 + b)] := by
  have hn : ((a : Int) * 10 + (b : Int)).toNat = a * 10 + b := by omega
  unfold appendInt
  simp only [hn]
  rw [show (20 : Nat) = 18 + 1 + 1 from rfl, decimalDigits_succ]
  have hb2 : (a * 10 + b) % 10 = b := by omega
  have ha2 : (a * 10 + b) / 10 = a := by omega
  rw [hb2, ha2]
  by_cases h0 : a = 0
  · subst h0
    simp
  · rw [if_neg h0, decimalDigits_succ]
    have ha3 : a / 10 = 0 := by omega
    have ha4 : a % 10 = a := by omega
    rw [if_pos ha3, ha4]
    rfl

theorem appendInt_four (a b c d : Nat) (ha : a < 10) (hb : b < 10) (hc : c < 10)
    (hd : d < 10) :
    appendInt ((((0 * 10 + (a : Int)) * 10 + (b : Int)) * 10 + (c : Int)) * 10 + (d : Int)) 4 =
      [Char.ofNat (48 + a), Char.ofNat (48 + b), Char.ofNat (48 + c), Char.ofNat (48 + d)] := by
  have hn : ((((0 * 10 + (a : Int)) * 10 + (b : Int)) * 10 + (c : Int)) * 10 + (d : Int)).toNat
      = ((a * 10 + b) * 10 + c) * 10 + d := by omega
  unfold appendInt
  simp only [hn]
  rw [show (20 : Nat) = 16 + 1 + 1 + 1 + 1 from rfl, decimalDigits_succ]
  have e1 : (((a * 10 + b) * 10 + c) * 10 + d) % 10 = d := by omega
  have e2 : (((a * 10 + b) * 10 + c) * 10 + d) / 10 = (a * 10 + b) * 10 + c := by omega
  rw [e1, e2]
  by_cases h1 : (a * 10 + b) * 10 + c = 0
  · have : a = 0 ∧ b = 0 ∧ c = 0 := by omega
    obtain ⟨rfl, rfl, rfl⟩ := this
    simp
  rw [if_neg h1, decimalDigits_succ]
  have e3 : ((a * 10 + b) * 10 + c) % 10 = c := by omega
  have e4 : ((a * 10 + b) * 10 + c) / 10 = a * 10 + b := by omega
  rw [e3, e4]
  by_cases h2 : a * 10 + b = 0
  · have : a = 0 ∧ b = 0 := by omega
    obtain ⟨rfl, rfl⟩ := this
    simp
  rw [if_neg h2, decimalDigits_succ]
  have e5 : (a * 10 + b) % 10 = b := by omega
  have e6 : (a * 10 + b) / 10 = a := by omega
  rw [e5, e6]
  by_cases h3 : a = 0
  · subst h3
    simp
  rw [if_neg h3, decimalDigits_succ]
  have e7 : a / 10 = 0 := by omega
  have e8 : a % 10 = a := by omega
  rw [if_pos e7, e8]
  rfl

theorem isDigit_zero (c : Char) (rest : List Char) (h : 48 ≤ c.toNat ∧ c.toNat ≤ 57) :
    isDigit (c :: rest) 0 = true := by
  simp [isDigit, h.1, h.2]

theorem isDigit_one (c0 c : Char) (rest : List Char) (h : 48 ≤ c.toNat ∧ c.toNat ≤ 57) :
    isDigit (c0 :: c :: rest) 1 = true := by
  simp [isDigit, h.1, h.2]

theorem getnum_two (a b : Char) (rest : List Char) (fixed : Bool)
    (ha : 48 ≤ a.toNat ∧ a.toNat ≤ 57) (hb : 48 ≤ b.toNat ∧ b.toNat ≤ 57) :
    getnum (a :: b :: rest) fixed = some (digitVal a * 10 + digitVal b, rest) := by
  unfold getnum
  rw [isDigit_zero a _ ha, isDigit_one a b _ hb]
  rfl

theorem atoiDigits_four (a b c d : Char)
    (ha : 48 ≤ a.toNat ∧ a.toNat ≤ 57) (hb : 48 ≤ b.toNat ∧ b.toNat ≤ 57)
    (hc : 48 ≤ c.toNat ∧ c.toNat ≤ 57) (hd : 48 ≤ d.toNat ∧ d.toNat ≤ 57) :
    atoiDigits [a, b, c, d] 0 =
      some ((((0 * 10 + digitVal a) * 10 + digitVal b) * 10 + digitVal c) * 10 + digitVal d) := by
  simp [atoiDigits, ha.1, ha.2, hb.1, hb.2, hc.1, hc.2, hd.1, hd.2]

theorem parseLoop_year (layout : List (List Char × Std)) (rest : List Char) (v : ParseVars)
    (y1 y2 y3 y4 : Char)
    (hy1 : 48 ≤ y1.toNat ∧ y1.toNat ≤ 57) (hy2 : 48 ≤ y2.toNat ∧ y2.toNat ≤ 57)
    (hy3 : 48 ≤ y3.toNat ∧ y3.toNat ≤ 57) (hy4 : 48 ≤ y4.toNat ∧ y4.toNat ≤ 57) :
    parseLoop (([], Std.stdLongYear) :: layout) (y1 :: y2 :: y3 :: y4 :: rest) v =
      parseLoop layout rest
        { v with year := (((0 * 10 + digitVal y1) * 10 + digitVal y2) * 10 + digitVal y3) * 10 +
            digitVal y4 } := by
  have hlen : ¬((y1 :: y2 :: y3 :: y4 :: rest).length < 4) := by
    simp only [List.length_cons]
    omega
  simp only [parseLoop, skip, parseStd, isDigit_zero y1 _ hy1, hlen, decide_False,
    Bool.not_true, Bool.or_self, Bool.false_eq_true, if_false, List.take, List.drop,
    atoiDigits_four y1 y2 y3 y4 hy1 hy2 hy3 hy4]

theorem parseLoop_month (layout : List (List Char × Std)) (rest : List Char) (v : ParseVars)
    (p a b : Char)
    (ha : 48 ≤ a.toNat ∧ a.toNat ≤ 57) (hb : 48 ≤ b.toNat ∧ b.toNat ≤ 57)
    (hr : 1 ≤ digitVal a * 10 + digitVal b ∧ digitVal a * 10 + digitVal b ≤ 12) :
    parseLoop (([p], Std.stdZeroMonth) :: layout) (p :: a :: b :: rest) v =
      parseLoop layout rest { v with month := digitVal a * 10 + digitVal b } := by
  have c : ¬(digitVal a * 10 + digitVal b ≤ 0 ∨ 12 < digitVal a * 10 + digitVal b) := by
    omega
  simp only [parseLoop, skip, parseStd, if_true, getnum_two a b _ _ ha hb, if_neg c]

theorem parseLoop_day (layout : List (List Char × Std)) (rest : List Char) (v : ParseVars)
    (p a b : Char)
    (ha : 48 ≤ a.toNat ∧ a.toNat ≤ 57) (hb : 48 ≤ b.toNat ∧ b.toNat ≤ 57) :
    parseLoop (([p], Std.stdZeroDay) :: layout) (p :: a :: b :: rest) v =
      parseLoop layout rest { v with day := digitVal a * 10 + digitVal b } := by
  simp only [parseLoop, skip, parseStd, if_true, getnum_two a b _ _ ha hb]

theorem parseLoop_hour (layout : List (List Char × Std)) (rest : List Char) (v : ParseVars)
    (p a b : Char)
    (ha : 48 ≤ a.toNat ∧ a.toNat ≤ 57) (hb : 48 ≤ b.toNat ∧ b.toNat ≤ 57)
    (hr : digitVal a * 10 + digitVal b ≤ 23) :
    parseLoop (([p], Std.stdHour) :: layout) (p :: a :: b :: rest) v =
      parseLoop layout rest { v with hour := digitVal a * 10 + digitVal b } := by
  have va := digitVal_eq a ha
  have vb := digitVal_eq b hb
  have c : ¬(digitVal a * 10 + digitVal b < 0 ∨ 24 ≤ digitVal a * 10 + digitVal b) := by
    omega
  simp only [parseLoop, skip, parseStd, if_true, getnum_two a b _ _ ha hb, if_neg c]

theorem parseLoop_minute (layout : List (List Char × Std)) (rest : List Char) (v : ParseVars)
    (p a b : Char)
    (ha : 48 ≤ a.toNat ∧ a.toNat ≤ 57) (hb : 48 ≤ b.toNat ∧ b.toNat ≤ 57)
    (hr : digitVal a * 10 + digitVal b ≤ 59) :
    parseLoop (([p], Std.stdZeroMinute) :: layout) (p :: a :: b :: rest) v =
      parseLoop layout rest { v with min := digitVal a * 10 + digitVal b } := by
  have va := digitVal_eq a ha
  have vb := digitVal_eq b hb
  have c : ¬(digitVal a * 10 + digitVal b < 0 ∨ 60 ≤ digitVal a * 10 + digitVal b) := by
    omega
  simp only [parseLoop, skip, parseStd, if_true, getnum_two a b _ _ ha hb, if_neg c]

theorem parseLoop_second (layout : List (List Char × Std)) (rest : List Char) (v : ParseVars)
    (p a b : Char)
    (ha : 48 ≤ a.toNat ∧ a.toNat ≤ 57) (hb : 48 ≤ b.toNat ∧ b.toNat ≤ 57)
    (hr : digitVal a * 10 + digitVal b ≤ 59)
    (hrest : ∀ c ∈ rest.head?, c ≠ '.' ∧ c ≠ ',') :
    parseLoop (([p], Std.stdZeroSecond) :: layout) (p :: a :: b :: rest) v =
      parseLoop layout rest { v with sec := digitVal a * 10 + digitVal b } := by
  have va := digitVal_eq a ha
  have vb := digitVal_eq b hb
  have c : ¬(digitVal a * 10 + digitVal b < 0 ∨ 60 ≤ digitVal a * 10 + digitVal b) := by
    omega
  simp only [parseLoop, skip, parseStd, if_true, getnum_two a b _ _ ha hb, if_neg c]
  cases rest with
  | nil => rfl
  | cons sep rest =>
    have hsep := hrest sep rfl
    have hcond : ¬((sep = '.' ∨ sep = ',') ∧ isDigit rest 0 = true) := by
      rintro ⟨h | h, _⟩
      · exact hsep.1 h
      · exact hsep.2 h
    simp only [if_neg hcond]

theorem atoiDigits_all_digits (l : List Char) (acc : Int)
    (h : ∀ c ∈ l, 48 ≤ c.toNat ∧ c.toNat ≤ 57) : ∃ n, atoiDigits l acc = some n := by
  induction l generalizing acc with
  | nil => exact ⟨acc, rfl⟩
  | cons c rest ih =>
    have hc := h c (List.mem_cons_self _ _)
    obtain ⟨n, hn⟩ := ih (acc * 10 + digitVal c) fun d hd => h d (List.mem_cons_of_mem _ hd)
    refine ⟨n, ?_⟩
    simp only [atoiDigits, hc.1, hc.2, decide_True, Bool.and_self, if_true]
    exact hn

theorem takeWhile_digits (ds zone : List Char)
    (hds : ∀ c ∈ ds, 48 ≤ c.toNat ∧ c.toNat ≤ 57)
    (hzone : ∀ c ∈ zone.head?, ¬(48 ≤ c.toNat ∧ c.toNat ≤ 57)) :
    (ds ++ zone).takeWhile (fun c => decide (48 ≤ c.toNat) && decide (c.toNat ≤ 57)) = ds := by
  induction ds with
  | nil =>
    cases zone with
    | nil => rfl
    | cons z zs =>
      have hz := hzone z rfl
      rw [List.nil_append, List.takeWhile_cons_of_neg]
      simpa using hz
  | cons d ds ih =>
    have hd := hds d (List.mem_cons_self _ _)
    rw [List.cons_append, List.takeWhile_cons_of_pos (by simp [hd.1, hd.2]),
      ih fun c hc => hds c (List.mem_cons_of_mem _ hc)]

/-- The seconds followed by a fractional second that the layout does not
have: the fraction is consumed with the seconds. -/
theorem parseLoop_second_fraction (layout : List (List Char × Std)) (ds zone : List Char)
    (v : ParseVars) (p a b : Char)
    (ha : 48 ≤ a.toNat ∧ a.toNat ≤ 57) (hb : 48 ≤ b.toNat ∧ b.toNat ≤ 57)
    (hr : digitVal a * 10 + digitVal b ≤ 59)
    (hne : ds ≠ []) (hds : ∀ c ∈ ds, 48 ≤ c.toNat ∧ c.toNat ≤ 57)
    (hzone : ∀ c ∈ zone.head?, ¬(48 ≤ c.toNat ∧ c.toNat ≤ 57)) :
    ∃ nsec : Int,
      parseLoop (([p], Std.stdZeroSecond) :: layout) (p :: a :: b :: '.' :: (ds ++ zone)) v =
        parseLoop layout zone { v with sec := digitVal a * 10 + digitVal b, nsec := nsec } := by
  have va := digitVal_eq a ha
  have vb := digitVal_eq b hb
  have c : ¬(digitVal a * 10 + digitVal b < 0 ∨ 60 ≤ digitVal a * 10 + digitVal b) := by
    omega
  obtain ⟨d, ds', rfl⟩ := List.exists_cons_of_ne_nil hne
  have hd := hds d (List.mem_cons_self _ _)
  obtain ⟨n, hn⟩ := atoiDigits_all_digits ((d :: ds').take 9) 0
    fun c hc => hds c (List.mem_of_mem_take hc)
  refine ⟨n * 10 ^ (9 - ((d :: ds').take 9).length), ?_⟩
  have hcond : ('.' = '.' ∨ '.' = ',') ∧ isDigit (d :: ds' ++ zone) 0 = true :=
    ⟨Or.inl rfl, isDigit_zero d _ hd⟩
  simp only [parseLoop, skip, parseStd, if_true, getnum_two a b _ _ ha hb, if_neg c,
    if_pos hcond, takeWhile_digits (d :: ds') zone hds hzone, parseNanoseconds, hn,
    List.drop_left]
  rw [if_pos ⟨Or.inl trivial, hcond.2⟩]

theorem parseLoop_zone_utc (layout : List (List Char × Std)) (rest : List Char)
    (v : ParseVars) :
    parseLoop (([], Std.stdISO8601ColonTZ) :: layout) ('Z' :: rest) v =
      parseLoop layout rest { v with zUTC := true } := by
  simp only [parseLoop, skip, parseStd]

theorem parseLoop_zone_offset (layout : List (List Char × Std)) (rest : List Char)
    (v : ParseVars) (sign o1 o2 o3 o4 : Char) (hsign : sign = '+' ∨ sign = '-')
    (h1 : 48 ≤ o1.toNat ∧ o1.toNat ≤ 57) (h2 : 48 ≤ o2.toNat ∧ o2.toNat ≤ 57)
    (h3 : 48 ≤ o3.toNat ∧ o3.toNat ≤ 57) (h4 : 48 ≤ o4.toNat ∧ o4.toNat ≤ 57)
    (hh : digitVal o1 * 10 + digitVal o2 ≤ 23) (hm : digitVal o3 * 10 + digitVal o4 ≤ 59) :
    ∃ zoneOffset : Int,
      parseLoop (([], Std.stdISO8601ColonTZ) :: layout)
          (sign :: o1 :: o2 :: ':' :: o3 :: o4 :: rest) v =
        parseLoop layout rest { v with zoneOffset := zoneOffset } := by
  have c : ¬(24 < digitVal o1 * 10 + digitVal o2 ∨ 60 < digitVal o3 * 10 + digitVal o4) := by
    omega
  rcases hsign with rfl | rfl
  · refine ⟨(((digitVal o1 * 10 + digitVal o2) * 60 + (digitVal o3 * 10 + digitVal o4)) * 60), ?_⟩
    simp [parseLoop, skip, parseStd, getnum_two o1 o2 _ _ h1 h2, getnum_two o3 o4 _ _ h3 h4, c]
  · refine ⟨-(((digitVal o1 * 10 + digitVal o2) * 60 + (digitVal o3 * 10 + digitVal o4)) * 60),
      ?_⟩
    simp [parseLoop, skip, parseStd, getnum_two o1 o2 _ _ h1 h2, getnum_two o3 o4 _ _ h3 h4, c]

theorem appendInt_two_chars (a b : Char)
    (ha : 48 ≤ a.toNat ∧ a.toNat ≤ 57) (hb : 48 ≤ b.toNat ∧ b.toNat ≤ 57) :
    appendInt (digitVal a * 10 + digitVal b) 2 = [a, b] := by
  rw [digitVal_eq a ha, digitVal_eq b hb,
    appendInt_two (a.toNat - 48) (b.toNat - 48) (by omega) (by omega),
    digit_char_eq a ha, digit_char_eq b hb]

theorem appendInt_four_chars (a b c d : Char)
    (ha : 48 ≤ a.toNat ∧ a.toNat ≤ 57) (hb : 48 ≤ b.toNat ∧ b.toNat ≤ 57)
    (hc : 48 ≤ c.toNat ∧ c.toNat ≤ 57) (hd : 48 ≤ d.toNat ∧ d.toNat ≤ 57) :
    appendInt ((((0 * 10 + digitVal a) * 10 + digitVal b) * 10 + digitVal c) * 10 + digitVal d)
      4 = [a, b, c, d] := by
  rw [digitVal_eq a ha, digitVal_eq b hb, digitVal_eq c hc, digitVal_eq d hd,
    appendInt_four (a.toNat - 48) (b.toNat - 48) (c.toNat - 48) (d.toNat - 48) (by omega)
      (by omega) (by omega) (by omega),
    digit_char_eq a ha, digit_char_eq b hb, digit_char_eq c hc, digit_char_eq d hd]

/-- The display of a time whose year, month, day, hour and minute are given
by digits is made of these digits. -/
theorem timeFormat_digits (t : Time) (y1 y2 y3 y4 mo1 mo2 d1 d2 h1 h2 mi1 mi2 : Char)
    (hdig : ∀ c ∈ [y1, y2, y3, y4, mo1, mo2, d1, d2, h1, h2, mi1, mi2],
      48 ≤ c.toNat ∧ c.toNat ≤ 57)
    (hy : t.year =
      (((0 * 10 + digitVal y1) * 10 + digitVal y2) * 10 + digitVal y3) * 10 + digitVal y4)
    (hmo : t.month = digitVal mo1 * 10 + digitVal mo2)
    (hd : t.day = digitVal d1 * 10 + digitVal d2)
    (hh : t.hour = digitVal h1 * 10 + digitVal h2)
    (hmi : t.min = digitVal mi1 * 10 + digitVal mi2) :
    timeFormat t =
      ⟨[y1, y2, y3, y4, '-', mo1, mo2, '-', d1, d2, ' ', h1, h2, ':', mi1, mi2]⟩ := by
  unfold timeFormat
  rw [hy, hmo, hd, hh, hmi,
    appendInt_four_chars y1 y2 y3 y4 (hdig y1 (by simp)) (hdig y2 (by simp)) (hdig y3 (by simp))
      (hdig y4 (by simp)),
    appendInt_two_chars mo1 mo2 (hdig mo1 (by simp)) (hdig mo2 (by simp)),
    appendInt_two_chars d1 d2 (hdig d1 (by simp)) (hdig d2 (by simp)),
    appendInt_two_chars h1 h2 (hdig h1 (by simp)) (hdig h2 (by simp)),
    appendInt_two_chars mi1 mi2 (hdig mi1 (by simp)) (hdig mi2 (by simp))]
  rfl

/-- What `timeParse` makes of the variables the loop ends with. -/
theorem timeParse_of_parseLoop (layout : List (List Char × Std)) (value : String)
    (v : ParseVars) (h : parseLoop layout value.data ParseVars.init = some v)
    (hm : 1 ≤ v.month) (hd : 1 ≤ v.day ∧ v.day ≤ daysIn v.month v.year) :
    timeParse layout value =
      some { year := v.year, month := v.month, day := v.day, hour := v.hour, min := v.min,
             sec := v.sec, nsec := v.nsec,
             offset := if v.zUTC then 0 else if v.zoneOffset ≠ -1 then v.zoneOffset else 0 } := by
  unfold timeParse
  rw [h]
  have h1 : ¬(v.month < 0) := by omega
  have h2 : ¬(v.day < 0) := by omega
  have h3 : ¬(v.day < 1 ∨ daysIn v.month v.year < v.day) := by omega
  simp only [if_neg h1, if_neg h2, if_neg h3]

theorem timeParse_of_parseLoop_none (layout : List (List Char × Std)) (value : String)
    (h : parseLoop layout value.data ParseVars.init = none) :
    timeParse layout value = none := by
  unfold timeParse
  rw [h]

/-- The six elements of the bare layout on a date and time written with
digits, with or without a fractional second, in front of `zone`. -/
theorem parseLoop_through_seconds (more : List (List Char × Std)) (frac zone : List Char)
    (y1 y2 y3 y4 mo1 mo2 d1 d2 h1 h2 mi1 mi2 s1 s2 : Char)
    (hdig : ∀ c ∈ [y1, y2, y3, y4, mo1, mo2, d1, d2, h1, h2, mi1, mi2, s1, s2],
      48 ≤ c.toNat ∧ c.toNat ≤ 57)
    (hmo : 1 ≤ digitVal mo1 * 10 + digitVal mo2 ∧ digitVal mo1 * 10 + digitVal mo2 ≤ 12)
    (hh : digitVal h1 * 10 + digitVal h2 ≤ 23)
    (hmi : digitVal mi1 * 10 + digitVal mi2 ≤ 59)
    (hs : digitVal s1 * 10 + digitVal s2 ≤ 59)
    (hfrac : frac = [] ∨
      ∃ ds, frac = '.' :: ds ∧ ds ≠ [] ∧ ∀ c ∈ ds, 48 ≤ c.toNat ∧ c.toNat ≤ 57)
    (hzone : ∀ c ∈ zone.head?, c ≠ '.' ∧ c ≠ ',' ∧ ¬(48 ≤ c.toNat ∧ c.toNat ≤ 57)) :
    ∃ nsec : Int, (frac = [] → nsec = 0) ∧
      parseLoop (layoutISO ++ more)
          ([y1, y2, y3, y4, '-', mo1, mo2, '-', d1, d2, 'T', h1, h2, ':', mi1, mi2, ':', s1, s2]
            ++ frac ++ zone) ParseVars.init =
        parseLoop more zone
          { year := (((0 * 10 + digitVal y1) * 10 + digitVal y2) * 10 + digitVal y3) * 10 +
              digitVal y4,
            month := digitVal mo1 * 10 + digitVal mo2,
            day := digitVal d1 * 10 + digitVal d2,
            hour := digitVal h1 * 10 + digitVal h2,
            min := digitVal mi1 * 10 + digitVal mi2,
            sec := digitVal s1 * 10 + digitVal s2,
            nsec := nsec, zUTC := false, zoneOffset := -1 } := by
  have hy1 := hdig y1 (by simp)
  have hy2 := hdig y2 (by simp)
  have hy3 := hdig y3 (by simp)
  have hy4 := hdig y4 (by simp)
  have hmo1 := hdig mo1 (by simp)
  have hmo2 := hdig mo2 (by simp)
  have hd1 := hdig d1 (by simp)
  have hd2 := hdig d2 (by simp)
  have hh1 := hdig h1 (by simp)
  have hh2 := hdig h2 (by simp)
  have hmi1 := hdig mi1 (by simp)
  have hmi2 := hdig mi2 (by simp)
  have hs1 := hdig s1 (by simp)
  have hs2 := hdig s2 (by simp)
  simp only [layoutISO, List.cons_append, List.nil_append]
  rw [parseLoop_year _ _ _ y1 y2 y3 y4 hy1 hy2 hy3 hy4,
    parseLoop_month _ _ _ '-' mo1 mo2 hmo1 hmo2 hmo,
    parseLoop_day _ _ _ '-' d1 d2 hd1 hd2,
    parseLoop_hour _ _ _ 'T' h1 h2 hh1 hh2 hh,
    parseLoop_minute _ _ _ ':' mi1 mi2 hmi1 hmi2 hmi]
  rcases hfrac with rfl | ⟨ds, rfl, hne, hds⟩
  · rw [List.nil_append,
      parseLoop_second _ _ _ ':' s1 s2 hs1 hs2 hs fun c hc => ⟨(hzone c hc).1, (hzone c hc).2.1⟩]
    exact ⟨0, fun _ => rfl, rfl⟩
  · rw [List.cons_append]
    obtain ⟨nsec, hn⟩ := parseLoop_second_fraction more ds zone
      { ParseVars.init with
        year := (((0 * 10 + digitVal y1) * 10 + digitVal y2) * 10 + digitVal y3) * 10 +
          digitVal y4,
        month := digitVal mo1 * 10 + digitVal mo2,
        day := digitVal d1 * 10 + digitVal d2,
        hour := digitVal h1 * 10 + digitVal h2,
        min := digitVal mi1 * 10 + digitVal mi2 }
      ':' s1 s2 hs1 hs2 hs hne hds fun c hc => (hzone c hc).2.2
    exact ⟨nsec, fun h => absurd h (by simp), hn⟩

/-- C16: for a date string `YYYY-MM-DDTHH:MM:SS` written with digits that
denote a valid calendar date and time, `formatTimestamp` succeeds and the
display is `YYYY-MM-DD HH:MM` with the very digits of the input; the same
string followed by an optional fractional second and by `Z` or a numeric
offset `+hh:mm` or `-hh:mm` gives the same display, and the parsed time keeps
the year, month, day, hour and minute written in the input. -/
theorem formatTimestamp_display (y1 y2 y3 y4 mo1 mo2 d1 d2 h1 h2 mi1 mi2 s1 s2 : Char)
    (hdig : ∀ c ∈ [y1, y2, y3, y4, mo1, mo2, d1, d2, h1, h2, mi1, mi2, s1, s2],
      48 ≤ c.toNat ∧ c.toNat ≤ 57)
    (hmo : 1 ≤ digitVal mo1 * 10 + digitVal mo2 ∧ digitVal mo1 * 10 + digitVal mo2 ≤ 12)
    (hd : 1 ≤ digitVal d1 * 10 + digitVal d2 ∧
      digitVal d1 * 10 + digitVal d2 ≤
        daysIn (digitVal mo1 * 10 + digitVal mo2)
          ((((0 * 10 + digitVal y1) * 10 + digitVal y2) * 10 + digitVal y3) * 10 + digitVal y4))
    (hh : digitVal h1 * 10 + digitVal h2 ≤ 23)
    (hmi : digitVal mi1 * 10 + digitVal mi2 ≤ 59)
    (hs : digitVal s1 * 10 + digitVal s2 ≤ 59) :
    formatTimestamp
        ⟨[y1, y2, y3, y4, '-', mo1, mo2, '-', d1, d2, 'T', h1, h2, ':', mi1, mi2, ':', s1, s2]⟩ =
      some (⟨[y1, y2, y3, y4, '-', mo1, mo2, '-', d1, d2, ' ', h1, h2, ':', mi1, mi2]⟩,
        { year := (((0 * 10 + digitVal y1) * 10 + digitVal y2) * 10 + digitVal y3) * 10 +
            digitVal y4,
          month := digitVal mo1 * 10 + digitVal mo2,
          day := digitVal d1 * 10 + digitVal d2,
          hour := digitVal h1 * 10 + digitVal h2,
          min := digitVal mi1 * 10 + digitVal mi2,
          sec := digitVal s1 * 10 + digitVal s2,
          nsec := 0, offset := 0 }) ∧
    ∀ frac zone : List Char,
      (frac = [] ∨ ∃ ds, frac = '.' :: ds ∧ ds ≠ [] ∧ ∀ c ∈ ds, 48 ≤ c.toNat ∧ c.toNat ≤ 57) →
      (zone = ['Z'] ∨ ∃ sign o1 o2 o3 o4 : Char,
        zone = [sign, o1, o2, ':', o3, o4] ∧ (sign = '+' ∨ sign = '-') ∧
        (∀ c ∈ [o1, o2, o3, o4], 48 ≤ c.toNat ∧ c.toNat ≤ 57) ∧
        digitVal o1 * 10 + digitVal o2 ≤ 23 ∧ digitVal o3 * 10 + digitVal o4 ≤ 59) →
      ∃ t : Time,
        formatTimestamp
            ⟨[y1, y2, y3, y4, '-', mo1, mo2, '-', d1, d2, 'T', h1, h2, ':', mi1, mi2, ':', s1, s2]
              ++ frac ++ zone⟩ =
          some (⟨[y1, y2, y3, y4, '-', mo1, mo2, '-', d1, d2, ' ', h1, h2, ':', mi1, mi2]⟩, t) ∧
        t.year = (((0 * 10 + digitVal y1) * 10 + digitVal y2) * 10 + digitVal y3) * 10 +
          digitVal y4 ∧
        t.month = digitVal mo1 * 10 + digitVal mo2 ∧
        t.day = digitVal d1 * 10 + digitVal d2 ∧
        t.hour = digitVal h1 * 10 + digitVal h2 ∧
        t.min = digitVal mi1 * 10 + digitVal mi2 := by
  have hdig12 : ∀ c ∈ [y1, y2, y3, y4, mo1, mo2, d1, d2, h1, h2, mi1, mi2],
      48 ≤ c.toNat ∧ c.toNat ≤ 57 := by
    intro c hc
    apply hdig c
    simp only [List.mem_cons, List.mem_singleton, List.not_mem_nil, or_false] at hc ⊢
    tauto
  constructor
  · obtain ⟨nsec, hnsec, hloop⟩ := parseLoop_through_seconds [] [] [] y1 y2 y3 y4 mo1 mo2 d1 d2
      h1 h2 mi1 mi2 s1 s2 hdig hmo hh hmi hs (Or.inl rfl) (by simp)
    simp only [List.append_nil] at hloop
    have hparse := timeParse_of_parseLoop layoutISO
      ⟨[y1, y2, y3, y4, '-', mo1, mo2, '-', d1, d2, 'T', h1, h2, ':', mi1, mi2, ':', s1, s2]⟩
      _ (hloop.trans rfl) hmo.1 hd
    unfold formatTimestamp
    rw [hparse]
    simp only [Option.some.injEq, Prod.mk.injEq]
    refine ⟨timeFormat_digits _ y1 y2 y3 y4 mo1 mo2 d1 d2 h1 h2 mi1 mi2 hdig12 rfl rfl rfl rfl
      rfl, ?_⟩
    rw [hnsec rfl]
    rfl
  · intro frac zone hfrac hzone
    have hzhead : ∀ c ∈ zone.head?, c ≠ '.' ∧ c ≠ ',' ∧ ¬(48 ≤ c.toNat ∧ c.toNat ≤ 57) := by
      rcases hzone with rfl | ⟨sign, o1, o2, o3, o4, rfl, hsign, _⟩
      · intro c hc
        simp only [List.head?_cons, Option.mem_def, Option.some.injEq] at hc
        subst hc
        decide
      · intro c hc
        simp only [List.head?_cons, Option.mem_def, Option.some.injEq] at hc
        subst hc
        rcases hsign with rfl | rfl <;> decide
    have hzne : zone ≠ [] := by
      rcases hzone with rfl | ⟨sign, o1, o2, o3, o4, rfl, _⟩ <;> simp
    -- the bare layout leaves the zone unread
    obtain ⟨nsec0, _, hloop0⟩ := parseLoop_through_seconds [] frac zone y1 y2 y3 y4 mo1 mo2 d1
      d2 h1 h2 mi1 mi2 s1 s2 hdig hmo hh hmi hs hfrac hzhead
    have hiso : timeParse layoutISO
        ⟨[y1, y2, y3, y4, '-', mo1, mo2, '-', d1, d2, 'T', h1, h2, ':', mi1, mi2, ':', s1, s2]
          ++ frac ++ zone⟩ = none := by
      apply timeParse_of_parseLoop_none
      rw [List.append_nil] at hloop0
      rw [hloop0]
      obtain ⟨z, zs, rfl⟩ := List.exists_cons_of_ne_nil hzne
      rfl
    -- the RFC 3339 layout reads it
    obtain ⟨nsec, _, hloop⟩ := parseLoop_through_seconds [([], Std.stdISO8601ColonTZ)] frac zone
      y1 y2 y3 y4 mo1 mo2 d1 d2 h1 h2 mi1 mi2 s1 s2 hdig hmo hh hmi hs hfrac hzhead
    have hrfc : ∃ v : ParseVars,
        parseLoop layoutRFC3339
          ([y1, y2, y3, y4, '-', mo1, mo2, '-', d1, d2, 'T', h1, h2, ':', mi1, mi2, ':', s1, s2]
            ++ frac ++ zone) ParseVars.init = some v ∧
        v.year = (((0 * 10 + digitVal y1) * 10 + digitVal y2) * 10 + digitVal y3) * 10 +
          digitVal y4 ∧
        v.month = digitVal mo1 * 10 + digitVal mo2 ∧
        v.day = digitVal d1 * 10 + digitVal d2 ∧
        v.hour = digitVal h1 * 10 + digitVal h2 ∧
        v.min = digitVal mi1 * 10 + digitVal mi2 := by
      unfold layoutRFC3339
      rw [hloop]
      rcases hzone with rfl | ⟨sign, o1, o2, o3, o4, rfl, hsign, ho, hoh, hom⟩
      · rw [parseLoop_zone_utc]
        exact ⟨_, rfl, rfl, rfl, rfl, rfl, rfl⟩
      · obtain ⟨zoneOffset, hz⟩ := parseLoop_zone_offset [] [] 
          { year := (((0 * 10 + digitVal y1) * 10 + digitVal y2) * 10 + digitVal y3) * 10 +
              digitVal y4,
            month := digitVal mo1 * 10 + digitVal mo2,
            day := digitVal d1 * 10 + digitVal d2,
            hour := digitVal h1 * 10 + digitVal h2,
            min := digitVal mi1 * 10 + digitVal mi2,
            sec := digitVal s1 * 10 + digitVal s2,
            nsec := nsec, zUTC := false, zoneOffset := -1 }
          sign o1 o2 o3 o4 hsign (ho o1 (by simp)) (ho o2 (by simp)) (ho o3 (by simp))
          (ho o4 (by simp)) hoh hom
        rw [hz]
        exact ⟨_, rfl, rfl, rfl, rfl, rfl, rfl⟩
    obtain ⟨v, hv, hvy, hvmo, hvd, hvh, hvmi⟩ := hrfc
    have hparse := timeParse_of_parseLoop layoutRFC3339
      ⟨[y1, y2, y3, y4, '-', mo1, mo2, '-', d1, d2, 'T', h1, h2, ':', mi1, mi2, ':', s1, s2]
        ++ frac ++ zone⟩ v hv (by rw [hvmo]; exact hmo.1) (by rw [hvd, hvmo, hvy]; exact hd)
    refine ⟨{ year := v.year, month := v.month, day := v.day, hour := v.hour, min := v.min,
              sec := v.sec, nsec := v.nsec,
              offset := if v.zUTC then 0 else if v.zoneOffset ≠ -1 then v.zoneOffset else 0 },
      ?_, hvy, hvmo, hvd, hvh, hvmi⟩
    unfold formatTimestamp
    rw [hiso, hparse]
    simp only [Option.some.injEq, Prod.mk.injEq, and_true]
    exact timeFormat_digits _ y1 y2 y3 y4 mo1 mo2 d1 d2 h1 h2 mi1 mi2 hdig12 hvy hvmo hvd hvh
      hvmi

/-- C16, at the date of the test suite and at the same date with an offset
of three hours: the display is the same, hour 14 in both. -/
theorem formatTimestamp_display_witness :
    formatTimestamp "2024-01-15T14:30:00" =
      some ("2024-01-15 14:30", ⟨2024, 1, 15, 14, 30, 0, 0, 0⟩) ∧
    ∃ t : Time, formatTimestamp "2024-01-15T14:30:00+03:00" = some ("2024-01-15 14:30", t) ∧
      t.hour = 14 := by
  have h := formatTimestamp_display '2' '0' '2' '4' '0' '1' '1' '5' '1' '4' '3' '0' '0' '0'
    (by decide) (by decide) (by decide) (by decide) (by decide) (by decide)
  refine ⟨h.1, ?_⟩
  obtain ⟨t, ht, _, _, _, hh, _⟩ := h.2 [] ['+', '0', '3', ':', '0', '0'] (Or.inl rfl)
    (Or.inr ⟨'+', '0', '3', '0', '0', rfl, Or.inl rfl, by decide, by decide, by decide⟩)
  exact ⟨t, ht, hh⟩

/-! ## Decoding the text field -/

theorem TextContent_UnmarshalJSON_samples :
    TextContent.UnmarshalJSON (JSON.str "Hello, World!") = some ⟨"Hello, World!", []⟩ ∧
    TextContent.UnmarshalJSON
        (JSON.arr [JSON.obj [("type", JSON.str "plain"), ("text", JSON.str "Hello ")],
          JSON.obj [("type", JSON.str "bold"), ("text", JSON.str "World")]]) =
      some ⟨"", [⟨"plain", "Hello ", ""⟩, ⟨"bold", "World", ""⟩]⟩ ∧
    TextContent.UnmarshalJSON (JSON.arr []) = some ⟨"", []⟩ ∧
    TextContent.UnmarshalJSON (JSON.num "5") = none ∧
    TextContent.UnmarshalJSON (JSON.arr [JSON.num "5"]) = none ∧
    TextContent.UnmarshalJSON (JSON.arr [JSON.obj [("Type", JSON.str "bold"),
        ("text", JSON.num "1")]]) = none := by
  decide

theorem unmarshalEntityMember_foldl (members : List (String × JSON)) (acc : TextEntity)
    (h : isSpanObject members) :
    members.foldl unmarshalEntityMember (acc, false) =
      ({ Kind := match members.lookup "type" with
                 | some (JSON.str s) => s
                 | _ => acc.Kind,
         Text := match members.lookup "text" with
                 | some (JSON.str s) => s
                 | _ => acc.Text,
         Href := match members.lookup "href" with
                 | some (JSON.str s) => s
                 | _ => acc.Href }, false) := by
  induction members generalizing acc with
  | nil => rfl
  | cons m rest ih =>
    obtain ⟨k, v⟩ := m
    obtain ⟨hnodup, hfields⟩ := h
    rw [List.map_cons, List.nodup_cons] at hnodup
    have hrest : isSpanObject rest :=
      ⟨hnodup.2, fun m hm => hfields m (List.mem_cons_of_mem _ hm)⟩
    have hk := hfields (k, v) (List.mem_cons_self _ _)
    have hnot : ∀ name : String, k = name → rest.lookup name = none := by
      intro name hkn
      rw [List.lookup_eq_none_iff]
      intro p hp
      rw [bne_iff_ne]
      intro e
      apply hnodup.1
      show k ∈ List.map Prod.fst rest
      rw [hkn, e]
      exact List.mem_map_of_mem Prod.fst hp
    rw [List.foldl_cons]
    by_cases h1 : foldName k = foldName "type"
    · obtain ⟨hkn, s, hs⟩ := hk "type" (by simp) h1
      subst hkn
      subst hs
      have hacc : unmarshalEntityMember (acc, false) ("type", JSON.str s) =
          ({ acc with Kind := s }, false) := by
        simp [unmarshalEntityMember]
      rw [hacc, ih _ hrest, hnot "type" rfl]
      simp [List.lookup]
    · by_cases h2 : foldName k = foldName "text"
      · obtain ⟨hkn, s, hs⟩ := hk "text" (by simp) h2
        subst hkn
        subst hs
        have hacc : unmarshalEntityMember (acc, false) ("text", JSON.str s) =
            ({ acc with Text := s }, false) := by
          simp [unmarshalEntityMember, h1]
        rw [hacc, ih _ hrest, hnot "text" rfl]
        simp [List.lookup]
      · by_cases h3 : foldName k = foldName "href"
        · obtain ⟨hkn, s, hs⟩ := hk "href" (by simp) h3
          subst hkn
          subst hs
          have hacc : unmarshalEntityMember (acc, false) ("href", JSON.str s) =
              ({ acc with Href := s }, false) := by
            simp [unmarshalEntityMember, h1, h2]
          rw [hacc, ih _ hrest, hnot "href" rfl]
          simp [List.lookup]
        · have hacc : unmarshalEntityMember (acc, false) (k, v) = (acc, false) := by
            simp [unmarshalEntityMember, h1, h2, h3]
          have hne : ∀ name : String, foldName k ≠ foldName name → ("" ++ name == k) = false := by
            intro name hn
            rw [String.empty_append, beq_eq_false_iff_ne]
            intro e
            exact hn (by rw [e])
          rw [hacc, ih _ hrest]
          simp only [List.lookup]
          have e1 := hne "type" h1
          have e2 := hne "text" h2
          have e3 := hne "href" h3
          simp only [String.empty_append] at e1 e2 e3
          rw [e1, e2, e3]

theorem isSpanObject_type_text (kind text : String) :
    isSpanObject [("type", JSON.str kind), ("text", JSON.str text)] := by
  have hnodup : (["type", "text"] : List String).Nodup := by decide
  have h1 : foldName "type" ≠ foldName "text" := by decide
  have h2 : foldName "type" ≠ foldName "href" := by decide
  have h3 : foldName "text" ≠ foldName "href" := by decide
  refine ⟨hnodup, ?_⟩
  intro m hm name hname hfold
  simp only [List.mem_cons, List.mem_singleton, List.not_mem_nil, or_false] at hm hname
  rcases hm with rfl | rfl <;> rcases hname with rfl | rfl | rfl <;>
    first
      | exact ⟨rfl, _, rfl⟩
      | exact absurd hfold h1
      | exact absurd hfold h2
      | exact absurd hfold h3
      | exact absurd hfold.symm h1

theorem TextEntity_UnmarshalJSON_standsFor (elem : JSON) (span : TextEntity)
    (h : standsFor elem span) : TextEntity.UnmarshalJSON elem = some span := by
  rcases h with ⟨s, rfl, rfl⟩ | ⟨members, rfl, hspan, rfl⟩
  · rfl
  · simp only [TextEntity.UnmarshalJSON, unmarshalString, unmarshalEntityAlias,
      unmarshalEntityMember_foldl members _ hspan, Bool.false_eq_true, if_false]
    rfl

theorem unmarshalEntityElems_standsFor (elems : List JSON) (spans : List TextEntity)
    (h : List.Forall₂ standsFor elems spans) : unmarshalEntityElems elems = some spans := by
  induction h with
  | nil => rfl
  | cons hd _ ih =>
    simp only [unmarshalEntityElems, TextEntity_UnmarshalJSON_standsFor _ _ hd, ih]

/-- C17: a JSON string `X` decodes to `Plain = X` and no spans; a JSON array
whose elements are span objects or bare strings decodes to `Plain = ""` and
one span per element in the original order, an object giving its `type`,
`text` and `href` fields and a bare string `s` the same span as the object
with `type` `plain` and `text` `s`; after a decode at most one of `Plain`
and `Entities` is populated. -/
theorem TextContent_UnmarshalJSON_shapes :
    (∀ X : String, TextContent.UnmarshalJSON (JSON.str X) = some { Plain := X, Entities := [] }) ∧
    (∀ (elems : List JSON) (spans : List TextEntity), List.Forall₂ standsFor elems spans →
      TextContent.UnmarshalJSON (JSON.arr elems) = some { Plain := "", Entities := spans }) ∧
    (∀ s : String,
      TextEntity.UnmarshalJSON (JSON.str s) = some { Kind := "plain", Text := s, Href := "" } ∧
      TextEntity.UnmarshalJSON (JSON.obj [("type", JSON.str "plain"), ("text", JSON.str s)]) =
        TextEntity.UnmarshalJSON (JSON.str s)) ∧
    (∀ (data : JSON) (tc : TextContent), TextContent.UnmarshalJSON data = some tc →
      tc.Plain = "" ∨ tc.Entities = []) := by
  refine ⟨fun X => rfl, ?_, fun s => ⟨rfl, ?_⟩, ?_⟩
  · intro elems spans h
    simp only [TextContent.UnmarshalJSON, unmarshalString, unmarshalEntities,
      unmarshalEntityElems_standsFor elems spans h]
  · exact TextEntity_UnmarshalJSON_standsFor _ _
      (Or.inr ⟨_, rfl, isSpanObject_type_text "plain" s, rfl⟩)
  · intro data tc h
    unfold TextContent.UnmarshalJSON at h
    cases hs : unmarshalString data "" with
    | some plain =>
      rw [hs] at h
      simp only [Option.some.injEq] at h
      exact Or.inr (by rw [← h])
    | none =>
      rw [hs] at h
      cases he : unmarshalEntities data [] with
      | some entities =>
        rw [he] at h
        simp only [Option.some.injEq] at h
        exact Or.inl (by rw [← h])
      | none =>
        rw [he] at h
        exact Option.noConfusion h

/-- C17, at the array of `TestTextContent_UnmarshalArray` with a bare string
added. -/
theorem TextContent_UnmarshalJSON_shapes_witness :
    TextContent.UnmarshalJSON
        (JSON.arr [JSON.obj [("type", JSON.str "plain"), ("text", JSON.str "Hello ")],
          JSON.str "World"]) =
      some { Plain := "", Entities := [⟨"plain", "Hello ", ""⟩, ⟨"plain", "World", ""⟩] } :=
  TextContent_UnmarshalJSON_shapes.2.1
    [JSON.obj [("type", JSON.str "plain"), ("text", JSON.str "Hello ")], JSON.str "World"]
    [⟨"plain", "Hello ", ""⟩, ⟨"plain", "World", ""⟩]
    (List.Forall₂.cons
      (Or.inr ⟨[("type", JSON.str "plain"), ("text", JSON.str "Hello ")], rfl,
        isSpanObject_type_text "plain" "Hello ", rfl⟩)
      (List.Forall₂.cons (Or.inl ⟨"World", rfl, rfl⟩) List.Forall₂.nil))

/-- C18, the failing input: the JSON value `null` is neither a string nor an
array, and `TextContent.UnmarshalJSON` accepts it as the empty plain text;
an array with a `null` element is accepted too, the element becoming an empty
plain span. -/
theorem TextContent_UnmarshalJSON_null :
    TextContent.UnmarshalJSON JSON.null = some { Plain := "", Entities := [] } ∧
    TextContent.UnmarshalJSON (JSON.arr [JSON.null]) =
      some { Plain := "", Entities := [⟨"plain", "", ""⟩] } := by
  decide

/-- What `TextContent.UnmarshalJSON` does reject: a number, a boolean, an
object, and an array with an element that is a number, a boolean or an
array. -/
theorem TextContent_UnmarshalJSON_rejects (literal : String) (b : Bool)
    (members : List (String × JSON)) (before after inner : List JSON) :
    TextContent.UnmarshalJSON (JSON.num literal) = none ∧
    TextContent.UnmarshalJSON (JSON.bool b) = none ∧
    TextContent.UnmarshalJSON (JSON.obj members) = none ∧
    TextContent.UnmarshalJSON (JSON.arr (before ++ JSON.num literal :: after)) = none ∧
    TextContent.UnmarshalJSON (JSON.arr (before ++ JSON.bool b :: after)) = none ∧
    TextContent.UnmarshalJSON (JSON.arr (before ++ JSON.arr inner :: after)) = none := by
  have hmid : ∀ (bad : JSON), TextEntity.UnmarshalJSON bad = none →
      ∀ before : List JSON, unmarshalEntityElems (before ++ bad :: after) = none := by
    intro bad hbad before
    induction before with
    | nil => simp only [List.nil_append, unmarshalEntityElems, hbad]
    | cons x xs ih =>
      rw [List.cons_append]
      unfold unmarshalEntityElems
      cases TextEntity.UnmarshalJSON x with
      | none => rfl
      | some te => simp only [ih]
  refine ⟨rfl, rfl, rfl, ?_, ?_, ?_⟩
  · simp only [TextContent.UnmarshalJSON, unmarshalString, unmarshalEntities,
      hmid (JSON.num literal) rfl before]
  · simp only [TextContent.UnmarshalJSON, unmarshalString, unmarshalEntities,
      hmid (JSON.bool b) rfl before]
  · simp only [TextContent.UnmarshalJSON, unmarshalString, unmarshalEntities,
      hmid (JSON.arr inner) rfl before]

/-! ## Properties of the decoder and of `GetChatInfo` -/

/-- The limit of `float64InRange`: the largest `float64` is
`2 ^ 1024 - 2 ^ 971`, and half a unit in its last place is `2 ^ 970`. -/
theorem float64Limit_eq : float64Limit = 2 ^ 1024 - 2 ^ 970 := by
  unfold float64Limit
  norm_num

/-- Samples of `float64InRange` around the largest `float64`,
`1.7976931348623157e308`. -/
theorem float64InRange_samples :
    float64InRange "1234567890" = true ∧ float64InRange "-0.5" = true ∧
    float64InRange "1e308" = true ∧ float64InRange "1.7976931348623157e308" = true ∧
    float64InRange "1.7976931348623159E+308" = false ∧ float64InRange "1e309" = false ∧
    float64InRange "-1e400" = false ∧ float64InRange "25e-400" = true := by
  decide

theorem Token_comma_array (inp : List Lexeme) (st : List TokenState) (e : Bool) :
    Decoder.Token ⟨Lexeme.comma :: inp, TokenState.tokenArrayComma, st, e⟩ =
      Decoder.Token ⟨inp, TokenState.tokenArrayValue, st, e⟩ := by
  simp [Decoder.Token, tokenLoop]

theorem Token_comma_object (inp : List Lexeme) (st : List TokenState) (e : Bool) :
    Decoder.Token ⟨Lexeme.comma :: inp, TokenState.tokenObjectComma, st, e⟩ =
      Decoder.Token ⟨inp, TokenState.tokenObjectKey, st, e⟩ := by
  simp [Decoder.Token, tokenLoop]

theorem Token_colon (inp : List Lexeme) (st : List TokenState) (e : Bool) :
    Decoder.Token ⟨Lexeme.colon :: inp, TokenState.tokenObjectColon, st, e⟩ =
      Decoder.Token ⟨inp, TokenState.tokenObjectValue, st, e⟩ := by
  simp [Decoder.Token, tokenLoop]

theorem Token_beginArray (inp : List Lexeme) (s : TokenState) (st : List TokenState)
    (h : tokenValueAllowed s = true) :
    Decoder.Token ⟨Lexeme.beginArray :: inp, s, st, false⟩ =
      (TokenResult.token (Token.delim '['), ⟨inp, TokenState.tokenArrayStart, s :: st, false⟩) := by
  simp [Decoder.Token, tokenLoop, h]

theorem Token_beginObject (inp : List Lexeme) (s : TokenState) (st : List TokenState)
    (h : tokenValueAllowed s = true) :
    Decoder.Token ⟨Lexeme.beginObject :: inp, s, st, false⟩ =
      (TokenResult.token (Token.delim '{'), ⟨inp, TokenState.tokenObjectStart, s :: st, false⟩) := by
  simp [Decoder.Token, tokenLoop, h]

theorem Token_endArray (inp : List Lexeme) (s top : TokenState) (st : List TokenState)
    (h : s = TokenState.tokenArrayStart ∨ s = TokenState.tokenArrayComma) :
    Decoder.Token ⟨Lexeme.endArray :: inp, s, top :: st, false⟩ =
      (TokenResult.token (Token.delim ']'), ⟨inp, tokenValueEnd top, st, false⟩) := by
  rcases h with rfl | rfl <;> simp [Decoder.Token, tokenLoop]

theorem Token_endObject (inp : List Lexeme) (s top : TokenState) (st : List TokenState)
    (h : s = TokenState.tokenObjectStart ∨ s = TokenState.tokenObjectComma) :
    Decoder.Token ⟨Lexeme.endObject :: inp, s, top :: st, false⟩ =
      (TokenResult.token (Token.delim '}'), ⟨inp, tokenValueEnd top, st, false⟩) := by
  rcases h with rfl | rfl <;> simp [Decoder.Token, tokenLoop]

theorem Token_key (inp : List Lexeme) (s : TokenState) (st : List TokenState) (k : String)
    (h : s = TokenState.tokenObjectStart ∨ s = TokenState.tokenObjectKey) :
    Decoder.Token ⟨Lexeme.string k :: inp, s, st, false⟩ =
      (TokenResult.token (Token.string k), ⟨inp, TokenState.tokenObjectColon, st, false⟩) := by
  rcases h with rfl | rfl <;> simp [Decoder.Token, tokenLoop]

theorem Token_scalar (v : JSON) (inp : List Lexeme) (s : TokenState) (st : List TokenState)
    (hv : (∀ es, v ≠ JSON.arr es) ∧ ∀ ms, v ≠ JSON.obj ms) (hf : v.numbersFit = true)
    (h : tokenValueAllowed s = true) :
    Decoder.Token ⟨v.lexemes ++ inp, s, st, false⟩ =
      (TokenResult.token (scalarToken v), ⟨inp, tokenValueEnd s, st, false⟩) := by
  have hs1 : s ≠ TokenState.tokenObjectStart := by rintro rfl; simp [tokenValueAllowed] at h
  have hs2 : s ≠ TokenState.tokenObjectKey := by rintro rfl; simp [tokenValueAllowed] at h
  cases v with
  | null => simp [JSON.lexemes, Decoder.Token, tokenLoop, h, scalarToken]
  | bool b => cases b <;> simp [JSON.lexemes, Decoder.Token, tokenLoop, h, scalarToken]
  | num n =>
    rw [JSON.numbersFit] at hf
    simp [JSON.lexemes, Decoder.Token, tokenLoop, h, scalarToken, hf]
  | str x => simp [JSON.lexemes, Decoder.Token, tokenLoop, h, scalarToken, hs1, hs2]
  | arr es => exact absurd rfl (hv.1 es)
  | obj ms => exact absurd rfl (hv.2 ms)

/-- On a number out of the range of `float64`, `Token` returns an error. -/
theorem Token_number_fails (literal : String) (inp : List Lexeme) (s : TokenState)
    (st : List TokenState) (hf : float64InRange literal = false)
    (h : tokenValueAllowed s = true) :
    Decoder.Token ⟨Lexeme.number literal :: inp, s, st, false⟩ =
      (TokenResult.error, ⟨inp, tokenValueEnd s, st, false⟩) := by
  simp [Decoder.Token, tokenLoop, h, hf]

theorem skipArrayLoop_succ (fuel : Nat) (depth : Int) (decoder : Decoder) (h : 0 < depth) :
    skipArrayLoop (fuel + 1) depth decoder =
      match decoder.Token with
      | (TokenResult.token t, decoder) =>
        if t = Token.delim '[' then skipArrayLoop fuel (depth + 1) decoder
        else if t = Token.delim ']' then skipArrayLoop fuel (depth - 1) decoder
        else skipArrayLoop fuel depth decoder
      | (_, decoder) => some (false, decoder) := by
  rw [skipArrayLoop]
  simp only [gt_iff_lt, h, if_true]

theorem skipArrayLoop_comma_array (fuel : Nat) (depth : Int) (inp : List Lexeme)
    (st : List TokenState) (e : Bool) (h : 0 < depth) :
    skipArrayLoop fuel depth ⟨Lexeme.comma :: inp, TokenState.tokenArrayComma, st, e⟩ =
      skipArrayLoop fuel depth ⟨inp, TokenState.tokenArrayValue, st, e⟩ := by
  cases fuel with
  | zero => rfl
  | succ n => rw [skipArrayLoop_succ _ _ _ h, skipArrayLoop_succ _ _ _ h, Token_comma_array]

theorem skipArrayLoop_comma_object (fuel : Nat) (depth : Int) (inp : List Lexeme)
    (st : List TokenState) (e : Bool) (h : 0 < depth) :
    skipArrayLoop fuel depth ⟨Lexeme.comma :: inp, TokenState.tokenObjectComma, st, e⟩ =
      skipArrayLoop fuel depth ⟨inp, TokenState.tokenObjectKey, st, e⟩ := by
  cases fuel with
  | zero => rfl
  | succ n => rw [skipArrayLoop_succ _ _ _ h, skipArrayLoop_succ _ _ _ h, Token_comma_object]

theorem skipArrayLoop_colon (fuel : Nat) (depth : Int) (inp : List Lexeme)
    (st : List TokenState) (e : Bool) (h : 0 < depth) :
    skipArrayLoop fuel depth ⟨Lexeme.colon :: inp, TokenState.tokenObjectColon, st, e⟩ =
      skipArrayLoop fuel depth ⟨inp, TokenState.tokenObjectValue, st, e⟩ := by
  cases fuel with
  | zero => rfl
  | succ n => rw [skipArrayLoop_succ _ _ _ h, skipArrayLoop_succ _ _ _ h, Token_colon]

theorem scalarToken_ne_bracket (v : JSON) :
    scalarToken v ≠ Token.delim '[' ∧ scalarToken v ≠ Token.delim ']' := by
  cases v <;> simp [scalarToken]

mutual
/-- Inside `skipArray`, a JSON value is passed token by token and leaves the
depth as it was. -/
theorem skipArrayLoop_value (v : JSON) (rest : List Lexeme) (s : TokenState)
    (st : List TokenState) (d : Int) (fuel : Nat) (hf : v.numbersFit = true)
    (hs : tokenValueAllowed s = true) (hd : 0 < d) :
    skipArrayLoop (fuel + v.tokenCount) d ⟨v.lexemes ++ rest, s, st, false⟩ =
      skipArrayLoop fuel d ⟨rest, tokenValueEnd s, st, false⟩ := by
  match v with
  | JSON.null =>
    rw [JSON.tokenCount, skipArrayLoop_succ _ _ _ hd,
      Token_scalar JSON.null rest s st ⟨by simp, by simp⟩ hf hs]
    simp [scalarToken]
  | JSON.bool b =>
    rw [JSON.tokenCount, skipArrayLoop_succ _ _ _ hd,
      Token_scalar (JSON.bool b) rest s st ⟨by simp, by simp⟩ hf hs]
    simp [scalarToken]
  | JSON.num n =>
    rw [JSON.tokenCount, skipArrayLoop_succ _ _ _ hd,
      Token_scalar (JSON.num n) rest s st ⟨by simp, by simp⟩ hf hs]
    simp [scalarToken]
  | JSON.str x =>
    rw [JSON.tokenCount, skipArrayLoop_succ _ _ _ hd,
      Token_scalar (JSON.str x) rest s st ⟨by simp, by simp⟩ hf hs]
    simp [scalarToken]
  | JSON.arr es =>
    have h1 : fuel + (JSON.arr es).tokenCount = (fuel + 1 + elemsTokenCount es) + 1 := by
      rw [JSON.tokenCount]; omega
    rw [h1, JSON.lexemes, skipArrayLoop_succ _ _ _ hd, List.cons_append,
      Token_beginArray _ _ _ hs]
    simp only [if_true, List.append_assoc, List.singleton_append]
    rw [skipArrayLoop_elems es true TokenState.tokenArrayStart rfl (Lexeme.endArray :: rest)
      (s :: st) (d + 1) (fuel + 1) (by rw [JSON.numbersFit] at hf; exact hf) (by omega)]
    rw [skipArrayLoop_succ _ _ _ (by omega), Token_endArray _ _ _ _ (by
      cases es.isEmpty <;> simp)]
    simp only [Token.delim.injEq, Char.reduceEq, if_false, if_true]
    rw [show d + 1 - 1 = d by omega]
  | JSON.obj ms =>
    have h1 : fuel + (JSON.obj ms).tokenCount = (fuel + 1 + membersTokenCount ms) + 1 := by
      rw [JSON.tokenCount]; omega
    rw [h1, JSON.lexemes, skipArrayLoop_succ _ _ _ hd, List.cons_append,
      Token_beginObject _ _ _ hs]
    simp only [Token.delim.injEq, Char.reduceEq, if_false, List.append_assoc,
      List.singleton_append]
    rw [skipArrayLoop_members ms true TokenState.tokenObjectStart rfl
      (Lexeme.endObject :: rest) (s :: st) d (fuel + 1) (by rw [JSON.numbersFit] at hf; exact hf)
      hd]
    rw [skipArrayLoop_succ _ _ _ hd, Token_endObject _ _ _ _ (by
      cases ms.isEmpty <;> simp)]
    simp only [Token.delim.injEq, Char.reduceEq, if_false]
/-- The elements of an array inside `skipArray`. -/
theorem skipArrayLoop_elems (es : List JSON) (first : Bool) (s0 : TokenState)
    (h0 : s0 = if first then TokenState.tokenArrayStart else TokenState.tokenArrayComma)
    (rest : List Lexeme) (st : List TokenState) (d : Int) (fuel : Nat)
    (hf : elemsFit es = true) (hd : 0 < d) :
    skipArrayLoop (fuel + elemsTokenCount es) d ⟨elemsLexemes first es ++ rest, s0, st, false⟩ =
      skipArrayLoop fuel d
        ⟨rest, if es.isEmpty then s0 else TokenState.tokenArrayComma, st, false⟩ := by
  match es with
  | [] => simp [elemsTokenCount, elemsLexemes]
  | v :: es' =>
    have h1 : fuel + elemsTokenCount (v :: es') = (fuel + elemsTokenCount es') + v.tokenCount := by
      rw [elemsTokenCount]; omega
    rw [elemsFit, Bool.and_eq_true] at hf
    have hrest := skipArrayLoop_elems es' false TokenState.tokenArrayComma rfl rest st d fuel
      hf.2 hd
    simp only [ite_self] at hrest
    rw [h1, elemsLexemes]
    simp only [List.isEmpty_cons, Bool.false_eq_true, if_false]
    cases first with
    | true =>
      subst h0
      simp only [if_true, List.nil_append, List.append_assoc]
      rw [skipArrayLoop_value v _ TokenState.tokenArrayStart _ _ _ hf.1 rfl hd]
      exact hrest
    | false =>
      subst h0
      simp only [Bool.false_eq_true, if_false, List.singleton_append, List.cons_append,
        List.append_assoc, List.nil_append]
      rw [skipArrayLoop_comma_array _ _ _ _ _ hd,
        skipArrayLoop_value v _ TokenState.tokenArrayValue _ _ _ hf.1 rfl hd]
      exact hrest
/-- The members of an object inside `skipArray`. -/
theorem skipArrayLoop_members (ms : List (String × JSON)) (first : Bool) (s0 : TokenState)
    (h0 : s0 = if first then TokenState.tokenObjectStart else TokenState.tokenObjectComma)
    (rest : List Lexeme) (st : List TokenState) (d : Int) (fuel : Nat)
    (hf : membersFit ms = true) (hd : 0 < d) :
    skipArrayLoop (fuel + membersTokenCount ms) d
        ⟨membersLexemes first ms ++ rest, s0, st, false⟩ =
      skipArrayLoop fuel d
        ⟨rest, if ms.isEmpty then s0 else TokenState.tokenObjectComma, st, false⟩ := by
  match ms with
  | [] => simp [membersTokenCount, membersLexemes]
  | (k, v) :: ms' =>
    have h1 : fuel + membersTokenCount ((k, v) :: ms') =
        ((fuel + membersTokenCount ms') + v.tokenCount) + 1 := by
      rw [membersTokenCount]; omega
    rw [membersFit, Bool.and_eq_true] at hf
    have hrest := skipArrayLoop_members ms' false TokenState.tokenObjectComma rfl rest st d fuel
      hf.2 hd
    simp only [ite_self] at hrest
    rw [h1, membersLexemes]
    simp only [List.isEmpty_cons, Bool.false_eq_true, if_false]
    cases first with
    | true =>
      subst h0
      simp only [if_true, List.nil_append, List.cons_append, List.append_assoc]
      rw [skipArrayLoop_succ _ _ _ hd, Token_key _ _ _ _ (Or.inl rfl)]
      simp only [reduceCtorEq, if_false]
      rw [skipArrayLoop_colon _ _ _ _ _ hd,
        skipArrayLoop_value v _ TokenState.tokenObjectValue _ _ _ hf.1 rfl hd]
      exact hrest
    | false =>
      subst h0
      simp only [Bool.false_eq_true, if_false, List.singleton_append, List.cons_append,
        List.append_assoc, List.nil_append]
      rw [skipArrayLoop_comma_object _ _ _ _ _ hd, skipArrayLoop_succ _ _ _ hd,
        Token_key _ _ _ _ (Or.inr rfl)]
      simp only [reduceCtorEq, if_false]
      rw [skipArrayLoop_colon _ _ _ _ _ hd,
        skipArrayLoop_value v _ TokenState.tokenObjectValue _ _ _ hf.1 rfl hd]
      exact hrest
end

mutual
/-- Inside `skipArray`, a JSON value that holds a number out of the range of
`float64` ends the loop with an error. -/
theorem skipArrayLoop_value_fails (v : JSON) (rest : List Lexeme) (s : TokenState)
    (st : List TokenState) (d : Int) (fuel : Nat) (hf : v.numbersFit = false)
    (hs : tokenValueAllowed s = true) (hd : 0 < d) :
    ∃ dec, skipArrayLoop (fuel + v.tokenCount) d ⟨v.lexemes ++ rest, s, st, false⟩ =
      some (false, dec) := by
  match v with
  | JSON.null => simp [JSON.numbersFit] at hf
  | JSON.bool b => simp [JSON.numbersFit] at hf
  | JSON.str x => simp [JSON.numbersFit] at hf
  | JSON.num n =>
    rw [JSON.numbersFit] at hf
    rw [JSON.tokenCount, skipArrayLoop_succ _ _ _ hd, JSON.lexemes, List.singleton_append,
      Token_number_fails n rest s st hf hs]
    exact ⟨_, rfl⟩
  | JSON.arr es =>
    rw [JSON.numbersFit] at hf
    have h1 : fuel + (JSON.arr es).tokenCount = (fuel + 1 + elemsTokenCount es) + 1 := by
      rw [JSON.tokenCount]; omega
    rw [h1, JSON.lexemes, skipArrayLoop_succ _ _ _ hd, List.cons_append,
      Token_beginArray _ _ _ hs]
    simp only [if_true, List.append_assoc, List.singleton_append]
    exact skipArrayLoop_elems_fails es true TokenState.tokenArrayStart rfl
      (Lexeme.endArray :: rest) (s :: st) (d + 1) (fuel + 1) hf (by omega)
  | JSON.obj ms =>
    rw [JSON.numbersFit] at hf
    have h1 : fuel + (JSON.obj ms).tokenCount = (fuel + 1 + membersTokenCount ms) + 1 := by
      rw [JSON.tokenCount]; omega
    rw [h1, JSON.lexemes, skipArrayLoop_succ _ _ _ hd, List.cons_append,
      Token_beginObject _ _ _ hs]
    simp only [Token.delim.injEq, Char.reduceEq, if_false, List.append_assoc,
      List.singleton_append]
    exact skipArrayLoop_members_fails ms true TokenState.tokenObjectStart rfl
      (Lexeme.endObject :: rest) (s :: st) d (fuel + 1) hf hd
/-- The elements of an array that holds a number out of range, inside
`skipArray`. -/
theorem skipArrayLoop_elems_fails (es : List JSON) (first : Bool) (s0 : TokenState)
    (h0 : s0 = if first then TokenState.tokenArrayStart else TokenState.tokenArrayComma)
    (rest : List Lexeme) (st : List TokenState) (d : Int) (fuel : Nat)
    (hf : elemsFit es = false) (hd : 0 < d) :
    ∃ dec, skipArrayLoop (fuel + elemsTokenCount es) d
        ⟨elemsLexemes first es ++ rest, s0, st, false⟩ = some (false, dec) := by
  match es with
  | [] => simp [elemsFit] at hf
  | v :: es' =>
    have h1 : fuel + elemsTokenCount (v :: es') = (fuel + elemsTokenCount es') + v.tokenCount := by
      rw [elemsTokenCount]; omega
    have hstart : ∃ sV, tokenValueAllowed sV = true ∧ tokenValueEnd sV = TokenState.tokenArrayComma ∧
        skipArrayLoop (fuel + elemsTokenCount (v :: es')) d
          ⟨elemsLexemes first (v :: es') ++ rest, s0, st, false⟩ =
        skipArrayLoop ((fuel + elemsTokenCount es') + v.tokenCount) d
          ⟨v.lexemes ++ (elemsLexemes false es' ++ rest), sV, st, false⟩ := by
      rw [h1, elemsLexemes]
      cases first with
      | true =>
        subst h0
        refine ⟨TokenState.tokenArrayStart, rfl, rfl, ?_⟩
        simp only [if_true, List.nil_append, List.append_assoc]
      | false =>
        subst h0
        refine ⟨TokenState.tokenArrayValue, rfl, rfl, ?_⟩
        simp only [Bool.false_eq_true, if_false, List.singleton_append, List.cons_append,
          List.append_assoc, List.nil_append]
        rw [skipArrayLoop_comma_array _ _ _ _ _ hd]
    obtain ⟨sV, hsV, hend, hstart⟩ := hstart
    rw [hstart]
    cases hv : v.numbersFit with
    | false => exact skipArrayLoop_value_fails v _ sV st d _ hv hsV hd
    | true =>
      rw [elemsFit, hv, Bool.true_and] at hf
      rw [skipArrayLoop_value v _ sV st d _ hv hsV hd, hend]
      exact skipArrayLoop_elems_fails es' false TokenState.tokenArrayComma rfl rest st d fuel
        hf hd
/-- The members of an object that holds a number out of range, inside
`skipArray`. -/
theorem skipArrayLoop_members_fails (ms : List (String × JSON)) (first : Bool)
    (s0 : TokenState)
    (h0 : s0 = if first then TokenState.tokenObjectStart else TokenState.tokenObjectComma)
    (rest : List Lexeme) (st : List TokenState) (d : Int) (fuel : Nat)
    (hf : membersFit ms = false) (hd : 0 < d) :
    ∃ dec, skipArrayLoop (fuel + membersTokenCount ms) d
        ⟨membersLexemes first ms ++ rest, s0, st, false⟩ = some (false, dec) := by
  match ms with
  | [] => simp [membersFit] at hf
  | (k, v) :: ms' =>
    have h1 : fuel + membersTokenCount ((k, v) :: ms') =
        ((fuel + membersTokenCount ms') + v.tokenCount) + 1 := by
      rw [membersTokenCount]; omega
    have hstart : skipArrayLoop (fuel + membersTokenCount ((k, v) :: ms')) d
          ⟨membersLexemes first ((k, v) :: ms') ++ rest, s0, st, false⟩ =
        skipArrayLoop ((fuel + membersTokenCount ms') + v.tokenCount) d
          ⟨v.lexemes ++ (membersLexemes false ms' ++ rest), TokenState.tokenObjectValue, st,
            false⟩ := by
      rw [h1, membersLexemes]
      cases first with
      | true =>
        subst h0
        simp only [if_true, List.nil_append, List.cons_append, List.append_assoc]
        rw [skipArrayLoop_succ _ _ _ hd, Token_key _ _ _ _ (Or.inl rfl)]
        simp only [reduceCtorEq, if_false]
        rw [skipArrayLoop_colon _ _ _ _ _ hd]
      | false =>
        subst h0
        simp only [Bool.false_eq_true, if_false, List.singleton_append, List.cons_append,
          List.append_assoc, List.nil_append]
        rw [skipArrayLoop_comma_object _ _ _ _ _ hd, skipArrayLoop_succ _ _ _ hd,
          Token_key _ _ _ _ (Or.inr rfl)]
        simp only [reduceCtorEq, if_false]
        rw [skipArrayLoop_colon _ _ _ _ _ hd]
    rw [hstart]
    cases hv : v.numbersFit with
    | false => exact skipArrayLoop_value_fails v _ TokenState.tokenObjectValue st d _ hv rfl hd
    | true =>
      rw [membersFit, hv, Bool.true_and] at hf
      rw [skipArrayLoop_value v _ TokenState.tokenObjectValue st d _ hv rfl hd]
      exact skipArrayLoop_members_fails ms' false TokenState.tokenObjectComma rfl rest st d fuel
        hf hd
end

mutual
theorem tokenCount_le_lexemes (v : JSON) : v.tokenCount ≤ v.lexemes.length := by
  match v with
  | JSON.null => simp [JSON.tokenCount, JSON.lexemes]
  | JSON.bool b => cases b <;> simp [JSON.tokenCount, JSON.lexemes]
  | JSON.num n => simp [JSON.tokenCount, JSON.lexemes]
  | JSON.str x => simp [JSON.tokenCount, JSON.lexemes]
  | JSON.arr es =>
    have := elemsTokenCount_le_lexemes es true
    simp only [JSON.tokenCount, JSON.lexemes, List.length_cons, List.length_append,
      List.length_singleton, List.length_nil]
    omega
  | JSON.obj ms =>
    have := membersTokenCount_le_lexemes ms true
    simp only [JSON.tokenCount, JSON.lexemes, List.length_cons, List.length_append,
      List.length_singleton, List.length_nil]
    omega
theorem elemsTokenCount_le_lexemes (es : List JSON) (first : Bool) :
    elemsTokenCount es ≤ (elemsLexemes first es).length := by
  match es with
  | [] => simp [elemsTokenCount]
  | v :: es' =>
    have h1 := tokenCount_le_lexemes v
    have h2 := elemsTokenCount_le_lexemes es' false
    simp only [elemsTokenCount, elemsLexemes, List.length_append]
    omega
theorem membersTokenCount_le_lexemes (ms : List (String × JSON)) (first : Bool) :
    membersTokenCount ms ≤ (membersLexemes first ms).length := by
  match ms with
  | [] => simp [membersTokenCount]
  | (k, v) :: ms' =>
    have h1 := tokenCount_le_lexemes v
    have h2 := membersTokenCount_le_lexemes ms' false
    simp only [membersTokenCount, membersLexemes, List.length_append, List.length_cons]
    omega
end

/-- `skipArray`, called after the opening bracket of a well-formed array has
been read, reads up to its closing bracket and reports no error when the
numbers in the array are in the range of `float64`. -/
theorem skipArray_elems (es : List JSON) (rest : List Lexeme) (s : TokenState)
    (st : List TokenState) (hf : elemsFit es = true) :
    skipArray ⟨elemsLexemes true es ++ Lexeme.endArray :: rest, TokenState.tokenArrayStart,
        s :: st, false⟩ =
      some (true, ⟨rest, tokenValueEnd s, st, false⟩) := by
  have hle := elemsTokenCount_le_lexemes es true
  unfold skipArray
  simp only [List.length_append, List.length_cons]
  have hfuel : (elemsLexemes true es).length + (rest.length + 1) + 2 =
      (((elemsLexemes true es).length - elemsTokenCount es + rest.length + 1) + 1 + 1) +
        elemsTokenCount es := by omega
  rw [hfuel, skipArrayLoop_elems es true TokenState.tokenArrayStart rfl _ _ 1 _ hf (by omega),
    skipArrayLoop_succ _ _ _ (by omega), Token_endArray _ _ _ _ (by cases es.isEmpty <;> simp)]
  simp only [Token.delim.injEq, Char.reduceEq, if_false, if_true]
  rw [skipArrayLoop]
  simp

/-- `skipArray` reports an error in an array that holds a number out of the
range of `float64`. -/
theorem skipArray_elems_fails (es : List JSON) (rest : List Lexeme) (s : TokenState)
    (st : List TokenState) (hf : elemsFit es = false) :
    ∃ dec, skipArray ⟨elemsLexemes true es ++ Lexeme.endArray :: rest,
        TokenState.tokenArrayStart, s :: st, false⟩ = some (false, dec) := by
  have hle := elemsTokenCount_le_lexemes es true
  unfold skipArray
  simp only [List.length_append, List.length_cons]
  have hfuel : (elemsLexemes true es).length + (rest.length + 1) + 2 =
      ((elemsLexemes true es).length - elemsTokenCount es + rest.length + 1 + 2) +
        elemsTokenCount es := by omega
  rw [hfuel]
  exact skipArrayLoop_elems_fails es true TokenState.tokenArrayStart rfl _ _ 1 _ hf (by omega)

/-- A turn of the loop of `GetChatInfo` on a token that changes nothing but
the depth: a brace, or a token the loop does not look at. -/
theorem getChatInfoLoop_plain (fuel : Nat) (d d' : Int) (p : Parser) (t : Token)
    (decoder : Decoder) (hT : p.decoder.Token = (TokenResult.token t, decoder))
    (ht : (t = Token.delim '{' ∧ d' = d + 1) ∨ (t = Token.delim '}' ∧ d' = d - 1) ∨
      (d' = d ∧ t ≠ Token.delim '{' ∧ t ≠ Token.delim '}' ∧ t ≠ Token.delim '[' ∧
        (d = 1 → t ≠ Token.string "name" ∧ t ≠ Token.string "type")))
    (hnb : ¬(p.chatName ≠ "" ∧ p.chatType ≠ "")) :
    getChatInfoLoop (fuel + 1) d p = getChatInfoLoop fuel d' { p with decoder := decoder } := by
  rw [getChatInfoLoop, hT]
  rcases ht with ⟨rfl, rfl⟩ | ⟨rfl, rfl⟩ | ⟨rfl, h1, h2, h3, h4⟩
  · simp only [if_true, if_neg hnb]
  · simp only [Char.reduceEq, if_false, if_true, if_neg hnb]
  · cases t with
    | delim c =>
      have c1 : c ≠ '{' := fun e => h1 (by rw [e])
      have c2 : c ≠ '}' := fun e => h2 (by rw [e])
      have c3 : c ≠ '[' := fun e => h3 (by rw [e])
      simp only [if_neg c1, if_neg c2, if_neg c3, if_neg hnb]
    | string s =>
      by_cases hd : d' = 1
      · have n1 : s ≠ "name" := fun e => (h4 hd).1 (by rw [e])
        have n2 : s ≠ "type" := fun e => (h4 hd).2 (by rw [e])
        simp only [if_pos hd, if_neg n1, if_neg n2, if_neg hnb]
      · simp only [if_neg hd, if_neg hnb]
    | number n => simp only [if_neg hnb]
    | bool b => simp only [if_neg hnb]
    | null => simp only [if_neg hnb]

/-- A turn of the loop of `GetChatInfo` on the opening bracket of an array
that `skipArray` skips. -/
theorem getChatInfoLoop_array (fuel : Nat) (d : Int) (p : Parser) (decoder decoder' : Decoder)
    (hT : p.decoder.Token = (TokenResult.token (Token.delim '['), decoder))
    (hskip : skipArray decoder = some (true, decoder'))
    (hnb : ¬(p.chatName ≠ "" ∧ p.chatType ≠ "")) :
    getChatInfoLoop (fuel + 1) d p = getChatInfoLoop fuel d { p with decoder := decoder' } := by
  rw [getChatInfoLoop, hT]
  simp only [Char.reduceEq, if_false, if_true, hskip, if_neg hnb]

theorem getChatInfoLoop_comma_object (fuel : Nat) (d : Int) (file : List Lexeme)
    (inp : List Lexeme) (st : List TokenState) (e : Bool) (name type : String) :
    getChatInfoLoop fuel d ⟨file, ⟨Lexeme.comma :: inp, TokenState.tokenObjectComma, st, e⟩,
        name, type⟩ =
      getChatInfoLoop fuel d ⟨file, ⟨inp, TokenState.tokenObjectKey, st, e⟩, name, type⟩ := by
  cases fuel with
  | zero => rfl
  | succ n =>
    rw [getChatInfoLoop, getChatInfoLoop]
    simp only [Token_comma_object]

theorem getChatInfoLoop_colon (fuel : Nat) (d : Int) (file : List Lexeme)
    (inp : List Lexeme) (st : List TokenState) (e : Bool) (name type : String) :
    getChatInfoLoop fuel d ⟨file, ⟨Lexeme.colon :: inp, TokenState.tokenObjectColon, st, e⟩,
        name, type⟩ =
      getChatInfoLoop fuel d ⟨file, ⟨inp, TokenState.tokenObjectValue, st, e⟩, name, type⟩ := by
  cases fuel with
  | zero => rfl
  | succ n =>
    rw [getChatInfoLoop, getChatInfoLoop]
    simp only [Token_colon]

mutual
/-- In the loop of `GetChatInfo` a JSON value that is not, at depth 1, the
string `name` or `type` is passed without effect; an object is at depth 1 or
more, so that its members are below depth 1. -/
theorem getChatInfoLoop_value (v : JSON) (rest : List Lexeme) (s : TokenState)
    (st : List TokenState) (d : Int) (fuel : Nat) (file : List Lexeme) (name type : String)
    (hf : v.numbersFit = true) (hs : tokenValueAllowed s = true)
    (hd : (∃ ms, v = JSON.obj ms) → 1 ≤ d)
    (hv : d = 1 → v ≠ JSON.str "name" ∧ v ≠ JSON.str "type")
    (hnb : ¬(name ≠ "" ∧ type ≠ "")) :
    getChatInfoLoop (fuel + v.loopCount) d ⟨file, ⟨v.lexemes ++ rest, s, st, false⟩, name, type⟩ =
      getChatInfoLoop fuel d ⟨file, ⟨rest, tokenValueEnd s, st, false⟩, name, type⟩ := by
  match v with
  | JSON.null =>
    exact getChatInfoLoop_plain fuel d d _ _ _
      (Token_scalar JSON.null rest s st ⟨by simp, by simp⟩ hf hs)
      (Or.inr (Or.inr ⟨rfl, by simp [scalarToken]⟩)) hnb
  | JSON.bool b =>
    exact getChatInfoLoop_plain fuel d d _ _ _
      (Token_scalar (JSON.bool b) rest s st ⟨by simp, by simp⟩ hf hs)
      (Or.inr (Or.inr ⟨rfl, by simp [scalarToken]⟩)) hnb
  | JSON.num n =>
    exact getChatInfoLoop_plain fuel d d _ _ _
      (Token_scalar (JSON.num n) rest s st ⟨by simp, by simp⟩ hf hs)
      (Or.inr (Or.inr ⟨rfl, by simp [scalarToken]⟩)) hnb
  | JSON.str x =>
    refine getChatInfoLoop_plain fuel d d _ _ _
      (Token_scalar (JSON.str x) rest s st ⟨by simp, by simp⟩ hf hs)
      (Or.inr (Or.inr ⟨rfl, by simp [scalarToken], by simp [scalarToken],
        by simp [scalarToken], ?_⟩)) hnb
    intro h1
    have := hv h1
    simp only [scalarToken, ne_eq, Token.string.injEq]
    simp only [ne_eq, JSON.str.injEq] at this
    exact this
  | JSON.arr es =>
    have hc : (JSON.arr es).loopCount = 1 := by simp [JSON.loopCount]
    rw [hc, JSON.lexemes, List.cons_append, List.append_assoc, List.singleton_append]
    exact getChatInfoLoop_array fuel d _ _ _ (Token_beginArray _ _ _ hs)
      (skipArray_elems es rest s st (by rw [JSON.numbersFit] at hf; exact hf)) hnb
  | JSON.obj ms =>
    have hd := hd ⟨ms, rfl⟩
    have h1 : fuel + (JSON.obj ms).loopCount = (fuel + 1 + membersLoopCount ms) + 1 := by
      rw [JSON.loopCount]; omega
    rw [h1, JSON.lexemes, List.cons_append, List.append_assoc, List.singleton_append,
      getChatInfoLoop_plain _ d (d + 1) _ _ _ (Token_beginObject _ _ _ hs)
        (Or.inl ⟨rfl, rfl⟩) hnb]
    simp only
    rw [getChatInfoLoop_members ms true TokenState.tokenObjectStart rfl
      (Lexeme.endObject :: rest) (s :: st) (d + 1) (fuel + 1) file name type
      (by rw [JSON.numbersFit] at hf; exact hf) (by omega) hnb,
      getChatInfoLoop_plain _ (d + 1) d _ _ _
        (Token_endObject _ _ _ _ (by cases ms.isEmpty <;> simp))
        (Or.inr (Or.inl ⟨rfl, by omega⟩)) hnb]
/-- The members of an object below the top-level object in the loop of
`GetChatInfo`. -/
theorem getChatInfoLoop_members (ms : List (String × JSON)) (first : Bool) (s0 : TokenState)
    (h0 : s0 = if first then TokenState.tokenObjectStart else TokenState.tokenObjectComma)
    (rest : List Lexeme) (st : List TokenState) (d : Int) (fuel : Nat) (file : List Lexeme)
    (name type : String) (hf : membersFit ms = true) (hd : 2 ≤ d)
    (hnb : ¬(name ≠ "" ∧ type ≠ "")) :
    getChatInfoLoop (fuel + membersLoopCount ms) d
        ⟨file, ⟨membersLexemes first ms ++ rest, s0, st, false⟩, name, type⟩ =
      getChatInfoLoop fuel d
        ⟨file, ⟨rest, if ms.isEmpty then s0 else TokenState.tokenObjectComma, st, false⟩,
          name, type⟩ := by
  match ms with
  | [] => simp [membersLoopCount, membersLexemes]
  | (k, v) :: ms' =>
    have h1 : fuel + membersLoopCount ((k, v) :: ms') =
        ((fuel + membersLoopCount ms') + v.loopCount) + 1 := by
      rw [membersLoopCount]; omega
    rw [membersFit, Bool.and_eq_true] at hf
    have hrest := getChatInfoLoop_members ms' false TokenState.tokenObjectComma rfl rest st d
      fuel file name type hf.2 hd hnb
    simp only [ite_self] at hrest
    have hkey : ∀ t : Token, t = Token.string k →
        (d = d ∧ t ≠ Token.delim '{' ∧ t ≠ Token.delim '}' ∧ t ≠ Token.delim '[' ∧
          (d = 1 → t ≠ Token.string "name" ∧ t ≠ Token.string "type")) := by
      rintro t rfl
      exact ⟨rfl, by simp, by simp, by simp, fun h => absurd h (by omega)⟩
    rw [h1, membersLexemes]
    simp only [List.isEmpty_cons, Bool.false_eq_true, if_false]
    cases first with
    | true =>
      subst h0
      simp only [if_true, List.nil_append, List.cons_append, List.append_assoc]
      rw [getChatInfoLoop_plain _ d d _ _ _ (Token_key _ _ _ _ (Or.inl rfl))
        (Or.inr (Or.inr (hkey _ rfl))) hnb]
      simp only
      rw [getChatInfoLoop_colon,
        getChatInfoLoop_value v _ TokenState.tokenObjectValue _ _ _ _ _ _ hf.1 rfl
          (fun _ => by omega)
          (fun h => absurd h (by omega)) hnb]
      exact hrest
    | false =>
      subst h0
      simp only [Bool.false_eq_true, if_false, List.singleton_append, List.cons_append,
        List.append_assoc, List.nil_append]
      rw [getChatInfoLoop_comma_object,
        getChatInfoLoop_plain _ d d _ _ _ (Token_key _ _ _ _ (Or.inr rfl))
          (Or.inr (Or.inr (hkey _ rfl))) hnb]
      simp only
      rw [getChatInfoLoop_colon,
        getChatInfoLoop_value v _ TokenState.tokenObjectValue _ _ _ _ _ _ hf.1 rfl
          (fun _ => by omega)
          (fun h => absurd h (by omega)) hnb]
      exact hrest
end

mutual
theorem walkError_eq_none_iff (v : JSON) : v.walkError = none ↔ v.numbersFit = true := by
  match v with
  | JSON.null => simp [JSON.walkError, JSON.numbersFit]
  | JSON.bool b => simp [JSON.walkError, JSON.numbersFit]
  | JSON.str x => simp [JSON.walkError, JSON.numbersFit]
  | JSON.num n => simp [JSON.walkError, JSON.numbersFit]
  | JSON.arr es => simp [JSON.walkError, JSON.numbersFit]
  | JSON.obj ms =>
    rw [JSON.walkError, JSON.numbersFit]
    exact membersWalkError_eq_none_iff ms
theorem membersWalkError_eq_none_iff (ms : List (String × JSON)) :
    membersWalkError ms = none ↔ membersFit ms = true := by
  match ms with
  | [] => simp [membersWalkError, membersFit]
  | (k, v) :: ms' =>
    have h1 := walkError_eq_none_iff v
    have h2 := membersWalkError_eq_none_iff ms'
    rw [membersWalkError, membersFit, Bool.and_eq_true, ← h1, ← h2]
    cases v.walkError <;> simp
end

/-- A turn of the loop of `GetChatInfo` in which `Token` returns an error. -/
theorem getChatInfoLoop_token_error (fuel : Nat) (d : Int) (p : Parser) (decoder : Decoder)
    (hT : p.decoder.Token = (TokenResult.error, decoder)) :
    getChatInfoLoop (fuel + 1) d p =
      some (some ParserError.readToken, { p with decoder := decoder }) := by
  rw [getChatInfoLoop, hT]

/-- A turn of the loop of `GetChatInfo` on the opening bracket of an array
in which `skipArray` reports an error. -/
theorem getChatInfoLoop_array_fails (fuel : Nat) (d : Int) (p : Parser)
    (decoder decoder' : Decoder)
    (hT : p.decoder.Token = (TokenResult.token (Token.delim '['), decoder))
    (hskip : skipArray decoder = some (false, decoder')) :
    getChatInfoLoop (fuel + 1) d p =
      some (some ParserError.skipArray, { p with decoder := decoder }) := by
  rw [getChatInfoLoop, hT]
  simp only [Char.reduceEq, if_false, if_true, hskip]

mutual
/-- In the loop of `GetChatInfo` a JSON value with a number out of the range
of `float64` makes the function return with the error `walkError`. -/
theorem getChatInfoLoop_value_fails (v : JSON) (e : ParserError) (rest : List Lexeme)
    (s : TokenState) (st : List TokenState) (d : Int) (fuel : Nat) (file : List Lexeme)
    (name type : String) (hw : v.walkError = some e) (hs : tokenValueAllowed s = true)
    (hd : (∃ ms, v = JSON.obj ms) → 1 ≤ d) (hnb : ¬(name ≠ "" ∧ type ≠ "")) :
    ∃ p, getChatInfoLoop (fuel + v.loopCount) d
        ⟨file, ⟨v.lexemes ++ rest, s, st, false⟩, name, type⟩ = some (some e, p) := by
  match v with
  | JSON.null => simp [JSON.walkError] at hw
  | JSON.bool b => simp [JSON.walkError] at hw
  | JSON.str x => simp [JSON.walkError] at hw
  | JSON.num n =>
    rw [JSON.walkError] at hw
    by_cases hf : float64InRange n = true
    · simp [hf] at hw
    · simp only [hf, Bool.false_eq_true, if_false, Option.some.injEq] at hw
      subst hw
      have hc : (JSON.num n).loopCount = 1 := by simp [JSON.loopCount]
      rw [hc, JSON.lexemes, List.singleton_append]
      exact ⟨_, getChatInfoLoop_token_error fuel d _ _
        (Token_number_fails n rest s st (by simpa using hf) hs)⟩
  | JSON.arr es =>
    rw [JSON.walkError] at hw
    by_cases hf : elemsFit es = true
    · simp [hf] at hw
    · simp only [hf, Bool.false_eq_true, if_false, Option.some.injEq] at hw
      subst hw
      have hc : (JSON.arr es).loopCount = 1 := by simp [JSON.loopCount]
      obtain ⟨dec, hdec⟩ := skipArray_elems_fails es rest s st (by simpa using hf)
      rw [hc, JSON.lexemes, List.cons_append, List.append_assoc, List.singleton_append]
      exact ⟨_, getChatInfoLoop_array_fails fuel d _ _ _ (Token_beginArray _ _ _ hs) hdec⟩
  | JSON.obj ms =>
    rw [JSON.walkError] at hw
    have hd := hd ⟨ms, rfl⟩
    have h1 : fuel + (JSON.obj ms).loopCount = (fuel + 1 + membersLoopCount ms) + 1 := by
      rw [JSON.loopCount]; omega
    rw [h1, JSON.lexemes, List.cons_append, List.append_assoc, List.singleton_append,
      getChatInfoLoop_plain _ d (d + 1) _ _ _ (Token_beginObject _ _ _ hs)
        (Or.inl ⟨rfl, rfl⟩) hnb]
    exact getChatInfoLoop_members_fails ms e true TokenState.tokenObjectStart rfl
      (Lexeme.endObject :: rest) (s :: st) (d + 1) (fuel + 1) file name type hw (by omega) hnb
/-- The members of an object below the top-level object, one of them with a
number out of range. -/
theorem getChatInfoLoop_members_fails (ms : List (String × JSON)) (e : ParserError)
    (first : Bool) (s0 : TokenState)
    (h0 : s0 = if first then TokenState.tokenObjectStart else TokenState.tokenObjectComma)
    (rest : List Lexeme) (st : List TokenState) (d : Int) (fuel : Nat) (file : List Lexeme)
    (name type : String) (hw : membersWalkError ms = some e) (hd : 2 ≤ d)
    (hnb : ¬(name ≠ "" ∧ type ≠ "")) :
    ∃ p, getChatInfoLoop (fuel + membersLoopCount ms) d
        ⟨file, ⟨membersLexemes first ms ++ rest, s0, st, false⟩, name, type⟩ =
      some (some e, p) := by
  match ms with
  | [] => simp [membersWalkError] at hw
  | (k, v) :: ms' =>
    have h1 : fuel + membersLoopCount ((k, v) :: ms') =
        ((fuel + membersLoopCount ms') + v.loopCount) + 1 := by
      rw [membersLoopCount]; omega
    have hkey : ∀ t : Token, t = Token.string k →
        (d = d ∧ t ≠ Token.delim '{' ∧ t ≠ Token.delim '}' ∧ t ≠ Token.delim '[' ∧
          (d = 1 → t ≠ Token.string "name" ∧ t ≠ Token.string "type")) := by
      rintro t rfl
      exact ⟨rfl, by simp, by simp, by simp, fun h => absurd h (by omega)⟩
    have hstart : getChatInfoLoop (fuel + membersLoopCount ((k, v) :: ms')) d
          ⟨file, ⟨membersLexemes first ((k, v) :: ms') ++ rest, s0, st, false⟩, name, type⟩ =
        getChatInfoLoop ((fuel + membersLoopCount ms') + v.loopCount) d
          ⟨file, ⟨v.lexemes ++ (membersLexemes false ms' ++ rest), TokenState.tokenObjectValue,
            st, false⟩, name, type⟩ := by
      rw [h1, membersLexemes]
      cases first with
      | true =>
        subst h0
        simp only [if_true, List.nil_append, List.cons_append, List.append_assoc]
        rw [getChatInfoLoop_plain _ d d _ _ _ (Token_key _ _ _ _ (Or.inl rfl))
          (Or.inr (Or.inr (hkey _ rfl))) hnb]
        simp only
        rw [getChatInfoLoop_colon]
      | false =>
        subst h0
        simp only [Bool.false_eq_true, if_false, List.singleton_append, List.cons_append,
          List.append_assoc, List.nil_append]
        rw [getChatInfoLoop_comma_object,
          getChatInfoLoop_plain _ d d _ _ _ (Token_key _ _ _ _ (Or.inr rfl))
            (Or.inr (Or.inr (hkey _ rfl))) hnb]
        simp only
        rw [getChatInfoLoop_colon]
    rw [hstart]
    rw [membersWalkError] at hw
    cases hv : v.walkError with
    | some e' =>
      rw [hv] at hw
      simp only [Option.some.injEq] at hw
      subst hw
      exact getChatInfoLoop_value_fails v e' _ TokenState.tokenObjectValue st d _ file name type
        hv rfl (fun _ => by omega) hnb
    | none =>
      rw [hv] at hw
      simp only at hw
      rw [getChatInfoLoop_value v _ TokenState.tokenObjectValue st d _ file name type
        ((walkError_eq_none_iff v).1 hv) rfl (fun _ => by omega)
        (fun h => absurd h (by omega)) hnb]
      exact getChatInfoLoop_members_fails ms' e false TokenState.tokenObjectComma rfl rest st d
        fuel file name type hw hd hnb
end

mutual
theorem loopCount_le_lexemes (v : JSON) : v.loopCount ≤ v.lexemes.length := by
  match v with
  | JSON.null => simp [JSON.loopCount, JSON.lexemes]
  | JSON.bool b => cases b <;> simp [JSON.loopCount, JSON.lexemes]
  | JSON.num n => simp [JSON.loopCount, JSON.lexemes]
  | JSON.str x => simp [JSON.loopCount, JSON.lexemes]
  | JSON.arr es => simp [JSON.loopCount, JSON.lexemes]
  | JSON.obj ms =>
    have := membersLoopCount_le_lexemes ms true
    simp only [JSON.loopCount, JSON.lexemes, List.length_cons, List.length_append,
      List.length_singleton, List.length_nil]
    omega
theorem membersLoopCount_le_lexemes (ms : List (String × JSON)) (first : Bool) :
    membersLoopCount ms ≤ (membersLexemes first ms).length := by
  match ms with
  | [] => simp [membersLoopCount]
  | (k, v) :: ms' =>
    have h1 := loopCount_le_lexemes v
    have h2 := membersLoopCount_le_lexemes ms' false
    simp only [membersLoopCount, membersLexemes, List.length_append, List.length_cons]
    omega
end

/-- A turn of the loop of `GetChatInfo` on the string `name` at depth 1. -/
theorem getChatInfoLoop_name (fuel : Nat) (p : Parser) (decoder : Decoder)
    (hT : p.decoder.Token = (TokenResult.token (Token.string "name"), decoder)) :
    getChatInfoLoop (fuel + 1) 1 p =
      match decoder.readValue with
      | (some raw, decoder') =>
        match unmarshalString raw "" with
        | some val =>
          if val ≠ "" ∧ p.chatType ≠ "" then
            some (none, { p with decoder := decoder', chatName := val })
          else getChatInfoLoop fuel 1 { p with decoder := decoder', chatName := val }
        | none => some (some ParserError.decodeName, { p with decoder := decoder })
      | (none, _) => some (some ParserError.decodeName, { p with decoder := decoder }) := by
  rw [getChatInfoLoop, hT]
  simp only [if_true]
  rcases decoder.readValue with ⟨_ | raw, d1⟩
  · rfl
  · simp only
    cases unmarshalString raw "" <;> rfl

/-- A turn of the loop of `GetChatInfo` on the string `type` at depth 1. -/
theorem getChatInfoLoop_type (fuel : Nat) (p : Parser) (decoder : Decoder)
    (hT : p.decoder.Token = (TokenResult.token (Token.string "type"), decoder)) :
    getChatInfoLoop (fuel + 1) 1 p =
      match decoder.readValue with
      | (some raw, decoder') =>
        match unmarshalString raw "" with
        | some val =>
          if p.chatName ≠ "" ∧ val ≠ "" then
            some (none, { p with decoder := decoder', chatType := val })
          else getChatInfoLoop fuel 1 { p with decoder := decoder', chatType := val }
        | none => some (some ParserError.decodeType, { p with decoder := decoder })
      | (none, _) => some (some ParserError.decodeType, { p with decoder := decoder }) := by
  rw [getChatInfoLoop, hT]
  have h : ("type" : String) ≠ "name" := by decide
  simp only [if_true, if_neg h]
  rcases decoder.readValue with ⟨_ | raw, d1⟩
  · rfl
  · simp only
    cases unmarshalString raw "" <;> rfl

/-- `Decode` after the value of an object member has been read as a token:
the comma and the key of the next member are read, the key as a string. -/
theorem readValue_next_key (k : String) (inp : List Lexeme) (st : List TokenState) :
    Decoder.readValue ⟨Lexeme.comma :: Lexeme.string k :: inp, TokenState.tokenObjectComma, st,
        false⟩ =
      (some (JSON.str k), ⟨inp, TokenState.tokenObjectColon, st, false⟩) := by
  simp [Decoder.readValue]

/-- `Decode` after the value of the last member of an object has been read
as a token is an error. -/
theorem readValue_last_member (inp : List Lexeme) (st : List TokenState) :
    (Decoder.readValue ⟨Lexeme.endObject :: inp, TokenState.tokenObjectComma, st, false⟩).1 =
      none := by
  simp [Decoder.readValue]

/-- `Decode` after a key reads the colon and then a string or `null`. -/
theorem readValue_string_or_null (v : JSON) (hv : (∃ x, v = JSON.str x) ∨ v = JSON.null)
    (rest : List Lexeme) (st : List TokenState) :
    Decoder.readValue ⟨Lexeme.colon :: (v.lexemes ++ rest), TokenState.tokenObjectColon, st,
        false⟩ =
      (some v, ⟨rest, TokenState.tokenObjectComma, st, false⟩) := by
  rcases hv with ⟨x, rfl⟩ | rfl <;>
    simp [Decoder.readValue, tokenValueAllowed, JSON.lexemes, scanValue, tokenValueEnd]

/-- What the scanner reads from the text of a value that is neither a
string nor `null` is neither a string nor `null`. -/
theorem scanValue_not_string (v : JSON) (hv : unmarshalString v "" = none) (fuel : Nat)
    (rest : List Lexeme) :
    ∀ w r, scanValue fuel (v.lexemes ++ rest) = some (w, r) → unmarshalString w "" = none := by
  intro w r h
  cases fuel with
  | zero => simp [scanValue] at h
  | succ n =>
    cases v with
    | null => simp [unmarshalString] at hv
    | str x => simp [unmarshalString] at hv
    | bool b =>
      cases b <;> simp [JSON.lexemes, scanValue] at h <;> (rw [← h.1]; rfl)
    | num x =>
      simp [JSON.lexemes, scanValue] at h
      rw [← h.1]; rfl
    | arr es =>
      simp only [JSON.lexemes, List.cons_append, scanValue] at h
      split at h
      · simp only [Option.some.injEq, Prod.mk.injEq] at h
        rw [← h.1]; rfl
      · split at h
        · simp only [Option.some.injEq, Prod.mk.injEq] at h
          rw [← h.1]; rfl
        · simp at h
    | obj ms =>
      simp only [JSON.lexemes, List.cons_append, scanValue] at h
      split at h
      · simp only [Option.some.injEq, Prod.mk.injEq] at h
        rw [← h.1]; rfl
      · split at h
        · simp only [Option.some.injEq, Prod.mk.injEq] at h
          rw [← h.1]; rfl
        · simp at h

/-- `Decode` into a string after a key whose value is neither a string nor
`null` fails, in the scanner or in the assignment. -/
theorem readValue_not_string (v : JSON) (hv : unmarshalString v "" = none)
    (rest : List Lexeme) (st : List TokenState) :
    ∀ w d, Decoder.readValue ⟨Lexeme.colon :: (v.lexemes ++ rest), TokenState.tokenObjectColon,
        st, false⟩ = (some w, d) → unmarshalString w "" = none := by
  intro w d h
  simp only [Decoder.readValue, Bool.false_eq_true, if_false, tokenValueAllowed,
    Bool.not_true, reduceCtorEq] at h
  split at h
  · simp at h
  · rename_i v1 r1 hscan
    simp only [Prod.mk.injEq, Option.some.injEq] at h
    rw [← h.1]
    exact scanValue_not_string v hv _ rest v1 r1 hscan

/-- The member-level description at a member that is passed as a key and a
value: its key is not `name` or `type`, or has been read already, and its
value is not the string `name` or `type`. -/
theorem walkMembers_other (keyRead : Bool) (k : String) (v : JSON) (ms : List (String × JSON))
    (a b : String) (hk : keyRead = true ∨ (k ≠ "name" ∧ k ≠ "type"))
    (hvn : v ≠ JSON.str "name") (hvt : v ≠ JSON.str "type") (hw : v.walkError = none) :
    walkMembers keyRead ((k, v) :: ms) a b = walkMembers false ms a b := by
  have h1 : ¬(keyRead = false ∧ k = "name") := by
    rintro ⟨h, h'⟩
    rcases hk with hk | hk
    · rw [h] at hk; cases hk
    · exact hk.1 h'
  have h2 : ¬(keyRead = false ∧ k = "type") := by
    rintro ⟨h, h'⟩
    rcases hk with hk | hk
    · rw [h] at hk; cases hk
    · exact hk.2 h'
  simp only [walkMembers, if_neg h1, if_neg h2]
  cases v with
  | str s =>
    have h1 : s ≠ "name" := fun e => hvn (by rw [e])
    have h2 : s ≠ "type" := fun e => hvt (by rw [e])
    simp only [if_neg h1, if_neg h2]
  | _ => simp only [hw]

theorem walkMembers_other_fails (keyRead : Bool) (k : String) (v : JSON)
    (ms : List (String × JSON)) (a b : String) (e : ParserError)
    (hk : keyRead = true ∨ (k ≠ "name" ∧ k ≠ "type")) (hw : v.walkError = some e) :
    walkMembers keyRead ((k, v) :: ms) a b = Except.error e := by
  have h1 : ¬(keyRead = false ∧ k = "name") := by
    rintro ⟨h, h'⟩
    rcases hk with hk | hk
    · rw [h] at hk; cases hk
    · exact hk.1 h'
  have h2 : ¬(keyRead = false ∧ k = "type") := by
    rintro ⟨h, h'⟩
    rcases hk with hk | hk
    · rw [h] at hk; cases hk
    · exact hk.2 h'
  simp only [walkMembers, if_neg h1, if_neg h2]
  cases v with
  | str s => simp [JSON.walkError] at hw
  | _ => simp only [hw]

/-- The member-level description at a member whose value is the string
`name`: the key of the next member becomes the name. -/
theorem walkMembers_name_value (keyRead : Bool) (k : String) (ms : List (String × JSON))
    (a b : String) (hk : keyRead = true ∨ (k ≠ "name" ∧ k ≠ "type")) :
    walkMembers keyRead ((k, JSON.str "name") :: ms) a b =
      match ms.head? with
      | some (next, _) =>
        if next ≠ "" ∧ b ≠ "" then Except.ok (next, b) else walkMembers true ms next b
      | none => Except.error ParserError.decodeName := by
  have h1 : ¬(keyRead = false ∧ k = "name") := by
    rintro ⟨h, h'⟩
    rcases hk with hk | hk
    · rw [h] at hk; cases hk
    · exact hk.1 h'
  have h2 : ¬(keyRead = false ∧ k = "type") := by
    rintro ⟨h, h'⟩
    rcases hk with hk | hk
    · rw [h] at hk; cases hk
    · exact hk.2 h'
  simp only [walkMembers, if_neg h1, if_neg h2, if_true]

/-- The member-level description at a member whose value is the string
`type`: the key of the next member becomes the type. -/
theorem walkMembers_type_value (keyRead : Bool) (k : String) (ms : List (String × JSON))
    (a b : String) (hk : keyRead = true ∨ (k ≠ "name" ∧ k ≠ "type")) :
    walkMembers keyRead ((k, JSON.str "type") :: ms) a b =
      match ms.head? with
      | some (next, _) =>
        if a ≠ "" ∧ next ≠ "" then Except.ok (a, next) else walkMembers true ms a next
      | none => Except.error ParserError.decodeType := by
  have h1 : ¬(keyRead = false ∧ k = "name") := by
    rintro ⟨h, h'⟩
    rcases hk with hk | hk
    · rw [h] at hk; cases hk
    · exact hk.1 h'
  have h2 : ¬(keyRead = false ∧ k = "type") := by
    rintro ⟨h, h'⟩
    rcases hk with hk | hk
    · rw [h] at hk; cases hk
    · exact hk.2 h'
  have hne : ("type" : String) ≠ "name" := by decide
  simp only [walkMembers, if_neg h1, if_neg h2, if_neg hne, if_true]

/-- The loop of `GetChatInfo` over the members of the top-level object and
the end of the document computes `walkMembers`: from the start of a member,
and from the colon of a member whose key `Decode` has read. -/
theorem getChatInfoLoop_top (ms : List (String × JSON)) :
    ∀ (file : List Lexeme) (a b : String) (fuel : Nat) (_ : ¬(a ≠ "" ∧ b ≠ ""))
      (_ : membersLoopCount ms + 2 ≤ fuel),
      (∀ (first : Bool) (s0 : TokenState)
        (_ : s0 = if first then TokenState.tokenObjectStart else TokenState.tokenObjectComma),
        loopAgrees
          (getChatInfoLoop fuel 1 ⟨file, ⟨membersLexemes first ms ++ [Lexeme.endObject], s0,
            [TokenState.tokenTopValue], false⟩, a, b⟩)
          (walkMembers false ms a b)) ∧
      ∀ (k : String) (v : JSON) (ms' : List (String × JSON)), ms = (k, v) :: ms' →
        loopAgrees
          (getChatInfoLoop fuel 1 ⟨file, ⟨Lexeme.colon :: (v.lexemes ++
            (membersLexemes false ms' ++ [Lexeme.endObject])), TokenState.tokenObjectColon,
            [TokenState.tokenTopValue], false⟩, a, b⟩)
          (walkMembers true ms a b) := by
  induction ms with
  | nil =>
    intro file a b fuel hnb hfuel
    refine ⟨?_, fun k v ms' h => by cases h⟩
    intro first s0 h0
    obtain ⟨f, rfl⟩ : ∃ f, fuel = f + 1 + 1 := ⟨fuel - 2, by omega⟩
    have hs : s0 = TokenState.tokenObjectStart ∨ s0 = TokenState.tokenObjectComma := by
      cases first <;> simp [h0]
    simp only [membersLexemes, List.nil_append, walkMembers, loopAgrees]
    rw [getChatInfoLoop_plain (f + 1) 1 0 _ _ _ (Token_endObject _ _ _ _ hs)
      (Or.inr (Or.inl ⟨rfl, by norm_num⟩)) hnb]
    simp only
    rw [getChatInfoLoop]
    simp [Decoder.Token, tokenLoop]
  | cons m ms' ih =>
    intro file a b fuel hnb hfuel
    obtain ⟨k, v⟩ := m
    rw [membersLoopCount] at hfuel
    -- the value of the member, after its key and the colon
    have hvalue : ∀ (keyRead : Bool) (f : Nat), (keyRead = true ∨ (k ≠ "name" ∧ k ≠ "type")) →
        v.loopCount + membersLoopCount ms' + 2 ≤ f →
        loopAgrees
          (getChatInfoLoop f 1 ⟨file, ⟨v.lexemes ++ (membersLexemes false ms' ++
            [Lexeme.endObject]), TokenState.tokenObjectValue, [TokenState.tokenTopValue],
            false⟩, a, b⟩)
          (walkMembers keyRead ((k, v) :: ms') a b) := by
      intro keyRead f hkr hf
      by_cases hvn : v = JSON.str "name"
      · subst hvn
        rw [walkMembers_name_value keyRead k ms' a b hkr]
        obtain ⟨f2, rfl⟩ : ∃ f2, f = f2 + 1 := ⟨f - 1, by omega⟩
        have hf2 : membersLoopCount ms' + 2 ≤ f2 := by
          simp only [JSON.loopCount] at hf; omega
        rw [getChatInfoLoop_name f2 _ _
          (Token_scalar (JSON.str "name") _ TokenState.tokenObjectValue _ ⟨by simp, by simp⟩ rfl
            rfl)]
        simp only [tokenValueEnd]
        cases ms' with
        | nil =>
          simp only [membersLexemes, List.nil_append, List.head?_nil, loopAgrees]
          have hr := readValue_last_member [] [TokenState.tokenTopValue]
          rcases hr2 : Decoder.readValue ⟨[Lexeme.endObject], TokenState.tokenObjectComma,
              [TokenState.tokenTopValue], false⟩ with ⟨_ | w, d⟩
          · exact ⟨_, rfl⟩
          · rw [hr2] at hr; simp at hr
        | cons m2 ms'' =>
          obtain ⟨k2, v2⟩ := m2
          simp only [membersLexemes, Bool.false_eq_true, if_false, List.singleton_append,
            List.cons_append, List.append_assoc, List.head?_cons, List.nil_append]
          rw [readValue_next_key]
          simp only [unmarshalString]
          by_cases hboth : k2 ≠ "" ∧ b ≠ ""
          · simp only [if_pos hboth, loopAgrees]
            exact ⟨_, rfl, rfl, rfl⟩
          · simp only [if_neg hboth]
            exact (ih file k2 b f2 hboth hf2).2 k2 v2 ms'' rfl
      · by_cases hvt : v = JSON.str "type"
        · subst hvt
          rw [walkMembers_type_value keyRead k ms' a b hkr]
          obtain ⟨f2, rfl⟩ : ∃ f2, f = f2 + 1 := ⟨f - 1, by omega⟩
          have hf2 : membersLoopCount ms' + 2 ≤ f2 := by
            simp only [JSON.loopCount] at hf; omega
          rw [getChatInfoLoop_type f2 _ _
            (Token_scalar (JSON.str "type") _ TokenState.tokenObjectValue _ ⟨by simp, by simp⟩
              rfl rfl)]
          simp only [tokenValueEnd]
          cases ms' with
          | nil =>
            simp only [membersLexemes, List.nil_append, List.head?_nil, loopAgrees]
            have hr := readValue_last_member [] [TokenState.tokenTopValue]
            rcases hr2 : Decoder.readValue ⟨[Lexeme.endObject], TokenState.tokenObjectComma,
                [TokenState.tokenTopValue], false⟩ with ⟨_ | w, d⟩
            · exact ⟨_, rfl⟩
            · rw [hr2] at hr; simp at hr
          | cons m2 ms'' =>
            obtain ⟨k2, v2⟩ := m2
            simp only [membersLexemes, Bool.false_eq_true, if_false, List.singleton_append,
              List.cons_append, List.append_assoc, List.head?_cons, List.nil_append]
            rw [readValue_next_key]
            simp only [unmarshalString]
            by_cases hboth : a ≠ "" ∧ k2 ≠ ""
            · simp only [if_pos hboth, loopAgrees]
              exact ⟨_, rfl, rfl, rfl⟩
            · simp only [if_neg hboth]
              exact (ih file a k2 f2 hboth hf2).2 k2 v2 ms'' rfl
        · obtain ⟨f3, rfl⟩ : ∃ f3, f = f3 + v.loopCount := ⟨f - v.loopCount, by omega⟩
          cases hw : v.walkError with
          | some e =>
            rw [walkMembers_other_fails keyRead k v ms' a b e hkr hw]
            obtain ⟨p, hp⟩ := getChatInfoLoop_value_fails v e
              (membersLexemes false ms' ++ [Lexeme.endObject]) TokenState.tokenObjectValue
              [TokenState.tokenTopValue] 1 f3 file a b hw rfl (fun _ => le_refl _) hnb
            exact ⟨p, hp⟩
          | none =>
            rw [walkMembers_other keyRead k v ms' a b hkr hvn hvt hw]
            rw [getChatInfoLoop_value v _ TokenState.tokenObjectValue _ 1 f3 file a b
              ((walkError_eq_none_iff v).1 hw) rfl (fun _ => le_refl _)
              (fun _ => ⟨hvn, hvt⟩) hnb]
            exact (ih file a b f3 hnb (by omega)).1 false TokenState.tokenObjectComma rfl
    refine ⟨?_, ?_⟩
    · intro first s0 h0
      have hstart : ∃ sK, (sK = TokenState.tokenObjectStart ∨ sK = TokenState.tokenObjectKey) ∧
          getChatInfoLoop fuel 1 ⟨file, ⟨membersLexemes first ((k, v) :: ms') ++
            [Lexeme.endObject], s0, [TokenState.tokenTopValue], false⟩, a, b⟩ =
          getChatInfoLoop fuel 1 ⟨file, ⟨Lexeme.string k :: Lexeme.colon ::
            (v.lexemes ++ (membersLexemes false ms' ++ [Lexeme.endObject])), sK,
            [TokenState.tokenTopValue], false⟩, a, b⟩ := by
        cases first with
        | true =>
          refine ⟨TokenState.tokenObjectStart, Or.inl rfl, ?_⟩
          subst h0
          simp only [membersLexemes, if_true, List.nil_append, List.cons_append,
            List.append_assoc]
        | false =>
          refine ⟨TokenState.tokenObjectKey, Or.inr rfl, ?_⟩
          subst h0
          simp only [membersLexemes, Bool.false_eq_true, if_false, List.singleton_append,
            List.cons_append, List.append_assoc, List.nil_append]
          rw [getChatInfoLoop_comma_object]
      obtain ⟨sK, hsK, hstart⟩ := hstart
      rw [hstart]
      obtain ⟨f, rfl⟩ : ∃ f, fuel = f + 1 := ⟨fuel - 1, by omega⟩
      by_cases hk : k = "name"
      · subst hk
        rw [getChatInfoLoop_name f _ _ (Token_key _ _ _ _ hsK)]
        simp only [walkMembers, true_and, if_true]
        cases hu : unmarshalString v "" with
        | some val =>
          have hv : (∃ x, v = JSON.str x) ∨ v = JSON.null := by
            cases v <;> simp [unmarshalString] at hu ⊢
          rw [readValue_string_or_null v hv]
          simp only [hu]
          by_cases hboth : val ≠ "" ∧ b ≠ ""
          · simp only [if_pos hboth, loopAgrees]
            exact ⟨_, rfl, rfl, rfl⟩
          · simp only [if_neg hboth]
            exact (ih file val b f hboth (by omega)).1 false TokenState.tokenObjectComma rfl
        | none =>
          simp only [loopAgrees]
          rcases hr : Decoder.readValue ⟨Lexeme.colon ::
              (v.lexemes ++ (membersLexemes false ms' ++ [Lexeme.endObject])),
              TokenState.tokenObjectColon, [TokenState.tokenTopValue], false⟩ with ⟨_ | w, d⟩
          · exact ⟨_, rfl⟩
          · simp only [readValue_not_string v hu _ _ w d hr]
            exact ⟨_, rfl⟩
      · by_cases hk2 : k = "type"
        · subst hk2
          rw [getChatInfoLoop_type f _ _ (Token_key _ _ _ _ hsK)]
          simp only [walkMembers, true_and, if_neg hk, if_true]
          cases hu : unmarshalString v "" with
          | some val =>
            have hv : (∃ x, v = JSON.str x) ∨ v = JSON.null := by
              cases v <;> simp [unmarshalString] at hu ⊢
            rw [readValue_string_or_null v hv]
            simp only [hu]
            by_cases hboth : a ≠ "" ∧ val ≠ ""
            · simp only [if_pos hboth, loopAgrees]
              exact ⟨_, rfl, rfl, rfl⟩
            · simp only [if_neg hboth]
              exact (ih file a val f hboth (by omega)).1 false TokenState.tokenObjectComma rfl
          | none =>
            simp only [loopAgrees]
            rcases hr : Decoder.readValue ⟨Lexeme.colon ::
                (v.lexemes ++ (membersLexemes false ms' ++ [Lexeme.endObject])),
                TokenState.tokenObjectColon, [TokenState.tokenTopValue], false⟩ with ⟨_ | w, d⟩
            · exact ⟨_, rfl⟩
            · simp only [readValue_not_string v hu _ _ w d hr]
              exact ⟨_, rfl⟩
        · rw [getChatInfoLoop_plain f 1 1 _ _ _ (Token_key _ _ _ _ hsK)
            (Or.inr (Or.inr ⟨rfl, by simp, by simp, by simp,
              fun _ => ⟨by simpa using hk, by simpa using hk2⟩⟩)) hnb]
          simp only
          rw [getChatInfoLoop_colon]
          exact hvalue false f (Or.inr ⟨hk, hk2⟩) (by omega)
    · intro k0 v0 ms0 h
      simp only [List.cons.injEq, Prod.mk.injEq] at h
      obtain ⟨⟨rfl, rfl⟩, rfl⟩ := h
      rw [getChatInfoLoop_colon]
      exact hvalue true fuel (Or.inl rfl) (by omega)

/-- On the text of a JSON object `GetChatInfo` returns, and its result is
that of `walkMembers` on the members, an empty name at the end being the
error `chat name not found in JSON`. -/
theorem GetChatInfo_walkMembers (ms : List (String × JSON)) :
    ∃ p, (Parser.New (JSON.obj ms).lexemes).GetChatInfo =
      some ((walkMembers false ms "" "").bind (fun r =>
        if r.1 = "" then Except.error ParserError.chatNameNotFound else Except.ok r), p) := by
  have hlen := membersLoopCount_le_lexemes ms true
  have hnb : ¬(("" : String) ≠ "" ∧ ("" : String) ≠ "") := fun h => h.1 rfl
  have hloop := (getChatInfoLoop_top ms (JSON.obj ms).lexemes "" ""
    ((membersLexemes true ms).length + 1 + 1 + 1) hnb (by omega)).1 true
      TokenState.tokenObjectStart rfl
  have hstep : getChatInfoLoop ((JSON.obj ms).lexemes.length + 2) 0
      ⟨(JSON.obj ms).lexemes, NewDecoder (JSON.obj ms).lexemes, "", ""⟩ =
      getChatInfoLoop ((membersLexemes true ms).length + 1 + 1 + 1) 1
        ⟨(JSON.obj ms).lexemes, ⟨membersLexemes true ms ++ [Lexeme.endObject],
          TokenState.tokenObjectStart, [TokenState.tokenTopValue], false⟩, "", ""⟩ := by
    have hl : (JSON.obj ms).lexemes.length + 2 =
        ((membersLexemes true ms).length + 1 + 1 + 1) + 1 := by
      simp [JSON.lexemes]
    rw [hl]
    refine getChatInfoLoop_plain _ 0 1 _ _ _ ?_ (Or.inl ⟨rfl, rfl⟩) hnb
    simp only [NewDecoder]
    rw [JSON.lexemes]
    exact Token_beginObject _ _ _ rfl
  unfold Parser.GetChatInfo Parser.New
  simp only
  rw [hstep]
  cases hw : walkMembers false ms "" "" with
  | error e =>
    rw [hw] at hloop
    obtain ⟨p, hp⟩ := hloop
    exact ⟨p, by rw [hp]; rfl⟩
  | ok r =>
    obtain ⟨n, t⟩ := r
    rw [hw] at hloop
    obtain ⟨p, hp, hn, ht⟩ := hloop
    refine ⟨p, ?_⟩
    rw [hp]
    simp only [Except.bind, hn, ht]
    by_cases h : n = "" <;> simp [h]

/-- The member-level description on an object in which the keys `name` and
`type` occur at most once, with string values, no other member has the
string `name` or `type` as its value, and the numbers are in the range of
`float64`. -/
theorem walkMembers_ok (ms : List (String × JSON)) :
    ∀ (a b : String) (optN optT : Option String),
      ms.filter (fun m => m.1 = "name") = (optN.map (fun n => ("name", JSON.str n))).toList →
      ms.filter (fun m => m.1 = "type") = (optT.map (fun t => ("type", JSON.str t))).toList →
      (∀ m ∈ ms, m.1 ≠ "name" → m.1 ≠ "type" → m.2 ≠ JSON.str "name" ∧ m.2 ≠ JSON.str "type") →
      membersFit ms = true →
      (a ≠ "" → optN = none) → (b ≠ "" → optT = none) →
      walkMembers false ms a b = Except.ok (optN.getD a, optT.getD b) := by
  induction ms with
  | nil =>
    intro a b optN optT hN hT _ _ _ _
    cases optN <;> cases optT <;> simp at hN hT
    rfl
  | cons m ms' ih =>
    intro a b optN optT hN hT hO hF ha hb
    obtain ⟨k, v⟩ := m
    rw [membersFit, Bool.and_eq_true] at hF
    have hO' : ∀ m ∈ ms', m.1 ≠ "name" → m.1 ≠ "type" →
        m.2 ≠ JSON.str "name" ∧ m.2 ≠ JSON.str "type" :=
      fun m hm => hO m (List.mem_cons_of_mem _ hm)
    have hnt : ("name" : String) ≠ "type" := by decide
    by_cases hk : k = "name"
    · subst hk
      rw [List.filter_cons_of_pos (by simp)] at hN
      rw [List.filter_cons_of_neg (by simp)] at hT
      cases optN with
      | none => simp at hN
      | some n =>
        simp only [Option.map_some', Option.toList_some, List.cons.injEq, Prod.mk.injEq,
          true_and] at hN
        obtain ⟨hv, hN'⟩ := hN
        subst hv
        simp only [walkMembers, true_and, if_true, unmarshalString, Option.getD_some]
        by_cases hboth : n ≠ "" ∧ b ≠ ""
        · rw [if_pos hboth, hb hboth.2]
          rfl
        · rw [if_neg hboth]
          exact ih n b none optT (by simpa using hN') hT hO' hF.2 (fun _ => rfl) hb
    · by_cases hk2 : k = "type"
      · subst hk2
        rw [List.filter_cons_of_neg (by simp)] at hN
        rw [List.filter_cons_of_pos (by simp)] at hT
        cases optT with
        | none => simp at hT
        | some t =>
          simp only [Option.map_some', Option.toList_some, List.cons.injEq, Prod.mk.injEq,
            true_and] at hT
          obtain ⟨hv, hT'⟩ := hT
          subst hv
          simp only [walkMembers, true_and, if_neg hk, if_true, unmarshalString,
            Option.getD_some]
          by_cases hboth : a ≠ "" ∧ t ≠ ""
          · rw [if_pos hboth, ha hboth.1]
            rfl
          · rw [if_neg hboth]
            exact ih a t optN none hN (by simpa using hT') hO' hF.2 ha (fun _ => rfl)
      · rw [List.filter_cons_of_neg (by simpa using hk)] at hN
        rw [List.filter_cons_of_neg (by simpa using hk2)] at hT
        have hv := hO (k, v) (List.mem_cons_self _ _) hk hk2
        rw [walkMembers_other false k v ms' a b (Or.inr ⟨hk, hk2⟩) hv.1 hv.2
          ((walkError_eq_none_iff v).2 hF.1)]
        exact ih a b optN optT hN hT hO' hF.2 ha hb

/-- The member-level description on an object without the key `name` and
without a member whose value is the string `name`: an error, or the empty
name. -/
theorem walkMembers_no_name (ms : List (String × JSON)) :
    ∀ (keyRead : Bool) (b : String), (∀ m ∈ ms, m.1 ≠ "name" ∧ m.2 ≠ JSON.str "name") →
      (∃ e, walkMembers keyRead ms "" b = Except.error e) ∨
        ∃ t, walkMembers keyRead ms "" b = Except.ok ("", t) := by
  induction ms with
  | nil => intro keyRead b _; exact Or.inr ⟨b, rfl⟩
  | cons m ms' ih =>
    intro keyRead b h
    obtain ⟨k, v⟩ := m
    have hk : k ≠ "name" := (h (k, v) (List.mem_cons_self _ _)).1
    have hvn : v ≠ JSON.str "name" := (h (k, v) (List.mem_cons_self _ _)).2
    have h' : ∀ m ∈ ms', m.1 ≠ "name" ∧ m.2 ≠ JSON.str "name" :=
      fun m hm => h m (List.mem_cons_of_mem _ hm)
    have hnb : ∀ x : String, ¬(("" : String) ≠ "" ∧ x ≠ "") := fun _ h => h.1 rfl
    by_cases hk2 : keyRead = false ∧ k = "type"
    · obtain ⟨rfl, rfl⟩ := hk2
      simp only [walkMembers, true_and, if_neg hk, if_true]
      cases unmarshalString v "" with
      | none => exact Or.inl ⟨_, rfl⟩
      | some val =>
        simp only [if_neg (hnb val)]
        exact ih false val h'
    · have hkr : keyRead = true ∨ (k ≠ "name" ∧ k ≠ "type") := by
        cases keyRead with
        | true => exact Or.inl rfl
        | false => exact Or.inr ⟨hk, fun e => hk2 ⟨rfl, e⟩⟩
      by_cases hvt : v = JSON.str "type"
      · subst hvt
        rw [walkMembers_type_value keyRead k ms' "" b hkr]
        cases ms' with
        | nil => exact Or.inl ⟨_, rfl⟩
        | cons m2 ms'' =>
          obtain ⟨k2, v2⟩ := m2
          simp only [List.head?_cons, if_neg (hnb k2)]
          exact ih true k2 h'
      · cases hw : v.walkError with
        | some e => exact Or.inl ⟨e, walkMembers_other_fails keyRead k v ms' "" b e hkr hw⟩
        | none =>
          rw [walkMembers_other keyRead k v ms' "" b hkr hvn hvt hw]
          exact ih false b h'

/-- On a document that is not an object `GetChatInfo` returns an error: no
name is found, or a number is out of the range of `float64`. -/
theorem GetChatInfo_not_object (v : JSON) (hv : ∀ ms, v ≠ JSON.obj ms) :
    ∃ e p, (Parser.New v.lexemes).GetChatInfo = some (Except.error e, p) := by
  have hlen := loopCount_le_lexemes v
  have hnb : ¬(("" : String) ≠ "" ∧ ("" : String) ≠ "") := fun h => h.1 rfl
  have hfuel : v.lexemes.length + 2 = v.lexemes.length - v.loopCount + 1 + 1 + v.loopCount := by
    omega
  unfold Parser.GetChatInfo Parser.New
  simp only [NewDecoder]
  rw [hfuel]
  cases hw : v.walkError with
  | some e =>
    obtain ⟨p, hp⟩ := getChatInfoLoop_value_fails v e [] TokenState.tokenTopValue [] 0
      (v.lexemes.length - v.loopCount + 1 + 1) v.lexemes "" "" hw rfl
      (fun ⟨ms, h⟩ => absurd h (hv ms)) hnb
    rw [List.append_nil] at hp
    rw [hp]
    exact ⟨e, p, rfl⟩
  | none =>
    have hstep := getChatInfoLoop_value v [] TokenState.tokenTopValue [] 0
      (v.lexemes.length - v.loopCount + 1 + 1) v.lexemes "" "" ((walkError_eq_none_iff v).1 hw)
      rfl (fun ⟨ms, h⟩ => absurd h (hv ms)) (fun h => absurd h (by norm_num)) hnb
    rw [List.append_nil] at hstep
    rw [hstep, getChatInfoLoop]
    simp only [Decoder.Token, tokenLoop]
    exact ⟨_, _, rfl⟩

/-- On a document whose top-level object has no key `name` and no member
whose value is the string `name`, whatever the nested objects and the arrays
hold, and on a document that is not an object, `GetChatInfo` returns an
error. -/
theorem GetChatInfo_no_name_no_value (v : JSON)
    (h : ∀ ms, v = JSON.obj ms → ∀ m ∈ ms, m.1 ≠ "name" ∧ m.2 ≠ JSON.str "name") :
    ∃ e p, (Parser.New v.lexemes).GetChatInfo = some (Except.error e, p) := by
  by_cases hv : ∃ ms, v = JSON.obj ms
  · obtain ⟨ms, rfl⟩ := hv
    obtain ⟨p, hp⟩ := GetChatInfo_walkMembers ms
    rcases walkMembers_no_name ms false "" (h ms rfl) with ⟨e, he⟩ | ⟨t, ht⟩
    · exact ⟨e, p, by rw [hp, he]; rfl⟩
    · exact ⟨ParserError.chatNameNotFound, p, by rw [hp, ht]; rfl⟩
  · exact GetChatInfo_not_object v (fun ms e => hv ⟨ms, e⟩)

/-- C19, as amended: for every well-formed export document in which every
number is in the range of `float64` and whose top-level object has exactly
one key `name`, with a non-empty string value `n`, and exactly one key
`type`, with a string value `t`, and no other top-level member whose value
is the string `name` or `type`, in any key order and alongside any other
top-level keys and values (arrays being skipped and the keys of nested
objects passed over), `GetChatInfo` returns `(n, t)` with no error. -/
theorem GetChatInfo_name_and_type (ms : List (String × JSON)) (n t : String)
    (hname : ms.filter (fun m => m.1 = "name") = [("name", JSON.str n)])
    (htype : ms.filter (fun m => m.1 = "type") = [("type", JSON.str t)])
    (hn : n ≠ "")
    (hother : ∀ m ∈ ms, m.1 ≠ "name" → m.1 ≠ "type" →
      m.2 ≠ JSON.str "name" ∧ m.2 ≠ JSON.str "type")
    (hfit : (JSON.obj ms).numbersFit = true) :
    ∃ p, (Parser.New (JSON.obj ms).lexemes).GetChatInfo = some (Except.ok (n, t), p) := by
  obtain ⟨p, hp⟩ := GetChatInfo_walkMembers ms
  rw [JSON.numbersFit] at hfit
  have hw := walkMembers_ok ms "" "" (some n) (some t) hname htype hother hfit
    (fun h => absurd rfl h) (fun h => absurd rfl h)
  refine ⟨p, ?_⟩
  rw [hp, hw]
  simp only [Option.getD_some, Except.bind, if_neg hn]

/-- C19, at the document of `TestParser_GetChatInfo`. -/
theorem GetChatInfo_name_and_type_witness :
    ∃ p, (Parser.New testChatDocument.lexemes).GetChatInfo =
      some (Except.ok ("Рабочий чат", "private_supergroup"), p) :=
  GetChatInfo_name_and_type
    [("name", JSON.str "Рабочий чат"), ("type", JSON.str "private_supergroup"),
      ("id", JSON.num "1234567890"), ("messages", JSON.arr [])]
    "Рабочий чат" "private_supergroup" (by rfl) (by rfl) (by decide)
    (by
      intro m hm
      simp only [List.mem_cons, List.mem_singleton, List.not_mem_nil, or_false] at hm
      rcases hm with rfl | rfl | rfl | rfl <;> simp)
    (by decide)

/-- C19, the counterexample: the top-level object of the document has the key
`name` with the string value `""` and the key `type` with a string value,
and `GetChatInfo` returns the error `chat name not found in JSON`. -/
theorem GetChatInfo_empty_name_counterexample :
    (Parser.New emptyNameDocument.lexemes).GetChatInfo.map Prod.fst =
      some (Except.error ParserError.chatNameNotFound) := by
  obtain ⟨p, hp⟩ := GetChatInfo_walkMembers
    [("name", JSON.str ""), ("type", JSON.str "personal_chat")]
  rw [emptyNameDocument, hp]
  rfl

/-- A top-level member whose value is the string `name` is taken for the key
`name`: `Decode` is called after a value, where it reads the key of the next
member, and on `{"about":"name","name":"Чат","type":"personal_chat"}`
`GetChatInfo` returns the name `name`, not `Чат`. -/
theorem GetChatInfo_value_taken_for_key :
    (Parser.New nameValueDocument.lexemes).GetChatInfo.map Prod.fst =
      some (Except.ok ("name", "personal_chat")) := by
  obtain ⟨p, hp⟩ := GetChatInfo_walkMembers
    [("about", JSON.str "name"), ("name", JSON.str "Чат"), ("type", JSON.str "personal_chat")]
  rw [nameValueDocument, hp]
  rfl

/-- A member whose value is the string `name` and that is the last member of
the top-level object: `Decode` finds the closing brace, and `GetChatInfo`
returns the error `decode name`. -/
theorem GetChatInfo_value_last_member :
    (Parser.New
        (JSON.obj [("type", JSON.str "t"), ("about", JSON.str "name")]).lexemes).GetChatInfo.map
          Prod.fst =
      some (Except.error ParserError.decodeName) := by
  obtain ⟨p, hp⟩ := GetChatInfo_walkMembers
    [("type", JSON.str "t"), ("about", JSON.str "name")]
  rw [hp]
  rfl

/-- C20: on the document `{"about":"name","title":"x","type":"t"}`, whose
top-level object has no key `name`, `GetChatInfo` returns the name `title`
and the type `t` with no error: at the value `name` of the member `about` it
calls `Decode`, which reads the key of the next member.  On every well-formed
document whose top-level object has no key `name` and no member with the
string `name` as its value, whatever the nested objects and the arrays hold,
and on every well-formed document that is not an object, `GetChatInfo`
returns an error. -/
theorem GetChatInfo_key_taken_for_name :
    (Parser.New keyAsNameDocument.lexemes).GetChatInfo.map Prod.fst =
      some (Except.ok ("title", "t")) ∧
    ∀ v : JSON, (∀ ms, v = JSON.obj ms → ∀ m ∈ ms, m.1 ≠ "name" ∧ m.2 ≠ JSON.str "name") →
      ∃ e p, (Parser.New v.lexemes).GetChatInfo = some (Except.error e, p) := by
  refine ⟨?_, GetChatInfo_no_name_no_value⟩
  obtain ⟨p, hp⟩ := GetChatInfo_walkMembers
    [("about", JSON.str "name"), ("title", JSON.str "x"), ("type", JSON.str "t")]
  rw [keyAsNameDocument, hp]
  rfl

/-- C20, at a document with the key `name` in a nested object and in an
element of the messages only: an error. -/
theorem GetChatInfo_key_taken_for_name_witness :
    ∃ e p, (Parser.New nestedNameDocument.lexemes).GetChatInfo = some (Except.error e, p) :=
  GetChatInfo_key_taken_for_name.2 nestedNameDocument (by
    intro ms hms m hm
    simp only [nestedNameDocument, JSON.obj.injEq] at hms
    subst hms
    simp only [List.mem_cons, List.mem_singleton, List.not_mem_nil, or_false] at hm
    rcases hm with rfl | rfl | rfl <;> simp)

/-! ## The reply cache as a frame, and the length of a preview -/

/-- C29: `ConvertMessage` always returns; when it succeeds on a message that
is not a service message the cache afterwards has the resolved body under
`msg.ID` and every other entry as before; when it returns an error or renders
a service message the converter is exactly as before; in every case an id
that was in the cache is still in it. -/
theorem ConvertMessage_cache_frame (c : Converter) (msg : Message) :
    ∃ r c1, c.ConvertMessage msg = some (r, c1) ∧
      ((∃ line t, r = Except.ok (line, t)) ∧ (msg.Kind ≠ "service" ∧ msg.Action = "") →
        c1.messageCache msg.ID = some (resolvedBody c msg) ∧
        ∀ k, k ≠ msg.ID → c1.messageCache k = c.messageCache k) ∧
      ((∃ e, r = Except.error e) ∨ (msg.Kind = "service" ∨ msg.Action ≠ "") → c1 = c) ∧
      ∀ k, (c.messageCache k).isSome = true → (c1.messageCache k).isSome = true := by
  obtain ⟨r, c1, h, hcase⟩ := ConvertMessage_cases c msg
  refine ⟨r, c1, h, ?_, ?_, ?_⟩
  · rintro ⟨⟨line, t, hr⟩, hs⟩
    rcases hcase with ⟨_, _, hc⟩ | ⟨_, hserv | ⟨e, he⟩⟩
    · subst hc
      refine ⟨?_, fun k hk => messageCache_CacheMessage_ne c msg.ID k _ hk⟩
      simp [Converter.CacheMessage]
    · rcases hserv with h1 | h1
      · exact absurd h1 hs.1
      · exact absurd hs.2 h1
    · rw [hr] at he; cases he
  · intro hbad
    rcases hcase with ⟨hs, ⟨line, t, hr⟩, _⟩ | ⟨hc, _⟩
    · rcases hbad with ⟨e, he⟩ | h1 | h1
      · rw [hr] at he; cases he
      · exact absurd h1 hs.1
      · exact absurd hs.2 h1
    · exact hc
  · intro k hk
    rcases hcase with ⟨_, _, hc⟩ | ⟨hc, _⟩
    · subst hc
      by_cases hkid : k = msg.ID
      · simp [Converter.CacheMessage, hkid]
      · rw [messageCache_CacheMessage_ne c msg.ID k _ hkid]; exact hk
    · rw [hc]; exact hk

/-- C29, at the message `hello` of the reply tests and a converter that holds
the id 7: the cache afterwards has the body under the id 1, and the id 7 as
before. -/
theorem ConvertMessage_cache_frame_witness :
    ∃ c1, ((New.CacheMessage 7 "old").ConvertMessage testHelloMessage).map Prod.snd = some c1 ∧
      c1.messageCache 1 = some "hello" ∧ c1.messageCache 7 = some "old" := by
  obtain ⟨r, c1, h, hok, _, _⟩ := ConvertMessage_cache_frame (New.CacheMessage 7 "old")
    testHelloMessage
  have hev : ∃ c2, (New.CacheMessage 7 "old").ConvertMessage testHelloMessage =
      some (Except.ok ("[2024-01-15 14:30] Иван: hello",
        ⟨2024, 1, 15, 14, 30, 0, 0, 0⟩), c2) := ⟨_, rfl⟩
  obtain ⟨c2, hc2⟩ := hev
  rw [hc2] at h
  simp only [Option.some.injEq, Prod.mk.injEq] at h
  obtain ⟨hr, hc⟩ := h
  subst hr hc
  have := hok ⟨⟨_, _, rfl⟩, by decide, rfl⟩
  refine ⟨c2, by rw [hc2]; rfl, ?_, ?_⟩
  · exact this.1.trans (by rfl)
  · exact (this.2 7 (by decide)).trans (by rfl)

/-- The value of `truncateForReply` for `maxLen` of 3 or more, in terms of
the text without its newlines. -/
theorem truncateForReply_eq (text : String) (maxLen : Int) (h : 3 ≤ maxLen) :
    truncateForReply text maxLen =
      some (if ((text.data.map fun c => if c = '\n' then ' ' else c).length : Int) ≤ maxLen
        then ⟨text.data.map fun c => if c = '\n' then ' ' else c⟩
        else ⟨(text.data.map fun c => if c = '\n' then ' ' else c).take (maxLen - 3).toNat⟩
          ++ "...") := by
  unfold truncateForReply
  simp only [stringsReplaceAll_eq_map]
  have hlen := length_le_byteLen (text.data.map fun c => if c = '\n' then ' ' else c)
  have hlen2 : ((text.data.map fun c => if c = '\n' then ' ' else c).length : Int) ≤
      (byteLen (text.data.map fun c => if c = '\n' then ' ' else c) : Int) :=
    Int.ofNat_le.2 hlen
  split_ifs <;> first
    | rfl
    | (exfalso; omega)

/-- For `maxLen` of 3 or more `truncateForReply` returns a text of at most
`maxLen` code points without a newline character. -/
theorem truncateForReply_length_le (text : String) (maxLen : Int) (h : 3 ≤ maxLen) :
    ∃ preview, truncateForReply text maxLen = some preview ∧
      (preview.length : Int) ≤ maxLen ∧ '\n' ∉ preview.data := by
  have hnl : ∀ l : List Char, '\n' ∉ l.map fun c => if c = '\n' then ' ' else c := by
    intro l hmem
    rw [List.mem_map] at hmem
    obtain ⟨c, _, hc⟩ := hmem
    by_cases h1 : c = '\n'
    · rw [if_pos h1] at hc; exact absurd hc (by decide)
    · rw [if_neg h1] at hc; exact h1 hc
  rw [truncateForReply_eq text maxLen h]
  refine ⟨_, rfl, ?_⟩
  by_cases hlen : ((text.data.map fun c => if c = '\n' then ' ' else c).length : Int) ≤ maxLen
  · rw [if_pos hlen]
    exact ⟨hlen, hnl _⟩
  · rw [if_neg hlen]
    constructor
    · have h1 : (maxLen - 3).toNat ≤
          (text.data.map fun c => if c = '\n' then ' ' else c).length := by omega
      have e : ((⟨(text.data.map fun c => if c = '\n' then ' ' else c).take
            (maxLen - 3).toNat⟩ : String) ++ "...").length =
          ((text.data.map fun c => if c = '\n' then ' ' else c).take (maxLen - 3).toNat).length
            + 3 := by
        rw [String.length_append]; rfl
      rw [e, List.length_take, min_eq_left h1]
      push_cast
      omega
    · simp only [String.data_append, List.mem_append, not_or]
      exact ⟨fun hm => hnl _ (List.mem_of_mem_take hm), by decide⟩

/-- With the `maxLen = 50` of `ConvertMessage`: the preview in the reply
prefix of a message that is converted has at most 50 code points. -/
theorem ConvertMessage_preview_length (c : Converter) (msg : Message) (ts : String) (t : Time)
    (replyTo : Int)
    (hd : formatTimestamp msg.Date = some (ts, t))
    (hs : ¬(msg.Kind = "service" ∨ msg.Action ≠ ""))
    (he : ContainsOnlyWhitespace (resolvedBody c msg) = false)
    (hr : msg.ReplyToMsgID = some replyTo) :
    ∃ preview : String, preview.length ≤ 50 ∧ '\n' ∉ preview.data ∧
      c.ConvertMessage msg =
        some (Except.ok ("[" ++ ts ++ "] " ++ (if msg.From = "" then "Unknown" else msg.From)
          ++ ": " ++ ("[В ответ на: \"" ++ preview ++ "\"] ") ++ resolvedBody c msg, t),
          c.CacheMessage msg.ID (resolvedBody c msg)) := by
  obtain ⟨preview, hp, hconv⟩ := ConvertMessage_reply c msg ts t replyTo hd hs he hr
  refine ⟨preview, ?_, ?_, hconv⟩
  · cases hm : (c.CacheMessage msg.ID (resolvedBody c msg)).messageCache replyTo with
    | none => rw [hm] at hp; simp only at hp; rw [hp]; decide
    | some cached =>
      rw [hm] at hp
      simp only at hp
      obtain ⟨p2, hp2, hlen, _⟩ := truncateForReply_length_le cached 50 (by decide)
      rw [hp] at hp2
      cases hp2
      exact_mod_cast hlen
  · cases hm : (c.CacheMessage msg.ID (resolvedBody c msg)).messageCache replyTo with
    | none => rw [hm] at hp; simp only at hp; rw [hp]; decide
    | some cached =>
      rw [hm] at hp
      simp only at hp
      obtain ⟨p2, hp2, _, hnl⟩ := truncateForReply_length_le cached 50 (by decide)
      rw [hp] at hp2
      cases hp2
      exact hnl

/-- C30: for every text and every `maxLen` of 3 or more, the slice bound
`maxLen - 3` is within the runes when it is reached, so that
`truncateForReply` returns; the result has at most `maxLen` code points and
no newline character; and with the `maxLen = 50` of `ConvertMessage` the
preview in the reply prefix of every converted message has at most 50 code
points. -/
theorem truncateForReply_bounded :
    (∀ (text : String) (maxLen : Int), 3 ≤ maxLen →
      ∃ preview, truncateForReply text maxLen = some preview ∧
        (preview.length : Int) ≤ maxLen ∧ '\n' ∉ preview.data) ∧
    ∀ (c : Converter) (msg : Message) (ts : String) (t : Time) (replyTo : Int),
      formatTimestamp msg.Date = some (ts, t) →
      ¬(msg.Kind = "service" ∨ msg.Action ≠ "") →
      ContainsOnlyWhitespace (resolvedBody c msg) = false →
      msg.ReplyToMsgID = some replyTo →
      ∃ preview : String, preview.length ≤ 50 ∧ '\n' ∉ preview.data ∧
        c.ConvertMessage msg =
          some (Except.ok ("[" ++ ts ++ "] " ++ (if msg.From = "" then "Unknown" else msg.From)
            ++ ": " ++ ("[В ответ на: \"" ++ preview ++ "\"] ") ++ resolvedBody c msg, t),
            c.CacheMessage msg.ID (resolvedBody c msg)) :=
  ⟨truncateForReply_length_le, ConvertMessage_preview_length⟩

/-- C30, at a text of 60 characters with a newline and `maxLen = 50`. -/
theorem truncateForReply_bounded_witness :
    ∃ preview,
      truncateForReply "abcdefghi\nabcdefghijabcdefghijabcdefghijabcdefghijabcdefghij" 50 =
        some preview ∧ (preview.length : Int) ≤ 50 ∧ '\n' ∉ preview.data :=
  truncateForReply_bounded.1 "abcdefghi\nabcdefghijabcdefghijabcdefghijabcdefghijabcdefghij" 50
    (by decide)

/-! ## The month key -/

theorem digitChar_eq (d : Nat) (h : d < 10) : Nat.digitChar d = Char.ofNat (48 + d) := by
  interval_cases d <;> rfl

theorem decimalDigits_eq_toDigitsCore (fuel : Nat) :
    ∀ (n : Nat) (acc : List Char), decimalDigits fuel n acc = Nat.toDigitsCore 10 fuel n acc := by
  induction fuel with
  | zero => intro n acc; rfl
  | succ fuel ih =>
    intro n acc
    rw [decimalDigits_succ, Nat.toDigitsCore]
    simp only [digitChar_eq (n % 10) (Nat.mod_lt _ (by norm_num)), ih]

/-- `fmt.Sprintf("%d", x)` is the decimal numeral of `x`. -/
theorem sprintfInt_eq_toString (x : Int) : (⟨sprintfInt x⟩ : String) = toString x := by
  cases x with
  | ofNat n =>
    have h : ¬ (Int.ofNat n < 0) := by simp
    simp only [sprintfInt, if_neg h, List.nil_append, Int.natAbs_ofNat,
      decimalDigits_eq_toDigitsCore]
    rfl
  | negSucc n =>
    have h : Int.negSucc n < 0 := Int.negSucc_lt_zero n
    simp only [sprintfInt, if_pos h, decimalDigits_eq_toDigitsCore]
    rfl

/-- The month key of a timestamp whose month is one of the twelve. -/
theorem getMonthKey_eq (t : Time) (hm : 1 ≤ t.month ∧ t.month ≤ 12) :
    getMonthKey t = some (englishMonthName t.month ++ "_" ++ toString t.year) := by
  obtain ⟨m, hmm⟩ : ∃ m : Nat, t.month = (m : Int) := ⟨t.month.toNat, by omega⟩
  have hname : stringsToLower (monthNames.getD t.month.toNat "") = englishMonthName t.month := by
    rw [hmm] at hm ⊢
    have h1 : 1 ≤ m := by omega
    have h2 : m ≤ 12 := by omega
    interval_cases m <;> decide
  have hguard : 0 ≤ t.month ∧ t.month < (monthNames.length : Int) := by
    constructor
    · omega
    · have : (monthNames.length : Int) = 13 := by decide
      omega
  unfold getMonthKey
  rw [if_pos hguard]
  simp only [hname, sprintfInt_eq_toString]

/-- C23: for every timestamp, the month of a Go `time.Time` being one of the
twelve, `getMonthKey` is the lowercase English name of the month, an
underscore, and the year in decimal. -/
theorem getMonthKey_spec (t : Time) (hm : 1 ≤ t.month ∧ t.month ≤ 12) :
    getMonthKey t = some (englishMonthName t.month ++ "_" ++ toString t.year) :=
  getMonthKey_eq t hm

/-- C23, at the two months of `TestGetMonthKey`: January 2024 and December
2023. -/
theorem getMonthKey_spec_witness :
    getMonthKey ⟨2024, 1, 15, 0, 0, 0, 0, 0⟩ = some "january_2024" ∧
    getMonthKey ⟨2023, 12, 31, 23, 59, 59, 0, 0⟩ = some "december_2023" :=
  ⟨(getMonthKey_spec ⟨2024, 1, 15, 0, 0, 0, 0, 0⟩ (by decide)).trans (by decide),
   (getMonthKey_spec ⟨2023, 12, 31, 23, 59, 59, 0, 0⟩ (by decide)).trans (by decide)⟩

/-! ## Paths: the file of a month -/

theorem splitSlash_ne_nil (p : List Char) : splitSlash p ≠ [] := by
  cases p with
  | nil => simp [splitSlash]
  | cons c rest =>
    rw [splitSlash]
    split_ifs
    · simp
    · split <;> simp

theorem splitSlash_of_not_mem (p : List Char) (h : '/' ∉ p) : splitSlash p = [p] := by
  induction p with
  | nil => rfl
  | cons c rest ih =>
    have hc : c ≠ '/' := fun e => h (by rw [e]; exact List.mem_cons_self _ _)
    have hr : '/' ∉ rest := fun hm => h (List.mem_cons_of_mem _ hm)
    rw [splitSlash, if_neg hc, ih hr]

theorem splitSlash_append (a b : List Char) :
    splitSlash (a ++ '/' :: b) = splitSlash a ++ splitSlash b := by
  induction a with
  | nil => simp [splitSlash]
  | cons c rest ih =>
    rw [List.cons_append, splitSlash, splitSlash, ih]
    by_cases hc : c = '/'
    · simp [hc]
    · rw [if_neg hc, if_neg hc]
      cases hs : splitSlash rest with
      | nil => exact absurd hs (splitSlash_ne_nil rest)
      | cons e es => simp

theorem joinSlash_cons_cons (e e2 : List Char) (es : List (List Char)) :
    joinSlash (e :: e2 :: es) = e ++ '/' :: joinSlash (e2 :: es) := rfl

theorem joinSlash_append_singleton (out : List (List Char)) (n : List Char) :
    joinSlash (out ++ [n]) = if out = [] then n else joinSlash out ++ '/' :: n := by
  induction out with
  | nil => simp [joinSlash]
  | cons e es ih =>
    cases es with
    | nil => simp [joinSlash]
    | cons e2 es2 =>
      have ih' : joinSlash (e2 :: (es2 ++ [n])) = joinSlash (e2 :: es2) ++ '/' :: n := by
        simpa using ih
      show joinSlash (e :: e2 :: (es2 ++ [n])) = _
      rw [joinSlash_cons_cons, ih', if_neg (by simp), joinSlash_cons_cons]
      simp

/-- A path element that `filepath.Clean` keeps as it is: not empty, without
a separator, and neither `.` nor `..`. -/
theorem cleanStep_plain (rooted : Bool) (out : List (List Char)) (n : List Char)
    (h1 : n ≠ []) (h2 : n ≠ ['.']) (h3 : n ≠ ['.', '.']) :
    cleanStep rooted out n = out ++ [n] := by
  unfold cleanStep
  rw [if_neg (by simp [h1, h2]), if_neg h3]

/-- The path `filepath.Join(dir, name)` ends with `name`, after a separator
or alone, when `name` is a plain file name. -/
theorem filepathJoin_name (dir name : String) (hs : '/' ∉ name.data) (h1 : name.data ≠ [])
    (h2 : name.data ≠ ['.']) (h3 : name.data ≠ ['.', '.']) :
    ∃ pre : List Char, (filepathJoin [dir, name]).data = pre ++ name.data ∧
      (pre = [] ∨ pre.getLast? = some '/') := by
  have hname : name ≠ "" := fun e => h1 (by rw [e])
  have hclean : ∀ (p : List Char) (comps : List (List Char)),
      splitSlash p = comps ++ [name.data] →
      ∃ pre : List Char, filepathClean p = pre ++ name.data ∧
        (pre = [] ∨ pre.getLast? = some '/') := by
    intro p comps hp
    unfold filepathClean
    simp only [hp, List.foldl_append, List.foldl_cons, List.foldl_nil]
    rw [cleanStep_plain _ _ _ h1 h2 h3, joinSlash_append_singleton]
    generalize List.foldl (cleanStep (decide (p.head? = some '/'))) [] comps = out
    by_cases ho : out = []
    · rw [if_pos ho]
      by_cases hr : decide (p.head? = some '/') = true
      · rw [if_pos hr]
        refine ⟨['/'], ?_, Or.inr rfl⟩
        rw [if_neg (by simp)]
      · rw [if_neg hr]
        refine ⟨[], ?_, Or.inl rfl⟩
        rw [if_neg (by simpa using h1)]
    · rw [if_neg ho]
      refine ⟨(if decide (p.head? = some '/') = true then ['/'] else []) ++ joinSlash out ++ ['/'],
        ?_, Or.inr (by simp)⟩
      rw [if_neg (by simp)]
      simp
  by_cases hd : dir = ""
  · subst hd
    have e : filepathJoin ["", name] = ⟨filepathClean name.data⟩ := by
      simp [filepathJoin, List.dropWhile, hname, joinSlash]
    rw [e]
    exact hclean name.data [] (by rw [splitSlash_of_not_mem _ hs]; rfl)
  · have e : filepathJoin [dir, name] = ⟨filepathClean (dir.data ++ '/' :: name.data)⟩ := by
      simp [filepathJoin, List.dropWhile, hd, joinSlash]
    rw [e]
    exact hclean _ (splitSlash dir.data) (by
      rw [splitSlash_append, splitSlash_of_not_mem _ hs])

/-- Two texts without a separator that end the same path, each after a
separator or alone, are equal. -/
theorem eq_of_append_after_slash (pre1 pre2 n1 n2 : List Char)
    (h : pre1 ++ n1 = pre2 ++ n2) (hn1 : '/' ∉ n1) (hn2 : '/' ∉ n2)
    (hp1 : pre1 = [] ∨ pre1.getLast? = some '/') (hp2 : pre2 = [] ∨ pre2.getLast? = some '/') :
    n1 = n2 := by
  have key : ∀ (pre n : List Char), '/' ∉ n → (pre = [] ∨ pre.getLast? = some '/') →
      (pre ++ n).reverse.takeWhile (fun c => c ≠ '/') = n.reverse := by
    intro pre n hn hp
    rw [List.reverse_append]
    have hall : ∀ c ∈ n.reverse, (fun c => decide (c ≠ '/')) c = true := by
      intro c hc
      have : c ≠ '/' := fun e => hn (by rw [← e]; exact List.mem_reverse.1 hc)
      simpa using this
    rcases hp with rfl | hp
    · rw [List.reverse_nil, List.append_nil]
      exact List.takeWhile_eq_self_iff.2 hall
    · obtain ⟨init, rfl⟩ : ∃ init, pre = init ++ ['/'] := by
        cases hpe : pre.reverse with
        | nil => rw [List.reverse_eq_nil_iff] at hpe; subst hpe; simp at hp
        | cons x xs =>
          refine ⟨xs.reverse, ?_⟩
          have : pre = (x :: xs).reverse := by rw [← hpe, List.reverse_reverse]
          rw [this, List.reverse_cons] at hp ⊢
          have hx : x = '/' := by simpa [Option.or] using hp
          rw [hx]
      rw [List.reverse_append, List.reverse_singleton, List.singleton_append]
      rw [List.takeWhile_append_of_pos hall]
      simp
  have := congrArg (fun l => l.reverse.takeWhile (fun c => c ≠ '/')) h
  simp only [key pre1 n1 hn1 hp1, key pre2 n2 hn2 hp2] at this
  exact List.reverse_injective this

theorem not_slash_mem_SanitizeName (s : String) : '/' ∉ (SanitizeName s).data := by
  intro h
  have := (mem_SanitizeName h).2.2
  revert this
  decide

theorem mem_decimalDigits (fuel : Nat) :
    ∀ (n : Nat) (acc : List Char) (c : Char), c ∈ decimalDigits fuel n acc →
      c ∈ acc ∨ (48 ≤ c.toNat ∧ c.toNat ≤ 57) := by
  induction fuel with
  | zero => intro n acc c h; exact Or.inl h
  | succ fuel ih =>
    intro n acc c h
    rw [decimalDigits_succ] at h
    have hd : ∀ c, c ∈ Char.ofNat (48 + n % 10) :: acc →
        c ∈ acc ∨ (48 ≤ c.toNat ∧ c.toNat ≤ 57) := by
      intro c hc
      rcases List.mem_cons.1 hc with rfl | hc
      · right
        have hlt : n % 10 < 10 := Nat.mod_lt _ (by norm_num)
        generalize n % 10 = d at hlt
        interval_cases d <;> decide
      · exact Or.inl hc
    split_ifs at h
    · exact hd c h
    · rcases ih _ _ c h with h1 | h1
      · exact hd c h1
      · exact Or.inr h1

/-- A month key has no separator and ends with a digit of the year. -/
theorem getMonthKey_chars (t : Time) (key : String) (h : getMonthKey t = some key) :
    '/' ∉ key.data ∧ '_' ∈ key.data := by
  unfold getMonthKey at h
  split_ifs at h with hg
  simp only [Option.some.injEq] at h
  subst h
  obtain ⟨m, hmm⟩ : ∃ m : Nat, t.month = (m : Int) := ⟨t.month.toNat, by omega⟩
  have hlen : (monthNames.length : Int) = 13 := by decide
  have hname : '/' ∉ (stringsToLower (monthNames.getD t.month.toNat "")).data := by
    rw [hmm] at hg ⊢
    have h2 : m < 13 := by omega
    interval_cases m <;> decide
  constructor
  · simp only [String.data_append, List.mem_append, not_or]
    refine ⟨⟨hname, by decide⟩, ?_⟩
    intro hmem
    simp only [sprintfInt, List.mem_append] at hmem
    rcases hmem with hmem | hmem
    · split_ifs at hmem
      · simp at hmem
      · simp at hmem
    · rcases mem_decimalDigits _ _ _ _ hmem with h1 | h1
      · simp at h1
      · revert h1; decide
  · simp only [String.data_append, List.mem_append]
    exact Or.inl (Or.inr (by decide))

/-- Different month keys have different files. -/
theorem monthPath_injective (w : Writer) (hs : '/' ∉ w.sanitizedName.data) (t1 t2 : Time)
    (k1 k2 : String) (h1 : getMonthKey t1 = some k1) (h2 : getMonthKey t2 = some k2)
    (h : w.monthPath k1 = w.monthPath k2) : k1 = k2 := by
  have hplain : ∀ (t : Time) (k : String), getMonthKey t = some k →
      '/' ∉ (w.sanitizedName ++ "_" ++ k ++ ".md").data ∧
      (w.sanitizedName ++ "_" ++ k ++ ".md").data ≠ [] ∧
      (w.sanitizedName ++ "_" ++ k ++ ".md").data ≠ ['.'] ∧
      (w.sanitizedName ++ "_" ++ k ++ ".md").data ≠ ['.', '.'] := by
    intro t k hk
    have hu : '_' ∈ (w.sanitizedName ++ "_" ++ k ++ ".md").data := by
      simp only [String.data_append, List.mem_append]
      exact Or.inl (Or.inl (Or.inr (by decide)))
    refine ⟨?_, ?_, ?_, ?_⟩
    · simp only [String.data_append, List.mem_append, not_or]
      exact ⟨⟨⟨hs, by decide⟩, (getMonthKey_chars t k hk).1⟩, by decide⟩
    · intro e; rw [e] at hu; simp at hu
    · intro e; rw [e] at hu; revert hu; decide
    · intro e; rw [e] at hu; revert hu; decide
  obtain ⟨a1, a2, a3, a4⟩ := hplain t1 k1 h1
  obtain ⟨b1, b2, b3, b4⟩ := hplain t2 k2 h2
  obtain ⟨pre1, e1, hp1⟩ := filepathJoin_name w.outputDir _ a1 a2 a3 a4
  obtain ⟨pre2, e2, hp2⟩ := filepathJoin_name w.outputDir _ b1 b2 b3 b4
  unfold Writer.monthPath at h
  rw [h] at e1
  have hn := eq_of_append_after_slash pre1 pre2 _ _ (e1.symm.trans e2) a1 b1 hp1 hp2
  simp only [String.data_append] at hn
  have hn2 := List.append_cancel_right hn
  have hn3 := List.append_cancel_left hn2
  exact String.ext hn3

/-! ## Properties of the writer -/

theorem getMonthKey_ne_empty (t : Time) (k : String) (h : getMonthKey t = some k) : k ≠ "" := by
  intro e
  have := (getMonthKey_chars t k h).2
  rw [e] at this
  simp at this

/-- `WriteString` on an open file and a writer without error succeeds and
adds the string to what has been written. -/
theorem WriteString_open (b : BufioWriter) (path : String) (s : String) (hb : b.err = false) :
    ∃ n, b.WriteString { path := path, closed := false } s =
      (true, { written := b.written ++ s, n := n, err := false }) := by
  unfold BufioWriter.WriteString
  simp only [hb, Bool.false_eq_true, if_false]
  split_ifs
  · exact ⟨_, by rw [← hb]⟩
  · exact ⟨_, by rw [← hb]⟩
  · exact ⟨_, by rw [← hb]⟩
  · exact ⟨_, by rw [← hb]⟩

/-- `Flush` on an open file and a writer without error succeeds and leaves
all that has been written in the file. -/
theorem Flush_open (b : BufioWriter) (path : String) (fs : FileSystem) (hb : b.err = false) :
    b.Flush { path := path, closed := false } fs =
      (true, { b with n := 0 }, fs.store path b.written) := by
  unfold BufioWriter.Flush
  simp [hb]

/-- `switchToMonth` on a writer that has not opened a file yet. -/
theorem switchToMonth_first (w : Writer) (fs : FileSystem) (k : String)
    (hw : w.currentWriter = none) (hf : w.currentFile = none) :
    w.switchToMonth fs k =
      if fs.denied (w.monthPath k) then some (some WriterError.createFile, w, fs)
      else some (none,
        { w with currentFile := some { path := w.monthPath k, closed := false },
                 currentWriter := some NewWriter, currentMonth := k,
                 stats := fun k' => if k' = k then some 0 else w.stats k',
                 fileCount := w.fileCount + 1 }, fs.store (w.monthPath k) "") := by
  unfold Writer.switchToMonth
  simp only [hw, hf, osCreate, Writer.monthPath]
  split_ifs <;> rfl

/-- `switchToMonth` on a writer with its file open: the file is flushed and
closed, and the file of the month is created. -/
theorem switchToMonth_open (w : Writer) (fs : FileSystem) (k : String) (b : BufioWriter)
    (path : String) (hw : w.currentWriter = some b) (hb : b.err = false)
    (hf : w.currentFile = some { path := path, closed := false }) :
    w.switchToMonth fs k =
      if fs.denied (w.monthPath k) then
        some (some WriterError.createFile,
          { w with currentWriter := some { b with n := 0 },
                   currentFile := some { path := path, closed := true } },
          fs.store path b.written)
      else some (none,
        { w with currentFile := some { path := w.monthPath k, closed := false },
                 currentWriter := some NewWriter, currentMonth := k,
                 stats := fun k' => if k' = k then some 0 else w.stats k',
                 fileCount := w.fileCount + 1 },
        (fs.store path b.written).store (w.monthPath k) "") := by
  unfold Writer.switchToMonth
  simp only [hw, hf, Flush_open b path fs hb, OsFile.Close, Bool.false_eq_true, if_false, osCreate,
    Writer.monthPath, FileSystem.store]
  split_ifs <;> rfl

theorem mem_dropWhile_append {p : String → Bool} (l r : List String) (x : String)
    (h : x ∈ l.dropWhile p) : x ∈ (l ++ r).dropWhile p := by
  induction l with
  | nil => simp at h
  | cons a l ih =>
    rw [List.cons_append]
    by_cases hp : p a = true
    · rw [List.dropWhile_cons_of_pos hp] at h ⊢
      exact ih h
    · rw [List.dropWhile_cons_of_neg hp] at h ⊢
      rw [← List.cons_append]
      exact List.mem_append_left _ h

theorem all_eq_of_not_mem_dropWhile (k : String) (l : List String)
    (h : k ∉ (l ++ [k]).dropWhile fun k' => k' = k) : ∀ x ∈ l, x = k := by
  induction l with
  | nil => intro x hx; simp at hx
  | cons b l ih =>
    rw [List.cons_append] at h
    by_cases hb : b = k
    · rw [List.dropWhile_cons_of_pos (by simpa using hb)] at h
      intro x hx
      rcases List.mem_cons.1 hx with rfl | hx
      · exact hb
      · exact ih h x hx
    · rw [List.dropWhile_cons_of_neg (by simpa using hb)] at h
      exact absurd (List.mem_cons_of_mem _ (List.mem_append_right _ (List.mem_singleton_self k))) h

theorem getLast?_of_all_eq (k : String) (l : List String) (hl : l ≠ [])
    (h : ∀ x ∈ l, x = k) : l.getLast? = some k := by
  rw [List.getLast?_eq_getLast l hl, h _ (List.getLast_mem hl)]

/-- A stream that comes month by month, without its last pair: it comes
month by month, and the month of the last pair, if it has occurred, is the
month just before. -/
theorem consecutiveMonths_append_singleton (l : List String) (k : String)
    (h : consecutiveMonths (l ++ [k]) = true) :
    consecutiveMonths l = true ∧ (k ∈ l → l.getLast? = some k) := by
  induction l with
  | nil => exact ⟨rfl, fun hk => absurd hk (List.not_mem_nil k)⟩
  | cons a l ih =>
    rw [List.cons_append, consecutiveMonths, Bool.and_eq_true, decide_eq_true_eq] at h
    obtain ⟨h1, h2⟩ := h
    obtain ⟨ih1, ih2⟩ := ih h2
    constructor
    · rw [consecutiveMonths, Bool.and_eq_true, decide_eq_true_eq]
      exact ⟨fun hm => h1 (mem_dropWhile_append l [k] a hm), ih1⟩
    · intro hk
      by_cases hkl : k ∈ l
      · have := ih2 hkl
        cases l with
        | nil => simp at hkl
        | cons b l' => rw [List.getLast?_cons_cons]; exact this
      · have hak : a = k := by
          rcases List.mem_cons.1 hk with e | e
          · exact e.symm
          · exact absurd e hkl
        subst hak
        exact getLast?_of_all_eq a (a :: l) (by simp) (by
          intro x hx
          rcases List.mem_cons.1 hx with rfl | hx
          · rfl
          · exact all_eq_of_not_mem_dropWhile a l h1 x hx)

theorem linesOf_append_singleton (k : String) (ws : List (String × Time)) (line : String)
    (t : Time) :
    linesOf k (ws ++ [(line, t)]) =
      if getMonthKey t = some k then linesOf k ws ++ line ++ "\n\n" else linesOf k ws := by
  simp [linesOf, List.foldl_append]

theorem linesOf_of_not_mem (k : String) (ws : List (String × Time))
    (h : k ∉ monthKeys ws) : linesOf k ws = "" := by
  induction ws using List.reverseRecOn with
  | nil => rfl
  | append_singleton ws x ih =>
    obtain ⟨line, t⟩ := x
    have h1 : k ∉ monthKeys ws := by
      intro hm
      apply h
      simp only [monthKeys, List.filterMap_append, List.mem_append]
      exact Or.inl hm
    have h2 : getMonthKey t ≠ some k := by
      intro e
      apply h
      simp only [monthKeys, List.filterMap_append, List.mem_append, List.mem_filterMap]
      exact Or.inr ⟨(line, t), by simp, e⟩
    rw [linesOf_append_singleton, if_neg h2, ih h1]

theorem monthKeys_append_singleton (ws : List (String × Time)) (line : String) (t : Time)
    (k : String) (h : getMonthKey t = some k) :
    monthKeys (ws ++ [(line, t)]) = monthKeys ws ++ [k] := by
  simp [monthKeys, List.filterMap_append, h]

theorem writeAll_append_singleton (ws : List (String × Time)) (x : String × Time) :
    ∀ (w : Writer) (fs : FileSystem),
      w.writeAll fs (ws ++ [x]) =
        match w.writeAll fs ws with
        | some (none, w1, fs1) => w1.WriteMessage fs1 x.1 x.2
        | other => other := by
  induction ws with
  | nil =>
    intro w fs
    obtain ⟨line, t⟩ := x
    simp only [List.nil_append, Writer.writeAll]
    rcases w.WriteMessage fs line t with _ | ⟨_ | e, w1, fs1⟩ <;> rfl
  | cons y ws ih =>
    intro w fs
    obtain ⟨line, t⟩ := y
    simp only [List.cons_append, Writer.writeAll]
    rcases w.WriteMessage fs line t with _ | ⟨_ | e, w1, fs1⟩
    · rfl
    · exact ih w1 fs1
    · rfl

/-- `WriteMessage` with the month key of the open file: the text goes to the
open file, and the count of the key grows by one. -/
theorem WriteMessage_same_month (w : Writer) (fs : FileSystem) (line : String) (t : Time)
    (k : String) (hk : getMonthKey t = some k) (hr : w.ready) (hsame : k = w.currentMonth) :
    ∃ b n, w.currentWriter = some b ∧
      w.WriteMessage fs line t =
        some (none,
          { w with currentWriter := some { written := b.written ++ (line ++ "\n\n"), n := n,
                                           err := false },
                   stats := fun k' =>
                     if k' = k then some ((w.stats k).getD 0 + 1) else w.stats k' }, fs) := by
  obtain ⟨_, hinit | ⟨b, hw, hb, hf⟩⟩ := hr
  · exact absurd (hsame.trans hinit.1) (getMonthKey_ne_empty t k hk)
  · obtain ⟨n, hn⟩ := WriteString_open b (w.monthPath w.currentMonth) (line ++ "\n\n") hb
    refine ⟨b, n, hw, ?_⟩
    unfold Writer.WriteMessage
    simp only [hk, ne_eq, hsame, not_true_eq_false, if_false, hw, hf, hn]

/-- `WriteMessage` with another month key than that of the open file: the
open file, if any, is flushed and closed, the file of the month is created or
truncated and receives the text, the count of the key is 1, and the number of
files grows by one. -/
theorem WriteMessage_other_month (w : Writer) (fs : FileSystem) (line : String) (t : Time)
    (k : String) (hk : getMonthKey t = some k) (hr : w.ready) (hne : k ≠ w.currentMonth)
    (hd : fs.denied (w.monthPath k) = false) :
    ∃ n, w.WriteMessage fs line t =
      some (none,
        { w with currentFile := some { path := w.monthPath k, closed := false },
                 currentWriter := some { written := "" ++ (line ++ "\n\n"), n := n,
                                         err := false },
                 currentMonth := k,
                 stats := fun k' => if k' = k then some 1 else w.stats k',
                 fileCount := w.fileCount + 1 },
        (match w.currentWriter with
          | some b => fs.store (w.monthPath w.currentMonth) b.written
          | none => fs).store (w.monthPath k) "") := by
  obtain ⟨n, hn⟩ := WriteString_open NewWriter (w.monthPath k) (line ++ "\n\n") rfl
  have hstats : (fun k' : String =>
        if k' = k then some ((some (0 : Int)).getD 0 + 1)
        else if k' = k then some 0 else w.stats k') =
      fun k' => if k' = k then some 1 else w.stats k' := by
    funext k'
    by_cases h : k' = k
    · simp [h]
    · simp [h]
  obtain ⟨_, hinit | ⟨b, hw, hb, hf⟩⟩ := hr
  · refine ⟨n, ?_⟩
    unfold Writer.WriteMessage
    simp only [hk, ne_eq, hne, not_false_eq_true, if_true,
      switchToMonth_first w fs k hinit.2.1 hinit.2.2, hd, Bool.false_eq_true, if_false, hn,
      hinit.2.1, hstats]
    rfl
  · refine ⟨n, ?_⟩
    have hd' : (fs.store (w.monthPath w.currentMonth) b.written).denied (w.monthPath k) = false :=
      hd
    unfold Writer.WriteMessage
    simp only [hk, ne_eq, hne, not_false_eq_true, if_true,
      switchToMonth_open w fs k b _ hw hb hf, hd, Bool.false_eq_true, if_false, hn, hw, hstats]
    rfl

/-- `WriteMessage` with another month key than that of the open file, at a
path at which no file can be created: the error `create file`. -/
theorem WriteMessage_denied (w : Writer) (fs : FileSystem) (line : String) (t : Time)
    (k : String) (hk : getMonthKey t = some k) (hr : w.ready) (hne : k ≠ w.currentMonth)
    (hd : fs.denied (w.monthPath k) = true) :
    ∃ w' fs', w.WriteMessage fs line t = some (some WriterError.createFile, w', fs') := by
  obtain ⟨_, hinit | ⟨b, hw, hb, hf⟩⟩ := hr
  · unfold Writer.WriteMessage
    simp only [hk, ne_eq, hne, not_false_eq_true, if_true,
      switchToMonth_first w fs k hinit.2.1 hinit.2.2, hd]
    exact ⟨_, _, rfl⟩
  · unfold Writer.WriteMessage
    simp only [hk, ne_eq, hne, not_false_eq_true, if_true,
      switchToMonth_open w fs k b _ hw hb hf, hd]
    exact ⟨_, _, rfl⟩

theorem monthPath_congr (w w0 : Writer) (h1 : w.outputDir = w0.outputDir)
    (h2 : w.sanitizedName = w0.sanitizedName) (k : String) : w.monthPath k = w0.monthPath k := by
  unfold Writer.monthPath
  rw [h1, h2]

theorem mem_monthKeys {k : String} {ws : List (String × Time)} (h : k ∈ monthKeys ws) :
    ∃ t, getMonthKey t = some k := by
  simp only [monthKeys, List.mem_filterMap] at h
  obtain ⟨p, _, hp⟩ := h
  exact ⟨p.2, hp⟩

theorem ready_not_slash (w : Writer) (h : w.ready) : '/' ∉ w.sanitizedName.data := by
  rw [h.1]
  exact not_slash_mem_SanitizeName _

/-- The state of the writer along a stream of pairs whose months come month
by month. -/
theorem writeAll_state (fs0 : FileSystem) (basePath groupName : String) (w0 : Writer)
    (hnew : Writer.New fs0 basePath groupName = some w0) (ws : List (String × Time)) :
    ∀ (w : Writer) (fs : FileSystem), consecutiveMonths (monthKeys ws) = true →
      w0.writeAll fs0 ws = some (none, w, fs) → StateAfter w0 fs0 ws w fs := by
  have hw0 : w0 = { outputDir := filepathJoin [basePath, SanitizeName groupName],
                    groupName := groupName, sanitizedName := SanitizeName groupName,
                    currentFile := none, currentWriter := none, currentMonth := "",
                    stats := fun _ => none, fileCount := 0 } := by
    unfold Writer.New at hnew
    simp only at hnew
    split_ifs at hnew
    simp only [Option.some.injEq] at hnew
    exact hnew.symm
  induction ws using List.reverseRecOn with
  | nil =>
    intro w fs _ hall
    simp only [Writer.writeAll, Option.some.injEq, Prod.mk.injEq, true_and] at hall
    obtain ⟨rfl, rfl⟩ := hall
    refine ⟨rfl, rfl, rfl, ?_, rfl, rfl, fun _ => by rw [hw0], by rw [hw0]; rfl, ?_, by rw [hw0]; rfl,
      ?_, ?_, fun p _ => rfl⟩
    · rw [hw0]
      exact ⟨rfl, Or.inl ⟨rfl, rfl, rfl⟩⟩
    · intro k; rw [hw0]; simp [monthKeys]
    · intro b hb; rw [hw0] at hb; simp at hb
    · intro k hk; simp [monthKeys] at hk
  | append_singleton ws x ih =>
    intro w fs hcons hall
    obtain ⟨line, t⟩ := x
    rw [writeAll_append_singleton] at hall
    rcases hprev : w0.writeAll fs0 ws with _ | ⟨_ | e, w1, fs1⟩
    · rw [hprev] at hall; simp at hall
    · rw [hprev] at hall
      simp only at hall
      -- the key of the last pair
      rcases hk : getMonthKey t with _ | k
      · unfold Writer.WriteMessage at hall
        rw [hk] at hall
        simp at hall
      · rw [monthKeys_append_singleton ws line t k hk] at hcons
        obtain ⟨hcons1, hlast⟩ := consecutiveMonths_append_singleton _ _ hcons
        have S := ih w1 fs1 hcons1 hprev
        have hkne : k ≠ "" := getMonthKey_ne_empty t k hk
        have hpath : ∀ k', w1.monthPath k' = w0.monthPath k' :=
          monthPath_congr w1 w0 S.outputDir_eq S.sanitizedName_eq
        have hkeys := monthKeys_append_singleton ws line t k hk
        have hlines : ∀ k', k' ≠ k → linesOf k' (ws ++ [(line, t)]) = linesOf k' ws := by
          intro k' hne
          rw [linesOf_append_singleton, hk, if_neg (by simpa using hne.symm)]
        have hlinesk : linesOf k (ws ++ [(line, t)]) = linesOf k ws ++ line ++ "\n\n" := by
          rw [linesOf_append_singleton, hk, if_pos rfl]
        by_cases hsame : k = w1.currentMonth
        · -- the month of the open file
          obtain ⟨b, n, hb, hres⟩ := WriteMessage_same_month w1 fs1 line t k hk S.ready hsame
          rw [hres] at hall
          simp only [Option.some.injEq, Prod.mk.injEq, true_and] at hall
          obtain ⟨rfl, rfl⟩ := hall
          have hmem : k ∈ monthKeys ws := by
            have h1 := S.currentMonth_eq
            rw [← hsame] at h1
            cases hg : (monthKeys ws).getLast? with
            | none => rw [hg] at h1; exact absurd h1 hkne
            | some last =>
              rw [hg] at h1
              simp only [Option.getD_some] at h1
              rw [h1]
              exact List.mem_of_mem_getLast? (by rw [hg]; exact rfl)
          refine ⟨S.outputDir_eq, S.groupName_eq, S.sanitizedName_eq, ?_, S.denied_eq, ?_,
            fun h => absurd h (by simp), ?_, ?_, ?_, ?_, ?_, ?_⟩
          · obtain ⟨h1, hinit | ⟨b1, hw1, hb1, hf1⟩⟩ := S.ready
            · rw [hinit.2.1] at hb; cases hb
            · exact ⟨h1, Or.inr ⟨_, rfl, rfl, hf1⟩⟩
          · rw [hkeys, List.length_append, S.keys_length]; simp
          · rw [hkeys]; simp [hsame]
          · intro k'
            rw [hkeys]
            simp only
            by_cases hk' : k' = k
            · subst hk'
              rw [if_pos rfl, S.stats_eq k', if_pos hmem, if_pos (by simp)]
              simp [List.count_append]
            · rw [if_neg hk', S.stats_eq k']
              simp [List.count_append, hk', Ne.symm hk']
          · rw [hkeys, S.fileCount_eq]
            have : (monthKeys ws ++ [k]).toFinset = (monthKeys ws).toFinset := by
              ext a
              simp only [List.toFinset_append, List.toFinset_cons, List.toFinset_nil,
                Finset.mem_union, List.mem_toFinset, Finset.mem_insert, Finset.not_mem_empty,
                or_false]
              constructor
              · rintro (h | rfl)
                · exact h
                · exact hmem
              · exact Or.inl
            rw [this]
          · intro b' hb'
            simp only [Option.some.injEq] at hb'
            subst hb'
            show b.written ++ (line ++ "\n\n") = linesOf w1.currentMonth _
            rw [← hsame, hlinesk, S.written_eq b hb, ← hsame, String.append_assoc]
          · intro k' hk' hne
            have hne' : k' ≠ k := by rw [hsame]; exact hne
            have hk'' : k' ∈ monthKeys ws := by
              rw [hkeys] at hk'
              rcases List.mem_append.1 hk' with h | h
              · exact h
              · exact absurd (List.mem_singleton.1 h) hne'
            rw [hlines k' hne']
            exact S.closed_content k' hk'' hne
          · intro p hp
            refine S.other_content p (fun k' hk' => hp k' ?_)
            rw [hkeys]
            exact List.mem_append_left _ hk'
        · -- another month
          have hnotmem : k ∉ monthKeys ws := by
            intro hm
            have h1 := S.currentMonth_eq
            rw [hlast hm] at h1
            exact hsame h1.symm
          have hden : fs1.denied (w1.monthPath k) = false := by
            cases hd : fs1.denied (w1.monthPath k) with
            | false => rfl
            | true =>
              obtain ⟨w', fs', hres⟩ := WriteMessage_denied w1 fs1 line t k hk S.ready hsame hd
              rw [hres] at hall
              simp at hall
          obtain ⟨n, hres⟩ := WriteMessage_other_month w1 fs1 line t k hk S.ready hsame hden
          rw [hres] at hall
          simp only [Option.some.injEq, Prod.mk.injEq, true_and] at hall
          obtain ⟨rfl, rfl⟩ := hall
          have hinj : ∀ k' ∈ monthKeys ws, ∀ k'' t'', getMonthKey t'' = some k'' → k' ≠ k'' →
              w0.monthPath k' ≠ w0.monthPath k'' := by
            intro k' hk' k'' t'' hk'' hne hp
            obtain ⟨t', ht'⟩ := mem_monthKeys hk'
            have hs0 : '/' ∉ w0.sanitizedName.data := by
              rw [← S.sanitizedName_eq]; exact ready_not_slash w1 S.ready
            exact hne (monthPath_injective w0 hs0 t' t'' k' k'' ht' hk'' hp)
          -- the files after the open file has been flushed
          have hflushed : ∀ k' ∈ monthKeys ws,
              (match w1.currentWriter with
                | some b => fs1.store (w1.monthPath w1.currentMonth) b.written
                | none => fs1).content (w0.monthPath k') = some (linesOf k' ws) := by
            intro k' hk'
            by_cases hcur : k' = w1.currentMonth
            · obtain ⟨h1, hinit | ⟨b1, hw1, hb1, hf1⟩⟩ := S.ready
              · obtain ⟨t', ht'⟩ := mem_monthKeys hk'
                exact absurd (hcur.trans hinit.1) (getMonthKey_ne_empty t' k' ht')
              · rw [hw1]
                simp only [FileSystem.store, hpath, ← hcur, if_true]
                rw [S.written_eq b1 hw1, ← hcur]
            · have hc := S.closed_content k' hk' hcur
              cases hw1 : w1.currentWriter with
              | none => exact hc
              | some b1 =>
                simp only [FileSystem.store]
                have hwsne : ws ≠ [] := fun e => by
                  have := S.no_writer e; rw [hw1] at this; cases this
                have hcmem : w1.currentMonth ∈ monthKeys ws := by
                  have h1 := S.currentMonth_eq
                  cases hg : (monthKeys ws).getLast? with
                  | none =>
                    rw [List.getLast?_eq_none_iff] at hg
                    rw [hg] at hk'; simp at hk'
                  | some last =>
                    rw [hg] at h1
                    simp only [Option.getD_some] at h1
                    rw [h1]
                    exact List.mem_of_mem_getLast? (by rw [hg]; exact rfl)
                obtain ⟨tc, htc⟩ := mem_monthKeys hcmem
                rw [if_neg (by rw [hpath]; exact hinj k' hk' _ tc htc hcur)]
                exact hc
          refine ⟨S.outputDir_eq, S.groupName_eq, S.sanitizedName_eq, ?_, ?_, ?_,
            fun h => absurd h (by simp), ?_, ?_, ?_, ?_, ?_, ?_⟩
          · exact ⟨S.ready.1, Or.inr ⟨_, rfl, rfl, rfl⟩⟩
          · show (FileSystem.store _ _ _).denied = _
            cases hw1 : w1.currentWriter with
            | none => exact S.denied_eq
            | some b1 => exact S.denied_eq
          · rw [hkeys, List.length_append, S.keys_length]; simp
          · rw [hkeys]; simp
          · intro k'
            rw [hkeys]
            show (if k' = k then some 1 else w1.stats k') = _
            by_cases hk' : k' = k
            · subst hk'
              rw [if_pos rfl, if_pos (by simp)]
              simp [List.count_append, List.count_eq_zero_of_not_mem hnotmem]
            · rw [if_neg hk', S.stats_eq k']
              simp [List.count_append, hk', Ne.symm hk']
          · rw [hkeys]
            show w1.fileCount + 1 = _
            rw [S.fileCount_eq]
            have : (monthKeys ws ++ [k]).toFinset = insert k (monthKeys ws).toFinset := by
              ext a
              simp only [List.toFinset_append, List.toFinset_cons, List.toFinset_nil,
                Finset.mem_union, List.mem_toFinset, Finset.mem_insert, Finset.not_mem_empty,
                or_false]
              exact Or.comm
            rw [this, Finset.card_insert_of_not_mem (by simpa using hnotmem)]
            push_cast
            rfl
          · intro b' hb'
            simp only [Option.some.injEq] at hb'
            subst hb'
            show "" ++ (line ++ "\n\n") = linesOf k _
            rw [hlinesk, linesOf_of_not_mem k ws hnotmem, String.append_assoc]
          · intro k' hk' hne
            have hne' : k' ≠ k := hne
            have hk'' : k' ∈ monthKeys ws := by
              rw [hkeys] at hk'
              rcases List.mem_append.1 hk' with h | h
              · exact h
              · exact absurd (List.mem_singleton.1 h) hne'
            rw [hlines k' hne']
            show (FileSystem.store _ _ _).content _ = _
            simp only [FileSystem.store]
            rw [if_neg (by rw [hpath]; exact hinj k' hk'' k t hk hne')]
            exact hflushed k' hk''
          · intro p hp
            have hpk : p ≠ w0.monthPath k := hp k (by rw [hkeys]; simp)
            have hpold : ∀ k' ∈ monthKeys ws, p ≠ w0.monthPath k' := fun k' hk' =>
              hp k' (by rw [hkeys]; exact List.mem_append_left _ hk')
            show (FileSystem.store _ _ _).content _ = _
            simp only [FileSystem.store]
            rw [if_neg (by rw [hpath]; exact hpk)]
            cases hw1 : w1.currentWriter with
            | none => exact S.other_content p hpold
            | some b1 =>
              simp only
              have hwsne : ws ≠ [] := fun e => by
                have := S.no_writer e; rw [hw1] at this; cases this
              have hcmem : w1.currentMonth ∈ monthKeys ws := by
                have h1 := S.currentMonth_eq
                cases hg : (monthKeys ws).getLast? with
                | none =>
                  rw [List.getLast?_eq_none_iff] at hg
                  have := S.keys_length
                  rw [hg] at this
                  exact absurd (List.length_eq_zero.1 this.symm) hwsne
                | some last =>
                  rw [hg] at h1
                  simp only [Option.getD_some] at h1
                  rw [h1]
                  exact List.mem_of_mem_getLast? (by rw [hg]; exact rfl)
              rw [if_neg (by rw [hpath]; exact hpold _ hcmem)]
              exact S.other_content p hpold
    · rw [hprev] at hall; simp at hall

/-- `Close` on a writer with its file open: all that has been written is in
the file afterwards. -/
theorem Close_open (w : Writer) (fs : FileSystem) (b : BufioWriter) (path : String)
    (hw : w.currentWriter = some b) (hb : b.err = false)
    (hf : w.currentFile = some { path := path, closed := false }) :
    w.Close fs =
      some (none,
        { w with currentWriter := some { b with n := 0 },
                 currentFile := some { path := path, closed := true } },
        fs.store path b.written) := by
  unfold Writer.Close
  simp only [hw, hf, Flush_open b path fs hb, OsFile.Close, Bool.false_eq_true, if_false]

/-- A successful `WriteMessage` on a writer that is ready leaves it ready,
with the same directory and names. -/
theorem WriteMessage_ready (w w' : Writer) (fs fs' : FileSystem) (line : String) (t : Time)
    (hr : w.ready) (h : w.WriteMessage fs line t = some (none, w', fs')) :
    w'.ready ∧ w'.outputDir = w.outputDir ∧ w'.groupName = w.groupName ∧
      w'.sanitizedName = w.sanitizedName := by
  rcases hk : getMonthKey t with _ | k
  · unfold Writer.WriteMessage at h
    rw [hk] at h
    simp at h
  · by_cases hsame : k = w.currentMonth
    · obtain ⟨b, n, hb, hres⟩ := WriteMessage_same_month w fs line t k hk hr hsame
      rw [hres] at h
      simp only [Option.some.injEq, Prod.mk.injEq, true_and] at h
      obtain ⟨rfl, rfl⟩ := h
      refine ⟨?_, rfl, rfl, rfl⟩
      obtain ⟨h1, hinit | ⟨b1, hw1, hb1, hf1⟩⟩ := hr
      · rw [hinit.2.1] at hb; cases hb
      · exact ⟨h1, Or.inr ⟨_, rfl, rfl, hf1⟩⟩
    · cases hd : fs.denied (w.monthPath k) with
      | true =>
        obtain ⟨w2, fs2, hres⟩ := WriteMessage_denied w fs line t k hk hr hsame hd
        rw [hres] at h
        simp at h
      | false =>
        obtain ⟨n, hres⟩ := WriteMessage_other_month w fs line t k hk hr hsame hd
        rw [hres] at h
        simp only [Option.some.injEq, Prod.mk.injEq, true_and] at h
        obtain ⟨rfl, rfl⟩ := h
        exact ⟨⟨hr.1, Or.inr ⟨_, rfl, rfl, rfl⟩⟩, rfl, rfl, rfl⟩

/-- The writer of `New` is ready. -/
theorem New_ready (fs0 : FileSystem) (basePath groupName : String) (w0 : Writer)
    (hnew : Writer.New fs0 basePath groupName = some w0) :
    w0.ready ∧ w0.outputDir = filepathJoin [basePath, SanitizeName groupName] ∧
      w0.groupName = groupName ∧ w0.sanitizedName = SanitizeName groupName ∧
      w0.fileCount = 0 ∧ w0.currentMonth = "" := by
  unfold Writer.New at hnew
  simp only at hnew
  split_ifs at hnew
  simp only [Option.some.injEq] at hnew
  subst hnew
  exact ⟨⟨rfl, Or.inl ⟨rfl, rfl, rfl⟩⟩, rfl, rfl, rfl, rfl, rfl⟩

/-- Successful calls of `WriteMessage` leave a ready writer ready, with the
same directory and names. -/
theorem writeAll_ready (ws : List (String × Time)) :
    ∀ (w w' : Writer) (fs fs' : FileSystem), w.ready →
      w.writeAll fs ws = some (none, w', fs') →
      w'.ready ∧ w'.outputDir = w.outputDir ∧ w'.groupName = w.groupName ∧
        w'.sanitizedName = w.sanitizedName := by
  induction ws with
  | nil =>
    intro w w' fs fs' hr h
    simp only [Writer.writeAll, Option.some.injEq, Prod.mk.injEq, true_and] at h
    obtain ⟨rfl, rfl⟩ := h
    exact ⟨hr, rfl, rfl, rfl⟩
  | cons x ws ih =>
    intro w w' fs fs' hr h
    obtain ⟨line, t⟩ := x
    rw [Writer.writeAll] at h
    rcases hstep : w.WriteMessage fs line t with _ | ⟨_ | e, w1, fs1⟩
    · rw [hstep] at h; simp at h
    · rw [hstep] at h
      simp only at h
      obtain ⟨hr1, h1, h2, h3⟩ := WriteMessage_ready w w1 fs fs1 line t hr hstep
      obtain ⟨hr2, g1, g2, g3⟩ := ih w1 w' fs1 fs' hr1 h
      exact ⟨hr2, g1.trans h1, g2.trans h2, g3.trans h3⟩
    · rw [hstep] at h; simp at h

/-- C24, as amended: a successful `WriteMessage(line, t)` on a writer whose
earlier calls all succeeded writes exactly `line` followed by `"\n\n"` to the
file named `SanitizeName(groupName) + "_" + getMonthKey(t) + ".md"` inside
the output directory `filepath.Join(basePath, SanitizeName(groupName))`,
which is the open file afterwards and holds after `Close` all that has been
written to it.  When `getMonthKey(t)` equals the currently open month key,
the text is appended to what has been written to the open file, the count of
the key grows by one, no file is opened or closed, the files are as before
and `GetFileCount` is unchanged.  Otherwise the file of the key is created
or truncated, so that the text is all that has been written to it, the count
of the key is 1, and `GetFileCount` grows by one.  The counts of the other
keys are as before. -/
theorem WriteMessage_effect (fs0 : FileSystem) (basePath groupName : String) (w0 : Writer)
    (earlier : List (String × Time)) (w w' : Writer) (fs fs' : FileSystem) (line : String)
    (t : Time)
    (hnew : Writer.New fs0 basePath groupName = some w0)
    (hearlier : w0.writeAll fs0 earlier = some (none, w, fs))
    (h : w.WriteMessage fs line t = some (none, w', fs')) :
    ∃ (k : String) (b' : BufioWriter), getMonthKey t = some k ∧
      w'.currentMonth = k ∧
      w'.currentFile = some
        { path := filepathJoin [filepathJoin [basePath, SanitizeName groupName],
            SanitizeName groupName ++ "_" ++ k ++ ".md"], closed := false } ∧
      w'.currentWriter = some b' ∧
      (∃ w2 fs2, w'.Close fs' = some (none, w2, fs2) ∧
        fs2.content (filepathJoin [filepathJoin [basePath, SanitizeName groupName],
          SanitizeName groupName ++ "_" ++ k ++ ".md"]) = some b'.written) ∧
      (k = w.currentMonth →
        (∃ b, w.currentWriter = some b ∧ b'.written = b.written ++ line ++ "\n\n") ∧
        w'.GetStats k = w.GetStats k + 1 ∧ w'.currentFile = w.currentFile ∧ fs' = fs ∧
        w'.GetFileCount = w.GetFileCount) ∧
      (k ≠ w.currentMonth →
        b'.written = line ++ "\n\n" ∧ w'.GetStats k = 1 ∧
        w'.GetFileCount = w.GetFileCount + 1) ∧
      ∀ k', k' ≠ k → w'.GetStats k' = w.GetStats k' := by
  obtain ⟨hr0, hdir0, hgroup0, hname0, _, _⟩ := New_ready fs0 basePath groupName w0 hnew
  obtain ⟨hr, hdir, hgroup, hname⟩ := writeAll_ready earlier w0 w fs0 fs hr0 hearlier
  have hpath : ∀ k, w.monthPath k = filepathJoin [filepathJoin [basePath, SanitizeName groupName],
      SanitizeName groupName ++ "_" ++ k ++ ".md"] := by
    intro k
    unfold Writer.monthPath
    rw [hdir, hdir0, hname, hname0]
  rcases hk : getMonthKey t with _ | k
  · unfold Writer.WriteMessage at h
    rw [hk] at h
    simp at h
  · by_cases hsame : k = w.currentMonth
    · obtain ⟨b, n, hb, hres⟩ := WriteMessage_same_month w fs line t k hk hr hsame
      rw [hres] at h
      simp only [Option.some.injEq, Prod.mk.injEq, true_and] at h
      obtain ⟨rfl, rfl⟩ := h
      obtain ⟨h1, hinit | ⟨b1, hw1, hb1, hf1⟩⟩ := hr
      · rw [hinit.2.1] at hb; cases hb
      · have hf' : w.currentFile = some { path := w.monthPath k, closed := false } := by
          rw [hf1, ← hsame]
        simp only [← hpath]
        refine ⟨k, _, rfl, hsame.symm, hf', rfl, ?_, ?_, fun hne => absurd hsame hne, ?_⟩
        · exact ⟨_, _, Close_open _ fs _ _ rfl rfl hf', by simp [FileSystem.store]⟩
        · intro _
          refine ⟨⟨b, hb, (String.append_assoc _ _ _).symm⟩, ?_, ?_, ?_, ?_⟩
          · simp [Writer.GetStats]
          all_goals first | rfl | trivial
        · intro k' hk'
          simp [Writer.GetStats, hk']
    · cases hd : fs.denied (w.monthPath k) with
      | true =>
        obtain ⟨w2, fs2, hres⟩ := WriteMessage_denied w fs line t k hk hr hsame hd
        rw [hres] at h
        simp at h
      | false =>
        obtain ⟨n, hres⟩ := WriteMessage_other_month w fs line t k hk hr hsame hd
        rw [hres] at h
        simp only [Option.some.injEq, Prod.mk.injEq, true_and] at h
        obtain ⟨rfl, rfl⟩ := h
        simp only [← hpath]
        refine ⟨k, _, rfl, rfl, rfl, rfl, ?_, fun he => absurd he hsame, ?_, ?_⟩
        · refine ⟨_, _, Close_open _ _ _ _ rfl rfl rfl, ?_⟩
          simp [FileSystem.store]
        · intro _
          refine ⟨by simp, ?_, rfl⟩
          simp [Writer.GetStats]
        · intro k' hk'
          simp [Writer.GetStats, hk']

/-- The files after a stream whose months come month by month has been
written and the writer closed. -/
theorem writeAll_then_close (fs0 : FileSystem) (basePath groupName : String) (w0 w : Writer)
    (fs : FileSystem) (ws : List (String × Time))
    (hnew : Writer.New fs0 basePath groupName = some w0)
    (hcons : consecutiveMonths (monthKeys ws) = true)
    (hall : w0.writeAll fs0 ws = some (none, w, fs)) :
    ∃ w2 fs2, w.Close fs = some (none, w2, fs2) ∧
      (∀ k ∈ monthKeys ws,
        fs2.content (filepathJoin [filepathJoin [basePath, SanitizeName groupName],
          SanitizeName groupName ++ "_" ++ k ++ ".md"]) = some (linesOf k ws)) ∧
      ∀ p, (∀ k ∈ monthKeys ws,
          p ≠ filepathJoin [filepathJoin [basePath, SanitizeName groupName],
            SanitizeName groupName ++ "_" ++ k ++ ".md"]) →
        fs2.content p = fs0.content p := by
  obtain ⟨_, hdir0, _, hname0, _, _⟩ := New_ready fs0 basePath groupName w0 hnew
  have S := writeAll_state fs0 basePath groupName w0 hnew ws w fs hcons hall
  have hpath0 : ∀ k, w0.monthPath k = filepathJoin
      [filepathJoin [basePath, SanitizeName groupName],
        SanitizeName groupName ++ "_" ++ k ++ ".md"] := by
    intro k
    unfold Writer.monthPath
    rw [hdir0, hname0]
  have hpath : ∀ k', w.monthPath k' = w0.monthPath k' :=
    monthPath_congr w w0 S.outputDir_eq S.sanitizedName_eq
  simp only [← hpath0]
  obtain ⟨h1, hinit | ⟨b, hw, hb, hf⟩⟩ := S.ready
  · -- nothing has been written
    have hkeys : monthKeys ws = [] := by
      have h2 := S.currentMonth_eq
      rw [hinit.1] at h2
      cases hg : (monthKeys ws).getLast? with
      | none => exact List.getLast?_eq_none_iff.1 hg
      | some last =>
        rw [hg] at h2
        simp only [Option.getD_some] at h2
        obtain ⟨t, ht⟩ := mem_monthKeys (List.mem_of_mem_getLast? (by rw [hg]; exact rfl))
        exact absurd h2.symm (getMonthKey_ne_empty t last ht)
    refine ⟨w, fs, ?_, ?_, ?_⟩
    · unfold Writer.Close
      simp only [hinit.2.1, hinit.2.2]
    · intro k hk; rw [hkeys] at hk; simp at hk
    · intro p hp; exact S.other_content p hp
  · refine ⟨_, _, Close_open w fs b _ hw hb hf, ?_, ?_⟩
    · intro k hk
      simp only [FileSystem.store]
      by_cases hcur : k = w.currentMonth
      · rw [hpath, ← hcur, if_pos rfl, S.written_eq b hw, ← hcur]
      · have hcmem : w.currentMonth ∈ monthKeys ws := by
          have h2 := S.currentMonth_eq
          cases hg : (monthKeys ws).getLast? with
          | none => rw [List.getLast?_eq_none_iff.1 hg] at hk; simp at hk
          | some last =>
            rw [hg] at h2
            simp only [Option.getD_some] at h2
            rw [h2]
            exact List.mem_of_mem_getLast? (by rw [hg]; exact rfl)
        obtain ⟨t, ht⟩ := mem_monthKeys hk
        obtain ⟨tc, htc⟩ := mem_monthKeys hcmem
        have hs0 : '/' ∉ w0.sanitizedName.data := by
          rw [← S.sanitizedName_eq]; exact ready_not_slash w S.ready
        rw [if_neg (by
          rw [hpath]
          exact fun e => hcur (monthPath_injective w0 hs0 t tc k _ ht htc e))]
        exact S.closed_content k hk hcur
    · intro p hp
      simp only [FileSystem.store]
      have hcmem : monthKeys ws ≠ [] → w.currentMonth ∈ monthKeys ws := by
        intro hne
        have h2 := S.currentMonth_eq
        cases hg : (monthKeys ws).getLast? with
        | none => exact absurd (List.getLast?_eq_none_iff.1 hg) hne
        | some last =>
          rw [hg] at h2
          simp only [Option.getD_some] at h2
          rw [h2]
          exact List.mem_of_mem_getLast? (by rw [hg]; exact rfl)
      have hwsne : ws ≠ [] := fun e => by
        have := S.no_writer e; rw [hw] at this; cases this
      have hkne : monthKeys ws ≠ [] := by
        intro e
        have := S.keys_length
        rw [e] at this
        exact hwsne (List.length_eq_zero.1 this.symm)
      rw [if_neg (by rw [hpath]; exact hp _ (hcmem hkne))]
      exact S.other_content p hp

/-- C25, as amended: for every sequence of pairs of a line and a timestamp
whose months come month by month (the stream never comes back to a month it
has left), written successfully through one writer and then closed, `Close`
succeeds and the file of each month key `k` encountered holds exactly the
concatenation, in stream order, of `line + "\n\n"` for every pair whose
timestamp has the month key `k`; the other files are as before. -/
theorem writeAll_files (fs0 : FileSystem) (basePath groupName : String) (w0 w : Writer)
    (fs : FileSystem) (ws : List (String × Time))
    (hnew : Writer.New fs0 basePath groupName = some w0)
    (hcons : consecutiveMonths (monthKeys ws) = true)
    (hall : w0.writeAll fs0 ws = some (none, w, fs)) :
    ∃ w2 fs2, w.Close fs = some (none, w2, fs2) ∧
      (∀ k ∈ monthKeys ws,
        fs2.content (filepathJoin [filepathJoin [basePath, SanitizeName groupName],
          SanitizeName groupName ++ "_" ++ k ++ ".md"]) = some (linesOf k ws)) ∧
      ∀ p, (∀ k ∈ monthKeys ws,
          p ≠ filepathJoin [filepathJoin [basePath, SanitizeName groupName],
            SanitizeName groupName ++ "_" ++ k ++ ".md"]) →
        fs2.content p = fs0.content p :=
  writeAll_then_close fs0 basePath groupName w0 w fs ws hnew hcons hall

/-- C26, as amended: after every sequence of successful `WriteMessage` calls
on one writer whose months come month by month, `GetStats()[k]` is, for every
month key `k`, the number of calls whose timestamp has the month key `k`. -/
theorem writeAll_stats (fs0 : FileSystem) (basePath groupName : String) (w0 w : Writer)
    (fs : FileSystem) (ws : List (String × Time))
    (hnew : Writer.New fs0 basePath groupName = some w0)
    (hcons : consecutiveMonths (monthKeys ws) = true)
    (hall : w0.writeAll fs0 ws = some (none, w, fs)) (k : String) :
    w.GetStats k = (((monthKeys ws).count k : Nat) : Int) := by
  have S := writeAll_state fs0 basePath groupName w0 hnew ws w fs hcons hall
  unfold Writer.GetStats
  rw [S.stats_eq k]
  by_cases hk : k ∈ monthKeys ws
  · rw [if_pos hk]; rfl
  · rw [if_neg hk, List.count_eq_zero_of_not_mem hk]; rfl

/-- C24, at the second call of `TestWriter_GetStats_ReturnsCorrectCounts`,
in the month of the open file: the count of January grows by one and the
number of files stays. -/
theorem WriteMessage_effect_witness :
    ∃ (w0 w w' : Writer) (fs fs' : FileSystem),
      Writer.New testFiles "/tmp" "Test Chat" = some w0 ∧
      w0.writeAll testFiles [("Message", testJanuary)] = some (none, w, fs) ∧
      w.WriteMessage fs "Message" testJanuary = some (none, w', fs') ∧
      w'.GetStats "january_2024" = w.GetStats "january_2024" + 1 ∧
      w'.GetFileCount = w.GetFileCount := by
  obtain ⟨w0, hnew⟩ : ∃ w0, Writer.New testFiles "/tmp" "Test Chat" = some w0 := ⟨_, rfl⟩
  obtain ⟨w, fs, hw⟩ : ∃ w fs, w0.writeAll testFiles [("Message", testJanuary)] =
      some (none, w, fs) := by
    cases hnew; exact ⟨_, _, rfl⟩
  obtain ⟨w', fs', hw'⟩ : ∃ w' fs', w.WriteMessage fs "Message" testJanuary =
      some (none, w', fs') := by
    cases hnew; cases hw; exact ⟨_, _, rfl⟩
  have hcur : w.currentMonth = "january_2024" := by
    cases hnew; cases hw; rfl
  obtain ⟨k, b', hk, _, _, _, _, hsame, _, _⟩ :=
    WriteMessage_effect testFiles "/tmp" "Test Chat" w0 [("Message", testJanuary)] w w' fs fs'
      "Message" testJanuary hnew hw hw'
  have hkey : k = "january_2024" := by
    have : getMonthKey testJanuary = some "january_2024" := by decide
    rw [this] at hk
    exact (Option.some.inj hk).symm
  subst hkey
  obtain ⟨_, hstats, _, _, hcount⟩ := hsame hcur.symm
  exact ⟨w0, w, w', fs, fs', hnew, hw, hw', hstats, hcount⟩

/-- C24, the counterexample: after the calls for January and for February,
the call for January again succeeds; the count of January was 1 and is 1
afterwards, and the file of January, which held `a` and a blank line, holds
after `Close` the new line `c` and a blank line only. -/
theorem WriteMessage_return_counterexample :
    (((Writer.New testFiles "/tmp" "Test Chat").bind fun w0 =>
        w0.writeAll testFiles [("a", testJanuary), ("b", testFebruary)]).map fun r =>
      (r.1, r.2.1.GetStats "january_2024",
        r.2.2.content "/tmp/Test_Chat/Test_Chat_january_2024.md")) =
      some (none, 1, some "a\n\n") ∧
    ((((Writer.New testFiles "/tmp" "Test Chat").bind fun w0 =>
        w0.writeAll testFiles [("a", testJanuary), ("b", testFebruary)]).bind fun r =>
        r.2.1.WriteMessage r.2.2 "c" testJanuary).map fun r =>
      (r.1, r.2.1.GetStats "january_2024")) = some (none, 1) ∧
    (((((Writer.New testFiles "/tmp" "Test Chat").bind fun w0 =>
        w0.writeAll testFiles [("a", testJanuary), ("b", testFebruary)]).bind fun r =>
        r.2.1.WriteMessage r.2.2 "c" testJanuary).bind fun r => r.2.1.Close r.2.2).map fun r =>
      (r.1, r.2.2.content "/tmp/Test_Chat/Test_Chat_january_2024.md")) =
      some (none, some "c\n\n") := by
  decide

/-- C25, at the calls of `TestWriter_SwitchesFilesOnMonthChange`: each of
the two files holds the line of its month. -/
theorem writeAll_files_witness :
    ∃ (w0 w w2 : Writer) (fs fs2 : FileSystem),
      Writer.New testFiles "/tmp" "Test Chat" = some w0 ∧
      w0.writeAll testFiles testSwitchStream = some (none, w, fs) ∧
      w.Close fs = some (none, w2, fs2) ∧
      fs2.content "/tmp/Test_Chat/Test_Chat_january_2024.md" =
        some "[2024-01-15 14:30] Иван: Сообщение в январе\n\n" ∧
      fs2.content "/tmp/Test_Chat/Test_Chat_february_2024.md" =
        some "[2024-02-10 10:00] Мария: Сообщение в феврале\n\n" := by
  obtain ⟨w0, hnew⟩ : ∃ w0, Writer.New testFiles "/tmp" "Test Chat" = some w0 := ⟨_, rfl⟩
  obtain ⟨w, fs, hw⟩ : ∃ w fs, w0.writeAll testFiles testSwitchStream = some (none, w, fs) := by
    cases hnew; exact ⟨_, _, rfl⟩
  obtain ⟨w2, fs2, hclose, hfiles, _⟩ :=
    writeAll_files testFiles "/tmp" "Test Chat" w0 w fs testSwitchStream hnew (by decide) hw
  refine ⟨w0, w, w2, fs, fs2, hnew, hw, hclose, ?_, ?_⟩
  · exact (hfiles "january_2024" (by decide)).trans (by decide)
  · exact (hfiles "february_2024" (by decide)).trans (by decide)

/-- C25, the counterexample: the three calls for January, February and
January again succeed, and after `Close` the file of January holds the line
`c` only, not the lines `a` and `c` of its month. -/
theorem writeAll_files_counterexample :
    ((((Writer.New testFiles "/tmp" "Test Chat").bind fun w0 =>
        w0.writeAll testFiles testReturnStream).bind fun r => r.2.1.Close r.2.2).map fun r =>
      (r.1, r.2.2.content "/tmp/Test_Chat/Test_Chat_january_2024.md")) =
      some (none, some "c\n\n") ∧
    linesOf "january_2024" testReturnStream = "a\n\nc\n\n" := by
  decide

/-- C26, at the calls of `TestWriter_GetStats_ReturnsCorrectCounts`: 3 for
January, 2 for February. -/
theorem writeAll_stats_witness :
    ∃ (w0 w : Writer) (fs : FileSystem),
      Writer.New testFiles "/tmp" "Test Chat" = some w0 ∧
      w0.writeAll testFiles testStatsStream = some (none, w, fs) ∧
      w.GetStats "january_2024" = 3 ∧ w.GetStats "february_2024" = 2 := by
  obtain ⟨w0, hnew⟩ : ∃ w0, Writer.New testFiles "/tmp" "Test Chat" = some w0 := ⟨_, rfl⟩
  obtain ⟨w, fs, hw⟩ : ∃ w fs, w0.writeAll testFiles testStatsStream = some (none, w, fs) := by
    cases hnew; exact ⟨_, _, rfl⟩
  refine ⟨w0, w, fs, hnew, hw, ?_, ?_⟩
  · exact (writeAll_stats testFiles "/tmp" "Test Chat" w0 w fs testStatsStream hnew (by decide) hw
      "january_2024").trans (by decide)
  · exact (writeAll_stats testFiles "/tmp" "Test Chat" w0 w fs testStatsStream hnew (by decide) hw
      "february_2024").trans (by decide)

/-- C26, the counterexample: the three calls for January, February and
January again succeed, two of them with the month key of January, and the
count of January is 1. -/
theorem writeAll_stats_counterexample :
    (((Writer.New testFiles "/tmp" "Test Chat").bind fun w0 =>
        w0.writeAll testFiles testReturnStream).map fun r =>
      (r.1, r.2.1.GetStats "january_2024")) = some (none, 1) ∧
    (monthKeys testReturnStream).count "january_2024" = 2 := by
  decide

/-- A successful `switchToMonth` sets the current month and counts one
file more. -/
theorem switchToMonth_fileCount (w w' : Writer) (fs fs' : FileSystem) (k : String)
    (h : w.switchToMonth fs k = some (none, w', fs')) :
    w'.currentMonth = k ∧ w'.fileCount = w.fileCount + 1 := by
  unfold Writer.switchToMonth at h
  rcases hcw : w.currentWriter with _ | b
  · simp only [hcw] at h
    rcases hcf : w.currentFile with _ | f
    · simp only [hcf, osCreate] at h
      split_ifs at h
      · simp at h
      · simp only [Option.some.injEq, Prod.mk.injEq, true_and] at h
        rw [← h.1]
        exact ⟨rfl, rfl⟩
    · simp only [hcf] at h
      rcases hC : f.Close with ⟨ok, f2⟩
      cases ok with
      | false => simp [hC] at h
      | true =>
        simp only [hC, osCreate] at h
        split_ifs at h
        · simp at h
        · simp only [Option.some.injEq, Prod.mk.injEq, true_and] at h
          rw [← h.1]
          exact ⟨rfl, rfl⟩
  · rcases hcf : w.currentFile with _ | f
    · simp [hcw, hcf] at h
    · simp only [hcw, hcf] at h
      rcases hF : b.Flush f fs with ⟨ok, b1, fs1⟩
      cases ok with
      | false => simp [hF] at h
      | true =>
        simp only [hF] at h
        rcases hC : f.Close with ⟨ok2, f2⟩
        cases ok2 with
        | false => simp [hC] at h
        | true =>
          simp only [hC, osCreate] at h
          split_ifs at h
          · simp at h
          · simp only [Option.some.injEq, Prod.mk.injEq, true_and] at h
            rw [← h.1]
            exact ⟨rfl, rfl⟩

/-- A successful `WriteMessage` leaves the month key of its timestamp as the
current month, and counts one file more exactly when that key was not the
current month before. -/
theorem WriteMessage_fileCount (w w' : Writer) (fs fs' : FileSystem) (line : String) (t : Time)
    (h : w.WriteMessage fs line t = some (none, w', fs')) :
    ∃ k, getMonthKey t = some k ∧ w'.currentMonth = k ∧
      w'.fileCount = w.fileCount + (if k = w.currentMonth then 0 else 1) := by
  unfold Writer.WriteMessage at h
  rcases hk : getMonthKey t with _ | k
  · simp [hk] at h
  · refine ⟨k, rfl, ?_⟩
    simp only [hk] at h
    have hwrite : ∀ (w1 : Writer) (fs1 : FileSystem),
        (match w1.currentWriter, w1.currentFile with
          | some b, some file =>
            match b.WriteString file (line ++ "\n\n") with
            | (false, b) =>
              some (some WriterError.writeMessage, { w1 with currentWriter := some b }, fs1)
            | (true, b) =>
              some (none,
                { w1 with currentWriter := some b,
                          stats := fun k' =>
                            if k' = k then some ((w1.stats k).getD 0 + 1)
                            else w1.stats k' }, fs1)
          | _, _ => none) = some (none, w', fs') →
        w'.currentMonth = w1.currentMonth ∧ w'.fileCount = w1.fileCount := by
      intro w1 fs1 h1
      rcases hcw : w1.currentWriter with _ | b
      · simp [hcw] at h1
      · rcases hcf : w1.currentFile with _ | f
        · simp [hcw, hcf] at h1
        · simp only [hcw, hcf] at h1
          rcases hW : b.WriteString f (line ++ "\n\n") with ⟨ok, b'⟩
          cases ok with
          | false => simp [hW] at h1
          | true =>
            simp only [hW, Option.some.injEq, Prod.mk.injEq, true_and] at h1
            rw [← h1.1]
            exact ⟨rfl, rfl⟩
    by_cases hsame : k = w.currentMonth
    · rw [if_neg (not_not.2 hsame)] at h
      simp only at h
      obtain ⟨h1, h2⟩ := hwrite w fs h
      rw [if_pos hsame]
      exact ⟨h1.trans hsame.symm, by rw [h2]; simp⟩
    · rw [if_pos hsame] at h
      rcases hsw : w.switchToMonth fs k with _ | ⟨_ | e, w1, fs1⟩
      · simp [hsw] at h
      · simp only [hsw] at h
        obtain ⟨h1, h2⟩ := hwrite w1 fs1 h
        obtain ⟨h3, h4⟩ := switchToMonth_fileCount w w1 fs fs1 k hsw
        rw [if_neg hsame]
        exact ⟨h1.trans h3, h2.trans h4⟩
      · simp [hsw] at h

/-- After a sequence of successful calls of `WriteMessage` the number of
files counted has grown by the number of calls that switched the file. -/
theorem writeAll_fileCount_changes (ws : List (String × Time)) :
    ∀ (w w' : Writer) (fs fs' : FileSystem), w.writeAll fs ws = some (none, w', fs') →
      w'.fileCount = w.fileCount + ((monthChanges w.currentMonth (monthKeys ws) : Nat) : Int) := by
  induction ws with
  | nil =>
    intro w w' fs fs' h
    simp only [Writer.writeAll, Option.some.injEq, Prod.mk.injEq, true_and] at h
    rw [← h.1]
    simp [monthKeys, monthChanges]
  | cons p rest ih =>
    intro w w' fs fs' h
    obtain ⟨line, t⟩ := p
    rw [Writer.writeAll] at h
    rcases hstep : w.WriteMessage fs line t with _ | ⟨_ | e, w1, fs1⟩
    · rw [hstep] at h; simp at h
    · rw [hstep] at h
      simp only at h
      obtain ⟨k, hk, hcur, hcount⟩ := WriteMessage_fileCount w w1 fs fs1 line t hstep
      have hkeys : monthKeys ((line, t) :: rest) = k :: monthKeys rest := by
        simp only [monthKeys, List.filterMap_cons, hk]
      rw [ih w1 w' fs1 fs' h, hkeys, monthChanges, hcur, hcount]
      split_ifs <;> push_cast <;> ring
    · rw [hstep] at h; simp at h

/-- After every sequence of successful `WriteMessage` calls on one writer
whose months come month by month, `GetFileCount()` is the number of distinct
month keys among the timestamps written. -/
theorem writeAll_fileCount_distinct (fs0 : FileSystem) (basePath groupName : String)
    (w0 w : Writer) (fs : FileSystem) (ws : List (String × Time))
    (hnew : Writer.New fs0 basePath groupName = some w0)
    (hcons : consecutiveMonths (monthKeys ws) = true)
    (hall : w0.writeAll fs0 ws = some (none, w, fs)) :
    w.GetFileCount = (((monthKeys ws).toFinset.card : Nat) : Int) :=
  (writeAll_state fs0 basePath groupName w0 hnew ws w fs hcons hall).fileCount_eq

/-- After every sequence of successful `WriteMessage` calls on the writer of
`New`, `GetFileCount()` is the number of calls that switched the file: those
whose month key differs from the month key of the call before, the first
call among them. -/
theorem writeAll_fileCount_switches (fs0 : FileSystem) (basePath groupName : String)
    (w0 w : Writer) (fs : FileSystem) (ws : List (String × Time))
    (hnew : Writer.New fs0 basePath groupName = some w0)
    (hall : w0.writeAll fs0 ws = some (none, w, fs)) :
    w.GetFileCount = ((monthChanges "" (monthKeys ws) : Nat) : Int) := by
  obtain ⟨_, _, _, _, hcount0, hcur0⟩ := New_ready fs0 basePath groupName w0 hnew
  have h := writeAll_fileCount_changes ws w0 w fs0 fs hall
  unfold Writer.GetFileCount
  rw [h, hcount0, hcur0]
  simp

/-- C27: the three calls for January, February and January again succeed and
their timestamps have two distinct month keys, but `GetFileCount()` is 3,
with two files there after `Close`: `switchToMonth` counts every switch,
also the one that truncates the file of January created before.  In general,
after every sequence of successful `WriteMessage` calls on the writer of
`New`, `GetFileCount()` is the number of calls whose month key differs from
that of the call before, the first call among them; that is the number of
distinct month keys when the months come month by month. -/
theorem GetFileCount_counts_switches :
    ((((Writer.New testFiles "/tmp" "Test Chat").bind fun w0 =>
        w0.writeAll testFiles testReturnStream).map fun r =>
      (r.1, r.2.1.GetFileCount)) = some (none, 3) ∧
      (monthKeys testReturnStream).toFinset.card = 2 ∧
      ((((Writer.New testFiles "/tmp" "Test Chat").bind fun w0 =>
          w0.writeAll testFiles testReturnStream).bind fun r => r.2.1.Close r.2.2).map fun r =>
        (r.1, r.2.1.GetFileCount, r.2.2.content "/tmp/Test_Chat/Test_Chat_january_2024.md",
          r.2.2.content "/tmp/Test_Chat/Test_Chat_february_2024.md")) =
        some (none, 3, some "c\n\n", some "b\n\n")) ∧
    ∀ (fs0 : FileSystem) (basePath groupName : String) (w0 w : Writer) (fs : FileSystem)
      (ws : List (String × Time)),
      Writer.New fs0 basePath groupName = some w0 →
      w0.writeAll fs0 ws = some (none, w, fs) →
      w.GetFileCount = ((monthChanges "" (monthKeys ws) : Nat) : Int) ∧
      (consecutiveMonths (monthKeys ws) = true →
        w.GetFileCount = (((monthKeys ws).toFinset.card : Nat) : Int)) := by
  refine ⟨by decide, ?_⟩
  intro fs0 basePath groupName w0 w fs ws hnew hall
  exact ⟨writeAll_fileCount_switches fs0 basePath groupName w0 w fs ws hnew hall,
    fun hcons => writeAll_fileCount_distinct fs0 basePath groupName w0 w fs ws hnew hcons hall⟩

/-- C27, at the calls of `TestWriter_GetFileCount`, of three months one
after the other: three switches, three distinct month keys, and
`GetFileCount()` is 3. -/
theorem GetFileCount_counts_switches_witness :
    ∃ (w0 w : Writer) (fs : FileSystem),
      Writer.New testFiles "/tmp" "Test Chat" = some w0 ∧
      w0.writeAll testFiles testFileCountStream = some (none, w, fs) ∧
      w.GetFileCount = 3 ∧ monthChanges "" (monthKeys testFileCountStream) = 3 ∧
      (monthKeys testFileCountStream).toFinset.card = 3 := by
  obtain ⟨w0, hnew⟩ : ∃ w0, Writer.New testFiles "/tmp" "Test Chat" = some w0 := ⟨_, rfl⟩
  obtain ⟨w, fs, hw⟩ : ∃ w fs, w0.writeAll testFiles testFileCountStream =
      some (none, w, fs) := by
    cases hnew; exact ⟨_, _, rfl⟩
  have h := GetFileCount_counts_switches.2 testFiles "/tmp" "Test Chat" w0 w fs
    testFileCountStream hnew hw
  exact ⟨w0, w, fs, hnew, hw, (h.2 (by decide)).trans (by decide), by decide, by decide⟩

/-! ## End to end: the loop of `run` -/

theorem consecutiveMonths_of_all_eq (k : String) (l : List String) (h : ∀ x ∈ l, x = k) :
    consecutiveMonths l = true := by
  induction l with
  | nil => rfl
  | cons a l ih =>
    have ha : a = k := h a (List.mem_cons_self _ _)
    have hl : ∀ x ∈ l, x = k := fun x hx => h x (List.mem_cons_of_mem _ hx)
    rw [consecutiveMonths, Bool.and_eq_true, decide_eq_true_eq]
    refine ⟨?_, ih hl⟩
    have : l.dropWhile (fun k' => decide (k' = a)) = [] := by
      rw [List.dropWhile_eq_nil_iff]
      intro x hx
      rw [hl x hx, ha]
      simp
    rw [this]
    exact List.not_mem_nil a

theorem linesOf_of_all (k : String) (ws : List (String × Time))
    (h : ∀ p ∈ ws, getMonthKey p.2 = some k) :
    linesOf k ws = String.join (ws.map fun p => p.1 ++ "\n\n") := by
  have gen : ∀ (ws : List (String × Time)) (acc : String),
      (∀ p ∈ ws, getMonthKey p.2 = some k) →
      ws.foldl (fun text p => if getMonthKey p.2 = some k then text ++ p.1 ++ "\n\n" else text)
          acc =
        (ws.map fun p => p.1 ++ "\n\n").foldl (fun a s => a ++ s) acc := by
    intro ws
    induction ws with
    | nil => intro acc _; rfl
    | cons p ws ih =>
      intro acc hall
      simp only [List.foldl_cons, List.map_cons]
      rw [if_pos (hall p (List.mem_cons_self _ _)), String.append_assoc]
      exact ih _ (fun q hq => hall q (List.mem_cons_of_mem _ hq))
  exact gen ws "" h

/-- The calls of `WriteMessage` for pairs of one month succeed when the file
of the month is open already or can be created. -/
theorem writeAll_same_month (k : String) (lines : List (String × Time)) :
    ∀ (w : Writer) (fs : FileSystem), (∀ p ∈ lines, getMonthKey p.2 = some k) → w.ready →
      (w.currentMonth = k ∨ fs.denied (w.monthPath k) = false) →
      ∃ w' fs', w.writeAll fs lines = some (none, w', fs') := by
  induction lines with
  | nil => intro w fs _ _ _; exact ⟨w, fs, rfl⟩
  | cons p lines ih =>
    intro w fs hall hr hopen
    obtain ⟨line, t⟩ := p
    have hk : getMonthKey t = some k := hall (line, t) (List.mem_cons_self _ _)
    have hrest : ∀ q ∈ lines, getMonthKey q.2 = some k := fun q hq =>
      hall q (List.mem_cons_of_mem _ hq)
    rw [Writer.writeAll]
    by_cases hsame : k = w.currentMonth
    · obtain ⟨b, n, hb, hres⟩ := WriteMessage_same_month w fs line t k hk hr hsame
      have hr1 := (WriteMessage_ready w _ fs _ line t hr hres).1
      rw [hres]
      exact ih _ _ hrest hr1 (Or.inl hsame.symm)
    · have hd : fs.denied (w.monthPath k) = false := by
        rcases hopen with h | h
        · exact absurd h.symm hsame
        · exact h
      obtain ⟨n, hres⟩ := WriteMessage_other_month w fs line t k hk hr hsame hd
      have hr1 := (WriteMessage_ready w _ fs _ line t hr hres).1
      rw [hres]
      exact ih _ _ hrest hr1 (Or.inl rfl)

/-- The loop of `run` on messages whose lines are all written with success:
the writer and the files are those of the calls of `WriteMessage` for the
lines of the messages that convert. -/
theorem runLoop_writeAll (msgs : List Message) :
    ∀ (s : RunState) (w : Writer) (fs : FileSystem),
      s.w.writeAll s.fs (convertLines s.conv msgs) = some (none, w, fs) →
      ∃ s', runLoop s (msgs.map ParseResult.message) = some s' ∧ s'.w = w ∧ s'.fs = fs ∧
        s'.processedCount = s.processedCount + ((convertLines s.conv msgs).length : Int) ∧
        s'.totalCount = s.totalCount + (msgs.length : Int) := by
  induction msgs with
  | nil =>
    intro s w fs h
    simp only [convertLines, Writer.writeAll, Option.some.injEq, Prod.mk.injEq, true_and] at h
    exact ⟨s, rfl, h.1, h.2, by simp [convertLines], by simp⟩
  | cons msg msgs ih =>
    intro s w fs h
    obtain ⟨r, c1, hc, _⟩ := ConvertMessage_cases s.conv msg
    rw [convertLines, hc] at h
    simp only [List.map_cons, runLoop, runStep, hc]
    cases r with
    | error e =>
      simp only at h ⊢
      obtain ⟨s', h1, h2, h3, h4, h5⟩ := ih
        { s with totalCount := s.totalCount + 1, conv := c1,
                 skippedCount := s.skippedCount + 1 } w fs h
      refine ⟨s', h1, h2, h3, ?_, ?_⟩
      · rw [h4, convertLines, hc]
      · rw [h5]; simp only [List.length_cons]; push_cast; ring
    | ok lt =>
      obtain ⟨line, t⟩ := lt
      simp only at h ⊢
      rw [Writer.writeAll] at h
      rcases hstep : s.w.WriteMessage s.fs line t with _ | ⟨_ | e, w1, fs1⟩
      · rw [hstep] at h; simp at h
      · rw [hstep] at h
        simp only at h ⊢
        obtain ⟨s', h1, h2, h3, h4, h5⟩ := ih
          { s with totalCount := s.totalCount + 1, conv := c1, w := w1, fs := fs1,
                   processedCount := s.processedCount + 1 } w fs h
        refine ⟨s', h1, h2, h3, ?_, ?_⟩
        · rw [h4, convertLines, hc]
          simp only [List.length_cons]; push_cast; ring
        · rw [h5]; simp only [List.length_cons]; push_cast; ring
      · rw [hstep] at h; simp at h

/-- End to end, for messages of one calendar month that all convert: one
file, with the lines of the messages in stream order. -/
theorem run_same_month (fs0 : FileSystem) (outputPath chatName : String) (msgs : List Message)
    (y m : Int) (hne : msgs ≠ [])
    (hconv : (convertLines New msgs).length = msgs.length)
    (hm : 1 ≤ m ∧ m ≤ 12)
    (hmonth : ∀ p ∈ convertLines New msgs, p.2.year = y ∧ p.2.month = m)
    (hdir : fs0.denied (filepathJoin [outputPath, SanitizeName chatName]) = false)
    (hfile : fs0.denied (filepathJoin [filepathJoin [outputPath, SanitizeName chatName],
      SanitizeName chatName ++ "_" ++ (englishMonthName m ++ "_" ++ toString y) ++ ".md"]) =
        false) :
    ∃ s, runMessages fs0 outputPath chatName (msgs.map ParseResult.message) =
        some (Except.ok s) ∧
      s.fs.content (filepathJoin [filepathJoin [outputPath, SanitizeName chatName],
        SanitizeName chatName ++ "_" ++ (englishMonthName m ++ "_" ++ toString y) ++ ".md"]) =
        some (String.join ((convertLines New msgs).map fun p => p.1 ++ "\n\n")) ∧
      (∀ p, p ≠ filepathJoin [filepathJoin [outputPath, SanitizeName chatName],
          SanitizeName chatName ++ "_" ++ (englishMonthName m ++ "_" ++ toString y) ++ ".md"] →
        s.fs.content p = fs0.content p) ∧
      s.w.GetFileCount = 1 ∧ s.processedCount = (msgs.length : Int) := by
  obtain ⟨w0, hnew⟩ : ∃ w0, Writer.New fs0 outputPath chatName = some w0 := by
    unfold Writer.New
    simp only [hdir, Bool.false_eq_true, if_false]
    exact ⟨_, rfl⟩
  obtain ⟨hr0, hdir0, _, hname0, _, hcur0⟩ := New_ready fs0 outputPath chatName w0 hnew
  have hpath0 : ∀ k, w0.monthPath k = filepathJoin
      [filepathJoin [outputPath, SanitizeName chatName],
        SanitizeName chatName ++ "_" ++ k ++ ".md"] := by
    intro k
    unfold Writer.monthPath
    rw [hdir0, hname0]
  simp only [← hpath0] at hfile ⊢
  generalize hkdef : englishMonthName m ++ "_" ++ toString y = k at hfile ⊢
  have hkeys : ∀ p ∈ convertLines New msgs, getMonthKey p.2 = some k := by
    intro p hp
    obtain ⟨h1, h2⟩ := hmonth p hp
    rw [getMonthKey_eq p.2 (by rw [h2]; exact hm), h1, h2, hkdef]
  have hall_keys : ∀ x ∈ monthKeys (convertLines New msgs), x = k := by
    intro x hx
    simp only [monthKeys, List.mem_filterMap] at hx
    obtain ⟨p, hp, hpx⟩ := hx
    rw [hkeys p hp] at hpx
    exact (Option.some.inj hpx).symm
  obtain ⟨w, fs, hwrite⟩ := writeAll_same_month k (convertLines New msgs) w0 fs0 hkeys hr0
    (Or.inr hfile)
  obtain ⟨s', hloop, hsw, hsfs, hproc, _⟩ := runLoop_writeAll msgs
    { conv := New, w := w0, fs := fs0, totalCount := 0, processedCount := 0, skippedCount := 0 }
    w fs hwrite
  have hcons := consecutiveMonths_of_all_eq k _ hall_keys
  obtain ⟨w2, fs2, hclose, hfiles, hothers⟩ :=
    writeAll_then_close fs0 outputPath chatName w0 w fs (convertLines New msgs) hnew hcons hwrite
  simp only [← hpath0] at hfiles hothers
  have S := writeAll_state fs0 outputPath chatName w0 hnew _ w fs hcons hwrite
  have hlines_ne : convertLines New msgs ≠ [] := by
    intro e
    rw [e] at hconv
    exact hne (List.length_eq_zero.1 hconv.symm)
  have hkmem : k ∈ monthKeys (convertLines New msgs) := by
    cases hl : convertLines New msgs with
    | nil => exact absurd hl hlines_ne
    | cons p rest =>
      have := hkeys p (by rw [hl]; exact List.mem_cons_self _ _)
      simp only [monthKeys, List.filterMap_cons, this, List.mem_cons, true_or]
  refine ⟨{ s' with w := w2, fs := fs2 }, ?_, ?_, ?_, ?_, ?_⟩
  · unfold runMessages
    simp only [hnew, hloop, hsw, hsfs, hclose]
  · show fs2.content _ = _
    rw [hfiles k hkmem, linesOf_of_all k _ hkeys]
  · intro p hp
    show fs2.content p = _
    exact hothers p (fun k' hk' => by rw [hall_keys k' hk']; exact hp)
  · show w2.GetFileCount = 1
    have hw2 : w2.fileCount = w.fileCount := by
      obtain ⟨h1, hinit | ⟨b, hw, hb, hf⟩⟩ := S.ready
      · unfold Writer.Close at hclose
        simp only [hinit.2.1, hinit.2.2, Option.some.injEq, Prod.mk.injEq, true_and] at hclose
        rw [← hclose.1]
      · rw [Close_open w fs b _ hw hb hf] at hclose
        simp only [Option.some.injEq, Prod.mk.injEq, true_and] at hclose
        rw [← hclose.1]
    unfold Writer.GetFileCount
    rw [hw2, S.fileCount_eq]
    have : (monthKeys (convertLines New msgs)).toFinset = {k} := by
      ext a
      simp only [List.mem_toFinset, Finset.mem_singleton]
      exact ⟨fun ha => hall_keys a ha, fun ha => by rw [ha]; exact hkmem⟩
    rw [this]
    rfl
  · show s'.processedCount = _
    rw [hproc, hconv]
    simp

/-- The lines of a plain message `a` and of a reply `b` to it: the line of
`b` carries the reply prefix with the preview of the body of `a`. -/
theorem convertLines_reply_pair (a b : Message)
    (ha : a.Kind ≠ "service" ∧ a.Action = "") (hb : b.Kind ≠ "service" ∧ b.Action = "")
    (hreply : b.ReplyToMsgID = some a.ID) (hid : b.ID ≠ a.ID)
    (hconv : (convertLines New [a, b]).length = 2) :
    ∃ (lineA : String) (tA : Time) (tsB : String) (tB : Time) (preview : String),
      truncateForReply (resolvedBody New a) 50 = some preview ∧
      convertLines New [a, b] =
        [(lineA, tA),
         ("[" ++ tsB ++ "] " ++ (if b.From = "" then "Unknown" else b.From) ++ ": " ++
            ("[В ответ на: \"" ++ preview ++ "\"] ") ++ resolvedBody New b, tB)] := by
  have hsa : ¬(a.Kind = "service" ∨ a.Action ≠ "") := by
    rintro (h | h)
    · exact ha.1 h
    · exact h ha.2
  have hsb : ¬(b.Kind = "service" ∨ b.Action ≠ "") := by
    rintro (h | h)
    · exact hb.1 h
    · exact h hb.2
  obtain ⟨ra, c1, hca, -⟩ := ConvertMessage_cases New a
  obtain ⟨rb, c2, hcb, -⟩ := ConvertMessage_cases c1 b
  cases ra with
  | error e =>
    have h1 : convertLines New [a, b] = convertLines c1 [b] := by
      simp only [convertLines, hca]
    rw [h1] at hconv
    cases rb <;> simp [convertLines, hcb] at hconv
  | ok lta =>
    cases rb with
    | error e =>
      have h1 : convertLines New [a, b] = [lta] := by
        simp only [convertLines, hca, hcb]
      rw [h1] at hconv
      simp at hconv
    | ok ltb =>
      have hlines : convertLines New [a, b] = [lta, ltb] := by
        simp only [convertLines, hca, hcb]
      rw [hlines]
      obtain ⟨lineA, tA⟩ := lta
      obtain ⟨lineB, tB⟩ := ltb
      obtain ⟨_, _, hc1, _⟩ := ConvertMessage_ok_inv New c1 a lineA tA hca hsa
      obtain ⟨⟨tsB, htsB⟩, hwsB, _, _⟩ := ConvertMessage_ok_inv c1 c2 b lineB tB hcb hsb
      obtain ⟨preview, hpre, hres⟩ := ConvertMessage_reply c1 b tsB tB a.ID htsB hsb hwsB hreply
      have hcache : (c1.CacheMessage b.ID (resolvedBody c1 b)).messageCache a.ID =
          some (resolvedBody New a) := by
        rw [messageCache_CacheMessage_ne c1 b.ID a.ID _ (Ne.symm hid), hc1]
        simp [Converter.CacheMessage]
      rw [hcache] at hpre
      simp only at hpre
      rw [hres] at hcb
      simp only [Option.some.injEq, Prod.mk.injEq, Except.ok.injEq] at hcb
      refine ⟨lineA, tA, tsB, tB, preview, hpre, ?_⟩
      rw [← hcb.1.1, resolvedBody_congr New c1 b b rfl rfl]

/-- The lines of a plain message `a` and of a reply `b` to the id of `a`,
whatever the id of `b`: the line of `b` carries the reply prefix with the
preview of the body of `a`, or of the body of `b` itself when `b` has the id
of `a`, its body having replaced that of `a` in the cache. -/
theorem convertLines_reply_pair_any (a b : Message)
    (ha : a.Kind ≠ "service" ∧ a.Action = "") (hb : b.Kind ≠ "service" ∧ b.Action = "")
    (hreply : b.ReplyToMsgID = some a.ID)
    (hconv : (convertLines New [a, b]).length = 2) :
    ∃ (lineA : String) (tA : Time) (tsB : String) (tB : Time) (preview : String),
      truncateForReply (if b.ID = a.ID then resolvedBody New b else resolvedBody New a) 50 =
        some preview ∧
      convertLines New [a, b] =
        [(lineA, tA),
         ("[" ++ tsB ++ "] " ++ (if b.From = "" then "Unknown" else b.From) ++ ": " ++
            ("[В ответ на: \"" ++ preview ++ "\"] ") ++ resolvedBody New b, tB)] := by
  by_cases hid : b.ID = a.ID
  · have hsa : ¬(a.Kind = "service" ∨ a.Action ≠ "") := by
      rintro (h | h)
      · exact ha.1 h
      · exact h ha.2
    have hsb : ¬(b.Kind = "service" ∨ b.Action ≠ "") := by
      rintro (h | h)
      · exact hb.1 h
      · exact h hb.2
    obtain ⟨ra, c1, hca, -⟩ := ConvertMessage_cases New a
    obtain ⟨rb, c2, hcb, -⟩ := ConvertMessage_cases c1 b
    cases ra with
    | error e =>
      have h1 : convertLines New [a, b] = convertLines c1 [b] := by
        simp only [convertLines, hca]
      rw [h1] at hconv
      cases rb <;> simp [convertLines, hcb] at hconv
    | ok lta =>
      cases rb with
      | error e =>
        have h1 : convertLines New [a, b] = [lta] := by
          simp only [convertLines, hca, hcb]
        rw [h1] at hconv
        simp at hconv
      | ok ltb =>
        have hlines : convertLines New [a, b] = [lta, ltb] := by
          simp only [convertLines, hca, hcb]
        rw [hlines]
        obtain ⟨lineA, tA⟩ := lta
        obtain ⟨lineB, tB⟩ := ltb
        obtain ⟨⟨tsB, htsB⟩, hwsB, _, _⟩ := ConvertMessage_ok_inv c1 c2 b lineB tB hcb hsb
        obtain ⟨preview, hpre, hres⟩ := ConvertMessage_reply c1 b tsB tB a.ID htsB hsb hwsB hreply
        have hcache : (c1.CacheMessage b.ID (resolvedBody c1 b)).messageCache a.ID =
            some (resolvedBody New b) := by
          rw [resolvedBody_congr New c1 b b rfl rfl]
          simp [Converter.CacheMessage, hid]
        rw [hcache] at hpre
        simp only at hpre
        rw [hres] at hcb
        simp only [Option.some.injEq, Prod.mk.injEq, Except.ok.injEq] at hcb
        refine ⟨lineA, tA, tsB, tB, preview, by rw [if_pos hid]; exact hpre, ?_⟩
        rw [← hcb.1.1, resolvedBody_congr New c1 b b rfl rfl]
  · obtain ⟨lineA, tA, tsB, tB, preview, hpre, hlines⟩ :=
      convertLines_reply_pair a b ha hb hreply hid hconv
    exact ⟨lineA, tA, tsB, tB, preview, by rw [if_neg hid]; exact hpre, hlines⟩

/-- C28, as amended: end to end, for every non-empty list of decoded
messages that all convert successfully and all fall in the same calendar
month, running them in stream order through one converter and one writer and
closing, in a directory where the file of the month can be created, produces
exactly one monthly file, whose content is the concatenation in stream order
of the line of each message followed by `"\n\n"`, the other files being as
before; and for the two-message list of a plain message and of a reply to
its id the second line carries the reply prefix with the preview of the body
of the first when the reply has another id than the first, and with the
preview of its own body when it has the same id. -/
theorem run_end_to_end :
    (∀ (fs0 : FileSystem) (outputPath chatName : String) (msgs : List Message) (y m : Int),
      msgs ≠ [] →
      (convertLines New msgs).length = msgs.length →
      1 ≤ m ∧ m ≤ 12 →
      (∀ p ∈ convertLines New msgs, p.2.year = y ∧ p.2.month = m) →
      fs0.denied (filepathJoin [outputPath, SanitizeName chatName]) = false →
      fs0.denied (filepathJoin [filepathJoin [outputPath, SanitizeName chatName],
        SanitizeName chatName ++ "_" ++ (englishMonthName m ++ "_" ++ toString y) ++ ".md"]) =
          false →
      ∃ s, runMessages fs0 outputPath chatName (msgs.map ParseResult.message) =
          some (Except.ok s) ∧
        s.fs.content (filepathJoin [filepathJoin [outputPath, SanitizeName chatName],
          SanitizeName chatName ++ "_" ++ (englishMonthName m ++ "_" ++ toString y) ++ ".md"]) =
          some (String.join ((convertLines New msgs).map fun p => p.1 ++ "\n\n")) ∧
        (∀ p, p ≠ filepathJoin [filepathJoin [outputPath, SanitizeName chatName],
            SanitizeName chatName ++ "_" ++ (englishMonthName m ++ "_" ++ toString y) ++ ".md"] →
          s.fs.content p = fs0.content p) ∧
        s.w.GetFileCount = 1 ∧ s.processedCount = (msgs.length : Int)) ∧
    ∀ (a b : Message), (a.Kind ≠ "service" ∧ a.Action = "") →
      (b.Kind ≠ "service" ∧ b.Action = "") → b.ReplyToMsgID = some a.ID →
      (convertLines New [a, b]).length = 2 →
      ∃ (lineA : String) (tA : Time) (tsB : String) (tB : Time) (preview : String),
        truncateForReply (if b.ID = a.ID then resolvedBody New b else resolvedBody New a) 50 =
          some preview ∧
        convertLines New [a, b] =
          [(lineA, tA),
           ("[" ++ tsB ++ "] " ++ (if b.From = "" then "Unknown" else b.From) ++ ": " ++
              ("[В ответ на: \"" ++ preview ++ "\"] ") ++ resolvedBody New b, tB)] :=
  ⟨run_same_month, convertLines_reply_pair_any⟩

/-- C28, at the messages `hello` and the reply to it of the tests of the
converter, both of January 2024: one file, with the two blocks. -/
theorem run_end_to_end_witness :
    ∃ s, runMessages testFiles "/tmp" "Test Chat"
        [ParseResult.message testHelloMessage, ParseResult.message testReplyMessage] =
          some (Except.ok s) ∧
      s.fs.content "/tmp/Test_Chat/Test_Chat_january_2024.md" =
        some ("[2024-01-15 14:30] Иван: hello\n\n" ++
          "[2024-01-15 14:31] Мария: [В ответ на: \"hello\"] Отлично!\n\n") ∧
      s.w.GetFileCount = 1 := by
  have hlines : convertLines New [testHelloMessage, testReplyMessage] =
      [("[2024-01-15 14:30] Иван: hello", ⟨2024, 1, 15, 14, 30, 0, 0, 0⟩),
       ("[2024-01-15 14:31] Мария: [В ответ на: \"hello\"] Отлично!",
        ⟨2024, 1, 15, 14, 31, 0, 0, 0⟩)] := by
    rfl
  obtain ⟨s, hrun, hcontent, _, hcount, _⟩ := run_end_to_end.1 testFiles "/tmp" "Test Chat"
    [testHelloMessage, testReplyMessage] 2024 1 (by simp) (by rw [hlines]; rfl) (by decide)
    (by
      intro p hp
      rw [hlines] at hp
      simp only [List.mem_cons, List.mem_singleton, List.not_mem_nil, or_false] at hp
      rcases hp with rfl | rfl <;> exact ⟨rfl, rfl⟩)
    rfl rfl
  refine ⟨s, hrun, ?_, hcount⟩
  rw [hlines] at hcontent
  have hpath : filepathJoin [filepathJoin ["/tmp", SanitizeName "Test Chat"],
      SanitizeName "Test Chat" ++ "_" ++ (englishMonthName 1 ++ "_" ++ toString (2024 : Int)) ++
        ".md"] = "/tmp/Test_Chat/Test_Chat_january_2024.md" := by
    decide
  rw [hpath] at hcontent
  rw [hcontent]
  decide

/-- C28, the counterexample: the plain message `hello` with the id 1 and a
reply to the id 1 that has the id 1 itself, both of January 2024, convert and
give one file, but its second block carries the reply prefix with the body
of the reply, not with `hello`; and the run on the empty list of messages
ends with no monthly file at all. -/
theorem run_end_to_end_counterexample :
    (∃ s, runMessages testFiles "/tmp" "Test Chat"
        [ParseResult.message testHelloMessage, ParseResult.message testSameIdReplyMessage] =
          some (Except.ok s) ∧
      s.fs.content "/tmp/Test_Chat/Test_Chat_january_2024.md" =
        some ("[2024-01-15 14:30] Иван: hello\n\n" ++
          "[2024-01-15 14:31] Мария: [В ответ на: \"Отлично!\"] Отлично!\n\n") ∧
      s.w.GetFileCount = 1) ∧
    testSameIdReplyMessage.ReplyToMsgID = some testHelloMessage.ID ∧
    ∃ s, runMessages testFiles "/tmp" "Test Chat" [] = some (Except.ok s) ∧
      s.w.GetFileCount = 0 ∧ ∀ p, s.fs.content p = none := by
  refine ⟨⟨_, rfl, ?_, rfl⟩, rfl, ⟨_, rfl, rfl, fun _ => rfl⟩⟩
  decide

/-! ## `StreamMessages` -/

/-- On the document of `TestParser_StreamMessages_Basic` the two messages
are sent, in the order of the array, and the channel is closed. -/
theorem StreamMessages_test_document (turns : Nat) :
    (Parser.New testStreamDocument.lexemes).StreamMessages (turns + 3) =
      some ([ParseResult.message testStreamFirst, ParseResult.message testStreamSecond],
        true) := by
  rfl

/-- An element that is read but cannot be stored in a `Message` gives one
error item, and the loop goes on with the next element. -/
theorem StreamMessages_type_error_continues (turns : Nat) :
    (Parser.New typeErrorDocument.lexemes).StreamMessages (turns + 3) =
      some ([ParseResult.error StreamError.decodeMessage, ParseResult.message testStreamFirst],
        true) := by
  rfl

/-- C21: on the export of a chat named `messages` that has an array `tags`
before its array `messages`, `StreamMessages` takes the value `"messages"` of
`name` for the key, streams the array `tags` and closes the channel: two
error items are sent, for the elements `1` and `2` of `tags`, and the message
of the array `messages` is never sent. -/
theorem StreamMessages_value_taken_for_key (turns : Nat) :
    (Parser.New chatNamedMessagesDocument.lexemes).StreamMessages (turns + 3) =
      some ([ParseResult.error StreamError.decodeMessage,
        ParseResult.error StreamError.decodeMessage], true) := by
  rfl

/-- Once `Decode` has set the sticky error of the decoder in front of an
element, every later turn of the loop sends one more error item, and the loop
does not end. -/
theorem streamLoop_sticky (d : Decoder) (hmore : d.More = true) (herr : d.err = true)
    (turns : Nat) :
    streamLoop turns d =
      (List.replicate turns (ParseResult.error StreamError.decodeMessage), false) := by
  have hturn : streamTurn d = (ParseResult.error StreamError.decodeMessage, d) := by
    simp [streamTurn, Decoder.readValue, herr]
  induction turns with
  | zero => rfl
  | succ n ih =>
    simp only [streamLoop, hmore, if_true, hturn, ih, List.replicate_succ]

/-- C22: on an export that breaks off inside its first message, the loop of
`StreamMessages` does not end: whatever the number of turns it has made, it
has sent that many error items and the channel is not closed. -/
theorem StreamMessages_truncated_never_ends (turns : Nat) :
    (Parser.New truncatedDocument).StreamMessages turns =
      some (List.replicate turns (ParseResult.error StreamError.decodeMessage), false) := by
  have hnav : navigateLoop ((Parser.New truncatedDocument).file.length + 2) false 0
      (NewDecoder (Parser.New truncatedDocument).file) =
      some (Navigation.streamMessages
        ⟨truncatedDocument.drop 8, TokenState.tokenArrayStart,
          [TokenState.tokenObjectValue, TokenState.tokenTopValue], false⟩) := by
    rfl
  unfold Parser.StreamMessages
  rw [hnav]
  simp only
  cases turns with
  | zero => rfl
  | succ n =>
    have hturn : streamTurn ⟨truncatedDocument.drop 8, TokenState.tokenArrayStart,
          [TokenState.tokenObjectValue, TokenState.tokenTopValue], false⟩ =
        (ParseResult.error StreamError.decodeMessage,
          ⟨truncatedDocument.drop 8, TokenState.tokenArrayStart,
            [TokenState.tokenObjectValue, TokenState.tokenTopValue], true⟩) := by
      rfl
    have hmore : Decoder.More ⟨truncatedDocument.drop 8, TokenState.tokenArrayStart,
          [TokenState.tokenObjectValue, TokenState.tokenTopValue], false⟩ = true := by
      rfl
    rw [streamLoop, if_pos hmore]
    simp only [hturn]
    rw [streamLoop_sticky _ (by rfl) (by rfl) n]
    rfl

/-! ### The scanner on the text of a value -/

theorem lexemes_head (v : JSON) :
    ∃ lx tail, v.lexemes = lx :: tail ∧ lx ≠ Lexeme.endArray ∧ lx ≠ Lexeme.endObject ∧
      lx ≠ Lexeme.comma ∧ lx ≠ Lexeme.colon := by
  cases v with
  | null => exact ⟨_, _, by rw [JSON.lexemes], by simp, by simp, by simp, by simp⟩
  | bool b => cases b <;> exact ⟨_, _, by rw [JSON.lexemes], by simp, by simp, by simp, by simp⟩
  | num n => exact ⟨_, _, by rw [JSON.lexemes], by simp, by simp, by simp, by simp⟩
  | str x => exact ⟨_, _, by rw [JSON.lexemes], by simp, by simp, by simp, by simp⟩
  | arr es => exact ⟨_, _, by rw [JSON.lexemes], by simp, by simp, by simp, by simp⟩
  | obj ms => exact ⟨_, _, by rw [JSON.lexemes], by simp, by simp, by simp, by simp⟩

theorem elemsLexemes_true_head (es : List JSON) (hne : es ≠ []) (r : List Lexeme) :
    ∃ lx tail, elemsLexemes true es ++ r = lx :: tail ∧ lx ≠ Lexeme.endArray := by
  cases es with
  | nil => exact absurd rfl hne
  | cons v es' =>
    obtain ⟨lx, tail, h, h1, _⟩ := lexemes_head v
    exact ⟨lx, tail ++ (elemsLexemes false es' ++ r), by simp [elemsLexemes, h], h1⟩

theorem elemsLexemes_false_eq (es : List JSON) (hne : es ≠ []) :
    elemsLexemes false es = Lexeme.comma :: elemsLexemes true es := by
  cases es with
  | nil => exact absurd rfl hne
  | cons v es' => simp [elemsLexemes]

theorem membersLexemes_false_eq (ms : List (String × JSON)) (hne : ms ≠ []) :
    membersLexemes false ms = Lexeme.comma :: membersLexemes true ms := by
  cases ms with
  | nil => exact absurd rfl hne
  | cons m ms' => obtain ⟨k, v⟩ := m; simp [membersLexemes]

theorem membersLexemes_true_head (ms : List (String × JSON)) (hne : ms ≠ [])
    (r : List Lexeme) :
    ∃ lx tail, membersLexemes true ms ++ r = lx :: tail ∧ lx ≠ Lexeme.endObject := by
  cases ms with
  | nil => exact absurd rfl hne
  | cons m ms' =>
    obtain ⟨k, v⟩ := m
    exact ⟨Lexeme.string k, Lexeme.colon :: (v.lexemes ++ (membersLexemes false ms' ++ r)),
      by simp [membersLexemes], by simp⟩

theorem scanValue_beginArray (fuel : Nat) (lx : Lexeme) (tail : List Lexeme)
    (h : lx ≠ Lexeme.endArray) :
    scanValue (fuel + 1) (Lexeme.beginArray :: lx :: tail) =
      match scanElems fuel (lx :: tail) with
      | some (elems, rest) => some (JSON.arr elems, rest)
      | none => none := by
  cases lx <;> first | exact absurd rfl h | rfl

theorem scanValue_beginObject (fuel : Nat) (lx : Lexeme) (tail : List Lexeme)
    (h : lx ≠ Lexeme.endObject) :
    scanValue (fuel + 1) (Lexeme.beginObject :: lx :: tail) =
      match scanMembers fuel (lx :: tail) with
      | some (members, rest) => some (JSON.obj members, rest)
      | none => none := by
  cases lx <;> first | exact absurd rfl h | rfl

mutual
/-- The scanner reads the text of a JSON value back as that value, the
length of the text being fuel enough. -/
theorem scanValue_lexemes (v : JSON) (rest : List Lexeme) (fuel : Nat)
    (h : v.lexemes.length ≤ fuel) : scanValue fuel (v.lexemes ++ rest) = some (v, rest) := by
  match v with
  | JSON.null =>
    obtain ⟨f, rfl⟩ : ∃ f, fuel = f + 1 := ⟨fuel - 1, by simp [JSON.lexemes] at h; omega⟩
    simp [JSON.lexemes, scanValue]
  | JSON.bool b =>
    obtain ⟨f, rfl⟩ : ∃ f, fuel = f + 1 :=
      ⟨fuel - 1, by cases b <;> simp [JSON.lexemes] at h <;> omega⟩
    cases b <;> simp [JSON.lexemes, scanValue]
  | JSON.num n =>
    obtain ⟨f, rfl⟩ : ∃ f, fuel = f + 1 := ⟨fuel - 1, by simp [JSON.lexemes] at h; omega⟩
    simp [JSON.lexemes, scanValue]
  | JSON.str x =>
    obtain ⟨f, rfl⟩ : ∃ f, fuel = f + 1 := ⟨fuel - 1, by simp [JSON.lexemes] at h; omega⟩
    simp [JSON.lexemes, scanValue]
  | JSON.arr es =>
    rw [JSON.lexemes] at h ⊢
    simp only [List.length_cons, List.length_append, List.length_singleton] at h
    obtain ⟨f, rfl⟩ : ∃ f, fuel = f + 1 := ⟨fuel - 1, by omega⟩
    by_cases hne : es = []
    · subst hne
      simp [elemsLexemes, scanValue]
    · have hrec := scanElems_lexemes es rest f (by
        rw [elemsLexemes_false_eq es hne, List.length_cons]; omega) hne
      obtain ⟨lx, tail, hlx, h1⟩ := elemsLexemes_true_head es hne (Lexeme.endArray :: rest)
      rw [List.cons_append, List.append_assoc, List.singleton_append, hlx,
        scanValue_beginArray f lx tail h1, ← hlx, hrec]
  | JSON.obj ms =>
    rw [JSON.lexemes] at h ⊢
    simp only [List.length_cons, List.length_append, List.length_singleton] at h
    obtain ⟨f, rfl⟩ : ∃ f, fuel = f + 1 := ⟨fuel - 1, by omega⟩
    by_cases hne : ms = []
    · subst hne
      simp [membersLexemes, scanValue]
    · have hrec := scanMembers_lexemes ms rest f (by
        rw [membersLexemes_false_eq ms hne, List.length_cons]; omega) hne
      obtain ⟨lx, tail, hlx, h1⟩ := membersLexemes_true_head ms hne (Lexeme.endObject :: rest)
      rw [List.cons_append, List.append_assoc, List.singleton_append, hlx,
        scanValue_beginObject f lx tail h1, ← hlx, hrec]
/-- The scanner on the elements of an array that is not empty. -/
theorem scanElems_lexemes (es : List JSON) (rest : List Lexeme) (fuel : Nat)
    (h : (elemsLexemes false es).length ≤ fuel) (hne : es ≠ []) :
    scanElems fuel (elemsLexemes true es ++ Lexeme.endArray :: rest) = some (es, rest) := by
  match es with
  | [] => exact absurd rfl hne
  | v :: es' =>
    simp only [elemsLexemes, Bool.false_eq_true, if_false, List.singleton_append,
      List.length_cons, List.length_append] at h
    obtain ⟨f, rfl⟩ : ∃ f, fuel = f + 1 := ⟨fuel - 1, by omega⟩
    have hv := scanValue_lexemes v (elemsLexemes false es' ++ Lexeme.endArray :: rest) f
      (by omega)
    rw [elemsLexemes]
    simp only [if_true, List.nil_append, List.append_assoc]
    rw [scanElems, hv]
    by_cases hne' : es' = []
    · subst hne'
      simp [elemsLexemes]
    · have hrec := scanElems_lexemes es' rest f (by omega) hne'
      rw [elemsLexemes_false_eq es' hne']
      simp only [List.cons_append, hrec]
/-- The scanner on the members of an object that is not empty. -/
theorem scanMembers_lexemes (ms : List (String × JSON)) (rest : List Lexeme) (fuel : Nat)
    (h : (membersLexemes false ms).length ≤ fuel) (hne : ms ≠ []) :
    scanMembers fuel (membersLexemes true ms ++ Lexeme.endObject :: rest) = some (ms, rest) := by
  match ms with
  | [] => exact absurd rfl hne
  | (k, v) :: ms' =>
    simp only [membersLexemes, Bool.false_eq_true, if_false, List.singleton_append,
      List.length_cons, List.length_append] at h
    obtain ⟨f, rfl⟩ : ∃ f, fuel = f + 1 := ⟨fuel - 1, by omega⟩
    have hv := scanValue_lexemes v (membersLexemes false ms' ++ Lexeme.endObject :: rest) f
      (by omega)
    rw [membersLexemes]
    simp only [if_true, List.nil_append, List.cons_append, List.append_assoc]
    rw [scanMembers, hv]
    by_cases hne' : ms' = []
    · subst hne'
      simp [membersLexemes]
    · have hrec := scanMembers_lexemes ms' rest f (by omega) hne'
      rw [membersLexemes_false_eq ms' hne']
      simp only [List.cons_append, hrec]
end

/-! ### The loops of `StreamMessages` on the text of a document -/

/-- `Decode` on the first element of an array reads its text. -/
theorem readValue_first_elem (v : JSON) (rest : List Lexeme) (st : List TokenState) :
    Decoder.readValue ⟨v.lexemes ++ rest, TokenState.tokenArrayStart, st, false⟩ =
      (some v, ⟨rest, TokenState.tokenArrayComma, st, false⟩) := by
  simp only [Decoder.readValue, Bool.false_eq_true, if_false, tokenValueAllowed, Bool.not_true]
  rw [scanValue_lexemes v rest _ (by rw [List.length_append]; omega)]
  rfl

/-- `Decode` on a later element of an array passes the comma and reads the
text of the element. -/
theorem readValue_next_elem (v : JSON) (rest : List Lexeme) (st : List TokenState) :
    Decoder.readValue ⟨Lexeme.comma :: (v.lexemes ++ rest), TokenState.tokenArrayComma, st,
        false⟩ =
      (some v, ⟨rest, TokenState.tokenArrayComma, st, false⟩) := by
  simp only [Decoder.readValue, Bool.false_eq_true, if_false, tokenValueAllowed, Bool.not_true]
  rw [scanValue_lexemes v rest _ (by rw [List.length_append]; omega)]
  rfl

/-- The second loop of `StreamMessages` on the elements of an array: one
item for each element, in the order of the array, and the loop ends at the
closing bracket. -/
theorem streamLoop_elems (es : List JSON) :
    ∀ (first : Bool) (s0 : TokenState)
      (_ : s0 = if first then TokenState.tokenArrayStart else TokenState.tokenArrayComma)
      (rest : List Lexeme) (st : List TokenState) (turns : Nat),
      streamLoop (es.length + 1 + turns)
          ⟨elemsLexemes first es ++ Lexeme.endArray :: rest, s0, st, false⟩ =
        (es.map messageItem, true) := by
  induction es with
  | nil =>
    intro first s0 _ rest st turns
    have h1 : ([] : List JSON).length + 1 + turns = turns + 1 := by simp; omega
    rw [h1, streamLoop]
    simp [elemsLexemes, Decoder.More]
  | cons v es' ih =>
    intro first s0 h0 rest st turns
    have h1 : (v :: es').length + 1 + turns = (es'.length + 1 + turns) + 1 := by
      simp only [List.length_cons]; omega
    obtain ⟨lx, tail, hlx, hA, hO, _, _⟩ := lexemes_head v
    rw [h1, streamLoop, elemsLexemes]
    cases first with
    | true =>
      subst h0
      simp only [if_true, List.nil_append, List.append_assoc]
      have hmore : Decoder.More ⟨v.lexemes ++ (elemsLexemes false es' ++ Lexeme.endArray :: rest),
          TokenState.tokenArrayStart, st, false⟩ = true := by
        rw [hlx]
        cases lx <;> first | exact absurd rfl hA | exact absurd rfl hO | rfl
      rw [if_pos hmore]
      simp only [streamTurn, readValue_first_elem]
      simp only [List.map_cons, messageItem]
      cases unmarshalMessage v Message.zero <;>
        simp only [ih false TokenState.tokenArrayComma rfl rest st turns]
    | false =>
      subst h0
      simp only [Bool.false_eq_true, if_false, List.singleton_append, List.cons_append,
        List.append_assoc, List.nil_append]
      have hmore : Decoder.More ⟨Lexeme.comma ::
          (v.lexemes ++ (elemsLexemes false es' ++ Lexeme.endArray :: rest)),
          TokenState.tokenArrayComma, st, false⟩ = true := rfl
      rw [if_pos hmore]
      simp only [streamTurn, readValue_next_elem]
      simp only [List.map_cons, messageItem]
      cases unmarshalMessage v Message.zero <;>
        simp only [ih false TokenState.tokenArrayComma rfl rest st turns]

/-- A turn of the first loop of `StreamMessages` on a token that changes
nothing but the depth: a brace, or a token that is neither a bracket nor, at
depth 1, the string `messages`. -/
theorem navigateLoop_plain (fuel : Nat) (found : Bool) (d d' : Int) (decoder decoder' : Decoder)
    (t : Token) (hT : decoder.Token = (TokenResult.token t, decoder'))
    (ht : (t = Token.delim '{' ∧ d' = d + 1) ∨ (t = Token.delim '}' ∧ d' = d - 1) ∨
      (d' = d ∧ t ≠ Token.delim '{' ∧ t ≠ Token.delim '}' ∧ t ≠ Token.delim '[' ∧
        (d = 1 → t ≠ Token.string "messages"))) :
    navigateLoop (fuel + 1) found d decoder = navigateLoop fuel found d' decoder' := by
  rw [navigateLoop, hT]
  rcases ht with ⟨rfl, rfl⟩ | ⟨rfl, rfl⟩ | ⟨rfl, h1, h2, h3, h4⟩
  · simp only [if_true]
  · simp only [Char.reduceEq, if_false, if_true]
  · cases t with
    | delim c =>
      have c1 : c ≠ '{' := fun e => h1 (by rw [e])
      have c2 : c ≠ '}' := fun e => h2 (by rw [e])
      have c3 : c ≠ '[' := fun e => h3 (by rw [e])
      simp only [if_neg c1, if_neg c2, if_neg c3]
    | string s =>
      have hn : ¬(d' = 1 ∧ s = "messages") := fun h => h4 h.1 (by rw [h.2])
      simp only [if_neg hn]
    | number n => rfl
    | bool b => rfl
    | null => rfl

/-- A turn of the first loop of `StreamMessages` on the opening bracket of an
array, before the string `messages` has been met: `skipArray` skips it. -/
theorem navigateLoop_array (fuel : Nat) (d : Int) (decoder decoder' decoder'' : Decoder)
    (hT : decoder.Token = (TokenResult.token (Token.delim '['), decoder'))
    (hskip : skipArray decoder' = some (true, decoder'')) :
    navigateLoop (fuel + 1) false d decoder = navigateLoop fuel false d decoder'' := by
  rw [navigateLoop, hT]
  simp only [Char.reduceEq, if_false, if_true, Bool.false_eq_true, hskip]

theorem navigateLoop_comma_object (fuel : Nat) (found : Bool) (d : Int) (inp : List Lexeme)
    (st : List TokenState) (e : Bool) :
    navigateLoop fuel found d ⟨Lexeme.comma :: inp, TokenState.tokenObjectComma, st, e⟩ =
      navigateLoop fuel found d ⟨inp, TokenState.tokenObjectKey, st, e⟩ := by
  cases fuel with
  | zero => rfl
  | succ n =>
    rw [navigateLoop, navigateLoop]
    simp only [Token_comma_object]

theorem navigateLoop_colon (fuel : Nat) (found : Bool) (d : Int) (inp : List Lexeme)
    (st : List TokenState) (e : Bool) :
    navigateLoop fuel found d ⟨Lexeme.colon :: inp, TokenState.tokenObjectColon, st, e⟩ =
      navigateLoop fuel found d ⟨inp, TokenState.tokenObjectValue, st, e⟩ := by
  cases fuel with
  | zero => rfl
  | succ n =>
    rw [navigateLoop, navigateLoop]
    simp only [Token_colon]

mutual
/-- In the first loop of `StreamMessages`, before the string `messages` has
been met, a JSON value that is not that string at depth 1 is passed without
effect: an array is skipped, an object is walked through. -/
theorem navigateLoop_value (v : JSON) (rest : List Lexeme) (s : TokenState)
    (st : List TokenState) (d : Int) (fuel : Nat)
    (hf : v.numbersFit = true) (hs : tokenValueAllowed s = true)
    (hd : (∃ ms, v = JSON.obj ms) → 1 ≤ d)
    (hv : d = 1 → v ≠ JSON.str "messages") :
    navigateLoop (fuel + v.loopCount) false d ⟨v.lexemes ++ rest, s, st, false⟩ =
      navigateLoop fuel false d ⟨rest, tokenValueEnd s, st, false⟩ := by
  match v with
  | JSON.null =>
    exact navigateLoop_plain fuel false d d _ _ _
      (Token_scalar JSON.null rest s st ⟨by simp, by simp⟩ hf hs)
      (Or.inr (Or.inr ⟨rfl, by simp [scalarToken]⟩))
  | JSON.bool b =>
    exact navigateLoop_plain fuel false d d _ _ _
      (Token_scalar (JSON.bool b) rest s st ⟨by simp, by simp⟩ hf hs)
      (Or.inr (Or.inr ⟨rfl, by simp [scalarToken]⟩))
  | JSON.num n =>
    exact navigateLoop_plain fuel false d d _ _ _
      (Token_scalar (JSON.num n) rest s st ⟨by simp, by simp⟩ hf hs)
      (Or.inr (Or.inr ⟨rfl, by simp [scalarToken]⟩))
  | JSON.str x =>
    refine navigateLoop_plain fuel false d d _ _ _
      (Token_scalar (JSON.str x) rest s st ⟨by simp, by simp⟩ hf hs)
      (Or.inr (Or.inr ⟨rfl, by simp [scalarToken], by simp [scalarToken],
        by simp [scalarToken], ?_⟩))
    intro h1
    have := hv h1
    simp only [scalarToken, ne_eq, Token.string.injEq]
    simp only [ne_eq, JSON.str.injEq] at this
    exact this
  | JSON.arr es =>
    have hc : (JSON.arr es).loopCount = 1 := by simp [JSON.loopCount]
    rw [hc, JSON.lexemes, List.cons_append, List.append_assoc, List.singleton_append]
    exact navigateLoop_array fuel d _ _ _ (Token_beginArray _ _ _ hs)
      (skipArray_elems es rest s st (by rw [JSON.numbersFit] at hf; exact hf))
  | JSON.obj ms =>
    have hd := hd ⟨ms, rfl⟩
    have h1 : fuel + (JSON.obj ms).loopCount = (fuel + 1 + membersLoopCount ms) + 1 := by
      rw [JSON.loopCount]; omega
    rw [h1, JSON.lexemes, List.cons_append, List.append_assoc, List.singleton_append,
      navigateLoop_plain _ false d (d + 1) _ _ _ (Token_beginObject _ _ _ hs)
        (Or.inl ⟨rfl, rfl⟩)]
    rw [navigateLoop_members ms true TokenState.tokenObjectStart rfl
      (Lexeme.endObject :: rest) (s :: st) (d + 1) (fuel + 1)
      (by rw [JSON.numbersFit] at hf; exact hf) (by omega) (fun h => absurd h (by omega)),
      navigateLoop_plain _ false (d + 1) d _ _ _
        (Token_endObject _ _ _ _ (by cases ms.isEmpty <;> simp))
        (Or.inr (Or.inl ⟨rfl, by omega⟩))]
/-- The members of an object in the first loop of `StreamMessages`, before
the string `messages` has been met: at depth 1 no key and no value of them is
that string. -/
theorem navigateLoop_members (ms : List (String × JSON)) (first : Bool) (s0 : TokenState)
    (h0 : s0 = if first then TokenState.tokenObjectStart else TokenState.tokenObjectComma)
    (rest : List Lexeme) (st : List TokenState) (d : Int) (fuel : Nat)
    (hf : membersFit ms = true) (hd : 1 ≤ d)
    (hk : d = 1 → ∀ m ∈ ms, m.1 ≠ "messages" ∧ m.2 ≠ JSON.str "messages") :
    navigateLoop (fuel + membersLoopCount ms) false d
        ⟨membersLexemes first ms ++ rest, s0, st, false⟩ =
      navigateLoop fuel false d
        ⟨rest, if ms.isEmpty then s0 else TokenState.tokenObjectComma, st, false⟩ := by
  match ms with
  | [] => simp [membersLoopCount, membersLexemes]
  | (k, v) :: ms' =>
    have h1 : fuel + membersLoopCount ((k, v) :: ms') =
        ((fuel + membersLoopCount ms') + v.loopCount) + 1 := by
      rw [membersLoopCount]; omega
    rw [membersFit, Bool.and_eq_true] at hf
    have hrest := navigateLoop_members ms' false TokenState.tokenObjectComma rfl rest st d
      fuel hf.2 hd (fun h m hm => hk h m (List.mem_cons_of_mem _ hm))
    simp only [ite_self] at hrest
    have hkey : ∀ t : Token, t = Token.string k →
        (d = d ∧ t ≠ Token.delim '{' ∧ t ≠ Token.delim '}' ∧ t ≠ Token.delim '[' ∧
          (d = 1 → t ≠ Token.string "messages")) := by
      rintro t rfl
      refine ⟨rfl, by simp, by simp, by simp, fun h => ?_⟩
      have := (hk h (k, v) (List.mem_cons_self _ _)).1
      simpa using this
    have hval : d = 1 → v ≠ JSON.str "messages" := fun h =>
      (hk h (k, v) (List.mem_cons_self _ _)).2
    rw [h1, membersLexemes]
    simp only [List.isEmpty_cons, Bool.false_eq_true, if_false]
    cases first with
    | true =>
      subst h0
      simp only [if_true, List.nil_append, List.cons_append, List.append_assoc]
      rw [navigateLoop_plain _ false d d _ _ _ (Token_key _ _ _ _ (Or.inl rfl))
        (Or.inr (Or.inr (hkey _ rfl)))]
      rw [navigateLoop_colon,
        navigateLoop_value v _ TokenState.tokenObjectValue _ _ _ hf.1 rfl
          (fun _ => hd) hval]
      exact hrest
    | false =>
      subst h0
      simp only [Bool.false_eq_true, if_false, List.singleton_append, List.cons_append,
        List.append_assoc, List.nil_append]
      rw [navigateLoop_comma_object,
        navigateLoop_plain _ false d d _ _ _ (Token_key _ _ _ _ (Or.inr rfl))
          (Or.inr (Or.inr (hkey _ rfl)))]
      rw [navigateLoop_colon,
        navigateLoop_value v _ TokenState.tokenObjectValue _ _ _ hf.1 rfl
          (fun _ => hd) hval]
      exact hrest
end

theorem membersLexemes_append (pre ms : List (String × JSON)) :
    ∀ first : Bool, membersLexemes first (pre ++ ms) =
      membersLexemes first pre ++ membersLexemes (first && pre.isEmpty) ms := by
  induction pre with
  | nil => intro first; simp [membersLexemes]
  | cons m pre' ih =>
    intro first
    obtain ⟨k, v⟩ := m
    rw [List.cons_append, membersLexemes, membersLexemes, ih false]
    simp

/-- The two turns of the first loop of `StreamMessages` on the key
`messages` at depth 1 and on the opening bracket after it. -/
theorem navigateLoop_messages_key (fuel : Nat) (found : Bool) (inp : List Lexeme)
    (s : TokenState) (st : List TokenState)
    (h : s = TokenState.tokenObjectStart ∨ s = TokenState.tokenObjectKey) :
    navigateLoop (fuel + 1 + 1) found 1
        ⟨Lexeme.string "messages" :: Lexeme.colon :: Lexeme.beginArray :: inp, s, st, false⟩ =
      some (Navigation.streamMessages
        ⟨inp, TokenState.tokenArrayStart, TokenState.tokenObjectValue :: st, false⟩) := by
  rw [navigateLoop, Token_key _ _ _ _ h]
  simp only [and_self, if_true]
  rw [navigateLoop_colon, navigateLoop, Token_beginArray inp TokenState.tokenObjectValue st rfl]
  simp

/-- The first loop of `StreamMessages` on the text of an object that has a
member `messages` holding an array, when no member before it has the key
`messages` or holds the string `messages`: the loop is left at the opening
bracket of that array. -/
theorem navigateLoop_messages_array (pre post : List (String × JSON)) (elems : List JSON)
    (hfit : membersFit pre = true)
    (hpre : ∀ m ∈ pre, m.1 ≠ "messages" ∧ m.2 ≠ JSON.str "messages") (fuel : Nat)
    (hfuel : membersLoopCount pre + 3 ≤ fuel) :
    navigateLoop fuel false 0
        (NewDecoder (JSON.obj (pre ++ ("messages", JSON.arr elems) :: post)).lexemes) =
      some (Navigation.streamMessages
        ⟨elemsLexemes true elems ++
            Lexeme.endArray :: (membersLexemes false post ++ [Lexeme.endObject]),
          TokenState.tokenArrayStart, [TokenState.tokenObjectValue, TokenState.tokenTopValue],
          false⟩) := by
  obtain ⟨f, rfl⟩ : ∃ f, fuel = ((f + 1 + 1) + membersLoopCount pre) + 1 :=
    ⟨fuel - membersLoopCount pre - 3, by omega⟩
  unfold NewDecoder
  rw [JSON.lexemes, membersLexemes_append,
    navigateLoop_plain _ false 0 1 _ _ _ (Token_beginObject _ TokenState.tokenTopValue [] rfl)
      (Or.inl ⟨rfl, rfl⟩),
    List.append_assoc,
    navigateLoop_members pre true TokenState.tokenObjectStart rfl _ _ 1 _ hfit (le_refl _)
      (fun _ => hpre)]
  cases hp : pre.isEmpty with
  | true =>
    simp only [Bool.and_self, membersLexemes, JSON.lexemes, if_true, List.nil_append,
      List.cons_append, List.append_assoc, List.singleton_append]
    exact navigateLoop_messages_key f false _ _ _ (Or.inl rfl)
  | false =>
    simp only [Bool.and_false, membersLexemes, JSON.lexemes, Bool.false_eq_true, if_false,
      List.nil_append, List.cons_append, List.append_assoc, List.singleton_append]
    rw [navigateLoop_comma_object]
    exact navigateLoop_messages_key f false _ _ _ (Or.inr rfl)

/-- On the text of an export, an object with a member `messages` that holds
an array, `StreamMessages` sends one item for each element of that array, in
the order of the array, the message an element decodes to or an error, and
closes the channel, when no member before `messages` has the key `messages`
or holds the string `messages`, the numbers of these members are in the
range of `float64`, and the elements are nested no deeper than the scanner
of Go allows (a limit the model of the scanner leaves out).  Nothing of the
members before and after `messages` is sent. -/
theorem StreamMessages_messages_array (pre post : List (String × JSON)) (elems : List JSON)
    (hfit : membersFit pre = true)
    (hpre : ∀ m ∈ pre, m.1 ≠ "messages" ∧ m.2 ≠ JSON.str "messages")
    (_hdepth : ∀ e ∈ elems, e.depth ≤ maxNestingDepth) (turns : Nat) :
    (Parser.New (JSON.obj (pre ++ ("messages", JSON.arr elems) :: post)).lexemes).StreamMessages
        (elems.length + 1 + turns) =
      some (elems.map messageItem, true) := by
  have hle := membersLoopCount_le_lexemes pre true
  have hfuel : membersLoopCount pre + 3 ≤
      (JSON.obj (pre ++ ("messages", JSON.arr elems) :: post)).lexemes.length + 2 := by
    rw [JSON.lexemes, membersLexemes_append]
    simp only [List.length_cons, List.length_append, List.length_singleton, membersLexemes]
    omega
  unfold Parser.StreamMessages
  simp only [Parser.New]
  rw [navigateLoop_messages_array pre post elems hfit hpre _ hfuel]
  simp only
  rw [streamLoop_elems elems true TokenState.tokenArrayStart rfl _ _ turns]

/-- The general statement at the document of `TestParser_StreamMessages_Basic`. -/
theorem StreamMessages_messages_array_test :
    (Parser.New testStreamDocument.lexemes).StreamMessages 3 =
      some ([ParseResult.message testStreamFirst, ParseResult.message testStreamSecond],
        true) :=
  (StreamMessages_messages_array
    [("name", JSON.str "Test Chat"), ("type", JSON.str "private_group"), ("id", JSON.num "123")]
    []
    [JSON.obj [("id", JSON.num "1"), ("type", JSON.str "message"),
        ("date", JSON.str "2024-01-15T14:30:00"), ("from", JSON.str "Иван"),
        ("text", JSON.str "Привет!")],
      JSON.obj [("id", JSON.num "2"), ("type", JSON.str "message"),
        ("date", JSON.str "2024-01-15T14:31:00"), ("from", JSON.str "Мария"),
        ("text", JSON.str "Привет! Как дела?")]]
    (by decide)
    (by
      intro m hm
      simp only [List.mem_cons, List.mem_singleton, List.not_mem_nil, or_false] at hm
      rcases hm with rfl | rfl | rfl <;> simp)
    (by
      intro e he
      simp only [List.mem_cons, List.mem_singleton, List.not_mem_nil, or_false] at he
      rcases he with rfl | rfl <;> simp [JSON.depth, membersDepth, maxNestingDepth])
    0).trans (by rfl)

/-! ### The first loop of `StreamMessages` ends -/

/-- `Token` reads forward: the input left is no longer than before, and
shorter when a token is returned. -/
theorem tokenLoop_length (input : List Lexeme) :
    ∀ (s : TokenState) (st : List TokenState) (e : Bool) (r : TokenResult) (d : Decoder),
      tokenLoop input s st e = (r, d) →
      d.input.length ≤ input.length ∧
        ∀ t, r = TokenResult.token t → d.input.length < input.length := by
  induction input with
  | nil =>
    intro s st e r d h
    simp only [tokenLoop, Prod.mk.injEq] at h
    obtain ⟨rfl, rfl⟩ := h
    simp
  | cons lx rest ih =>
    intro s st e r d h
    have hrec : ∀ s', tokenLoop rest s' st e = (r, d) →
        d.input.length ≤ (lx :: rest).length ∧
          ∀ t, r = TokenResult.token t → d.input.length < (lx :: rest).length := by
      intro s' h'
      have := ih s' st e r d h'
      simp only [List.length_cons]
      exact ⟨by omega, fun t ht => by have := this.2 t ht; omega⟩
    cases lx <;> simp only [tokenLoop] at h
    all_goals (try split at h)
    all_goals (try split at h)
    all_goals (try split at h)
    all_goals first
      | exact hrec _ h
      | (simp only [Prod.mk.injEq] at h
         obtain ⟨rfl, rfl⟩ := h
         simp)

theorem Token_length (d : Decoder) (r : TokenResult) (d' : Decoder)
    (h : d.Token = (r, d')) :
    d'.input.length ≤ d.input.length ∧
      ∀ t, r = TokenResult.token t → d'.input.length < d.input.length :=
  tokenLoop_length d.input d.tokenState d.tokenStack d.err r d' h

/-- With fuel for every element of the input, the loop of `skipArray`
ends, and it reads forward. -/
theorem skipArrayLoop_total (fuel : Nat) :
    ∀ (depth : Int) (d : Decoder), d.input.length + 1 ≤ fuel →
      ∃ ok d', skipArrayLoop fuel depth d = some (ok, d') ∧
        d'.input.length ≤ d.input.length := by
  induction fuel with
  | zero => intro depth d h; omega
  | succ n ih =>
    intro depth d h
    rw [skipArrayLoop]
    by_cases hd : depth > 0
    · rw [if_pos hd]
      rcases hT : d.Token with ⟨r, d1⟩
      have hlen := Token_length d r d1 hT
      cases r with
      | token t =>
        have hlt := hlen.2 t rfl
        simp only
        split_ifs
        · obtain ⟨ok, d', h1, h2⟩ := ih (depth + 1) d1 (by omega)
          exact ⟨ok, d', h1, by omega⟩
        · obtain ⟨ok, d', h1, h2⟩ := ih (depth - 1) d1 (by omega)
          exact ⟨ok, d', h1, by omega⟩
        · obtain ⟨ok, d', h1, h2⟩ := ih depth d1 (by omega)
          exact ⟨ok, d', h1, by omega⟩
      | eof => exact ⟨false, d1, rfl, hlen.1⟩
      | error => exact ⟨false, d1, rfl, hlen.1⟩
    · rw [if_neg hd]
      exact ⟨true, d, rfl, le_refl _⟩

/-- The first loop of `StreamMessages` ends on every input: with fuel for
every element of the input it returns or reaches the label. -/
theorem navigateLoop_total (fuel : Nat) :
    ∀ (found : Bool) (depth : Int) (d : Decoder), d.input.length + 1 ≤ fuel →
      ∃ r, navigateLoop fuel found depth d = some r := by
  induction fuel with
  | zero => intro found depth d h; omega
  | succ n ih =>
    intro found depth d h
    rw [navigateLoop]
    rcases hT : d.Token with ⟨r, d1⟩
    have hlen := Token_length d r d1 hT
    cases r with
    | eof => exact ⟨_, rfl⟩
    | error => exact ⟨_, rfl⟩
    | token t =>
      have hlt := hlen.2 t rfl
      cases t with
      | delim c =>
        simp only
        split_ifs with h1 h2 h3 h4
        · exact ih _ _ d1 (by omega)
        · exact ih _ _ d1 (by omega)
        · exact ⟨_, rfl⟩
        · obtain ⟨ok, d2, hs, hle⟩ := skipArrayLoop_total (d1.input.length + 2) 1 d1 (by omega)
          unfold skipArray
          rw [hs]
          cases ok with
          | true => exact ih _ _ d2 (by omega)
          | false => exact ⟨_, rfl⟩
        · exact ih _ _ d1 (by omega)
      | string s =>
        simp only
        split_ifs
        · exact ih _ _ d1 (by omega)
        · exact ih _ _ d1 (by omega)
      | number x => exact ih _ _ d1 (by omega)
      | bool b => exact ih _ _ d1 (by omega)
      | null => exact ih _ _ d1 (by omega)

/-- `StreamMessages` is defined for every file and every number of turns:
the fuel of its first loop is enough. -/
theorem StreamMessages_total (p : Parser) (turns : Nat) :
    ∃ r, p.StreamMessages turns = some r := by
  obtain ⟨r, hr⟩ := navigateLoop_total (p.file.length + 2) false 0 (NewDecoder p.file)
    (by simp [NewDecoder])
  unfold Parser.StreamMessages
  rw [hr]
  cases r with
  | returned items => exact ⟨_, rfl⟩
  | streamMessages decoder => exact ⟨_, rfl⟩

/-! ### When the second loop of `StreamMessages` ends -/

/-- The scanner reads forward: what it leaves is shorter than its input. -/
theorem scan_length (fuel : Nat) :
    (∀ input v rest, scanValue fuel input = some (v, rest) → rest.length < input.length) ∧
    (∀ input es rest, scanElems fuel input = some (es, rest) → rest.length < input.length) ∧
    (∀ input ms rest, scanMembers fuel input = some (ms, rest) →
      rest.length < input.length) := by
  induction fuel with
  | zero =>
    refine ⟨?_, ?_, ?_⟩ <;> intro input x rest h
    · simp [scanValue] at h
    · simp [scanElems] at h
    · simp [scanMembers] at h
  | succ n ih =>
    obtain ⟨ihv, ihe, ihm⟩ := ih
    refine ⟨?_, ?_, ?_⟩
    · intro input v rest h
      cases input with
      | nil => simp [scanValue] at h
      | cons lx tl =>
        cases lx <;> simp only [scanValue] at h
        all_goals (try split at h)
        all_goals (try split at h)
        all_goals first
          | (simp only [Option.some.injEq, Prod.mk.injEq] at h
             obtain ⟨-, rfl⟩ := h
             simp only [List.length_cons]
             first
               | omega
               | (rename_i hs; have := ihe _ _ _ hs; omega)
               | (rename_i hs; have := ihm _ _ _ hs; omega))
          | simp at h
    · intro input es rest h
      rw [scanElems] at h
      split at h
      · rename_i v r hv
        have h1 := ihv _ _ _ hv
        split at h
        · rename_i es' r' he
          have h2 := ihe _ _ _ he
          simp only [Option.some.injEq, Prod.mk.injEq] at h
          obtain ⟨-, rfl⟩ := h
          simp only [List.length_cons] at h1
          omega
        · simp at h
      · rename_i v r hv
        have h1 := ihv _ _ _ hv
        simp only [Option.some.injEq, Prod.mk.injEq] at h
        obtain ⟨-, rfl⟩ := h
        simp only [List.length_cons] at h1
        omega
      · simp at h
    · intro input ms rest h
      simp only [scanMembers] at h
      split at h
      · rename_i k inp
        split at h
        · rename_i v r hv
          have h1 := ihv _ _ _ hv
          split at h
          · rename_i ms' r' hm
            have h2 := ihm _ _ _ hm
            simp only [Option.some.injEq, Prod.mk.injEq] at h
            obtain ⟨-, rfl⟩ := h
            simp only [List.length_cons] at h1 ⊢
            omega
          · simp at h
        · rename_i v r hv
          have h1 := ihv _ _ _ hv
          simp only [Option.some.injEq, Prod.mk.injEq] at h
          obtain ⟨-, rfl⟩ := h
          simp only [List.length_cons] at h1 ⊢
          omega
        · simp at h
      · simp at h

theorem streamLoop_more (k : Nat) (d : Decoder) (hmore : d.More = true) :
    streamLoop (k + 1) d =
      ((streamTurn d).1 :: (streamLoop k (streamTurn d).2).1,
        (streamLoop k (streamTurn d).2).2) := by
  rw [streamLoop, if_pos hmore]

theorem streamLoop_done (k : Nat) (d : Decoder) (hmore : d.More = false) :
    streamLoop (k + 1) d = ([], true) := by
  rw [streamLoop, if_neg (by simp [hmore])]

/-- A decoder in front of an element on which `Decode` fails and leaves the
decoder as it is: every turn of the loop sends one more error item, and the
loop does not end. -/
theorem streamLoop_stuck (d : Decoder) (hmore : d.More = true)
    (hturn : streamTurn d = (ParseResult.error StreamError.decodeMessage, d)) (turns : Nat) :
    streamLoop turns d =
      (List.replicate turns (ParseResult.error StreamError.decodeMessage), false) := by
  induction turns with
  | zero => rfl
  | succ n ih => rw [streamLoop_more n d hmore, hturn]; simp only [ih, List.replicate_succ]

/-- When `Decode` reads a value, the input left is shorter. -/
theorem readValue_some_length (d : Decoder) (v : JSON) (d' : Decoder)
    (h : d.readValue = (some v, d')) : d'.input.length < d.input.length := by
  obtain ⟨input, s, st, e⟩ := d
  have hscan := fun fuel => (scan_length fuel).1
  cases e with
  | true => simp [Decoder.readValue] at h
  | false =>
    by_cases hcomma : s = TokenState.tokenObjectComma
    · subst hcomma
      simp only [Decoder.readValue, Bool.false_eq_true, if_false, if_true] at h
      split at h
      · simp only [Prod.mk.injEq, Option.some.injEq] at h
        obtain ⟨-, rfl⟩ := h
        simp only [List.length_cons]
        omega
      · simp at h
    · simp only [Decoder.readValue, Bool.false_eq_true, if_false, if_neg hcomma] at h
      rcases input with _ | ⟨lx, tl⟩
      · cases s <;> simp [tokenValueAllowed, scanValue] at h
      · cases s <;> cases lx <;> simp only [Bool.false_eq_true, if_false,
          tokenValueAllowed, Bool.not_true, Bool.not_false, if_true] at h
        all_goals (try split at h)
        all_goals first
          | (simp only [Prod.mk.injEq, Option.some.injEq] at h
             obtain ⟨-, rfl⟩ := h
             rename_i hs
             have := hscan _ _ _ _ hs
             simp only [List.length_cons] at this ⊢
             omega)
          | simp at h

/-- When `Decode` fails to read a value, it leaves the decoder as it is or
with its sticky error set. -/
theorem readValue_none_cases (d : Decoder) (d' : Decoder)
    (h : d.readValue = (none, d')) : d' = d ∨ d'.err = true := by
  obtain ⟨input, s, st, e⟩ := d
  cases e with
  | true =>
    left
    simp only [Decoder.readValue, if_true, Prod.mk.injEq, true_and] at h
    exact h.symm
  | false =>
    by_cases hcomma : s = TokenState.tokenObjectComma
    · subst hcomma
      simp only [Decoder.readValue, Bool.false_eq_true, if_false, if_true] at h
      split at h
      · simp at h
      · simp only [Prod.mk.injEq, true_and] at h
        subst h
        right; rfl
    · simp only [Decoder.readValue, Bool.false_eq_true, if_false, if_neg hcomma] at h
      rcases input with _ | ⟨lx, tl⟩
      · cases s <;> simp only [Bool.false_eq_true, if_false,
          tokenValueAllowed, Bool.not_true, Bool.not_false, if_true, scanValue, List.length_nil,
          Prod.mk.injEq, true_and] at h
        all_goals
          subst h
          first
            | (left; rfl)
            | (right; rfl)
      · cases s <;> cases lx <;> simp only [Bool.false_eq_true, if_false,
          tokenValueAllowed, Bool.not_true, Bool.not_false, if_true] at h
        all_goals (try split at h)
        all_goals first
          | (simp only [Prod.mk.injEq, true_and] at h
             subst h
             first
               | (left; rfl)
               | (right; rfl))
          | simp at h

/-- The second loop of `StreamMessages` either ends, after it has sent
finitely many items, or goes on for ever, sending an error item on every turn
from some turn on: that is the case when `Decode` cannot read an element and
`More()` still holds afterwards. -/
theorem streamLoop_ends_or_repeats (n : Nat) :
    ∀ d : Decoder, d.input.length ≤ n →
      (∃ items, ∀ turns, streamLoop (items.length + 1 + turns) d = (items, true)) ∨
      (∃ items, ∀ turns, streamLoop (items.length + turns) d =
        (items ++ List.replicate turns (ParseResult.error StreamError.decodeMessage), false)) := by
  induction n with
  | zero =>
    intro d hd
    left
    refine ⟨[], fun turns => ?_⟩
    have hmore : d.More = false := by
      have : d.input = [] := List.length_eq_zero.1 (by omega)
      simp [Decoder.More, this]
    have h1 : ([] : List ParseResult).length + 1 + turns = turns + 1 := by simp; omega
    rw [h1, streamLoop_done _ _ hmore]
  | succ m ih =>
    intro d hd
    by_cases hmore : d.More = true
    · rcases hrv : d.readValue with ⟨_ | raw, d'⟩
      · have hturn : streamTurn d = (ParseResult.error StreamError.decodeMessage, d') := by
          simp only [streamTurn, hrv]
        rcases readValue_none_cases d d' hrv with rfl | herr
        · right
          refine ⟨[], fun turns => ?_⟩
          simp only [List.length_nil, Nat.zero_add, List.nil_append]
          exact streamLoop_stuck d' hmore hturn turns
        · by_cases hmore' : d'.More = true
          · right
            refine ⟨[ParseResult.error StreamError.decodeMessage], fun turns => ?_⟩
            have h1 : [ParseResult.error StreamError.decodeMessage].length + turns = turns + 1 := by
              simp; omega
            rw [h1, streamLoop_more _ _ hmore, hturn]
            simp only [streamLoop_sticky d' hmore' herr turns, List.singleton_append]
          · left
            refine ⟨[ParseResult.error StreamError.decodeMessage], fun turns => ?_⟩
            have h1 : [ParseResult.error StreamError.decodeMessage].length + 1 + turns =
                (turns + 1) + 1 := by simp; omega
            rw [h1, streamLoop_more _ _ hmore, hturn]
            simp only [streamLoop_done _ _ (by simpa using hmore')]
      · have hlen := readValue_some_length d raw d' hrv
        have hturn : streamTurn d = (messageItem raw, d') := by
          simp only [streamTurn, hrv, messageItem]
          cases unmarshalMessage raw Message.zero <;> rfl
        rcases ih d' (by omega) with ⟨items, h⟩ | ⟨items, h⟩
        · left
          refine ⟨messageItem raw :: items, fun turns => ?_⟩
          have h1 : (messageItem raw :: items).length + 1 + turns =
              (items.length + 1 + turns) + 1 := by simp only [List.length_cons]; omega
          rw [h1, streamLoop_more _ _ hmore, hturn]
          simp only [h turns]
        · right
          refine ⟨messageItem raw :: items, fun turns => ?_⟩
          have h1 : (messageItem raw :: items).length + turns = (items.length + turns) + 1 := by
            simp only [List.length_cons]; omega
          rw [h1, streamLoop_more _ _ hmore, hturn]
          simp only [h turns, List.cons_append]
    · left
      refine ⟨[], fun turns => ?_⟩
      have h1 : ([] : List ParseResult).length + 1 + turns = turns + 1 := by simp; omega
      rw [h1, streamLoop_done _ _ (by simpa using hmore)]

/-! ## The sanitizer: idempotence, the empty name -/

/-- A text in which no underscore follows an underscore is left as it is by
the collapse of the runs of underscores. -/
theorem multipleUnderscoresReplaceAll_of_chain :
    ∀ (l : List Char) (b : Bool),
      List.Chain' (fun a c => ¬(a = Char.ofNat 95 ∧ c = Char.ofNat 95)) l →
      (b = true → ∀ c ∈ l.head?, c ≠ Char.ofNat 95) →
      multipleUnderscoresReplaceAll [Char.ofNat 95] b l = l
  | [], b, _, _ => by simp [multipleUnderscoresReplaceAll]
  | r :: rest, b, hc, hb => by
    unfold multipleUnderscoresReplaceAll
    have hrest := List.Chain'.tail hc
    by_cases e : r = Char.ofNat 95
    · have hbf : b = false := by
        cases b with
        | false => rfl
        | true => exact absurd e (hb rfl r (by simp))
      subst hbf
      rw [if_pos e, if_neg (by simp), List.singleton_append, e,
        multipleUnderscoresReplaceAll_of_chain rest true hrest]
      intro _ c hcm
      cases rest with
      | nil => simp at hcm
      | cons y ys =>
        simp only [List.head?_cons, Option.mem_def, Option.some.injEq] at hcm
        subst hcm
        rw [List.chain'_cons] at hc
        exact fun hy => hc.1 ⟨e, hy⟩
    · rw [if_neg e, multipleUnderscoresReplaceAll_of_chain rest false hrest (by simp)]

/-- A text that neither begins nor ends with the rune to cut is left as it
is by `strings.Trim`. -/
theorem stringsTrim_of_ends (l : List Char) (cut : Char) (hh : l.head? ≠ some cut)
    (hl : l.getLast? ≠ some cut) : stringsTrim l cut = l := by
  unfold stringsTrim
  have h1 : (l.rdropWhile fun r => decide (r = cut)) = l := by
    rw [List.rdropWhile_eq_self_iff]
    intro hne
    have : l.getLast hne ≠ cut := fun e => hl (by rw [List.getLast?_eq_getLast _ hne, e])
    simpa using this
  rw [h1, List.dropWhile_eq_self_iff]
  intro hne
  have : l.get ⟨0, hne⟩ ≠ cut := by
    intro e
    apply hh
    cases l with
    | nil => simp at hne
    | cons a t => simpa using e
  simpa using this

/-- The shape of a sanitized name: no space, no special character, no
underscore after an underscore, none at its ends. -/
theorem SanitizeName_shape (s : String) :
    (∀ c ∈ (SanitizeName s).data, c ≠ Char.ofNat 32) ∧
    (∀ c ∈ (SanitizeName s).data, specialCharsPattern c = false) ∧
    List.Chain' (fun a c => ¬(a = Char.ofNat 95 ∧ c = Char.ofNat 95)) (SanitizeName s).data ∧
    (SanitizeName s).data.head? ≠ some (Char.ofNat 95) ∧
    (SanitizeName s).data.getLast? ≠ some (Char.ofNat 95) := by
  refine ⟨fun c hc => (mem_SanitizeName hc).2.1, fun c hc => (mem_SanitizeName hc).2.2,
    ?_, ?_, ?_⟩
  · have hcollapsed := (multipleUnderscoresReplaceAll_chain
      (classReplaceAllString specialCharsPattern
        (stringsReplaceAll s.data (Char.ofNat 32) [Char.ofNat 95]) [Char.ofNat 95]) false).1
    exact List.Chain'.infix hcollapsed (stringsTrim_contiguous _ (Char.ofNat 95))
  · intro h
    exact stringsTrim_head _ (Char.ofNat 95) _ (Option.mem_def.2 h) rfl
  · intro h
    exact stringsTrim_getLast _ (Char.ofNat 95) _ (Option.mem_def.2 h) rfl

/-- C31: `SanitizeName` is idempotent: for every name `s`,
`SanitizeName(SanitizeName(s)) = SanitizeName(s)`. -/
theorem SanitizeName_idempotent (s : String) :
    SanitizeName (SanitizeName s) = SanitizeName s := by
  obtain ⟨hsp, hcls, hchain, hhead, hlast⟩ := SanitizeName_shape s
  generalize SanitizeName s = r at *
  unfold SanitizeName
  simp only
  rw [stringsReplaceAll_id _ _ _ hsp, classReplaceAllString_id _ _ _ hcls,
    multipleUnderscoresReplaceAll_of_chain _ _ hchain (by simp),
    stringsTrim_of_ends _ _ hhead hlast]

/-- The code points that are not a space, an underscore or a special
character are the same in `SanitizeName s` and in `s`, in the same order. -/
theorem filter_SanitizeName (s : String) :
    ((SanitizeName s).data.filter fun c =>
        decide (c.toNat ∉ [32, 95, 47, 92, 58, 42, 63, 34, 60, 62, 124])) =
      (s.data.filter fun c =>
        decide (c.toNat ∉ [32, 95, 47, 92, 58, 42, 63, 34, 60, 62, 124])) := by
  unfold SanitizeName
  have hus : (fun c : Char =>
      decide (c.toNat ∉ [32, 95, 47, 92, 58, 42, 63, 34, 60, 62, 124])) (Char.ofNat 95)
        = false := by decide
  have hsp : (fun c : Char =>
      decide (c.toNat ∉ [32, 95, 47, 92, 58, 42, 63, 34, 60, 62, 124])) (Char.ofNat 32)
        = false := by decide
  have hrepl : ∀ c ∈ [Char.ofNat 95], (fun c : Char =>
      decide (c.toNat ∉ [32, 95, 47, 92, 58, 42, 63, 34, 60, 62, 124])) c = false := by
    intro c hc
    rw [List.mem_singleton] at hc
    rw [hc]
    exact hus
  show List.filter _ (stringsTrim _ _) = _
  rw [filter_stringsTrim _ _ _ hus, filter_multipleUnderscoresReplaceAll _ hus,
    filter_classReplaceAllString _ _ _ _ ?_ hrepl, filter_stringsReplaceAll _ _ _ _ hsp hrepl]
  intro c hc
  have := (specialCharsPattern_iff c).1 hc
  simp only [decide_eq_false_iff_not, not_not]
  exact List.mem_cons_of_mem _ (List.mem_cons_of_mem _ this)

/-- `SanitizeName s` is empty exactly when every code point of `s` is a
space, an underscore or a special character. -/
theorem SanitizeName_eq_empty_iff (s : String) :
    SanitizeName s = "" ↔
      ∀ c ∈ s.data, c.toNat ∈ [32, 95, 47, 92, 58, 42, 63, 34, 60, 62, 124] := by
  constructor
  · intro h c hc
    have hf := filter_SanitizeName s
    rw [h] at hf
    by_contra hn
    have : c ∈ s.data.filter fun c =>
        decide (c.toNat ∉ [32, 95, 47, 92, 58, 42, 63, 34, 60, 62, 124]) :=
      List.mem_filter.2 ⟨hc, decide_eq_true hn⟩
    rw [← hf] at this
    simp at this
  · intro h
    obtain ⟨_, _, _, hhead, _⟩ := SanitizeName_shape s
    have hall : ∀ c ∈ (SanitizeName s).data, c = Char.ofNat 95 := by
      intro c hc
      obtain ⟨hor, hsp, hcls⟩ := mem_SanitizeName hc
      rcases hor with e | hmem
      · exact e
      · have hm := h c hmem
        rw [List.mem_cons] at hm
        rcases hm with h32 | hm
        · exact absurd ((space_iff c).2 h32) hsp
        · rw [List.mem_cons] at hm
          rcases hm with h95 | hm
          · exact (underscore_iff c).2 h95
          · rw [(specialCharsPattern_iff c).2 hm] at hcls
            exact Bool.noConfusion hcls
    cases hd : (SanitizeName s).data with
    | nil =>
      apply String.ext
      rw [hd]
    | cons a t =>
      rw [hd] at hhead hall
      exact absurd (by rw [List.head?_cons, hall a (List.mem_cons_self _ _)]) hhead

/-- A separator at the end of a path that is not empty does not change what
`filepath.Clean` returns. -/
theorem filepathClean_append_slash (p : List Char) (hp : p ≠ []) :
    filepathClean (p ++ ['/']) = filepathClean p := by
  have hhead : (p ++ ['/']).head? = p.head? := by
    cases p with
    | nil => exact absurd rfl hp
    | cons a t => rfl
  have hsplit : splitSlash (p ++ ['/']) = splitSlash p ++ [[]] := by
    rw [splitSlash_append]
    rfl
  unfold filepathClean
  simp only [hhead, hsplit, List.foldl_append, List.foldl_cons, List.foldl_nil]
  have hstep : ∀ (rooted : Bool) (out : List (List Char)), cleanStep rooted out [] = out := by
    intro rooted out
    unfold cleanStep
    rw [if_pos (Or.inl rfl)]
  rw [hstep]

/-- `filepath.Join(base, "")` is `filepath.Join(base)`: the base path in its
clean form, or the empty string when the base path is empty. -/
theorem filepathJoin_empty_name (base : String) :
    filepathJoin [base, ""] = filepathJoin [base] := by
  by_cases hb : base = ""
  · subst hb
    rfl
  · have hne : base.data ≠ [] := fun e => hb (String.ext e)
    have h1 : List.dropWhile (fun e => decide (e = "")) [base, ""] = [base, ""] := by
      rw [List.dropWhile_cons_of_neg (by simpa using hb)]
    have h2 : List.dropWhile (fun e => decide (e = "")) [base] = [base] := by
      rw [List.dropWhile_cons_of_neg (by simpa using hb)]
    unfold filepathJoin
    rw [h1, h2]
    simp only [List.map_cons, List.map_nil]
    have hj : joinSlash [base.data, ("" : String).data] = base.data ++ ['/'] := rfl
    have hj1 : joinSlash [base.data] = base.data := rfl
    rw [hj, hj1, filepathClean_append_slash _ hne]

/-- After a successful `WriteMessage` on a writer that is ready, the file of
the month key of the timestamp is the open file. -/
theorem WriteMessage_currentFile (w w' : Writer) (fs fs' : FileSystem) (line : String)
    (t : Time) (hr : w.ready) (h : w.WriteMessage fs line t = some (none, w', fs')) :
    ∃ k, getMonthKey t = some k ∧
      w'.currentFile = some { path := w.monthPath k, closed := false } := by
  rcases hk : getMonthKey t with _ | k
  · unfold Writer.WriteMessage at h
    rw [hk] at h
    simp at h
  · refine ⟨k, rfl, ?_⟩
    by_cases hsame : k = w.currentMonth
    · obtain ⟨b, n, hb, hres⟩ := WriteMessage_same_month w fs line t k hk hr hsame
      rw [hres] at h
      simp only [Option.some.injEq, Prod.mk.injEq, true_and] at h
      obtain ⟨rfl, rfl⟩ := h
      obtain ⟨_, hinit | ⟨b1, hw1, hb1, hf1⟩⟩ := hr
      · rw [hinit.2.1] at hb; cases hb
      · rw [hsame]; exact hf1
    · cases hd : fs.denied (w.monthPath k) with
      | true =>
        obtain ⟨w2, fs2, hres⟩ := WriteMessage_denied w fs line t k hk hr hsame hd
        rw [hres] at h
        simp at h
      | false =>
        obtain ⟨n, hres⟩ := WriteMessage_other_month w fs line t k hk hr hsame hd
        rw [hres] at h
        simp only [Option.some.injEq, Prod.mk.injEq, true_and] at h
        obtain ⟨rfl, rfl⟩ := h
        rfl

/-- The file name `"_" + monthKey + ".md"` is a plain file name. -/
theorem underscore_name_plain (t : Time) (k : String) (hk : getMonthKey t = some k) :
    '/' ∉ ("_" ++ k ++ ".md").data ∧ ("_" ++ k ++ ".md").data ≠ [] ∧
      ("_" ++ k ++ ".md").data ≠ ['.'] ∧ ("_" ++ k ++ ".md").data ≠ ['.', '.'] := by
  have hs := (getMonthKey_chars t k hk).1
  have hd : ("_" ++ k ++ ".md").data = '_' :: (k.data ++ ['.', 'm', 'd']) := by
    simp only [String.data_append]
    rfl
  rw [hd]
  refine ⟨?_, by simp, by simp, by simp⟩
  intro hm
  rw [List.mem_cons, List.mem_append] at hm
  rcases hm with h | h | h
  · exact absurd h (by decide)
  · exact hs h
  · revert h; decide

/-- C32, as amended: `SanitizeName(s)` is the empty string if and only if
every code point of `s` is a space, an underscore or one of
`/ \ : * ? " < > |` (including `s` empty); for such a group name the output
directory of the writer is `filepath.Join(basePath)`, the base path in its
clean form, and after every successful `WriteMessage` the open file is the
file named `"_" + monthKey + ".md"` in that directory. -/
theorem SanitizeName_empty_writer :
    (∀ s : String, SanitizeName s = "" ↔
      ∀ c ∈ s.data, c.toNat ∈ [32, 95, 47, 92, 58, 42, 63, 34, 60, 62, 124]) ∧
    ∀ (fs0 : FileSystem) (basePath groupName : String) (w0 : Writer),
      SanitizeName groupName = "" → Writer.New fs0 basePath groupName = some w0 →
      w0.GetOutputDir = filepathJoin [basePath] ∧
      ∀ (earlier : List (String × Time)) (w w' : Writer) (fs fs' : FileSystem) (line : String)
        (t : Time),
        w0.writeAll fs0 earlier = some (none, w, fs) →
        w.WriteMessage fs line t = some (none, w', fs') →
        ∃ k, getMonthKey t = some k ∧
          w'.currentFile =
            some { path := filepathJoin [filepathJoin [basePath], "_" ++ k ++ ".md"],
                   closed := false } ∧
          ∃ pre : List Char,
            (filepathJoin [filepathJoin [basePath], "_" ++ k ++ ".md"]).data =
              pre ++ ("_" ++ k ++ ".md").data ∧
            (pre = [] ∨ pre.getLast? = some '/') := by
  refine ⟨SanitizeName_eq_empty_iff, ?_⟩
  intro fs0 basePath groupName w0 hempty hnew
  obtain ⟨hr0, hdir0, _, hname0, _, _⟩ := New_ready fs0 basePath groupName w0 hnew
  rw [hempty] at hdir0 hname0
  rw [filepathJoin_empty_name] at hdir0
  refine ⟨hdir0, ?_⟩
  intro earlier w w' fs fs' line t hearlier h
  obtain ⟨hr, hdir, _, hname⟩ := writeAll_ready earlier w0 w fs0 fs hr0 hearlier
  obtain ⟨k, hk, hfile⟩ := WriteMessage_currentFile w w' fs fs' line t hr h
  have hpath : w.monthPath k = filepathJoin [filepathJoin [basePath], "_" ++ k ++ ".md"] := by
    unfold Writer.monthPath
    rw [hdir, hdir0, hname, hname0]
    rfl
  rw [hpath] at hfile
  obtain ⟨h1, h2, h3, h4⟩ := underscore_name_plain t k hk
  exact ⟨k, hk, hfile, filepathJoin_name _ _ h1 h2 h3 h4⟩

/-- C32, at the group name `? ?` in the directory `/tmp`: the name is
sanitized to the empty string, the output directory is `/tmp`, and the file
of January 2024 is `/tmp/_january_2024.md`. -/
theorem SanitizeName_empty_writer_witness :
    SanitizeName "? ?" = "" ∧
    ∃ (w0 w1 : Writer) (fs1 : FileSystem),
      Writer.New testFiles "/tmp" "? ?" = some w0 ∧ w0.GetOutputDir = "/tmp" ∧
      w0.WriteMessage testFiles "a" testJanuary = some (none, w1, fs1) ∧
      w1.currentFile = some { path := "/tmp/_january_2024.md", closed := false } := by
  have hempty : SanitizeName "? ?" = "" := by decide
  obtain ⟨w0, hnew⟩ : ∃ w0, Writer.New testFiles "/tmp" "? ?" = some w0 := ⟨_, rfl⟩
  obtain ⟨w1, fs1, hw1⟩ : ∃ w1 fs1, w0.WriteMessage testFiles "a" testJanuary =
      some (none, w1, fs1) := by
    cases hnew; exact ⟨_, _, rfl⟩
  obtain ⟨hdir, hfiles⟩ := SanitizeName_empty_writer.2 testFiles "/tmp" "? ?" w0 hempty hnew
  obtain ⟨k, hk, hfile, _⟩ := hfiles [] w0 w1 testFiles fs1 "a" testJanuary rfl hw1
  have hkey : k = "january_2024" := by
    have : getMonthKey testJanuary = some "january_2024" := by decide
    rw [this] at hk
    exact (Option.some.inj hk).symm
  subst hkey
  exact ⟨hempty, w0, w1, fs1, hnew, hdir.trans (by decide), hw1, hfile.trans (by decide)⟩

/-- C32, the counterexample: for the group name `???` and the base path
`./out` the output directory is `out`, not the base path itself. -/
theorem SanitizeName_empty_writer_counterexample :
    SanitizeName "???" = "" ∧
    (Writer.New testFiles "./out" "???").map Writer.GetOutputDir = some "out" := by
  decide

/-! ## The converter: spans as a monoid, the emptiness check -/

/-- C33: `ConvertTextEntities` is a monoid homomorphism from span lists to
strings: it returns the empty string for the empty list and, for all span
lists `xs` and `ys`, the result for `xs ++ ys` is the result for `xs`
followed by the result for `ys`; its result does not depend on the reply
cache of the converter. -/
theorem ConvertTextEntities_monoid_hom :
    (∀ c : Converter, c.ConvertTextEntities [] = "") ∧
    (∀ (c : Converter) (xs ys : List TextEntity),
      c.ConvertTextEntities (xs ++ ys) =
        c.ConvertTextEntities xs ++ c.ConvertTextEntities ys) ∧
    ∀ (c c' : Converter) (xs : List TextEntity),
      c.ConvertTextEntities xs = c'.ConvertTextEntities xs :=
  ⟨fun _ => rfl, ConvertTextEntities_append, fun _ _ _ => rfl⟩

/-- The loop of `ContainsOnlyWhitespace` gives the same verdict on a text
and on the text without its invisible runes. -/
theorem containsOnlyWhitespaceLoop_filter (l : List Char) :
    containsOnlyWhitespaceLoop (l.filter fun r => !invisibleChars r) =
      containsOnlyWhitespaceLoop l := by
  induction l with
  | nil => rfl
  | cons r rest ih =>
    cases hi : invisibleChars r with
    | true =>
      rw [List.filter_cons_of_neg (by simp [hi]), ih, containsOnlyWhitespaceLoop.eq_2]
      simp [hi]
    | false =>
      rw [List.filter_cons_of_pos (by simp [hi]), containsOnlyWhitespaceLoop.eq_2,
        containsOnlyWhitespaceLoop.eq_2, ih]

/-- Sanitizing does not change the emptiness verdict. -/
theorem ContainsOnlyWhitespace_SanitizeText_eq (s : String) :
    ContainsOnlyWhitespace (SanitizeText s) = ContainsOnlyWhitespace s := by
  unfold ContainsOnlyWhitespace SanitizeText
  rw [foldl_push_filter (fun r => !invisibleChars r) s.data ""]
  show containsOnlyWhitespaceLoop ([] ++ _) = _
  rw [List.nil_append, containsOnlyWhitespaceLoop_filter]

/-- C34: sanitizing does not change the emptiness verdict: for every string
`s`, `ContainsOnlyWhitespace(SanitizeText(s)) = ContainsOnlyWhitespace(s)`;
so for a message with a date that parses, that is not a service message and
whose plain text is not the empty string, `ConvertMessage` returns the error
`empty message` exactly when `ContainsOnlyWhitespace` holds of the raw plain
text. -/
theorem ContainsOnlyWhitespace_SanitizeText :
    (∀ s : String, ContainsOnlyWhitespace (SanitizeText s) = ContainsOnlyWhitespace s) ∧
    ∀ (c : Converter) (msg : Message) (ts : String) (t : Time),
      formatTimestamp msg.Date = some (ts, t) →
      ¬(msg.Kind = "service" ∨ msg.Action ≠ "") →
      msg.Text.Plain ≠ "" →
      (c.ConvertMessage msg = some (Except.error ConvertError.emptyMessage, c) ↔
        ContainsOnlyWhitespace msg.Text.Plain = true) := by
  refine ⟨ContainsOnlyWhitespace_SanitizeText_eq, ?_⟩
  intro c msg ts t hd hs hp
  have hbody : resolvedBody c msg = SanitizeText msg.Text.Plain := by
    unfold resolvedBody
    rw [if_pos hp]
  have hcheck : ContainsOnlyWhitespace (resolvedBody c msg) =
      ContainsOnlyWhitespace msg.Text.Plain := by
    rw [hbody, ContainsOnlyWhitespace_SanitizeText_eq]
  constructor
  · intro h
    cases he : ContainsOnlyWhitespace msg.Text.Plain with
    | true => rfl
    | false =>
      rw [← hcheck] at he
      cases hr : msg.ReplyToMsgID with
      | none =>
        rw [ConvertMessage_no_reply c msg ts t hd hs he hr] at h
        simp at h
      | some replyTo =>
        obtain ⟨preview, _, hconv⟩ := ConvertMessage_reply c msg ts t replyTo hd hs he hr
        rw [hconv] at h
        simp at h
  · intro h
    exact ConvertMessage_empty c msg ts t hd hs (hcheck.trans h)

/-- C34, at the message of `TestConvertMessage_WhitespaceOnlyText_ReturnsError`:
the raw text is only whitespace, and the message is an empty message. -/
theorem ContainsOnlyWhitespace_SanitizeText_witness :
    New.ConvertMessage testWhitespaceOnlyMessage =
      some (Except.error ConvertError.emptyMessage, New) :=
  (ContainsOnlyWhitespace_SanitizeText.2 New testWhitespaceOnlyMessage "2024-01-15 14:30"
    { year := 2024, month := 1, day := 15, hour := 14, min := 30, sec := 0, nsec := 0,
      offset := 0 }
    (by rfl) (by decide) (by decide)).2 (by decide)

/-! ## The writer on a stream whose months do not come back -/

theorem mem_dropWhile_after (k k' x : String) (b tail : List String) (hne : k' ≠ k)
    (hx : x ∈ tail) : x ∈ (b ++ k' :: tail).dropWhile fun y => decide (y = k) := by
  induction b with
  | nil =>
    rw [List.nil_append, List.dropWhile_cons_of_neg (by simpa using hne)]
    exact List.mem_cons_of_mem _ hx
  | cons y b' ih =>
    by_cases hy : y = k
    · rw [List.cons_append, List.dropWhile_cons_of_pos (by simpa using hy)]
      exact ih
    · rw [List.cons_append, List.dropWhile_cons_of_neg (by simpa using hy)]
      exact List.mem_cons_of_mem _ (List.mem_append_right _ (List.mem_cons_of_mem _ hx))

/-- The month keys come month by month exactly when no month key reappears
after a different month key. -/
theorem consecutiveMonths_iff (l : List String) :
    consecutiveMonths l = true ↔
      ∀ (a b c d : List String) (k k' : String),
        l = a ++ k :: (b ++ k' :: (c ++ k :: d)) → k' = k := by
  induction l with
  | nil =>
    constructor
    · intro _ a b c d k k' h
      cases a <;> simp at h
    · intro _; rfl
  | cons x rest ih =>
    rw [consecutiveMonths, Bool.and_eq_true, decide_eq_true_iff, ih]
    constructor
    · rintro ⟨hx, hrest⟩ a b c d k k' h
      cases a with
      | nil =>
        rw [List.nil_append, List.cons.injEq] at h
        obtain ⟨rfl, rfl⟩ := h
        by_contra hne
        exact hx (mem_dropWhile_after x k' x b (c ++ x :: d) hne (by simp))
      | cons y a' =>
        rw [List.cons_append, List.cons.injEq] at h
        exact hrest a' b c d k k' h.2
    · intro h
      refine ⟨?_, fun a b c d k k' e => h (x :: a) b c d k k' (by rw [e]; rfl)⟩
      intro hx
      have hsplit := List.takeWhile_append_dropWhile (fun y => decide (y = x)) rest
      have hhead := List.head?_dropWhile_not (fun y => decide (y = x)) rest
      cases hd : rest.dropWhile (fun y => decide (y = x)) with
      | nil => rw [hd] at hx; simp at hx
      | cons k' tail =>
        rw [hd] at hx hsplit hhead
        simp only [List.head?_cons, decide_eq_false_iff_not] at hhead
        rcases List.mem_cons.1 hx with e | hmem
        · exact hhead e.symm
        · obtain ⟨c, d, rfl⟩ := List.append_of_mem hmem
          exact hhead (h [] (rest.takeWhile fun y => decide (y = x)) c d x k'
            (by rw [List.nil_append, hsplit]))

/-- C35: for every sequence of successful `WriteMessage` calls in which no
month key reappears after a different month key has been written,
`GetStats()[k]` is the number of messages with the month key `k`,
`GetFileCount()` is the number of distinct month keys, and after `Close`,
which succeeds, the file of each month holds all the blocks of its month in
stream order. -/
theorem writeAll_month_by_month (fs0 : FileSystem) (basePath groupName : String)
    (w0 w : Writer) (fs : FileSystem) (ws : List (String × Time))
    (hnew : Writer.New fs0 basePath groupName = some w0)
    (hcons : ∀ (a b c d : List String) (k k' : String),
      monthKeys ws = a ++ k :: (b ++ k' :: (c ++ k :: d)) → k' = k)
    (hall : w0.writeAll fs0 ws = some (none, w, fs)) :
    (∀ k, w.GetStats k = (((monthKeys ws).count k : Nat) : Int)) ∧
    w.GetFileCount = (((monthKeys ws).toFinset.card : Nat) : Int) ∧
    ∃ w2 fs2, w.Close fs = some (none, w2, fs2) ∧
      ∀ k ∈ monthKeys ws,
        fs2.content (filepathJoin [filepathJoin [basePath, SanitizeName groupName],
          SanitizeName groupName ++ "_" ++ k ++ ".md"]) = some (linesOf k ws) := by
  have hc : consecutiveMonths (monthKeys ws) = true := (consecutiveMonths_iff _).2 hcons
  have S := writeAll_state fs0 basePath groupName w0 hnew ws w fs hc hall
  refine ⟨?_, S.fileCount_eq, ?_⟩
  · intro k
    unfold Writer.GetStats
    rw [S.stats_eq k]
    by_cases hk : k ∈ monthKeys ws
    · rw [if_pos hk]; rfl
    · rw [if_neg hk, List.count_eq_zero_of_not_mem hk]; rfl
  · obtain ⟨w2, fs2, hclose, hfiles, _⟩ :=
      writeAll_then_close fs0 basePath groupName w0 w fs ws hnew hc hall
    exact ⟨w2, fs2, hclose, hfiles⟩

/-- C35, at the calls of `TestWriter_GetStats_ReturnsCorrectCounts`, three
for January and then two for February: the counts are 3 and 2, there are two
files, and each holds the blocks of its month. -/
theorem writeAll_month_by_month_witness :
    ∃ (w0 w w2 : Writer) (fs fs2 : FileSystem),
      Writer.New testFiles "/tmp" "Test Chat" = some w0 ∧
      w0.writeAll testFiles testStatsStream = some (none, w, fs) ∧
      w.GetStats "january_2024" = 3 ∧ w.GetStats "february_2024" = 2 ∧
      w.GetFileCount = 2 ∧
      w.Close fs = some (none, w2, fs2) ∧
      fs2.content "/tmp/Test_Chat/Test_Chat_january_2024.md" =
        some "Message\n\nMessage\n\nMessage\n\n" ∧
      fs2.content "/tmp/Test_Chat/Test_Chat_february_2024.md" =
        some "Message\n\nMessage\n\n" := by
  obtain ⟨w0, hnew⟩ : ∃ w0, Writer.New testFiles "/tmp" "Test Chat" = some w0 := ⟨_, rfl⟩
  obtain ⟨w, fs, hw⟩ : ∃ w fs, w0.writeAll testFiles testStatsStream = some (none, w, fs) := by
    cases hnew; exact ⟨_, _, rfl⟩
  obtain ⟨hstats, hcount, w2, fs2, hclose, hfiles⟩ :=
    writeAll_month_by_month testFiles "/tmp" "Test Chat" w0 w fs testStatsStream hnew
      ((consecutiveMonths_iff _).1 (by decide)) hw
  exact ⟨w0, w, w2, fs, fs2, hnew, hw, (hstats "january_2024").trans (by decide),
    (hstats "february_2024").trans (by decide), hcount.trans (by decide), hclose,
    (hfiles "january_2024" (by decide)).trans (by decide),
    (hfiles "february_2024" (by decide)).trans (by decide)⟩

/-! ## The text field, encoded and decoded again -/

/-- A span is decoded from the object `json.Marshal` writes for it. -/
theorem TextEntity_UnmarshalJSON_marshalEntity (e : TextEntity) :
    TextEntity.UnmarshalJSON (marshalEntity e) = some e := by
  have h1 : foldName "text" ≠ foldName "type" := by decide
  have h2 : foldName "href" ≠ foldName "type" := by decide
  have h3 : foldName "href" ≠ foldName "text" := by decide
  obtain ⟨kind, text, href⟩ := e
  by_cases hh : href = ""
  · subst hh
    simp [marshalEntity, marshalString, TextEntity.UnmarshalJSON, unmarshalString,
      unmarshalEntityAlias, unmarshalEntityMember, h1]
  · simp [marshalEntity, marshalString, TextEntity.UnmarshalJSON, unmarshalString,
      unmarshalEntityAlias, unmarshalEntityMember, h1, h2, h3, hh]

theorem unmarshalEntityElems_marshalEntity (es : List TextEntity) :
    unmarshalEntityElems (es.map marshalEntity) = some es := by
  induction es with
  | nil => rfl
  | cons e es ih =>
    rw [List.map_cons, unmarshalEntityElems, TextEntity_UnmarshalJSON_marshalEntity, ih]

/-- C36: for every `TextContent` with at most one representation populated
(`Plain` non-empty with no spans, or spans with `Plain` empty, or both
empty), `UnmarshalJSON` on what `MarshalJSON` produces succeeds and yields
the same `Plain` and the same span list in the same order. -/
theorem TextContent_round_trip (tc : TextContent)
    (h : (tc.Plain ≠ "" ∧ tc.Entities = []) ∨ (tc.Entities ≠ [] ∧ tc.Plain = "") ∨
      (tc.Plain = "" ∧ tc.Entities = [])) :
    TextContent.UnmarshalJSON tc.MarshalJSON = some tc := by
  obtain ⟨plain, entities⟩ := tc
  simp only at h
  by_cases he : entities = []
  · subst he
    simp [TextContent.MarshalJSON, marshalString, TextContent.UnmarshalJSON, unmarshalString]
  · have hp : plain = "" := by
      rcases h with ⟨_, h⟩ | ⟨_, h⟩ | ⟨_, h⟩
      · exact absurd h he
      · exact h
      · exact absurd h he
    subst hp
    have hlen : entities.length > 0 := List.length_pos.2 he
    simp only [TextContent.MarshalJSON, hlen, if_true, marshalEntities,
      TextContent.UnmarshalJSON, unmarshalString, unmarshalEntities,
      unmarshalEntityElems_marshalEntity]

/-- C36, at the plain text `Привет` and at a list of four spans, one of them
a link with its address. -/
theorem TextContent_round_trip_witness :
    TextContent.UnmarshalJSON (TextContent.MarshalJSON { Plain := "Привет", Entities := [] }) =
      some { Plain := "Привет", Entities := [] } ∧
    TextContent.UnmarshalJSON testSpansContent.MarshalJSON = some testSpansContent :=
  ⟨TextContent_round_trip { Plain := "Привет", Entities := [] } (Or.inl ⟨by decide, rfl⟩),
    TextContent_round_trip testSpansContent (Or.inr (Or.inl ⟨by decide, rfl⟩))⟩

/-! ## The month of a timestamp, and the writer that is never unset -/

/-- One element of a layout leaves the month unset or sets it to one of the
twelve. -/
theorem parseStd_month_range (std : Std) (value value' : List Char) (v v' : ParseVars)
    (h : parseStd std value v = some (value', v'))
    (hv : v.month = -1 ∨ (1 ≤ v.month ∧ v.month ≤ 12)) :
    v'.month = -1 ∨ (1 ≤ v'.month ∧ v'.month ≤ 12) := by
  cases std <;> simp only [parseStd] at h
  all_goals (try split at h)
  all_goals (try split at h)
  all_goals (try split at h)
  all_goals (try split at h)
  all_goals (try split at h)
  all_goals (try split at h)
  all_goals first
    | (simp only [Option.some.injEq, Prod.mk.injEq] at h
       obtain ⟨-, rfl⟩ := h
       first
         | exact hv
         | (right; simp only; omega))
    | simp at h

theorem parseLoop_month_range (layout : List (List Char × Std)) :
    ∀ (value : List Char) (v v' : ParseVars), parseLoop layout value v = some v' →
      (v.month = -1 ∨ (1 ≤ v.month ∧ v.month ≤ 12)) →
      v'.month = -1 ∨ (1 ≤ v'.month ∧ v'.month ≤ 12) := by
  induction layout with
  | nil =>
    intro value v v' h hv
    simp only [parseLoop] at h
    split_ifs at h
    simp only [Option.some.injEq] at h
    rw [← h]
    exact hv
  | cons chunk layout ih =>
    intro value v v' h hv
    obtain ⟨pref, std⟩ := chunk
    simp only [parseLoop] at h
    split at h
    · split at h
      · rename_i hstd
        exact ih _ _ _ h (parseStd_month_range _ _ _ _ _ hstd hv)
      · simp at h
    · simp at h

/-- The month of a time that `time.Parse` returns is one of the twelve. -/
theorem timeParse_month (layout : List (List Char × Std)) (value : String) (t : Time)
    (h : timeParse layout value = some t) : 1 ≤ t.month ∧ t.month ≤ 12 := by
  unfold timeParse at h
  split at h
  · rename_i v hv
    have hm := parseLoop_month_range layout _ _ _ hv (Or.inl rfl)
    simp only at h
    split_ifs at h
    all_goals
      simp only [Option.some.injEq] at h
      rw [← h]
      simp only
      omega
  · simp at h

theorem formatTimestamp_month (isoTime ts : String) (t : Time)
    (h : formatTimestamp isoTime = some (ts, t)) : 1 ≤ t.month ∧ t.month ≤ 12 := by
  unfold formatTimestamp at h
  split at h
  · rename_i t0 h0
    simp only [Option.some.injEq, Prod.mk.injEq] at h
    rw [← h.2]
    exact timeParse_month _ _ _ h0
  · split at h
    · rename_i t0 h0
      simp only [Option.some.injEq, Prod.mk.injEq] at h
      rw [← h.2]
      exact timeParse_month _ _ _ h0
    · simp at h

/-- The time `ConvertMessage` returns with a line is the time parsed from
the date of the message. -/
theorem ConvertMessage_time (c c' : Converter) (msg : Message) (line : String) (t : Time)
    (h : c.ConvertMessage msg = some (Except.ok (line, t), c')) :
    ∃ ts, formatTimestamp msg.Date = some (ts, t) := by
  cases hd : formatTimestamp msg.Date with
  | none =>
    rw [ConvertMessage_bad_date c msg hd] at h
    simp at h
  | some p =>
    obtain ⟨ts, t0⟩ := p
    by_cases hs : msg.Kind = "service" ∨ msg.Action ≠ ""
    · rw [ConvertMessage_service c msg ts t0 hd hs] at h
      simp only [Option.some.injEq, Prod.mk.injEq, Except.ok.injEq] at h
      exact ⟨ts, by rw [h.1.2]⟩
    · obtain ⟨⟨ts', hts⟩, _⟩ := ConvertMessage_ok_inv c c' msg line t h hs
      rw [hd] at hts
      exact ⟨ts', hts⟩

/-- The month key of a timestamp whose month is one of the twelve exists and
is not the empty string. -/
theorem getMonthKey_defined (t : Time) (hm : 1 ≤ t.month ∧ t.month ≤ 12) :
    ∃ k, getMonthKey t = some k ∧ k ≠ "" := by
  have h := getMonthKey_eq t hm
  exact ⟨_, h, getMonthKey_ne_empty t _ h⟩

/-- A writer with its buffered writer and its file set is consistent. -/
theorem consistent_of_some (w : Writer) (b : BufioWriter) (f : OsFile)
    (hw : w.currentWriter = some b) (hf : w.currentFile = some f) : w.consistent := by
  refine ⟨⟨fun h => ?_, fun h => ?_⟩, fun h => ?_⟩
  · rw [hw] at h; cases h
  · rw [hf] at h; cases h
  · rw [hw] at h; cases h

/-- The writer of `New` is consistent. -/
theorem New_consistent (fs0 : FileSystem) (basePath groupName : String) (w0 : Writer)
    (hnew : Writer.New fs0 basePath groupName = some w0) : w0.consistent := by
  obtain ⟨⟨_, hinit | ⟨b, hw, _, hf⟩⟩, _⟩ := New_ready fs0 basePath groupName w0 hnew
  · exact ⟨⟨fun _ => hinit.2.2, fun _ => hinit.2.1⟩, fun _ => hinit.1⟩
  · exact consistent_of_some w0 b _ hw hf

/-- `switchToMonth` on a consistent writer returns, with or without an
error, and leaves the writer consistent; without an error the buffered writer
is set. -/
theorem switchToMonth_consistent (w : Writer) (fs : FileSystem) (k : String)
    (hc : w.consistent) :
    ∃ err w' fs', w.switchToMonth fs k = some (err, w', fs') ∧ w'.consistent ∧
      (err = none → w'.currentWriter ≠ none) := by
  obtain ⟨od, gn, sn, cf, cw, cm, st, fc⟩ := w
  obtain ⟨hc1, hc2⟩ := hc
  simp only at hc1 hc2
  rcases cw with _ | b
  · have hcf : cf = none := hc1.1 rfl
    subst hcf
    cases hd : fs.denied (filepathJoin [od, sn ++ "_" ++ k ++ ".md"]) with
    | true =>
      simp only [Writer.switchToMonth, osCreate, hd, if_true]
      exact ⟨_, _, _, rfl, ⟨⟨fun _ => rfl, fun _ => rfl⟩, hc2⟩, fun h => (by cases h)⟩
    | false =>
      simp only [Writer.switchToMonth, osCreate, hd, Bool.false_eq_true, if_false]
      exact ⟨_, _, _, rfl, consistent_of_some _ _ _ rfl rfl,
        fun _ h => (by cases h)⟩
  · rcases cf with _ | f
    · exact absurd (hc1.2 rfl) (by simp)
    · rcases hF : b.Flush f fs with ⟨ok, b1, fs1⟩
      cases ok with
      | false =>
        simp only [Writer.switchToMonth, hF]
        exact ⟨_, _, _, rfl, consistent_of_some _ _ _ rfl rfl,
          fun h => (by cases h)⟩
      | true =>
        rcases hC : f.Close with ⟨ok2, f2⟩
        cases ok2 with
        | false =>
          simp only [Writer.switchToMonth, hF, hC]
          exact ⟨_, _, _, rfl, consistent_of_some _ _ _ rfl rfl, fun h => (by cases h)⟩
        | true =>
          cases hd : fs1.denied (filepathJoin [od, sn ++ "_" ++ k ++ ".md"]) with
          | true =>
            simp only [Writer.switchToMonth, hF, hC, osCreate, hd, if_true]
            exact ⟨_, _, _, rfl, consistent_of_some _ _ _ rfl rfl, fun h => (by cases h)⟩
          | false =>
            simp only [Writer.switchToMonth, hF, hC, osCreate, hd, Bool.false_eq_true, if_false]
            exact ⟨_, _, _, rfl, consistent_of_some _ _ _ rfl rfl, fun _ h => (by cases h)⟩

/-- `WriteMessage` on a consistent writer, for a timestamp that has a month
key, returns, with or without an error, and leaves the writer consistent: it
does not write through a buffered writer that is not set. -/
theorem WriteMessage_consistent (w : Writer) (fs : FileSystem) (line : String) (t : Time)
    (k : String) (hk : getMonthKey t = some k) (hc : w.consistent) :
    ∃ err w' fs', w.WriteMessage fs line t = some (err, w', fs') ∧ w'.consistent := by
  have hne : k ≠ "" := getMonthKey_ne_empty t k hk
  have hwrite : ∀ (w1 : Writer) (fs1 : FileSystem), w1.consistent → w1.currentWriter ≠ none →
      ∃ err w' fs',
        (match w1.currentWriter, w1.currentFile with
          | some b, some file =>
            match b.WriteString file (line ++ "\n\n") with
            | (false, b) =>
              some (some WriterError.writeMessage, { w1 with currentWriter := some b }, fs1)
            | (true, b) =>
              some (none,
                { w1 with currentWriter := some b,
                          stats := fun k' =>
                            if k' = k then some ((w1.stats k).getD 0 + 1)
                            else w1.stats k' }, fs1)
          | _, _ => none) = some (err, w', fs') ∧ w'.consistent := by
    intro w1 fs1 hc1 hw1
    rcases hcw : w1.currentWriter with _ | b
    · exact absurd hcw hw1
    · rcases hcf : w1.currentFile with _ | f
      · exact absurd (hc1.1.2 hcf) hw1
      · rcases hW : b.WriteString f (line ++ "\n\n") with ⟨ok, b'⟩
        cases ok with
        | false =>
          simp only [hW]
          exact ⟨_, _, _, rfl, consistent_of_some _ _ _ rfl rfl⟩
        | true =>
          simp only [hW]
          exact ⟨_, _, _, rfl, consistent_of_some _ _ _ rfl rfl⟩
  unfold Writer.WriteMessage
  simp only [hk]
  by_cases hsame : k = w.currentMonth
  · rw [if_neg (not_not.2 hsame)]
    simp only
    exact hwrite w fs hc fun h => hne (hsame.trans (hc.2 h))
  · rw [if_pos hsame]
    obtain ⟨err, w1, fs1, hsw, hc1, hsome⟩ := switchToMonth_consistent w fs k hc
    rw [hsw]
    cases err with
    | some e => exact ⟨_, _, _, rfl, hc1⟩
    | none =>
      simp only
      exact hwrite w1 fs1 hc1 (hsome rfl)

/-- Calls of `WriteMessage` with timestamps whose months are among the
twelve never end in a run-time panic, whatever errors they return. -/
theorem writeEach_total (calls : List (String × Time)) :
    ∀ (w : Writer) (fs : FileSystem), w.consistent →
      (∀ p ∈ calls, 1 ≤ p.2.month ∧ p.2.month ≤ 12) →
      ∃ w' fs', w.writeEach fs calls = some (w', fs') ∧ w'.consistent := by
  induction calls with
  | nil => intro w fs hc _; exact ⟨w, fs, rfl, hc⟩
  | cons p rest ih =>
    intro w fs hc hm
    obtain ⟨line, t⟩ := p
    obtain ⟨k, hk, _⟩ := getMonthKey_defined t (hm (line, t) (List.mem_cons_self _ _))
    obtain ⟨err, w1, fs1, hw, hc1⟩ := WriteMessage_consistent w fs line t k hk hc
    rw [Writer.writeEach, hw]
    exact ih w1 fs1 hc1 fun p hp => hm p (List.mem_cons_of_mem _ hp)

/-- The first `WriteMessage` on the writer of `New`: the file of the month
is opened, and only then is the line written to it; when the file cannot be
created the call returns the error `create file`. -/
theorem WriteMessage_first (fs0 : FileSystem) (basePath groupName : String) (w0 : Writer)
    (line : String) (t : Time) (k : String)
    (hnew : Writer.New fs0 basePath groupName = some w0) (hk : getMonthKey t = some k) :
    (∃ (w1 : Writer) (fs1 : FileSystem) (b : BufioWriter),
      w0.WriteMessage fs0 line t = some (none, w1, fs1) ∧
      w1.currentFile = some { path := w0.monthPath k, closed := false } ∧
      w1.currentWriter = some b ∧ b.written = line ++ "\n\n" ∧ w1.GetFileCount = 1) ∨
    ∃ (w1 : Writer) (fs1 : FileSystem),
      w0.WriteMessage fs0 line t = some (some WriterError.createFile, w1, fs1) := by
  obtain ⟨hr0, _, _, _, hcount0, hcur0⟩ := New_ready fs0 basePath groupName w0 hnew
  have hne : k ≠ w0.currentMonth := by
    rw [hcur0]
    exact getMonthKey_ne_empty t k hk
  cases hd : fs0.denied (w0.monthPath k) with
  | true => exact Or.inr (WriteMessage_denied w0 fs0 line t k hk hr0 hne hd)
  | false =>
    obtain ⟨n, hres⟩ := WriteMessage_other_month w0 fs0 line t k hk hr0 hne hd
    refine Or.inl ⟨_, _, _, hres, rfl, rfl, ?_, ?_⟩
    · show "" ++ (line ++ "\n\n") = line ++ "\n\n"
      exact String.empty_append _
    · show w0.fileCount + 1 = 1
      rw [hcount0]
      rfl

/-- The first `WriteMessage` on the writer of `New`, which has no file, no
buffered writer and the current month `""`: the month key of the timestamp
differs from the current month, so that `switchToMonth` is called before
anything is written.  When the file of the month can be created, it is
created empty and is open afterwards, the buffered writer is set and holds
exactly the line and the blank line, and one file is counted; when it cannot
be created, the call returns the error `create file` and leaves the writer
and the files as they were. -/
theorem WriteMessage_first_exact (fs0 : FileSystem) (basePath groupName : String)
    (w0 : Writer) (line : String) (t : Time) (k : String)
    (hnew : Writer.New fs0 basePath groupName = some w0) (hk : getMonthKey t = some k) :
    (w0.currentMonth = "" ∧ w0.currentFile = none ∧ w0.currentWriter = none) ∧
    k ≠ w0.currentMonth ∧
    (fs0.denied (filepathJoin [filepathJoin [basePath, SanitizeName groupName],
        SanitizeName groupName ++ "_" ++ k ++ ".md"]) = false →
      ∃ (w1 : Writer) (b : BufioWriter),
        w0.WriteMessage fs0 line t =
          some (none, w1, fs0.store (filepathJoin [filepathJoin [basePath, SanitizeName groupName],
            SanitizeName groupName ++ "_" ++ k ++ ".md"]) "") ∧
        w1.currentFile = some (OsFile.mk (filepathJoin [filepathJoin [basePath,
          SanitizeName groupName], SanitizeName groupName ++ "_" ++ k ++ ".md"]) false) ∧
        w1.currentWriter = some b ∧ b.written = line ++ "\n\n" ∧ b.err = false ∧
        w1.currentMonth = k ∧ w1.GetFileCount = 1) ∧
    (fs0.denied (filepathJoin [filepathJoin [basePath, SanitizeName groupName],
        SanitizeName groupName ++ "_" ++ k ++ ".md"]) = true →
      w0.WriteMessage fs0 line t = some (some WriterError.createFile, w0, fs0)) := by
  obtain ⟨hr0, hdir0, _, hname0, hcount0, hcur0⟩ := New_ready fs0 basePath groupName w0 hnew
  have hne : k ≠ w0.currentMonth := by
    rw [hcur0]
    exact getMonthKey_ne_empty t k hk
  have hinit : w0.currentWriter = none ∧ w0.currentFile = none := by
    unfold Writer.New at hnew
    simp only at hnew
    split_ifs at hnew
    simp only [Option.some.injEq] at hnew
    subst hnew
    exact ⟨rfl, rfl⟩
  have hpath : w0.monthPath k = filepathJoin [filepathJoin [basePath, SanitizeName groupName],
      SanitizeName groupName ++ "_" ++ k ++ ".md"] := by
    unfold Writer.monthPath
    rw [hdir0, hname0]
  rw [← hpath]
  refine ⟨⟨hcur0, hinit.2, hinit.1⟩, hne, ?_, ?_⟩
  · intro hd
    obtain ⟨n, hres⟩ := WriteMessage_other_month w0 fs0 line t k hk hr0 hne hd
    rw [hinit.1] at hres
    refine ⟨_, _, hres, rfl, rfl, ?_, rfl, rfl, ?_⟩
    · show "" ++ (line ++ "\n\n") = line ++ "\n\n"
      exact String.empty_append _
    · show w0.fileCount + 1 = 1
      rw [hcount0]
      rfl
  · intro hd
    unfold Writer.WriteMessage
    simp only [hk, ne_eq, hne, not_false_eq_true, if_true,
      switchToMonth_first w0 fs0 k hinit.1 hinit.2, hd]

/-- C37: the month of every timestamp `ConvertMessage` returns lies in 1..12;
for a timestamp whose month lies in 1..12 the lookup in the 13-entry table
`monthNames` is in bounds, so that `getMonthKey` returns a key, and the key
is never the empty string; therefore it differs from the current month `""`
of a new writer, and the first `WriteMessage` on a new writer opens the file
of the month before it writes: when the file can be created it is created
and open afterwards, and the buffered writer is set and holds the line with
its blank line; when it cannot, the call returns the error of `os.Create`
and nothing is written; and no sequence of `WriteMessage` calls, whatever
errors they return, writes through a buffered writer that is not set. -/
theorem getMonthKey_in_bounds :
    (∀ (c c' : Converter) (msg : Message) (line : String) (t : Time),
      c.ConvertMessage msg = some (Except.ok (line, t), c') → 1 ≤ t.month ∧ t.month ≤ 12) ∧
    (∀ t : Time, 1 ≤ t.month ∧ t.month ≤ 12 →
      (0 ≤ t.month ∧ t.month < (monthNames.length : Int)) ∧
      ∃ k, getMonthKey t = some k ∧ k ≠ "") ∧
    (∀ (fs0 : FileSystem) (basePath groupName : String) (w0 : Writer) (line : String)
      (t : Time),
      Writer.New fs0 basePath groupName = some w0 → 1 ≤ t.month ∧ t.month ≤ 12 →
      ∃ k, getMonthKey t = some k ∧
        (w0.currentMonth = "" ∧ w0.currentFile = none ∧ w0.currentWriter = none) ∧
        k ≠ w0.currentMonth ∧
        (fs0.denied (filepathJoin [filepathJoin [basePath, SanitizeName groupName],
            SanitizeName groupName ++ "_" ++ k ++ ".md"]) = false →
          ∃ (w1 : Writer) (b : BufioWriter),
            w0.WriteMessage fs0 line t =
              some (none, w1, fs0.store (filepathJoin [filepathJoin [basePath,
                SanitizeName groupName], SanitizeName groupName ++ "_" ++ k ++ ".md"]) "") ∧
            w1.currentFile = some (OsFile.mk (filepathJoin [filepathJoin [basePath,
              SanitizeName groupName], SanitizeName groupName ++ "_" ++ k ++ ".md"]) false) ∧
            w1.currentWriter = some b ∧ b.written = line ++ "\n\n" ∧ b.err = false ∧
            w1.currentMonth = k ∧ w1.GetFileCount = 1) ∧
        (fs0.denied (filepathJoin [filepathJoin [basePath, SanitizeName groupName],
            SanitizeName groupName ++ "_" ++ k ++ ".md"]) = true →
          w0.WriteMessage fs0 line t = some (some WriterError.createFile, w0, fs0))) ∧
    ∀ (fs0 : FileSystem) (basePath groupName : String) (w0 : Writer)
      (calls : List (String × Time)),
      Writer.New fs0 basePath groupName = some w0 →
      (∀ p ∈ calls, 1 ≤ p.2.month ∧ p.2.month ≤ 12) →
      ∃ w fs, w0.writeEach fs0 calls = some (w, fs) := by
  refine ⟨?_, ?_, ?_, ?_⟩
  · intro c c' msg line t h
    obtain ⟨ts, hts⟩ := ConvertMessage_time c c' msg line t h
    exact formatTimestamp_month _ _ _ hts
  · intro t hm
    refine ⟨⟨by omega, ?_⟩, getMonthKey_defined t hm⟩
    have : (monthNames.length : Int) = 13 := by decide
    omega
  · intro fs0 basePath groupName w0 line t hnew hm
    obtain ⟨k, hk, _⟩ := getMonthKey_defined t hm
    exact ⟨k, hk, WriteMessage_first_exact fs0 basePath groupName w0 line t k hnew hk⟩
  · intro fs0 basePath groupName w0 calls hnew hm
    obtain ⟨w, fs, h, _⟩ := writeEach_total calls w0 fs0
      (New_consistent fs0 basePath groupName w0 hnew) hm
    exact ⟨w, fs, h⟩

/-- C37, at the time `jan` of the tests of the writer, whose key is
`january_2024`: the first call on a new writer opens the file of January and
holds the line in its buffered writer; where that file cannot be created the
call returns the error `create file`; and the calls of
`TestWriter_GetStats_ReturnsCorrectCounts` on a new writer all return. -/
theorem getMonthKey_in_bounds_witness :
    (∃ k, getMonthKey testJanuary = some k ∧ k ≠ "") ∧
    (∃ (w0 w1 : Writer) (fs1 : FileSystem) (b : BufioWriter),
      Writer.New testFiles "/tmp" "Test Chat" = some w0 ∧
      w0.WriteMessage testFiles "Message" testJanuary = some (none, w1, fs1) ∧
      w1.currentFile =
        some { path := "/tmp/Test_Chat/Test_Chat_january_2024.md", closed := false } ∧
      w1.currentWriter = some b ∧ b.written = "Message\n\n") ∧
    (∃ w0 : Writer, Writer.New testDeniedFiles "/tmp" "Test Chat" = some w0 ∧
      w0.WriteMessage testDeniedFiles "Message" testJanuary =
        some (some WriterError.createFile, w0, testDeniedFiles)) ∧
    ∃ (w0 w : Writer) (fs : FileSystem),
      Writer.New testFiles "/tmp" "Test Chat" = some w0 ∧
      w0.writeEach testFiles testStatsStream = some (w, fs) := by
  have hkey : getMonthKey testJanuary = some "january_2024" := by decide
  have hpath : filepathJoin [filepathJoin ["/tmp", SanitizeName "Test Chat"],
      SanitizeName "Test Chat" ++ "_" ++ "january_2024" ++ ".md"] =
        "/tmp/Test_Chat/Test_Chat_january_2024.md" := by decide
  obtain ⟨w0, hnew⟩ : ∃ w0, Writer.New testFiles "/tmp" "Test Chat" = some w0 := ⟨_, rfl⟩
  obtain ⟨wd, hnewd⟩ : ∃ w0, Writer.New testDeniedFiles "/tmp" "Test Chat" = some w0 :=
    ⟨_, rfl⟩
  refine ⟨(getMonthKey_in_bounds.2.1 testJanuary (by decide)).2, ?_, ?_, ?_⟩
  · obtain ⟨k, hk, _, _, hok, _⟩ := getMonthKey_in_bounds.2.2.1 testFiles "/tmp" "Test Chat"
      w0 "Message" testJanuary hnew (by decide)
    rw [hkey] at hk
    obtain rfl := Option.some.inj hk
    rw [hpath] at hok
    obtain ⟨w1, b, h1, h2, h3, h4, _⟩ := hok rfl
    exact ⟨w0, w1, _, b, hnew, h1, h2, h3, h4⟩
  · obtain ⟨k, hk, _, _, _, hfail⟩ := getMonthKey_in_bounds.2.2.1 testDeniedFiles "/tmp"
      "Test Chat" wd "Message" testJanuary hnewd (by decide)
    rw [hkey] at hk
    obtain rfl := Option.some.inj hk
    rw [hpath] at hfail
    exact ⟨wd, hnewd, hfail (by decide)⟩
  · obtain ⟨w, fs, h⟩ := getMonthKey_in_bounds.2.2.2 testFiles "/tmp" "Test Chat" w0
      testStatsStream hnew (by decide)
    exact ⟨w0, w, fs, hnew, h⟩

/-- The loop of `run` never ends in a run-time panic: `ConvertMessage`
returns for every message, the timestamps it returns have a month key, and
the writer is never used unset. -/
theorem runLoop_total (results : List ParseResult) :
    ∀ s : RunState, s.w.consistent → ∃ s', runLoop s results = some s' ∧ s'.w.consistent := by
  induction results with
  | nil => intro s hc; exact ⟨s, rfl, hc⟩
  | cons r rest ih =>
    intro s hc
    cases r with
    | error e =>
      simp only [runLoop, runStep]
      exact ih _ hc
    | message msg =>
      obtain ⟨res, c1, hconv, _⟩ := ConvertMessage_cases s.conv msg
      cases res with
      | error e =>
        simp only [runLoop, runStep, hconv]
        exact ih _ hc
      | ok lt =>
        obtain ⟨line, t⟩ := lt
        obtain ⟨ts, hts⟩ := ConvertMessage_time s.conv c1 msg line t hconv
        obtain ⟨k, hk, _⟩ := getMonthKey_defined t (formatTimestamp_month _ _ _ hts)
        obtain ⟨err, w1, fs1, hw, hc1⟩ := WriteMessage_consistent s.w s.fs line t k hk hc
        cases err with
        | none =>
          simp only [runLoop, runStep, hconv, hw]
          exact ih _ hc1
        | some e =>
          simp only [runLoop, runStep, hconv, hw]
          exact ih _ hc1

/-- `Close` on a consistent writer returns. -/
theorem Close_consistent (w : Writer) (fs : FileSystem) (hc : w.consistent) :
    ∃ r, w.Close fs = some r := by
  rcases hcw : w.currentWriter with _ | b
  · unfold Writer.Close
    simp only [hcw, hc.1.1 hcw]
    exact ⟨_, rfl⟩
  · rcases hcf : w.currentFile with _ | f
    · rw [hc.1.2 hcf] at hcw; cases hcw
    · unfold Writer.Close
      simp only [hcw, hcf]
      rcases b.Flush f fs with ⟨ok, b1, fs1⟩
      cases ok with
      | false => exact ⟨_, rfl⟩
      | true =>
        simp only
        rcases f.Close with ⟨ok2, f2⟩
        cases ok2 <;> exact ⟨_, rfl⟩

/-- The part of `run` from `converter.New()` on returns for every sequence of
results of `StreamMessages`: no run-time panic. -/
theorem runMessages_total (fs : FileSystem) (outputPath chatName : String)
    (results : List ParseResult) :
    ∃ r, runMessages fs outputPath chatName results = some r := by
  unfold runMessages
  simp only
  rcases hnew : Writer.New fs outputPath chatName with _ | w0
  · exact ⟨_, rfl⟩
  · simp only
    obtain ⟨s', hs', hc'⟩ := runLoop_total results
      { conv := New, w := w0, fs := fs, totalCount := 0, processedCount := 0,
        skippedCount := 0 } (New_consistent fs outputPath chatName w0 hnew)
    rw [hs']
    obtain ⟨r, hr⟩ := Close_consistent s'.w s'.fs hc'
    obtain ⟨e, w2, fs2⟩ := r
    simp only [hr]
    exact ⟨_, rfl⟩

end Tg2md
